import Mathlib

/-!
# A shallow embedding of the paging simulator `Lab_3.cpp`

The global variables of the program (`frame_table`, `free_list`, `randvals`, `ofs`,
`inst_count`, `ctx_switches`, `process_exits`, `cost`, `THE_PAGER`), the `processes` vector and
the local `current_process` of `simulate` are gathered in one record `State`; every function of
the source becomes a function on that record.

Conventions.
* A result `none` stands for undefined behaviour of the C++ program (an index outside a
  vector or array, a null pointer dereference, a remainder by zero), except in
  `allocate_frame_from_free_list`, where it is the `nullptr` of the source.
* The one-bit fields of `PTE` are `Bool`; the seven-bit field `frame` is a natural number that
  is reduced modulo `128` wherever the source assigns to it.
* The event counters (`size_t`, `unsigned long long`, `int`) are unbounded natural numbers; the
  places where the source converts such a value to a 32-bit `int` or compares it as a `size_t`
  are modelled with explicit reductions (`to_int`, `to_size_t`).
* Printing (`option_O`) has no effect on the state and is left out.
-/

namespace Lab3

/-! ## Constants (lines 15-32) -/

def MAX_VPAGES : Nat := 64

def COST_READ_WRITE : Nat := 1
def COST_CONTEXT_SWITCH : Nat := 130
def COST_PROCESS_EXIT : Nat := 1230
def COST_MAP : Nat := 350
def COST_UNMAP : Nat := 410
def COST_IN : Nat := 3200
def COST_OUT : Nat := 2750
def COST_FIN : Nat := 2350
def COST_FOUT : Nat := 2800
def COST_ZERO : Nat := 150
def COST_SEGV : Nat := 440
def COST_SEGPROT : Nat := 410

/-- The record `struct Frame`; `pid = -1` marks a frame without owner. -/
structure Frame where
  pid : Int
  vpage : Int
  age : Nat
  last_reference : Nat
  deriving DecidableEq, Repr

/-- The record `struct PTE` (the padding bits are left out). -/
structure PTE where
  present : Bool
  referenced : Bool
  modified : Bool
  write_protect : Bool
  pagedout : Bool
  frame : Nat
  deriving DecidableEq, Repr

/-- The record `struct VMA`; both ends are inclusive. -/
structure VMA where
  start_vpage : Int
  end_vpage : Int
  write_protected : Bool
  file_mapped : Bool
  deriving DecidableEq, Repr

/-- The record `struct Process`; `page_table` is the array of `MAX_VPAGES` entries. The nine
counters are `int` in the source (lines 72-80) and only ever incremented; here a counter is
the number of events counted, which is the value of the `int` as long as it does not exceed
`INT_MAX`. What is stated about the increment of a counter is stated below that bound, where
`++` does not overflow (the overflow of an `int` is undefined behaviour). -/
structure Process where
  id : Int
  vmas : List VMA
  page_table : List PTE
  unmaps : Nat
  maps : Nat
  ins : Nat
  outs : Nat
  zeros : Nat
  segv : Nat
  segprot : Nat
  fins : Nat
  fouts : Nat
  deriving DecidableEq, Repr

/-- The six classes derived from `Pager`, each with its member variables. -/
inductive Pager where
  | FIFOPager (hand : Nat) (MAX_FRAMES : Nat)
  | RandomPager (MAX_FRAMES : Nat)
  | ClockPager (hand : Nat) (MAX_FRAMES : Nat)
  | AgingPager (hand : Nat) (MAX_FRAMES : Nat)
  | WorkingSetPager (hand : Nat) (tau : Int) (MAX_FRAMES : Nat)
  | ESCNRUPager (hand : Nat) (last_reset_time : Int) (MAX_FRAMES : Nat)
  deriving DecidableEq, Repr

/-- The whole mutable state of a run. -/
structure State where
  processes : List Process
  frame_table : List Frame
  free_list : List Nat
  pager : Pager
  randvals : List Int
  ofs : Nat
  inst_count : Nat
  ctx_switches : Nat
  process_exits : Nat
  cost : Nat
  current_process : Nat
  deriving DecidableEq, Repr

/-! ## Integer conversions -/

/-- Conversion of an integer to `size_t` (64 bits, unsigned). -/
def to_size_t (x : Int) : Nat := (x % 2 ^ 64).toNat

/-- Conversion of an integer to `int` (32 bits, two's complement). -/
def to_int (x : Int) : Int := (x + 2 ^ 31) % 2 ^ 32 - 2 ^ 31

/-! ## Page-table access -/

/-- The value of `processes[pid].page_table[vpage]`, when both indices are in range. -/
def pte_at (processes : List Process) (pid vpage : Int) : Option PTE :=
  if 0 ≤ pid ∧ 0 ≤ vpage then
    match processes[pid.toNat]? with
    | some p => p.page_table[vpage.toNat]?
    | none => none
  else none

/-- The assignment `processes[pid].page_table[vpage] = pte`. -/
def set_pte (processes : List Process) (pid vpage : Nat) (pte : PTE) : List Process :=
  processes.modify (fun p => { p with page_table := p.page_table.set vpage pte }) pid

/-- The entry written by `initialize_page_table` (lines 359-370). -/
def PTE.zero : PTE :=
  { present := false, referenced := false, modified := false, write_protect := false,
    pagedout := false, frame := 0 }

/-- The loop of `find_vma_for_page` (lines 341-348) over the list of areas. -/
def find_vma (vpage : Int) : List VMA → Option VMA
  | [] => none
  | vma :: rest =>
    if vpage ≥ vma.start_vpage ∧ vpage ≤ vma.end_vpage then some vma else find_vma vpage rest

/-- The function `find_vma_for_page` (lines 341-348): the first area that covers the page. -/
def find_vma_for_page (process : Process) (vpage : Int) : Option VMA :=
  find_vma vpage process.vmas

/-- The test `vma && vma->file_mapped` of lines 462 and 511 on the result of
`find_vma_for_page`. -/
def file_backed (p : Process) (vpage : Int) : Bool :=
  match find_vma_for_page p vpage with
  | some vma => vma.file_mapped
  | none => false

/-! ## The random sequence (lines 102-106) -/

/-- The function `myrandom`: the value and the state with the cursor advanced. -/
def myrandom (s : State) (burst : Int) : Option (Int × State) :=
  match s.randvals[s.ofs]? with
  | none => none
  | some r =>
    if burst = 0 then none
    else some (1 + Int.tmod r burst, { s with ofs := (s.ofs + 1) % s.randvals.length })

/-! ## The pagers (lines 114-311)

Each `select_victim_frame` returns the index of the chosen frame (the source returns the
address of `frame_table[index]`) and the new state. -/

/-- Body of `FIFOPager::select_victim_frame` (lines 121-127). -/
def FIFOPager.select_victim_frame (hand MAX_FRAMES : Nat) (s : State) : Option (Nat × State) :=
  if hand < s.frame_table.length ∧ MAX_FRAMES ≠ 0 then
    some (hand, { s with pager := Pager.FIFOPager ((hand + 1) % MAX_FRAMES) MAX_FRAMES })
  else none

/-- Body of `RandomPager::select_victim_frame` (lines 134-137). -/
def RandomPager.select_victim_frame (MAX_FRAMES : Nat) (s : State) : Option (Nat × State) :=
  match myrandom s MAX_FRAMES with
  | none => none
  | some (r, s1) =>
    let random_index : Int := r - 1
    if 0 ≤ random_index ∧ random_index.toNat < s1.frame_table.length then
      some (random_index.toNat, s1)
    else none

/-- The `while (true)` loop of `ClockPager::select_victim_frame` (lines 149-162), run for at
most `fuel` inspections. The result is the victim index, the new hand, the new process vector
and the number of frames inspected (`inspected` counts those inspected before). -/
def ClockPager.loop (frame_table : List Frame) (MAX_FRAMES : Nat) :
    Nat → Nat → List Process → Nat → Option (Nat × Nat × List Process × Nat)
  | 0, _, _, _ => none
  | fuel + 1, hand, processes, inspected =>
    match frame_table[hand]? with
    | none => none
    | some frame =>
      match pte_at processes frame.pid frame.vpage with
      | none => none
      | some pte =>
        if MAX_FRAMES = 0 then none
        else if pte.referenced then
          ClockPager.loop frame_table MAX_FRAMES fuel ((hand + 1) % MAX_FRAMES)
            (set_pte processes frame.pid.toNat frame.vpage.toNat { pte with referenced := false })
            (inspected + 1)
        else some (hand, (hand + 1) % MAX_FRAMES, processes, inspected + 1)

/-- Body of `ClockPager::select_victim_frame` (lines 148-163); the loop gets `2 * MAX_FRAMES`
inspections. -/
def ClockPager.select_victim_frame (hand MAX_FRAMES : Nat) (s : State) : Option (Nat × State) :=
  match ClockPager.loop s.frame_table MAX_FRAMES (2 * MAX_FRAMES) hand s.processes 0 with
  | none => none
  | some (victim, hand1, processes, _) =>
    some (victim, { s with processes := processes, pager := Pager.ClockPager hand1 MAX_FRAMES })

/-- The new value of `frame.age` at line 186, as a 32-bit unsigned value. -/
def aging_shift (age : Nat) (referenced : Bool) : Nat :=
  ((age >>> 1) ||| (if referenced then 0x80000000 else 0)) % 2 ^ 32

/-- The `for` loop of `AgingPager::select_victim_frame` (lines 180-194) over the values of `i`
still to come. `victim_index = none` stands for the `-1` of the source. -/
def AgingPager.loop (hand MAX_FRAMES : Nat) :
    List Nat → Option Nat → Nat → List Frame → List Process →
      Option (Option Nat × Nat × List Frame × List Process)
  | [], victim_index, min_age, frame_table, processes =>
    some (victim_index, min_age, frame_table, processes)
  | i :: rest, victim_index, min_age, frame_table, processes =>
    if MAX_FRAMES = 0 then none
    else
      let frame_index := (hand + i) % MAX_FRAMES
      match frame_table[frame_index]? with
      | none => none
      | some frame =>
        match pte_at processes frame.pid frame.vpage with
        | none => none
        | some pte =>
          let age := aging_shift frame.age pte.referenced
          let frame_table1 := frame_table.set frame_index { frame with age := age }
          let processes1 :=
            set_pte processes frame.pid.toNat frame.vpage.toNat { pte with referenced := false }
          if age < min_age then
            AgingPager.loop hand MAX_FRAMES rest (some frame_index) age frame_table1 processes1
          else
            AgingPager.loop hand MAX_FRAMES rest victim_index min_age frame_table1 processes1

/-- Body of `AgingPager::select_victim_frame` (lines 174-199). -/
def AgingPager.select_victim_frame (hand MAX_FRAMES : Nat) (s : State) : Option (Nat × State) :=
  match AgingPager.loop hand MAX_FRAMES (List.range MAX_FRAMES) none 0xFFFFFFFF
      s.frame_table s.processes with
  | none => none
  | some (none, _, _, _) => none
  | some (some victim_index, _, frame_table, processes) =>
    if MAX_FRAMES = 0 then none
    else
      some (victim_index,
        { s with frame_table := frame_table, processes := processes,
                 pager := Pager.AgingPager ((victim_index + 1) % MAX_FRAMES) MAX_FRAMES })

/-- Outcome of the `for` loop of `WorkingSetPager::select_victim_frame`: either the `return`
inside the loop was taken (line 233) or the loop ran to its end with the given
`victim_index` (`none` for `-1`). -/
inductive WSResult where
  | returned (frame_index : Nat) (frame_table : List Frame) (processes : List Process)
  | finished (victim_index : Option Nat) (frame_table : List Frame) (processes : List Process)

/-- The `for` loop of `WorkingSetPager::select_victim_frame` (lines 220-246). `oldest_time` is
an `int`; the comparison of line 236 is made between `size_t` values. -/
def WorkingSetPager.loop (hand : Nat) (tau : Int) (MAX_FRAMES inst_count : Nat) :
    List Nat → Option Nat → Int → List Frame → List Process → Option WSResult
  | [], victim_index, _, frame_table, processes =>
    some (WSResult.finished victim_index frame_table processes)
  | i :: rest, victim_index, oldest_time, frame_table, processes =>
    if MAX_FRAMES = 0 then none
    else
      let frame_index := (hand + i) % MAX_FRAMES
      match frame_table[frame_index]? with
      | none => none
      | some frame =>
        match pte_at processes frame.pid frame.vpage with
        | none => none
        | some pte =>
          let time_since_last_reference : Int :=
            to_int (to_size_t ((inst_count : Int) - (frame.last_reference : Int)))
          if pte.referenced = false then
            if time_since_last_reference > tau then
              some (WSResult.returned frame_index frame_table processes)
            else if frame.last_reference < to_size_t oldest_time then
              WorkingSetPager.loop hand tau MAX_FRAMES inst_count rest (some frame_index)
                (to_int frame.last_reference) frame_table processes
            else
              WorkingSetPager.loop hand tau MAX_FRAMES inst_count rest victim_index oldest_time
                frame_table processes
          else
            WorkingSetPager.loop hand tau MAX_FRAMES inst_count rest victim_index oldest_time
              (frame_table.set frame_index { frame with last_reference := inst_count })
              (set_pte processes frame.pid.toNat frame.vpage.toNat
                { pte with referenced := false })

/-- Body of `WorkingSetPager::select_victim_frame` (lines 214-253). -/
def WorkingSetPager.select_victim_frame (hand : Nat) (tau : Int) (MAX_FRAMES : Nat)
    (s : State) : Option (Nat × State) :=
  match WorkingSetPager.loop hand tau MAX_FRAMES s.inst_count (List.range MAX_FRAMES) none
      2147483647 s.frame_table s.processes with
  | none => none
  | some (WSResult.returned frame_index frame_table processes) =>
    some (frame_index,
      { s with frame_table := frame_table, processes := processes,
               pager := Pager.WorkingSetPager ((frame_index + 1) % MAX_FRAMES) tau MAX_FRAMES })
  | some (WSResult.finished victim_index frame_table processes) =>
    let victim_index1 := match victim_index with
      | none => hand
      | some v => v
    if MAX_FRAMES = 0 ∨ frame_table.length ≤ victim_index1 then none
    else
      some (victim_index1,
        { s with frame_table := frame_table, processes := processes,
                 pager := Pager.WorkingSetPager ((victim_index1 + 1) % MAX_FRAMES) tau
                   MAX_FRAMES })

/-- The class `(referenced << 1) | modified` of line 282. -/
def class_of (pte : PTE) : Nat :=
  ((if pte.referenced then 1 else 0) <<< 1) ||| (if pte.modified then 1 else 0)

/-- The `for` loop of `ESCNRUPager::select_victim_frame` (lines 276-297). The result is
`victim_index` (`none` for `-1`), `lowest_class_found`, `class_victims` and the process vector;
leaving the recursion early is the `break` of line 295. -/
def ESCNRUPager.loop (hand MAX_FRAMES : Nat) (reset_needed : Bool) (frame_table : List Frame) :
    List Nat → Nat → List (Option Nat) → List Process →
      Option (Option Nat × Nat × List (Option Nat) × List Process)
  | [], lowest_class_found, class_victims, processes =>
    some (none, lowest_class_found, class_victims, processes)
  | i :: rest, lowest_class_found, class_victims, processes =>
    if MAX_FRAMES = 0 then none
    else
      let frame_index := (hand + i) % MAX_FRAMES
      match frame_table[frame_index]? with
      | none => none
      | some frame =>
        match pte_at processes frame.pid frame.vpage with
        | none => none
        | some pte =>
          let frame_class := class_of pte
          match class_victims[frame_class]? with
          | none => none
          | some slot =>
            let class_victims1 :=
              if slot = none then class_victims.set frame_class (some frame_index)
              else class_victims
            let lowest1 :=
              if slot = none then min lowest_class_found frame_class else lowest_class_found
            let processes1 :=
              if reset_needed then
                set_pte processes frame.pid.toNat frame.vpage.toNat
                  { pte with referenced := false }
              else processes
            if frame_class = 0 ∧ reset_needed = false then
              some (some frame_index, lowest1, class_victims1, processes1)
            else
              ESCNRUPager.loop hand MAX_FRAMES reset_needed frame_table rest lowest1
                class_victims1 processes1

/-- Body of `ESCNRUPager::select_victim_frame` (lines 268-310). -/
def ESCNRUPager.select_victim_frame (hand : Nat) (last_reset_time : Int) (MAX_FRAMES : Nat)
    (s : State) : Option (Nat × State) :=
  let reset_needed : Bool :=
    decide (to_size_t ((s.inst_count : Int) - last_reset_time) ≥ 48)
  match ESCNRUPager.loop hand MAX_FRAMES reset_needed s.frame_table (List.range MAX_FRAMES) 4
      [none, none, none, none] s.processes with
  | none => none
  | some (victim_index, lowest_class_found, class_victims, processes) =>
    let victim_index1 : Option Nat := match victim_index with
      | some v => some v
      | none =>
        match class_victims[lowest_class_found]? with
        | some slot => slot
        | none => none
    match victim_index1 with
    | none => none
    | some v =>
      if MAX_FRAMES = 0 ∨ s.frame_table.length ≤ v then none
      else
        some (v,
          { s with processes := processes,
                   pager := Pager.ESCNRUPager ((v + 1) % MAX_FRAMES)
                     (if reset_needed then to_int s.inst_count else last_reset_time)
                     MAX_FRAMES })

/-- The virtual call `THE_PAGER->select_victim_frame()`. -/
def select_victim_frame (s : State) : Option (Nat × State) :=
  match s.pager with
  | Pager.FIFOPager hand n => FIFOPager.select_victim_frame hand n s
  | Pager.RandomPager n => RandomPager.select_victim_frame n s
  | Pager.ClockPager hand n => ClockPager.select_victim_frame hand n s
  | Pager.AgingPager hand n => AgingPager.select_victim_frame hand n s
  | Pager.WorkingSetPager hand tau n => WorkingSetPager.select_victim_frame hand tau n s
  | Pager.ESCNRUPager hand t n => ESCNRUPager.select_victim_frame hand t n s

/-! ## The frame pool (lines 316-338) -/

/-- The function `initialize_frame_table`: the frame table and the free list it builds. -/
def initialize_frame_table (MAX_FRAMES : Nat) : List Frame × List Nat :=
  (List.replicate MAX_FRAMES { pid := -1, vpage := -1, age := 0, last_reference := 0 },
   List.range MAX_FRAMES)

/-- The function `allocate_frame_from_free_list`; `none` is the `nullptr` of the source. -/
def allocate_frame_from_free_list (s : State) : Option (Nat × State) :=
  match s.free_list with
  | [] => none
  | frame_index :: rest => some (frame_index, { s with free_list := rest })

/-- The function `get_frame`. -/
def get_frame (s : State) : Option (Nat × State) :=
  match allocate_frame_from_free_list s with
  | some r => some r
  | none => select_victim_frame s

/-! ## The simulation (lines 433-568) -/

/-- One turn of the loop of lines 453-482 in the `exit` branch, for the page `vpage` of the
current process. -/
def exit_page (s : State) (vpage : Nat) : Option State :=
  match s.processes[s.current_process]? with
  | none => none
  | some cp =>
    match cp.page_table[vpage]? with
    | none => none
    | some pte =>
      if pte.present then
        let fout : Bool := file_backed cp vpage && pte.modified
        match s.frame_table[pte.frame]? with
        | none => none
        | some frame =>
          some { s with
            processes := s.processes.modify (fun p =>
              { p with unmaps := p.unmaps + 1,
                       fouts := if fout then p.fouts + 1 else p.fouts,
                       page_table := p.page_table.set vpage PTE.zero }) s.current_process,
            cost := s.cost + COST_UNMAP + (if fout then COST_FOUT else 0),
            frame_table := s.frame_table.set pte.frame
              { frame with pid := -1, vpage := -1, last_reference := 0, age := 0 },
            free_list := s.free_list ++ [pte.frame] }
      else
        some { s with processes := set_pte s.processes s.current_process vpage PTE.zero }

/-- The loop of lines 453-482 over the pages still to be visited. -/
def exit_loop : List Nat → State → Option State
  | [], s => some s
  | vpage :: rest, s =>
    match exit_page s vpage with
    | none => none
    | some s1 => exit_loop rest s1

/-- Lines 501-522: the previous owner of the frame `new_frame` loses its page. -/
def unmap_old_owner (s : State) (new_frame : Frame) : Option State :=
  if new_frame.pid ≠ -1 then
    match s.processes[new_frame.pid.toNat]?, pte_at s.processes new_frame.pid new_frame.vpage with
    | some old_process, some old_pte =>
      let old_pte1 := { old_pte with present := false }
      let s1 : State :=
        { s with
          cost := s.cost + COST_UNMAP,
          processes := set_pte
            (s.processes.modify (fun p => { p with unmaps := p.unmaps + 1 }) new_frame.pid.toNat)
            new_frame.pid.toNat new_frame.vpage.toNat old_pte1 }
      if old_pte.modified then
        if file_backed old_process new_frame.vpage then
          some { s1 with
            cost := s1.cost + COST_FOUT,
            processes :=
              s1.processes.modify (fun p => { p with fouts := p.fouts + 1 }) new_frame.pid.toNat }
        else
          some { s1 with
            cost := s1.cost + COST_OUT,
            processes := set_pte
              (s1.processes.modify (fun p => { p with outs := p.outs + 1 }) new_frame.pid.toNat)
              new_frame.pid.toNat new_frame.vpage.toNat { old_pte1 with pagedout := true } }
      else some s1
    | _, _ => none
  else some s

/-- Lines 524-550: the frame of index `idx` is bound to the page `vpage` of the current
process and the page is filled. -/
def map_page (s : State) (idx : Nat) (vpage : Int) (vma : VMA) : Option State :=
  match s.processes[s.current_process]?, pte_at s.processes s.current_process vpage,
      s.frame_table[idx]? with
  | some cp, some pte, some _ =>
    let frame_table1 := s.frame_table.set idx
      { last_reference := s.inst_count, age := 0, pid := cp.id, vpage := vpage }
    let pte1 := { pte with frame := idx % 128, present := true, referenced := false,
                           modified := false }
    if vma.file_mapped then
      some { s with
        frame_table := frame_table1,
        cost := s.cost + COST_FIN + COST_MAP,
        processes := set_pte
          (s.processes.modify (fun p => { p with fins := p.fins + 1, maps := p.maps + 1 })
            s.current_process)
          s.current_process vpage.toNat pte1 }
    else if pte.pagedout then
      some { s with
        frame_table := frame_table1,
        cost := s.cost + COST_IN + COST_MAP,
        processes := set_pte
          (s.processes.modify (fun p => { p with ins := p.ins + 1, maps := p.maps + 1 })
            s.current_process)
          s.current_process vpage.toNat pte1 }
    else
      some { s with
        frame_table := frame_table1,
        cost := s.cost + COST_ZERO + COST_MAP,
        processes := set_pte
          (s.processes.modify (fun p => { p with zeros := p.zeros + 1, maps := p.maps + 1 })
            s.current_process)
          s.current_process vpage.toNat pte1 }
  | _, _, _ => none

/-- Lines 499-550: the page fault on a page covered by `vma`. -/
def page_fault (s : State) (vpage : Int) (vma : VMA) : Option State :=
  match get_frame s with
  | none => none
  | some (idx, s1) =>
    match s1.frame_table[idx]? with
    | none => none
    | some new_frame =>
      match unmap_old_owner s1 new_frame with
      | none => none
      | some s2 => map_page s2 idx vpage vma

/-- Lines 552-566: the bits of the entry are updated once the page is present. A null `vma`
is dereferenced at line 552. -/
def update_bits (s : State) (operation : Char) (vpage : Int) (vma : Option VMA) :
    Option State :=
  match vma, pte_at s.processes s.current_process vpage with
  | some vma, some pte =>
    let pte1 := { pte with
      write_protect := if vma.write_protected then true else pte.write_protect,
      referenced := true }
    if s.frame_table.length ≤ pte1.frame then none
    else if operation = 'w' then
      if pte1.write_protect then
        some { s with
          cost := s.cost + COST_SEGPROT,
          processes := set_pte
            (s.processes.modify (fun p => { p with segprot := p.segprot + 1 })
              s.current_process)
            s.current_process vpage.toNat pte1 }
      else
        some { s with
          processes :=
            set_pte s.processes s.current_process vpage.toNat { pte1 with modified := true } }
    else
      some { s with processes := set_pte s.processes s.current_process vpage.toNat pte1 }
  | _, _ => none

/-- One turn of the `while` loop of `simulate` (lines 439-567) for the instruction
`operation vpage`. -/
def simulate_step (s : State) (operation : Char) (vpage : Int) : Option State :=
  if operation = 'c' then
    if 0 ≤ vpage ∧ vpage.toNat < s.processes.length then
      some { s with
        inst_count := s.inst_count + 1,
        ctx_switches := s.ctx_switches + 1,
        cost := s.cost + COST_CONTEXT_SWITCH,
        current_process := vpage.toNat }
    else none
  else if operation = 'e' then
    exit_loop (List.range MAX_VPAGES)
      { s with
        inst_count := s.inst_count + 1,
        process_exits := s.process_exits + 1,
        cost := s.cost + COST_PROCESS_EXIT }
  else
    let s1 : State :=
      { s with inst_count := s.inst_count + 1, cost := s.cost + COST_READ_WRITE }
    match s1.processes[s1.current_process]?, pte_at s1.processes s1.current_process vpage with
    | some cp, some pte =>
      let vma := find_vma_for_page cp vpage
      if pte.present = false then
        match vma with
        | none =>
          some { s1 with
            cost := s1.cost + COST_SEGV,
            processes :=
              s1.processes.modify (fun p => { p with segv := p.segv + 1 }) s1.current_process }
        | some v =>
          match page_fault s1 vpage v with
          | none => none
          | some s2 => update_bits s2 operation vpage vma
      else update_bits s1 operation vpage vma
    | _, _ => none

/-- The function `simulate` on the instructions delivered by `get_next_instruction`. -/
def simulate : State → List (Char × Int) → Option State
  | s, [] => some s
  | s, (operation, vpage) :: rest =>
    match simulate_step s operation vpage with
    | none => none
    | some s1 => simulate s1 rest

/-! ## The initial state (`read_processes`, `main`) -/

/-- The process built by `read_processes` (lines 382-413) for the index `i`. -/
def new_process (i : Nat) (vmas : List VMA) : Process :=
  { id := i, vmas := vmas, page_table := List.replicate MAX_VPAGES PTE.zero,
    unmaps := 0, maps := 0, ins := 0, outs := 0, zeros := 0, segv := 0, segprot := 0,
    fins := 0, fouts := 0 }

/-- The vector built by `read_processes`, from the index `i` on. -/
def read_processes : Nat → List (List VMA) → List Process
  | _, [] => []
  | i, vmas :: rest => new_process i vmas :: read_processes (i + 1) rest

/-- The pager built by the `switch` of `main` (lines 703-724). -/
def new_pager (algo_option : Char) (num_frames : Nat) : Option Pager :=
  if algo_option = 'f' then some (Pager.FIFOPager 0 num_frames)
  else if algo_option = 'r' then some (Pager.RandomPager num_frames)
  else if algo_option = 'c' then some (Pager.ClockPager 0 num_frames)
  else if algo_option = 'e' then some (Pager.ESCNRUPager 0 0 num_frames)
  else if algo_option = 'a' then some (Pager.AgingPager 0 num_frames)
  else if algo_option = 'w' then some (Pager.WorkingSetPager 0 49 num_frames)
  else none

/-- The state in which `main` calls `simulate` (lines 698-726). -/
def initial_state (vmas : List (List VMA)) (randvals : List Int) (num_frames : Nat)
    (pager : Pager) : State :=
  { processes := read_processes 0 vmas,
    frame_table := (initialize_frame_table num_frames).1,
    free_list := (initialize_frame_table num_frames).2,
    pager := pager,
    randvals := randvals,
    ofs := 0,
    inst_count := 0,
    ctx_switches := 0,
    process_exits := 0,
    cost := 0,
    current_process := 0 }

/-! ## Traces and initial configurations -/

/-- An instruction the claims call valid: a switch names an existing process, an access names
a page of the page table; `nprocs` is the number of processes. -/
def ValidInstr (nprocs : Nat) (operation : Char) (vpage : Int) : Prop :=
  if operation = 'c' then 0 ≤ vpage ∧ vpage < nprocs
  else if operation = 'e' then True
  else 0 ≤ vpage ∧ vpage < MAX_VPAGES

/-- A trace all of whose instructions are valid. -/
def ValidTrace (nprocs : Nat) (trace : List (Char × Int)) : Prop :=
  ∀ i ∈ trace, ValidInstr nprocs i.1 i.2

/-- The configurations the claims range over: between 1 and 128 frames, at least one process,
one of the six pagers of `main`, and for the random pager a non-empty sequence of non-negative
values. -/
def ValidConfig (vmas : List (List VMA)) (randvals : List Int) (num_frames : Nat)
    (pager : Pager) : Prop :=
  1 ≤ num_frames ∧ num_frames ≤ 128 ∧ vmas ≠ [] ∧
  (∃ algo_option, new_pager algo_option num_frames = some pager) ∧
  ((∃ n, pager = Pager.RandomPager n) → randvals ≠ [] ∧ ∀ r ∈ randvals, 0 ≤ r)

/-- The state in which the instruction at line 499 calls `get_frame`: lines 486-487 have
counted the instruction. -/
def at_access (s : State) : State :=
  { s with inst_count := s.inst_count + 1, cost := s.cost + COST_READ_WRITE }

/-- An area that covers the whole page table, neither write-protected nor file-mapped. -/
def example_vma : VMA :=
  { start_vpage := 0, end_vpage := 63, write_protected := false, file_mapped := false }

/-- The trace `r 0; r 1; r 2`. -/
def example_trace : List (Char × Int) := [('r', 0), ('r', 1), ('r', 2)]

/-- One process with the area `example_vma`, two frames and the FIFO pager. -/
def example_state : State := initial_state [[example_vma]] [] 2 (Pager.FIFOPager 0 2)

/-! ## The effect of the parts of an access -/

/-- The process `p` after lines 501-522 have taken away its page `vpage`, whose entry
was `y`. -/
def evicted (p : Process) (vpage : Int) (y : PTE) : Process :=
  { p with
    unmaps := p.unmaps + 1,
    fouts := p.fouts + (if y.modified && file_backed p vpage then 1 else 0),
    outs := p.outs + (if y.modified && !file_backed p vpage then 1 else 0),
    page_table := p.page_table.set vpage.toNat
      { y with present := false,
               pagedout := y.pagedout || (y.modified && !file_backed p vpage) } }

/-- The cost charged by lines 501-522 for an owner whose entry was `y`. -/
def evict_cost (p : Process) (vpage : Int) (y : PTE) : Nat :=
  COST_UNMAP +
    (if y.modified then (if file_backed p vpage then COST_FOUT else COST_OUT) else 0)

/-- The entry `x` after lines 547-550 have bound it to the frame `idx`. -/
def mapped_pte (x : PTE) (idx : Nat) : PTE :=
  { x with frame := idx % 128, present := true, referenced := false, modified := false }

/-- The process `p` after lines 529-550 have filled its page `vpage`, whose entry was `x`,
in the frame `idx`. -/
def filled (p : Process) (vpage : Int) (vma : VMA) (x : PTE) (idx : Nat) : Process :=
  { p with
    fins := p.fins + (if vma.file_mapped then 1 else 0),
    ins := p.ins + (if !vma.file_mapped && x.pagedout then 1 else 0),
    zeros := p.zeros + (if !vma.file_mapped && !x.pagedout then 1 else 0),
    maps := p.maps + 1,
    page_table := p.page_table.set vpage.toNat (mapped_pte x idx) }

/-- The cost charged by lines 529-543. -/
def fill_cost (vma : VMA) (x : PTE) : Nat :=
  (if vma.file_mapped then COST_FIN else if x.pagedout then COST_IN else COST_ZERO) + COST_MAP

/-- The value of `pte->write_protect` after line 552. -/
def protect (vma : VMA) (x : PTE) : Bool := vma.write_protected || x.write_protect

/-- The entry `x` after lines 552-566. -/
def touched_pte (operation : Char) (vma : VMA) (x : PTE) : PTE :=
  { x with
    write_protect := protect vma x,
    referenced := true,
    modified := if operation = 'w' ∧ protect vma x = false then true else x.modified }

/-- The process `p` after lines 552-566 for an access to its page `vpage`, whose entry
was `x`. -/
def touched (p : Process) (operation : Char) (vpage : Int) (vma : VMA) (x : PTE) : Process :=
  { p with
    segprot := p.segprot + (if operation = 'w' ∧ protect vma x = true then 1 else 0),
    page_table := p.page_table.set vpage.toNat (touched_pte operation vma x) }

/-- The cost charged by lines 558-562. -/
def touch_cost (operation : Char) (vma : VMA) (x : PTE) : Nat :=
  if operation = 'w' ∧ protect vma x = true then COST_SEGPROT else 0

/-- The state after a page fault (lines 499-566), from the state `s2` that the eviction
leaves, the current process `cp2` and the faulting entry `x1` in it. -/
def fault_result (s2 : State) (cp2 : Process) (x1 : PTE) (idx : Nat) (operation : Char)
    (vpage : Int) (vma : VMA) : State :=
  { s2 with
    frame_table := s2.frame_table.set idx
      { last_reference := s2.inst_count, age := 0, pid := cp2.id, vpage := vpage },
    cost := s2.cost + fill_cost vma x1 + touch_cost operation vma (mapped_pte x1 idx),
    processes := s2.processes.set s2.current_process
      (touched (filled cp2 vpage vma x1 idx) operation vpage vma (mapped_pte x1 idx)) }

/-! ## Cost accounting -/

/-- The cost of the events counted in one process, by the table of lines 24-32. -/
def Process.weight (p : Process) : Nat :=
  COST_MAP * p.maps + COST_UNMAP * p.unmaps + COST_IN * p.ins + COST_OUT * p.outs +
    COST_FIN * p.fins + COST_FOUT * p.fouts + COST_ZERO * p.zeros + COST_SEGV * p.segv +
    COST_SEGPROT * p.segprot

/-- The sum of `Process.weight` over all processes. -/
def total_weight (ps : List Process) : Nat := (ps.map Process.weight).sum

/-- The cost that the counters of a state account for: one unit per access, and the table
costs of switches, exits and per-process events. -/
def accounted (s : State) : Nat :=
  COST_READ_WRITE * (s.inst_count - s.ctx_switches - s.process_exits) +
    COST_CONTEXT_SWITCH * s.ctx_switches + COST_PROCESS_EXIT * s.process_exits +
    total_weight s.processes

/-- The accounting identity, with the side condition that makes the subtraction exact. -/
def CostOK (s : State) : Prop :=
  s.ctx_switches + s.process_exits ≤ s.inst_count ∧ s.cost = accounted s

/-- A part of an instruction that charges exactly the events it counts and leaves the
three global counters alone. -/
def Balanced (s s1 : State) : Prop :=
  s1.inst_count = s.inst_count ∧ s1.ctx_switches = s.ctx_switches ∧
    s1.process_exits = s.process_exits ∧
    s1.cost + total_weight s.processes = s.cost + total_weight s1.processes

/-- All event counters of a process are zero. -/
def Process.fresh (p : Process) : Prop :=
  p.unmaps = 0 ∧ p.maps = 0 ∧ p.ins = 0 ∧ p.outs = 0 ∧ p.zeros = 0 ∧ p.segv = 0 ∧
    p.segprot = 0 ∧ p.fins = 0 ∧ p.fouts = 0

/-- The state that `example_trace` leads to from `example_state`. -/
def example_final : State :=
  { processes :=
      [{ id := 0, vmas := [example_vma],
         page_table :=
           [{ present := false, referenced := true, modified := false, write_protect := false,
              pagedout := false, frame := 0 },
            { present := true, referenced := true, modified := false, write_protect := false,
              pagedout := false, frame := 1 },
            { present := true, referenced := true, modified := false, write_protect := false,
              pagedout := false, frame := 0 }] ++ List.replicate 61 PTE.zero,
         unmaps := 1, maps := 3, ins := 0, outs := 0, zeros := 3, segv := 0, segprot := 0,
         fins := 0, fouts := 0 }],
    frame_table :=
      [{ pid := 0, vpage := 2, age := 0, last_reference := 3 },
       { pid := 0, vpage := 1, age := 0, last_reference := 2 }],
    free_list := [],
    pager := Pager.FIFOPager 1 2,
    randvals := [],
    ofs := 0,
    inst_count := 3,
    ctx_switches := 0,
    process_exits := 0,
    cost := 1913,
    current_process := 0 }

/-! ## Invariants of the reachable states -/

/-- The entry with its `referenced` bit cleared. -/
def PTE.unref (x : PTE) : PTE := { x with referenced := false }

/-- The process with the `referenced` bit of every entry cleared. -/
def Process.unref (p : Process) : Process :=
  { p with page_table := p.page_table.map PTE.unref }

/-- The owner recorded in a frame. -/
def Frame.key (f : Frame) : Int × Int := (f.pid, f.vpage)

/-- The part of a process that no instruction changes, with the size of its page table. -/
def Process.hdr (p : Process) : Int × List VMA × Nat := (p.id, p.vmas, p.page_table.length)

/-- The part of an entry that ties it to a frame. -/
def PTE.key (x : PTE) : Bool × Nat := (x.present, x.frame)

/-- Two process vectors that agree on everything but event counters and the bits
`referenced`, `modified`, `write_protect`, `pagedout` of their entries. -/
def KeyEq (ps ps1 : List Process) : Prop :=
  (∀ p : Nat, Option.map Process.hdr ps1[p]? = Option.map Process.hdr ps[p]?) ∧
  (∀ pid vpage : Int,
    Option.map PTE.key (pte_at ps1 pid vpage) = Option.map PTE.key (pte_at ps pid vpage))

/-- Every process carries its own index as `id` and has `MAX_VPAGES` entries. -/
def ProcsOK (ps : List Process) : Prop :=
  ∀ (p : Nat) (pr : Process), ps[p]? = some pr →
    pr.id = (p : Int) ∧ pr.page_table.length = MAX_VPAGES

/-- A frame with an owner is named by the present entry of that owner. -/
def FrameOwned (ps : List Process) (ft : List Frame) : Prop :=
  ∀ (i : Nat) (f : Frame), ft[i]? = some f → f.pid ≠ -1 →
    ∃ pte, pte_at ps f.pid f.vpage = some pte ∧ pte.present = true ∧ pte.frame = i

/-- A present entry names a frame owned by its process and page. -/
def PteOwned (ps : List Process) (ft : List Frame) : Prop :=
  ∀ (pid vpage : Int) (pte : PTE), pte_at ps pid vpage = some pte → pte.present = true →
    ∃ f, ft[pte.frame]? = some f ∧ f.pid = pid ∧ f.vpage = vpage

/-- A present page is covered by an area of its process. -/
def PresentCovered (ps : List Process) : Prop :=
  ∀ (p : Nat) (pr : Process), ps[p]? = some pr →
    ∀ (v : Nat) (pte : PTE), pr.page_table[v]? = some pte → pte.present = true →
      (find_vma_for_page pr v).isSome = true

/-- The free list has no duplicates and holds exactly the indices of the frames without
owner, except the index `hole` when there is one (the frame just taken by `get_frame`). -/
def FreeListOK (hole : Option Nat) (ft : List Frame) (fl : List Nat) : Prop :=
  fl.Nodup ∧ ∀ i : Nat, i ∈ fl ↔ (some i ≠ hole ∧ ∃ f, ft[i]? = some f ∧ f.pid = -1)

/-- The pager was built for this frame table, its hand is in range, and the random sequence
can be consumed. -/
def PagerOK (s : State) : Prop :=
  match s.pager with
  | Pager.FIFOPager hand n => n = s.frame_table.length ∧ hand < n
  | Pager.RandomPager n =>
    n = s.frame_table.length ∧ s.ofs < s.randvals.length ∧ ∀ r ∈ s.randvals, 0 ≤ r
  | Pager.ClockPager hand n => n = s.frame_table.length ∧ hand < n
  | Pager.AgingPager hand n => n = s.frame_table.length ∧ hand < n
  | Pager.WorkingSetPager hand _ n => n = s.frame_table.length ∧ hand < n
  | Pager.ESCNRUPager hand _ n => n = s.frame_table.length ∧ hand < n

/-- The test `p` on the element of index `i`, false outside the list. -/
def test_at {α : Type} (p : α → Bool) (l : List α) (i : Nat) : Bool :=
  match l[i]? with
  | some a => p a
  | none => false

/-- Every frame has an owner whose page-table entry exists. -/
def AllMapped (ft : List Frame) (ps : List Process) : Prop :=
  ∀ (i : Nat) (f : Frame), ft[i]? = some f → ∃ x, pte_at ps f.pid f.vpage = some x

/-- The bookkeeping of the ESC-NRU sweep: `class_victims` has four slots, every filled slot
holds a frame index and belongs to a class not below `lowest_class_found`, and the slot of
`lowest_class_found` is filled as soon as that class is below four. -/
def ESCGood (len lowest : Nat) (cv : List (Option Nat)) : Prop :=
  cv.length = 4 ∧ (∀ c v, cv[c]? = some (some v) → lowest ≤ c ∧ v < len) ∧
    (lowest < 4 → ∃ v, cv[lowest]? = some (some v))

/-- Some frame has age zero. -/
def AgeZero (ft : List Frame) : Prop := ∃ (i : Nat) (f : Frame), ft[i]? = some f ∧ f.age = 0

/-- The invariant of the states of a run, observed between two instructions. -/
structure Inv (s : State) : Prop where
  procs : ProcsOK s.processes
  cur : s.current_process < s.processes.length
  frames_pos : 0 < s.frame_table.length
  frames_le : s.frame_table.length ≤ 128
  frame_owned : FrameOwned s.processes s.frame_table
  pte_owned : PteOwned s.processes s.frame_table
  covered : PresentCovered s.processes
  free : FreeListOK none s.frame_table s.free_list
  pager : PagerOK s
  age : AgeZero s.frame_table

/-- The invariant inside a page fault, after `get_frame` has handed out the frame `idx`: the
frame may still carry no owner while it is no longer on the free list. -/
structure InvHole (idx : Nat) (s : State) : Prop where
  procs : ProcsOK s.processes
  cur : s.current_process < s.processes.length
  idx_lt : idx < s.frame_table.length
  frames_le : s.frame_table.length ≤ 128
  frame_owned : FrameOwned s.processes s.frame_table
  pte_owned : PteOwned s.processes s.frame_table
  covered : PresentCovered s.processes
  free : FreeListOK (some idx) s.frame_table s.free_list
  pager : PagerOK s

/-- Two states that differ at most in the process vector and the cost. -/
structure SameEnv (s s1 : State) : Prop where
  frame_table : s1.frame_table = s.frame_table
  free_list : s1.free_list = s.free_list
  pager : s1.pager = s.pager
  randvals : s1.randvals = s.randvals
  ofs : s1.ofs = s.ofs
  inst_count : s1.inst_count = s.inst_count
  ctx_switches : s1.ctx_switches = s.ctx_switches
  process_exits : s1.process_exits = s.process_exits
  current_process : s1.current_process = s.current_process

/-- What a pager may change: the `referenced` bits, the fields `age` and `last_reference` of the
frames, its own state and the cursor of the random sequence. -/
structure PagerRel (s s1 : State) : Prop where
  procs : s1.processes.map Process.unref = s.processes.map Process.unref
  frames : s1.frame_table.map Frame.key = s.frame_table.map Frame.key
  free : s1.free_list = s.free_list
  randvals : s1.randvals = s.randvals
  inst_count : s1.inst_count = s.inst_count
  ctx_switches : s1.ctx_switches = s.ctx_switches
  process_exits : s1.process_exits = s.process_exits
  cost : s1.cost = s.cost
  current_process : s1.current_process = s.current_process

/-! ## The effect of the exit of a process -/

/-- The frame without owner written by lines 468-471, the same value as at line 319. -/
def Frame.released : Frame := { pid := -1, vpage := -1, age := 0, last_reference := 0 }

/-- The pages of `l` whose entry in the page table of `p` is present. -/
def present_pages (p : Process) (l : List Nat) : List Nat :=
  l.filter (fun v => test_at PTE.present p.page_table v)

/-- The present pages of `l` that are modified and covered by a file-mapped area. -/
def fout_pages (p : Process) (l : List Nat) : List Nat :=
  (present_pages p l).filter
    (fun v => file_backed p (v : Int) && test_at PTE.modified p.page_table v)

/-- The frame index held by the entry of page `v` of `p`. -/
def frame_at (p : Process) (v : Nat) : Nat :=
  match p.page_table[v]? with
  | some x => x.frame
  | none => 0

/-- The state after one turn of the loop of lines 453-482 for the page `vpage` of the current
process `cp`, whose entry was `x`. -/
def exited_page (s : State) (cp : Process) (vpage : Nat) (x : PTE) : State :=
  { s with
    processes := s.processes.set s.current_process
      { cp with
        unmaps := cp.unmaps + (if x.present then 1 else 0),
        fouts := cp.fouts +
          (if x.present && (file_backed cp (vpage : Int) && x.modified) then 1 else 0),
        page_table := cp.page_table.set vpage PTE.zero },
    cost := s.cost + (if x.present then COST_UNMAP else 0) +
      (if x.present && (file_backed cp (vpage : Int) && x.modified) then COST_FOUT else 0),
    frame_table :=
      if x.present then s.frame_table.set x.frame Frame.released else s.frame_table,
    free_list := s.free_list ++ (if x.present then [x.frame] else []) }

/-- The relation between the state `s` with current process `cp` and the state `s1` with
current process `cp1` that the loop of lines 453-482 over the pages `l` establishes. -/
structure Exited (l : List Nat) (s : State) (cp : Process) (s1 : State) (cp1 : Process) :
    Prop where
  processes : s1.processes = s.processes.set s.current_process cp1
  id : cp1.id = cp.id
  vmas : cp1.vmas = cp.vmas
  maps : cp1.maps = cp.maps
  ins : cp1.ins = cp.ins
  outs : cp1.outs = cp.outs
  zeros : cp1.zeros = cp.zeros
  segv : cp1.segv = cp.segv
  segprot : cp1.segprot = cp.segprot
  fins : cp1.fins = cp.fins
  unmaps : cp1.unmaps = cp.unmaps + (present_pages cp l).length
  fouts : cp1.fouts = cp.fouts + (fout_pages cp l).length
  length : cp1.page_table.length = cp.page_table.length
  zeroed : ∀ v : Nat, v ∈ l → cp1.page_table[v]? = some PTE.zero
  kept : ∀ v : Nat, v ∉ l → cp1.page_table[v]? = cp.page_table[v]?
  cost : s1.cost = s.cost + 410 * (present_pages cp l).length + 2800 * (fout_pages cp l).length
  free_list : s1.free_list = s.free_list ++ (present_pages cp l).map (frame_at cp)
  frames_length : s1.frame_table.length = s.frame_table.length
  released : ∀ i : Nat, i ∈ (present_pages cp l).map (frame_at cp) →
    s1.frame_table[i]? = some Frame.released
  untouched : ∀ i : Nat, i ∉ (present_pages cp l).map (frame_at cp) →
    s1.frame_table[i]? = s.frame_table[i]?
  pager : s1.pager = s.pager
  randvals : s1.randvals = s.randvals
  ofs : s1.ofs = s.ofs
  inst_count : s1.inst_count = s.inst_count
  ctx_switches : s1.ctx_switches = s.ctx_switches
  process_exits : s1.process_exits = s.process_exits
  current_process : s1.current_process = s.current_process

/-! ## Example processes -/

/-- The page-table entry that owns the frame `i`: `processes[frame.pid].page_table[frame.vpage]`
for `frame = frame_table[i]`. -/
def owner_pte (ft : List Frame) (ps : List Process) (i : Nat) : Option PTE :=
  match ft[i]? with
  | some f => pte_at ps f.pid f.vpage
  | none => none

/-- Every frame is owned by an existing page-table entry, and no two frames by the same. -/
def DistinctOwners (ft : List Frame) (ps : List Process) : Prop :=
  AllMapped ft ps ∧
  ∀ (i j : Nat) (f g : Frame), ft[i]? = some f → ft[j]? = some g →
    f.pid = g.pid → f.vpage = g.vpage → i = j

/-- The `referenced` bit of the entry that owns the frame `k` (false when there is none). -/
def ref_of (ft : List Frame) (ps : List Process) (k : Nat) : Bool :=
  match owner_pte ft ps k with
  | some x => x.referenced
  | none => false

/-- The class `(referenced << 1) | modified` of the entry that owns the frame `k`. -/
def class_at (ft : List Frame) (ps : List Process) (k : Nat) : Nat :=
  match owner_pte ft ps k with
  | some x => class_of x
  | none => 0

/-- The field `age` of the frame `k`. -/
def age_at (ft : List Frame) (k : Nat) : Nat :=
  match ft[k]? with
  | some f => f.age
  | none => 0

/-- The field `last_reference` of the frame `k`. -/
def last_reference_at (ft : List Frame) (k : Nat) : Nat :=
  match ft[k]? with
  | some f => f.last_reference
  | none => 0

/-- The value that line 186 gives to the field `age` of the frame `k`. -/
def aged_at (ft : List Frame) (ps : List Process) (k : Nat) : Nat :=
  aging_shift (age_at ft k) (ref_of ft ps k)

/-- The assignment `pte->referenced = 0` on the entry that owns the frame `k`. -/
def unref_owner (ft : List Frame) (ps : List Process) (k : Nat) : List Process :=
  match ft[k]? with
  | some f =>
    match pte_at ps f.pid f.vpage with
    | some x => set_pte ps f.pid.toNat f.vpage.toNat { x with referenced := false }
    | none => ps
  | none => ps

/-- The assignment `pte->referenced = 0` on the owners of the frames `ks`, in that order. -/
def unref_owners (ft : List Frame) (ks : List Nat) (ps : List Process) : List Process :=
  ks.foldl (unref_owner ft) ps

/-- The frame table after the frames `ks` have been replaced by `g k frame`. -/
def update_frames (g : Nat → Frame → Frame) (ks : List Nat) (ft : List Frame) : List Frame :=
  ks.foldl (fun ft1 k =>
    match ft1[k]? with
    | some f => ft1.set k (g k f)
    | none => ft1) ft

/-- The first `j` frames in the order of a sweep that starts at the hand `h`:
`h, h + 1, ..., h + j - 1` modulo `N`. -/
def scan_order (h N j : Nat) : List Nat := (List.range j).map (fun i => (h + i) % N)

/-- The running minimum of a sweep with the test `key i < min` of lines 190 and 236: the
position of the first strictly smaller key so far, and that key. -/
def scan_min (key : Nat → Nat) : List Nat → Option Nat → Nat → Option Nat × Nat
  | [], v, m => (v, m)
  | i :: rest, v, m =>
    if key i < m then scan_min key rest (some i) (key i) else scan_min key rest v m

/-- The frames of `ks` whose owner is referenced. -/
def referenced_frames (ft : List Frame) (ps : List Process) (ks : List Nat) : List Nat :=
  ks.filter (fun k => ref_of ft ps k)

/-- The key by which the working-set sweep ranks the frame `k` as the oldest candidate: its
`last_reference` when its owner is not referenced, and `INT_MAX`, the initial `oldest_time`,
when it is (such a frame is no candidate). -/
def ws_key (ft : List Frame) (ps : List Process) (k : Nat) : Nat :=
  if ref_of ft ps k then 2147483647 else last_reference_at ft k

/-- The test of lines 227-229 on the frame `k` at the time `t`: the owner is not referenced
and `t - last_reference > tau`. -/
def ws_expired (ft : List Frame) (ps : List Process) (t : Nat) (tau : Int) (k : Nat) : Prop :=
  ref_of ft ps k = false ∧ (t : Int) - (last_reference_at ft k : Int) > tau

/-- The effect of the working-set sweep at the time `t` that started at the hand `h` and
visited `j` frames before it returned: the visited frames with a referenced owner have
`last_reference = t` and their owner has lost the `referenced` bit; every other frame and
every other entry is unchanged. -/
def WSSwept (ft : List Frame) (ps : List Process) (h N j t : Nat) (ft1 : List Frame)
    (ps1 : List Process) : Prop :=
  (∀ i, i < j → ref_of ft ps ((h + i) % N) = true →
    ft1[(h + i) % N]? = (ft[(h + i) % N]?).map (fun f => { f with last_reference := t }) ∧
    owner_pte ft ps1 ((h + i) % N) =
      (owner_pte ft ps ((h + i) % N)).map (fun x => { x with referenced := false })) ∧
  (∀ i, i < N → (j ≤ i ∨ ref_of ft ps ((h + i) % N) = false) →
    ft1[(h + i) % N]? = ft[(h + i) % N]? ∧
    owner_pte ft ps1 ((h + i) % N) = owner_pte ft ps ((h + i) % N)) ∧
  (∀ pid vpage : Int,
    (∀ (k : Nat) (f : Frame), ft[k]? = some f → ¬ (pid = f.pid ∧ vpage = f.vpage)) →
    pte_at ps1 pid vpage = pte_at ps pid vpage) ∧
  ps1.map Process.unref = ps.map Process.unref

/-- The bookkeeping of lines 284-287 over the positions of a sweep: `lowest_class_found` and
`class_victims` after the frames at these positions have been seen; `cls i` is the class of
the frame at the position `i` and `frame i` its index. -/
def esc_scan (cls : Nat → Nat) (frame : Nat → Nat) :
    List Nat → Nat → List (Option Nat) → Nat × List (Option Nat)
  | [], low, cv => (low, cv)
  | i :: rest, low, cv =>
    if cv[cls i]? = some none then
      esc_scan cls frame rest (min low (cls i)) (cv.set (cls i) (some (frame i)))
    else esc_scan cls frame rest low cv

/-- The state `example_final` with the random pager, a sequence of three random values and
the cursor on the second. -/
def random_state : State :=
  { example_final with randvals := [7, 3, 10], ofs := 1, pager := Pager.RandomPager 2 }

/-- The trace `r 0; w 1`: two accesses to distinct pages. -/
def fill_trace : List (Char × Int) := [('r', 0), ('w', 1)]

/-! ## An example with the aging pager -/

/-- One process with the area `example_vma`, two frames and the aging pager. -/
def aging_state : State := initial_state [[example_vma]] [] 2 (Pager.AgingPager 0 2)

/-- The state that `example_trace` leads to from `aging_state`: the third access has called
`AgingPager::select_victim_frame`, which gave both frames the age `0x80000000` and chose the
frame 0. -/
def aging_final : State :=
  { processes :=
      [{ id := 0, vmas := [example_vma],
         page_table :=
           [{ present := false, referenced := false, modified := false, write_protect := false,
              pagedout := false, frame := 0 },
            { present := true, referenced := false, modified := false, write_protect := false,
              pagedout := false, frame := 1 },
            { present := true, referenced := true, modified := false, write_protect := false,
              pagedout := false, frame := 0 }] ++ List.replicate 61 PTE.zero,
         unmaps := 1, maps := 3, ins := 0, outs := 0, zeros := 3, segv := 0, segprot := 0,
         fins := 0, fouts := 0 }],
    frame_table :=
      [{ pid := 0, vpage := 2, age := 0, last_reference := 3 },
       { pid := 0, vpage := 1, age := 2147483648, last_reference := 2 }],
    free_list := [],
    pager := Pager.AgingPager 1 2,
    randvals := [],
    ofs := 0,
    inst_count := 3,
    ctx_switches := 0,
    process_exits := 0,
    cost := 1913,
    current_process := 0 }

/-! ## Two runs of more than `2 ^ 31` instructions -/

/-- One process with the area `example_vma`, four frames and the working-set pager. -/
def ws_state : State := initial_state [[example_vma]] [] 4 (Pager.WorkingSetPager 0 49 4)

/-- The first 55 instructions of `ws_trace`: the pages 0 to 3 fill the four frames, the fault
on page 4 at time 5 sweeps them all and takes the frame 0, page 1 is read again, and after 48
reads of page 4 the fault on page 5 at time 55 takes the frame 2. -/
def ws_head : List (Char × Int) :=
  [('r', 0), ('r', 1), ('r', 2), ('r', 3), ('r', 4), ('r', 1)] ++ List.replicate 48 ('r', 4) ++
    [('r', 5)]

/-- The input `ws_head`, then 2147483600 reads of page 5, then a read of page 6:
2147483656 instructions. -/
def ws_trace : List (Char × Int) :=
  ws_head ++ List.replicate 2147483600 ('r', 5) ++ [('r', 6)]

/-- The state after `ws_head`: the hand is 3; the frame 3 holds page 3 and the frame 1 holds
page 1, neither referenced, last referenced at the times 5 and 55. -/
def ws_mid : State :=
  { processes :=
      [{ id := 0, vmas := [example_vma],
         page_table :=
           [{ present := false, referenced := false, modified := false, write_protect := false,
              pagedout := false, frame := 0 },
            { present := true, referenced := false, modified := false, write_protect := false,
              pagedout := false, frame := 1 },
            { present := false, referenced := false, modified := false, write_protect := false,
              pagedout := false, frame := 2 },
            { present := true, referenced := false, modified := false, write_protect := false,
              pagedout := false, frame := 3 },
            { present := true, referenced := true, modified := false, write_protect := false,
              pagedout := false, frame := 0 },
            { present := true, referenced := true, modified := false, write_protect := false,
              pagedout := false, frame := 2 }] ++ List.replicate 58 PTE.zero,
         unmaps := 2, maps := 6, ins := 0, outs := 0, zeros := 6, segv := 0, segprot := 0,
         fins := 0, fouts := 0 }],
    frame_table :=
      [{ pid := 0, vpage := 4, age := 0, last_reference := 5 },
       { pid := 0, vpage := 1, age := 0, last_reference := 55 },
       { pid := 0, vpage := 5, age := 0, last_reference := 55 },
       { pid := 0, vpage := 3, age := 0, last_reference := 5 }],
    free_list := [],
    pager := Pager.WorkingSetPager 3 49 4,
    randvals := [],
    ofs := 0,
    inst_count := 55,
    ctx_switches := 0,
    process_exits := 0,
    cost := 3875,
    current_process := 0 }

/-- The state in which the last instruction of `ws_trace` starts: `ws_mid` after the
2147483600 reads of page 5, which is present and referenced. -/
def ws_late : State :=
  { ws_mid with inst_count := ws_mid.inst_count + 2147483600,
                cost := ws_mid.cost + 2147483600 }

/-- The state after `ws_trace`: page 6 is in the frame 1, page 3 is still in the frame 3,
and the sweep has gone over the frame 0. -/
def ws_end : State :=
  { processes :=
      [{ id := 0, vmas := [example_vma],
         page_table :=
           [{ present := false, referenced := false, modified := false, write_protect := false,
              pagedout := false, frame := 0 },
            { present := false, referenced := false, modified := false, write_protect := false,
              pagedout := false, frame := 1 },
            { present := false, referenced := false, modified := false, write_protect := false,
              pagedout := false, frame := 2 },
            { present := true, referenced := false, modified := false, write_protect := false,
              pagedout := false, frame := 3 },
            { present := true, referenced := false, modified := false, write_protect := false,
              pagedout := false, frame := 0 },
            { present := true, referenced := true, modified := false, write_protect := false,
              pagedout := false, frame := 2 },
            { present := true, referenced := true, modified := false, write_protect := false,
              pagedout := false, frame := 1 }] ++ List.replicate 57 PTE.zero,
         unmaps := 3, maps := 7, ins := 0, outs := 0, zeros := 7, segv := 0, segprot := 0,
         fins := 0, fouts := 0 }],
    frame_table :=
      [{ pid := 0, vpage := 4, age := 0, last_reference := 2147483656 },
       { pid := 0, vpage := 6, age := 0, last_reference := 2147483656 },
       { pid := 0, vpage := 5, age := 0, last_reference := 55 },
       { pid := 0, vpage := 3, age := 0, last_reference := 5 }],
    free_list := [],
    pager := Pager.WorkingSetPager 2 49 4,
    randvals := [],
    ofs := 0,
    inst_count := 2147483656,
    ctx_switches := 0,
    process_exits := 0,
    cost := 2147488386,
    current_process := 0 }

/-- One process with the area `example_vma`, one frame and the ESC-NRU pager. -/
def esc_state : State := initial_state [[example_vma]] [] 1 (Pager.ESCNRUPager 0 0 1)

/-- The input of 2147483647 reads of page 0, then a read of page 1: 2147483648
instructions, of which only the first and the last fault. -/
def esc_trace : List (Char × Int) := List.replicate 2147483647 ('r', 0) ++ [('r', 1)]

/-- The state after the first instruction of `esc_trace`: page 0 is in the only frame. -/
def esc_first : State :=
  { processes :=
      [{ id := 0, vmas := [example_vma],
         page_table :=
           [{ present := true, referenced := true, modified := false, write_protect := false,
              pagedout := false, frame := 0 }] ++ List.replicate 63 PTE.zero,
         unmaps := 0, maps := 1, ins := 0, outs := 0, zeros := 1, segv := 0, segprot := 0,
         fins := 0, fouts := 0 }],
    frame_table := [{ pid := 0, vpage := 0, age := 0, last_reference := 1 }],
    free_list := [],
    pager := Pager.ESCNRUPager 0 0 1,
    randvals := [],
    ofs := 0,
    inst_count := 1,
    ctx_switches := 0,
    process_exits := 0,
    cost := 501,
    current_process := 0 }

/-- The state in which the last instruction of `esc_trace` starts: `esc_first` after
2147483646 more reads of page 0. -/
def esc_late : State :=
  { esc_first with inst_count := esc_first.inst_count + 2147483646,
                   cost := esc_first.cost + 2147483646 }

/-- The state after `esc_trace`: the pager has fired its reset at the time 2147483648 and
holds `last_reset_time = -2147483648`. -/
def esc_end : State :=
  { processes :=
      [{ id := 0, vmas := [example_vma],
         page_table :=
           [{ present := false, referenced := false, modified := false, write_protect := false,
              pagedout := false, frame := 0 },
            { present := true, referenced := true, modified := false, write_protect := false,
              pagedout := false, frame := 0 }] ++ List.replicate 62 PTE.zero,
         unmaps := 1, maps := 2, ins := 0, outs := 0, zeros := 2, segv := 0, segprot := 0,
         fins := 0, fouts := 0 }],
    frame_table := [{ pid := 0, vpage := 1, age := 0, last_reference := 2147483648 }],
    free_list := [],
    pager := Pager.ESCNRUPager 0 (-2147483648) 1,
    randvals := [],
    ofs := 0,
    inst_count := 2147483648,
    ctx_switches := 0,
    process_exits := 0,
    cost := 2147485058,
    current_process := 0 }

/-! ## Page-table access -/

theorem pte_at_some {ps : List Process} {pid vpage : Int} {x : PTE}
    (h : pte_at ps pid vpage = some x) :
    0 ≤ pid ∧ 0 ≤ vpage ∧
      ∃ pr, ps[pid.toNat]? = some pr ∧ pr.page_table[vpage.toNat]? = some x := by
  unfold pte_at at h
  split at h
  · rename_i hc
    cases hp : ps[pid.toNat]? with
    | none => simp [hp] at h
    | some pr => exact ⟨hc.1, hc.2, pr, rfl, by simpa [hp] using h⟩
  · cases h

theorem pte_at_of_get {ps : List Process} {p v : Nat} {pr : Process} {x : PTE}
    (hp : ps[p]? = some pr) (hx : pr.page_table[v]? = some x) :
    pte_at ps (p : Int) (v : Int) = some x := by
  simp [pte_at, hp, hx]

theorem pte_at_modify (ps : List Process) (f : Process → Process)
    (hf : ∀ pr, (f pr).page_table = pr.page_table) (p : Nat) (pid vpage : Int) :
    pte_at (ps.modify f p) pid vpage = pte_at ps pid vpage := by
  unfold pte_at
  split
  · rw [List.getElem?_modify]
    cases ps[pid.toNat]? with
    | none => rfl
    | some pr =>
      by_cases hq : p = pid.toNat
      · simp [hq, hf]
      · simp [hq]
  · rfl

theorem pte_at_set_pte_ne (ps : List Process) (p v : Nat) (y : PTE) (pid vpage : Int)
    (hne : ¬ (pid = (p : Int) ∧ vpage = (v : Int))) :
    pte_at (set_pte ps p v y) pid vpage = pte_at ps pid vpage := by
  unfold pte_at set_pte
  split
  · rename_i hc
    rw [List.getElem?_modify]
    cases ps[pid.toNat]? with
    | none => rfl
    | some pr =>
      by_cases hq : p = pid.toNat
      · have hv : v ≠ vpage.toNat := by
          intro hv
          apply hne
          constructor
          · rw [hq]; exact (Int.toNat_of_nonneg hc.1).symm
          · rw [hv]; exact (Int.toNat_of_nonneg hc.2).symm
        simp [hq, List.getElem?_set_ne hv]
      · simp [hq]
  · rfl

theorem pte_at_set_pte_eq (ps : List Process) (p v : Nat) (y : PTE) :
    pte_at (set_pte ps p v y) (p : Int) (v : Int) =
      Option.map (fun _ => y) (pte_at ps (p : Int) (v : Int)) := by
  unfold pte_at set_pte
  simp only [Int.toNat_ofNat, Int.ofNat_zero_le, and_self, if_true]
  rw [List.getElem?_modify]
  cases ps[p]? with
  | none => rfl
  | some pr =>
    simp only [Option.map_eq_map, Option.map_some', if_true]
    rw [List.getElem?_set]
    simp only [if_true]
    by_cases hv : v < pr.page_table.length
    · simp [hv, List.getElem?_eq_getElem hv]
    · simp [hv, List.getElem?_eq_none (Nat.le_of_not_lt hv)]

theorem get_modify_hdr (ps : List Process) (f : Process → Process)
    (hf : ∀ pr, (f pr).hdr = pr.hdr) (p q : Nat) :
    Option.map Process.hdr (ps.modify f p)[q]? = Option.map Process.hdr ps[q]? := by
  rw [List.getElem?_modify]
  cases ps[q]? with
  | none => rfl
  | some pr =>
    by_cases hq : p = q
    · simp [hq, hf]
    · simp [hq]

theorem get_set_pte_hdr (ps : List Process) (p v : Nat) (y : PTE) (q : Nat) :
    Option.map Process.hdr (set_pte ps p v y)[q]? = Option.map Process.hdr ps[q]? := by
  unfold set_pte
  apply get_modify_hdr
  intro pr
  simp [Process.hdr]

/-! ## The relation `KeyEq` -/

theorem KeyEq.key_refl (ps : List Process) : KeyEq ps ps := ⟨fun _ => rfl, fun _ _ => rfl⟩

theorem KeyEq.trans {ps ps1 ps2 : List Process} (h1 : KeyEq ps ps1) (h2 : KeyEq ps1 ps2) :
    KeyEq ps ps2 :=
  ⟨fun p => (h2.1 p).trans (h1.1 p), fun a b => (h2.2 a b).trans (h1.2 a b)⟩

theorem KeyEq.length {ps ps1 : List Process} (h : KeyEq ps ps1) : ps1.length = ps.length := by
  apply Nat.le_antisymm
  · by_contra hlt
    have hlt : ps.length < ps1.length := Nat.lt_of_not_le hlt
    have := h.1 ps.length
    rw [List.getElem?_eq_getElem hlt, List.getElem?_eq_none (Nat.le_refl _)] at this
    cases this
  · by_contra hlt
    have hlt : ps1.length < ps.length := Nat.lt_of_not_le hlt
    have := h.1 ps1.length
    rw [List.getElem?_eq_getElem hlt, List.getElem?_eq_none (Nat.le_refl _)] at this
    cases this

theorem KeyEq.get {ps ps1 : List Process} (h : KeyEq ps ps1) {p : Nat} {pr1 : Process}
    (hp : ps1[p]? = some pr1) : ∃ pr, ps[p]? = some pr ∧ pr1.hdr = pr.hdr := by
  have := h.1 p
  rw [hp] at this
  cases hq : ps[p]? with
  | none => rw [hq] at this; cases this
  | some pr =>
    rw [hq] at this
    exact ⟨pr, rfl, by simpa using this⟩

theorem KeyEq.get_rev {ps ps1 : List Process} (h : KeyEq ps ps1) {p : Nat} {pr : Process}
    (hp : ps[p]? = some pr) : ∃ pr1, ps1[p]? = some pr1 ∧ pr1.hdr = pr.hdr := by
  have := h.1 p
  rw [hp] at this
  cases hq : ps1[p]? with
  | none => rw [hq] at this; cases this
  | some pr1 =>
    rw [hq] at this
    exact ⟨pr1, rfl, by simpa using this⟩

theorem KeyEq.pte {ps ps1 : List Process} (h : KeyEq ps ps1) {pid vpage : Int} {x1 : PTE}
    (hx : pte_at ps1 pid vpage = some x1) :
    ∃ x, pte_at ps pid vpage = some x ∧ x.present = x1.present ∧ x.frame = x1.frame := by
  have := h.2 pid vpage
  rw [hx] at this
  cases hq : pte_at ps pid vpage with
  | none => rw [hq] at this; cases this
  | some x =>
    rw [hq] at this
    simp only [Option.map_some', Option.some.injEq, PTE.key, Prod.mk.injEq] at this
    exact ⟨x, rfl, this.1.symm, this.2.symm⟩

theorem KeyEq.pte_rev {ps ps1 : List Process} (h : KeyEq ps ps1) {pid vpage : Int} {x : PTE}
    (hx : pte_at ps pid vpage = some x) :
    ∃ x1, pte_at ps1 pid vpage = some x1 ∧ x1.present = x.present ∧ x1.frame = x.frame := by
  have := h.2 pid vpage
  rw [hx] at this
  cases hq : pte_at ps1 pid vpage with
  | none => rw [hq] at this; cases this
  | some x1 =>
    rw [hq] at this
    simp only [Option.map_some', Option.some.injEq, PTE.key, Prod.mk.injEq] at this
    exact ⟨x1, rfl, this.1, this.2⟩

theorem KeyEq.modify (ps : List Process) (f : Process → Process)
    (hf : ∀ pr, (f pr).hdr = pr.hdr) (hpt : ∀ pr, (f pr).page_table = pr.page_table)
    (p : Nat) : KeyEq ps (ps.modify f p) :=
  ⟨fun q => get_modify_hdr ps f hf p q, fun a b => by rw [pte_at_modify ps f hpt]⟩

theorem KeyEq.key_set_pte (ps : List Process) (p v : Nat) (x y : PTE)
    (hx : pte_at ps (p : Int) (v : Int) = some x) (hy : y.key = x.key) :
    KeyEq ps (set_pte ps p v y) := by
  refine ⟨fun q => get_set_pte_hdr ps p v y q, fun a b => ?_⟩
  by_cases hab : a = (p : Int) ∧ b = (v : Int)
  · rw [hab.1, hab.2, pte_at_set_pte_eq, hx]
    simp [hy]
  · rw [pte_at_set_pte_ne ps p v y a b hab]

/-! ## Frames with the same owners -/

theorem frames_key_get {ft ft1 : List Frame} (h : ft1.map Frame.key = ft.map Frame.key)
    {i : Nat} {f1 : Frame} (hf : ft1[i]? = some f1) :
    ∃ f, ft[i]? = some f ∧ f.pid = f1.pid ∧ f.vpage = f1.vpage := by
  have := congrArg (fun l => l[i]?) h
  simp only [List.getElem?_map, hf, Option.map_some'] at this
  cases hq : ft[i]? with
  | none => rw [hq] at this; cases this
  | some f =>
    rw [hq] at this
    simp only [Option.map_some', Option.some.injEq, Frame.key, Prod.mk.injEq] at this
    exact ⟨f, rfl, this.1.symm, this.2.symm⟩

theorem frames_key_length {ft ft1 : List Frame} (h : ft1.map Frame.key = ft.map Frame.key) :
    ft1.length = ft.length := by
  have := congrArg List.length h
  simpa using this

theorem frames_key_set {ft : List Frame} {i : Nat} {f g : Frame} (hf : ft[i]? = some f)
    (hg : g.key = f.key) : (ft.set i g).map Frame.key = ft.map Frame.key := by
  apply List.ext_getElem?
  intro n
  by_cases hn : i = n
  · subst hn
    rw [List.getElem?_map, List.getElem?_map, List.getElem?_set, hf]
    have hlt : i < ft.length := by
      rcases List.getElem?_eq_some.1 hf with ⟨h, _⟩
      exact h
    simp [hlt, hg]
  · rw [List.getElem?_map, List.getElem?_map, List.getElem?_set_ne hn]

/-! ## Process vectors that differ in `referenced` bits only -/

theorem unref_set_pte {ps : List Process} {pid vpage : Int} {x y : PTE}
    (hx : pte_at ps pid vpage = some x) (hy : y.unref = x.unref) :
    (set_pte ps pid.toNat vpage.toNat y).map Process.unref = ps.map Process.unref := by
  obtain ⟨_, _, pr, hpr, hxv⟩ := pte_at_some hx
  apply List.ext_getElem?
  intro n
  rw [List.getElem?_map, List.getElem?_map]
  unfold set_pte
  rw [List.getElem?_modify]
  by_cases hn : pid.toNat = n
  · subst hn
    rw [hpr]
    simp only [Option.map_eq_map, Option.map_some', if_true, Process.unref, List.map_set, hy]
    congr 2
    have hlt : vpage.toNat < pr.page_table.length := by
      rcases List.getElem?_eq_some.1 hxv with ⟨h, _⟩
      exact h
    apply List.ext_getElem?
    intro m
    by_cases hm : vpage.toNat = m
    · subst hm
      rw [List.getElem?_set]
      have hxe : pr.page_table[vpage.toNat] = x := by
        rcases List.getElem?_eq_some.1 hxv with ⟨_, h⟩
        exact h
      simp [hlt, hxe]
    · rw [List.getElem?_set_ne hm]
  · cases ps[n]? with
    | none => rfl
    | some q => simp [hn]

theorem pte_at_map_unref (ps : List Process) (pid vpage : Int) :
    pte_at (ps.map Process.unref) pid vpage = Option.map PTE.unref (pte_at ps pid vpage) := by
  unfold pte_at
  split
  · rw [List.getElem?_map]
    cases ps[pid.toNat]? with
    | none => rfl
    | some pr => simp [Process.unref]
  · rfl

theorem unref_pte {ps ps1 : List Process}
    (h : ps1.map Process.unref = ps.map Process.unref) (pid vpage : Int) :
    Option.map PTE.unref (pte_at ps1 pid vpage) = Option.map PTE.unref (pte_at ps pid vpage) := by
  rw [← pte_at_map_unref, ← pte_at_map_unref, h]

theorem unref_get {ps ps1 : List Process}
    (h : ps1.map Process.unref = ps.map Process.unref) (p : Nat) :
    Option.map Process.unref ps1[p]? = Option.map Process.unref ps[p]? := by
  have := congrArg (fun l => l[p]?) h
  simpa using this

theorem KeyEq_of_unref {ps ps1 : List Process}
    (h : ps1.map Process.unref = ps.map Process.unref) : KeyEq ps ps1 := by
  constructor
  · intro p
    have := congrArg (Option.map Process.hdr) (unref_get h p)
    simp only [Option.map_map] at this
    have hh : Process.hdr ∘ Process.unref = Process.hdr := by
      funext pr
      simp [Process.hdr, Process.unref]
    rwa [hh] at this
  · intro pid vpage
    have := congrArg (Option.map PTE.key) (unref_pte h pid vpage)
    simp only [Option.map_map] at this
    have hh : PTE.key ∘ PTE.unref = PTE.key := by
      funext x
      simp [PTE.key, PTE.unref]
    rwa [hh] at this

/-! ## The invariants depend on the keys only -/

theorem ProcsOK.procs_transfer {ps ps1 : List Process} (h : ProcsOK ps) (hk : KeyEq ps ps1) :
    ProcsOK ps1 := by
  intro p pr1 hp
  obtain ⟨pr, hpr, hh⟩ := hk.get hp
  have := h p pr hpr
  simp only [Process.hdr, Prod.mk.injEq] at hh
  rw [hh.1, hh.2.2]
  exact this

theorem PresentCovered.covered_transfer {ps ps1 : List Process} (h : PresentCovered ps)
    (hk : KeyEq ps ps1) : PresentCovered ps1 := by
  intro p pr1 hp v x1 hx1 hpres
  obtain ⟨pr, hpr, hh⟩ := hk.get hp
  obtain ⟨x, hx, hxp, _⟩ := hk.pte (pte_at_of_get hp hx1)
  obtain ⟨_, _, pr', hpr', hxv⟩ := pte_at_some hx
  simp only [Int.toNat_ofNat] at hpr' hxv
  rw [hpr] at hpr'
  cases hpr'
  have := h p pr hpr v x hxv (by rw [hxp, hpres])
  simp only [Process.hdr, Prod.mk.injEq] at hh
  simpa [find_vma_for_page, hh.2.1] using this

theorem FrameOwned.frame_transfer {ps ps1 : List Process} {ft ft1 : List Frame}
    (h : FrameOwned ps ft) (hk : KeyEq ps ps1) (hf : ft1.map Frame.key = ft.map Frame.key) :
    FrameOwned ps1 ft1 := by
  intro i f1 hf1 hpid
  obtain ⟨f, hfi, hp, hv⟩ := frames_key_get hf hf1
  obtain ⟨x, hx, hxp, hxf⟩ := h i f hfi (by rw [hp]; exact hpid)
  rw [hp, hv] at hx
  obtain ⟨x1, hx1, h1p, h1f⟩ := hk.pte_rev hx
  exact ⟨x1, hx1, by rw [h1p, hxp], by rw [h1f, hxf]⟩

theorem PteOwned.pte_transfer {ps ps1 : List Process} {ft ft1 : List Frame}
    (h : PteOwned ps ft) (hk : KeyEq ps ps1) (hf : ft1.map Frame.key = ft.map Frame.key) :
    PteOwned ps1 ft1 := by
  intro pid vpage x1 hx1 hpres
  obtain ⟨x, hx, hxp, hxf⟩ := hk.pte hx1
  obtain ⟨f, hfi, hp, hv⟩ := h pid vpage x hx (by rw [hxp, hpres])
  rw [hxf] at hfi
  have hlt : x1.frame < ft1.length := by
    rw [frames_key_length hf]
    rcases List.getElem?_eq_some.1 hfi with ⟨h, _⟩
    exact h
  obtain ⟨f', hf', hp', hv'⟩ := frames_key_get hf (List.getElem?_eq_getElem hlt)
  rw [hfi] at hf'
  cases hf'
  exact ⟨ft1[x1.frame], List.getElem?_eq_getElem hlt, by rw [← hp', hp], by rw [← hv', hv]⟩

theorem FreeListOK.free_transfer {hole : Option Nat} {ft ft1 : List Frame} {fl : List Nat}
    (h : FreeListOK hole ft fl) (hf : ft1.map Frame.key = ft.map Frame.key) :
    FreeListOK hole ft1 fl := by
  refine ⟨h.1, fun i => ?_⟩
  rw [h.2 i]
  constructor
  · rintro ⟨hh, f, hfi, hp⟩
    have hlt : i < ft1.length := by
      rw [frames_key_length hf]
      rcases List.getElem?_eq_some.1 hfi with ⟨h, _⟩
      exact h
    obtain ⟨f', hf', hp', _⟩ := frames_key_get hf (List.getElem?_eq_getElem hlt)
    rw [hfi] at hf'
    cases hf'
    exact ⟨hh, ft1[i], List.getElem?_eq_getElem hlt, by rw [← hp', hp]⟩
  · rintro ⟨hh, f1, hf1, hp⟩
    obtain ⟨f, hfi, hp', _⟩ := frames_key_get hf hf1
    exact ⟨hh, f, hfi, by rw [hp', hp]⟩

/-! ## What the pagers change -/

theorem PagerRel.rel_refl (s : State) : PagerRel s s :=
  ⟨rfl, rfl, rfl, rfl, rfl, rfl, rfl, rfl, rfl⟩

theorem get_lt {α : Type} {l : List α} {i : Nat} {a : α} (h : l[i]? = some a) :
    i < l.length := by
  rcases List.getElem?_eq_some.1 h with ⟨h, _⟩
  exact h

theorem FIFOPager.fifo_select_rel {hand n : Nat} {s s1 : State} {idx : Nat}
    (h : FIFOPager.select_victim_frame hand n s = some (idx, s1)) :
    PagerRel s s1 ∧ idx < s.frame_table.length := by
  unfold FIFOPager.select_victim_frame at h
  split at h
  · rename_i hc
    simp only [Option.some.injEq, Prod.mk.injEq] at h
    obtain ⟨rfl, rfl⟩ := h
    exact ⟨⟨rfl, rfl, rfl, rfl, rfl, rfl, rfl, rfl, rfl⟩, hc.1⟩
  · cases h

theorem RandomPager.random_select_rel {n : Nat} {s s1 : State} {idx : Nat}
    (h : RandomPager.select_victim_frame n s = some (idx, s1)) :
    PagerRel s s1 ∧ idx < s.frame_table.length := by
  unfold RandomPager.select_victim_frame at h
  split at h
  · cases h
  · rename_i r s2 hm
    unfold myrandom at hm
    split at hm
    · cases hm
    · split at hm
      · cases hm
      · simp only [Option.some.injEq, Prod.mk.injEq] at hm
        obtain ⟨_, rfl⟩ := hm
        simp only at h
        split at h
        · rename_i hc
          simp only [Option.some.injEq, Prod.mk.injEq] at h
          obtain ⟨rfl, rfl⟩ := h
          exact ⟨⟨rfl, rfl, rfl, rfl, rfl, rfl, rfl, rfl, rfl⟩, hc.2⟩
        · cases h

theorem ClockPager.clock_loop_rel (ft : List Frame) (n : Nat) :
    ∀ (fuel hand : Nat) (ps : List Process) (insp : Nat)
      (r : Nat × Nat × List Process × Nat),
      ClockPager.loop ft n fuel hand ps insp = some r →
        r.2.2.1.map Process.unref = ps.map Process.unref ∧ r.1 < ft.length := by
  intro fuel
  induction fuel with
  | zero => intro hand ps insp r h; simp [ClockPager.loop] at h
  | succ fuel ih =>
    intro hand ps insp r h
    rw [ClockPager.loop] at h
    split at h
    · cases h
    · rename_i frame hfr
      split at h
      · cases h
      · rename_i pte hpte
        split at h
        · cases h
        · split at h
          · obtain ⟨h1, h2⟩ := ih _ _ _ _ h
            refine ⟨?_, h2⟩
            rw [h1]
            exact unref_set_pte hpte rfl
          · simp only [Option.some.injEq] at h
            subst h
            exact ⟨rfl, get_lt hfr⟩

theorem ClockPager.clock_select_rel {hand n : Nat} {s s1 : State} {idx : Nat}
    (h : ClockPager.select_victim_frame hand n s = some (idx, s1)) :
    PagerRel s s1 ∧ idx < s.frame_table.length := by
  unfold ClockPager.select_victim_frame at h
  split at h
  · cases h
  · rename_i v h1 ps1 k hl
    simp only [Option.some.injEq, Prod.mk.injEq] at h
    obtain ⟨rfl, rfl⟩ := h
    obtain ⟨hp, hv⟩ := ClockPager.clock_loop_rel _ _ _ _ _ _ _ hl
    exact ⟨⟨hp, rfl, rfl, rfl, rfl, rfl, rfl, rfl, rfl⟩, hv⟩

theorem AgingPager.aging_loop_rel (hand n : Nat) :
    ∀ (l : List Nat) (victim : Option Nat) (min_age : Nat) (ft : List Frame)
      (ps : List Process) (r : Option Nat × Nat × List Frame × List Process),
      AgingPager.loop hand n l victim min_age ft ps = some r →
        r.2.2.2.map Process.unref = ps.map Process.unref ∧
        r.2.2.1.map Frame.key = ft.map Frame.key ∧
        (∀ v, r.1 = some v → victim = some v ∨ v < ft.length) := by
  intro l
  induction l with
  | nil =>
    intro victim min_age ft ps r h
    simp only [AgingPager.loop, Option.some.injEq] at h
    subst h
    exact ⟨rfl, rfl, fun v hv => Or.inl hv⟩
  | cons i rest ih =>
    intro victim min_age ft ps r h
    rw [AgingPager.loop] at h
    split at h
    · cases h
    · simp only at h
      split at h
      · cases h
      · rename_i frame hfr
        split at h
        · cases h
        · rename_i pte hpte
          have hk : (ft.set ((hand + i) % n)
              { frame with age := aging_shift frame.age pte.referenced }).map Frame.key
              = ft.map Frame.key := frames_key_set hfr rfl
          have hu : (set_pte ps frame.pid.toNat frame.vpage.toNat
              { pte with referenced := false }).map Process.unref = ps.map Process.unref :=
            unref_set_pte hpte rfl
          split at h
          · obtain ⟨h1, h2, h3⟩ := ih _ _ _ _ _ h
            refine ⟨h1.trans hu, h2.trans hk, fun v hv => ?_⟩
            rcases h3 v hv with h4 | h4
            · simp only [Option.some.injEq] at h4
              right
              rw [← h4]
              exact get_lt hfr
            · right
              simpa using h4
          · obtain ⟨h1, h2, h3⟩ := ih _ _ _ _ _ h
            refine ⟨h1.trans hu, h2.trans hk, fun v hv => ?_⟩
            rcases h3 v hv with h4 | h4
            · exact Or.inl h4
            · right
              simpa using h4

theorem AgingPager.aging_select_rel {hand n : Nat} {s s1 : State} {idx : Nat}
    (h : AgingPager.select_victim_frame hand n s = some (idx, s1)) :
    PagerRel s s1 ∧ idx < s.frame_table.length := by
  unfold AgingPager.select_victim_frame at h
  split at h
  · cases h
  · cases h
  · rename_i v ma ft1 ps1 hl
    split at h
    · cases h
    · simp only [Option.some.injEq, Prod.mk.injEq] at h
      obtain ⟨rfl, rfl⟩ := h
      obtain ⟨hp, hf, hv⟩ := AgingPager.aging_loop_rel _ _ _ _ _ _ _ _ hl
      refine ⟨⟨hp, hf, rfl, rfl, rfl, rfl, rfl, rfl, rfl⟩, ?_⟩
      rcases hv v rfl with h4 | h4
      · cases h4
      · exact h4

theorem WorkingSetPager.ws_loop_rel (hand : Nat) (tau : Int) (n ic : Nat) :
    ∀ (l : List Nat) (victim : Option Nat) (oldest : Int) (ft : List Frame)
      (ps : List Process) (r : WSResult),
      WorkingSetPager.loop hand tau n ic l victim oldest ft ps = some r →
        match r with
        | WSResult.returned v ft1 ps1 =>
          ps1.map Process.unref = ps.map Process.unref ∧
          ft1.map Frame.key = ft.map Frame.key ∧ v < ft.length
        | WSResult.finished v ft1 ps1 =>
          ps1.map Process.unref = ps.map Process.unref ∧
          ft1.map Frame.key = ft.map Frame.key ∧
          (∀ w, v = some w → victim = some w ∨ w < ft.length) := by
  intro l
  induction l with
  | nil =>
    intro victim oldest ft ps r h
    simp only [WorkingSetPager.loop, Option.some.injEq] at h
    subst h
    exact ⟨rfl, rfl, fun v hv => Or.inl hv⟩
  | cons i rest ih =>
    intro victim oldest ft ps r h
    rw [WorkingSetPager.loop] at h
    split at h
    · cases h
    · simp only at h
      split at h
      · cases h
      · rename_i frame hfr
        split at h
        · cases h
        · rename_i pte hpte
          split at h
          · split at h
            · simp only [Option.some.injEq] at h
              subst h
              exact ⟨rfl, rfl, get_lt hfr⟩
            · split at h
              · have := ih _ _ _ _ _ h
                cases r with
                | returned v ft1 ps1 => exact this
                | finished v ft1 ps1 =>
                  obtain ⟨h1, h2, h3⟩ := this
                  refine ⟨h1, h2, fun w hw => ?_⟩
                  rcases h3 w hw with h4 | h4
                  · simp only [Option.some.injEq] at h4
                    right
                    rw [← h4]
                    exact get_lt hfr
                  · exact Or.inr h4
              · exact ih _ _ _ _ _ h
          · have hk : (ft.set ((hand + i) % n)
                { frame with last_reference := ic }).map Frame.key
                = ft.map Frame.key := frames_key_set hfr rfl
            have hu : (set_pte ps frame.pid.toNat frame.vpage.toNat
              { pte with referenced := false }).map Process.unref = ps.map Process.unref :=
            unref_set_pte hpte rfl
            have := ih _ _ _ _ _ h
            cases r with
            | returned v ft1 ps1 =>
              obtain ⟨h1, h2, h3⟩ := this
              exact ⟨h1.trans hu, h2.trans hk, by simpa using h3⟩
            | finished v ft1 ps1 =>
              obtain ⟨h1, h2, h3⟩ := this
              refine ⟨h1.trans hu, h2.trans hk, fun w hw => ?_⟩
              rcases h3 w hw with h4 | h4
              · exact Or.inl h4
              · right
                simpa using h4

theorem WorkingSetPager.ws_select_rel {hand : Nat} {tau : Int} {n : Nat} {s s1 : State}
    {idx : Nat} (h : WorkingSetPager.select_victim_frame hand tau n s = some (idx, s1)) :
    PagerRel s s1 ∧ idx < s.frame_table.length := by
  unfold WorkingSetPager.select_victim_frame at h
  split at h
  · cases h
  · rename_i v ft1 ps1 hl
    simp only [Option.some.injEq, Prod.mk.injEq] at h
    obtain ⟨rfl, rfl⟩ := h
    obtain ⟨hp, hf, hv⟩ := WorkingSetPager.ws_loop_rel _ _ _ _ _ _ _ _ _ _ hl
    exact ⟨⟨hp, hf, rfl, rfl, rfl, rfl, rfl, rfl, rfl⟩, hv⟩
  · rename_i v ft1 ps1 hl
    simp only at h
    split at h
    · cases h
    · rename_i hc
      simp only [Option.some.injEq, Prod.mk.injEq] at h
      obtain ⟨rfl, rfl⟩ := h
      obtain ⟨hp, hf, hv⟩ := WorkingSetPager.ws_loop_rel _ _ _ _ _ _ _ _ _ _ hl
      refine ⟨⟨hp, hf, rfl, rfl, rfl, rfl, rfl, rfl, rfl⟩, ?_⟩
      rw [← frames_key_length hf]
      simp only [not_or, not_le] at hc
      exact hc.2

theorem ESCNRUPager.esc_loop_rel (hand n : Nat) (reset : Bool) (ft : List Frame) :
    ∀ (l : List Nat) (lowest : Nat) (cv : List (Option Nat)) (ps : List Process)
      (r : Option Nat × Nat × List (Option Nat) × List Process),
      ESCNRUPager.loop hand n reset ft l lowest cv ps = some r →
        r.2.2.2.map Process.unref = ps.map Process.unref := by
  intro l
  induction l with
  | nil =>
    intro lowest cv ps r h
    simp only [ESCNRUPager.loop, Option.some.injEq] at h
    subst h
    rfl
  | cons i rest ih =>
    intro lowest cv ps r h
    rw [ESCNRUPager.loop] at h
    split at h
    · cases h
    · simp only at h
      split at h
      · cases h
      · rename_i frame hfr
        split at h
        · cases h
        · rename_i pte hpte
          split at h
          · cases h
          · rename_i slot hslot
            have hu : (if reset = true then
                set_pte ps frame.pid.toNat frame.vpage.toNat { pte with referenced := false }
                else ps).map Process.unref = ps.map Process.unref := by
              split
              · exact unref_set_pte hpte rfl
              · rfl
            split at h
            · simp only [Option.some.injEq] at h
              subst h
              exact hu
            · exact (ih _ _ _ _ h).trans hu

theorem ESCNRUPager.esc_select_rel {hand : Nat} {t : Int} {n : Nat} {s s1 : State}
    {idx : Nat} (h : ESCNRUPager.select_victim_frame hand t n s = some (idx, s1)) :
    PagerRel s s1 ∧ idx < s.frame_table.length := by
  unfold ESCNRUPager.select_victim_frame at h
  simp only at h
  split at h
  · cases h
  · rename_i v lo cv ps1 hl
    split at h
    · cases h
    · split at h
      · cases h
      · rename_i hc
        simp only [Option.some.injEq, Prod.mk.injEq] at h
        obtain ⟨rfl, rfl⟩ := h
        have hp := ESCNRUPager.esc_loop_rel _ _ _ _ _ _ _ _ _ hl
        simp only [not_or, not_le] at hc
        exact ⟨⟨hp, rfl, rfl, rfl, rfl, rfl, rfl, rfl, rfl⟩, hc.2⟩

theorem select_victim_frame_rel {s s1 : State} {idx : Nat}
    (h : select_victim_frame s = some (idx, s1)) :
    PagerRel s s1 ∧ idx < s.frame_table.length := by
  unfold select_victim_frame at h
  split at h
  · exact FIFOPager.fifo_select_rel h
  · exact RandomPager.random_select_rel h
  · exact ClockPager.clock_select_rel h
  · exact AgingPager.aging_select_rel h
  · exact WorkingSetPager.ws_select_rel h
  · exact ESCNRUPager.esc_select_rel h

/-! ## The pagers return a frame -/

theorem pte_at_set_pte_int {ps : List Process} {pid vpage : Int} {x : PTE}
    (hx : pte_at ps pid vpage = some x) (y : PTE) (a b : Int) :
    pte_at (set_pte ps pid.toNat vpage.toNat y) a b =
      if a = pid ∧ b = vpage then some y else pte_at ps a b := by
  obtain ⟨hp, hv, _⟩ := pte_at_some hx
  have e1 : ((pid.toNat : Nat) : Int) = pid := Int.toNat_of_nonneg hp
  have e2 : ((vpage.toNat : Nat) : Int) = vpage := Int.toNat_of_nonneg hv
  split
  · rename_i hab
    rw [hab.1, hab.2]
    have := pte_at_set_pte_eq ps pid.toNat vpage.toNat y
    rw [e1, e2, hx] at this
    exact this
  · rename_i hab
    apply pte_at_set_pte_ne
    rw [e1, e2]
    exact hab

theorem AllMapped.mapped_set_pte {ft : List Frame} {ps : List Process} (h : AllMapped ft ps)
    {pid vpage : Int} {x : PTE} (hx : pte_at ps pid vpage = some x) (y : PTE) :
    AllMapped ft (set_pte ps pid.toNat vpage.toNat y) := by
  intro i f hf
  rw [pte_at_set_pte_int hx]
  split
  · exact ⟨y, rfl⟩
  · exact h i f hf

theorem AllMapped.set_frame {ft : List Frame} {ps : List Process} (h : AllMapped ft ps)
    {k : Nat} {f g : Frame} (hf : ft[k]? = some f) (hg : g.key = f.key) :
    AllMapped (ft.set k g) ps := by
  intro i f1 hf1
  obtain ⟨f0, hf0, hp, hv⟩ := frames_key_get (frames_key_set hf hg) hf1
  rw [← hp, ← hv]
  exact h i f0 hf0

theorem ClockPager.clock_loop_progress (ft : List Frame) (n : Nat) (hn : n = ft.length)
    (hpos : 0 < n) :
    ∀ (d fuel hand : Nat) (ps : List Process) (insp : Nat), d < fuel → hand < n →
      AllMapped ft ps →
      (∀ j, d ≤ j → j < n → ∀ f, ft[(hand + j) % n]? = some f →
        ∀ x, pte_at ps f.pid f.vpage = some x → x.referenced = false) →
      ∃ r, ClockPager.loop ft n fuel hand ps insp = some r ∧ r.2.1 < n ∧
        r.2.2.2 ≤ insp + d + 1 := by
  intro d
  induction d with
  | zero =>
    intro fuel hand ps insp hfuel hhand hall hclean
    obtain ⟨fuel, rfl⟩ : ∃ k, fuel = k + 1 := ⟨fuel - 1, by omega⟩
    have hlt : hand < ft.length := hn ▸ hhand
    obtain ⟨x, hx⟩ := hall hand ft[hand] (List.getElem?_eq_getElem hlt)
    have hr : x.referenced = false := by
      apply hclean 0 (Nat.le_refl 0) hpos ft[hand] _ x hx
      rw [Nat.add_zero, Nat.mod_eq_of_lt hhand]
      exact List.getElem?_eq_getElem hlt
    rw [ClockPager.loop]
    simp only [List.getElem?_eq_getElem hlt, hx, hr, Nat.ne_of_gt hpos, if_false]
    exact ⟨_, rfl, Nat.mod_lt _ hpos, by simp⟩
  | succ d ih =>
    intro fuel hand ps insp hfuel hhand hall hclean
    obtain ⟨fuel, rfl⟩ : ∃ k, fuel = k + 1 := ⟨fuel - 1, by omega⟩
    have hlt : hand < ft.length := hn ▸ hhand
    obtain ⟨x, hx⟩ := hall hand ft[hand] (List.getElem?_eq_getElem hlt)
    rw [ClockPager.loop]
    simp only [List.getElem?_eq_getElem hlt, hx, Nat.ne_of_gt hpos, if_false]
    cases hr : x.referenced with
    | false =>
      simp only [Bool.false_eq_true, if_false]
      exact ⟨_, rfl, Nat.mod_lt _ hpos, by simp⟩
    | true =>
      simp only [if_true]
      obtain ⟨r, hr1, hr2, hr3⟩ := ih fuel ((hand + 1) % n)
        (set_pte ps ft[hand].pid.toNat ft[hand].vpage.toNat { x with referenced := false })
        (insp + 1) (by omega) (Nat.mod_lt _ hpos) (hall.mapped_set_pte hx _) (by
          intro j hj1 hj2 f hf y hy
          rw [pte_at_set_pte_int hx] at hy
          split at hy
          · simp only [Option.some.injEq] at hy
            rw [← hy]
          · have hmod : ((hand + 1) % n + j) % n = (hand + (j + 1)) % n := by
              rw [Nat.add_mod, Nat.mod_mod, ← Nat.add_mod]
              congr 1
              omega
            rw [hmod] at hf
            by_cases hj3 : j + 1 < n
            · exact hclean (j + 1) (by omega) hj3 f hf y hy
            · have hj4 : j + 1 = n := by omega
              rw [hj4, Nat.add_mod_right, Nat.mod_eq_of_lt hhand,
                List.getElem?_eq_getElem hlt] at hf
              simp only [Option.some.injEq] at hf
              subst hf
              rename_i hne
              exact absurd ⟨rfl, rfl⟩ hne)
      exact ⟨r, hr1, hr2, by omega⟩

theorem ClockPager.clock_select_progress {hand n : Nat} {s : State} (hn : n = s.frame_table.length)
    (hpos : 0 < n) (hhand : hand < n) (hall : AllMapped s.frame_table s.processes) :
    ∃ idx s1, ClockPager.select_victim_frame hand n s = some (idx, s1) ∧
      ∃ hand1, s1.pager = Pager.ClockPager hand1 n ∧ hand1 < n := by
  obtain ⟨r, hr, hr2, _⟩ := ClockPager.clock_loop_progress s.frame_table n hn hpos n (2 * n) hand
    s.processes 0 (by omega) hhand hall (fun j h1 h2 => absurd h1 (by omega))
  obtain ⟨v, h1, ps1, k⟩ := r
  unfold ClockPager.select_victim_frame
  rw [hr]
  exact ⟨_, _, rfl, h1, rfl, hr2⟩

theorem add_mod_inj {n hand i j : Nat} (hi : i < n) (hj : j < n)
    (h : (hand + i) % n = (hand + j) % n) : i = j := by
  have h1 : i % n = j % n := Nat.ModEq.add_left_cancel' hand h
  rwa [Nat.mod_eq_of_lt hi, Nat.mod_eq_of_lt hj] at h1

theorem aging_shift_zero_lt (b : Bool) : aging_shift 0 b < 0xFFFFFFFF := by
  cases b <;> decide

theorem AgingPager.aging_loop_progress (hand n : Nat) (hpos : 0 < n) :
    ∀ (l : List Nat) (victim : Option Nat) (min_age : Nat) (ft : List Frame)
      (ps : List Process), n = ft.length → AllMapped ft ps →
      ∃ r, AgingPager.loop hand n l victim min_age ft ps = some r ∧
        ((victim.isSome = true ∨ (min_age = 0xFFFFFFFF ∧ l.Nodup ∧ (∀ j ∈ l, j < n) ∧
          ∃ i ∈ l, ∃ f, ft[(hand + i) % n]? = some f ∧ f.age = 0)) → r.1.isSome = true) := by
  intro l
  induction l with
  | nil =>
    intro victim min_age ft ps hn hall
    refine ⟨_, rfl, ?_⟩
    rintro (h | ⟨_, _, _, i, hi, _⟩)
    · exact h
    · cases hi
  | cons i rest ih =>
    intro victim min_age ft ps hn hall
    have hlt : (hand + i) % n < ft.length := hn ▸ Nat.mod_lt _ hpos
    have hfr := List.getElem?_eq_getElem hlt
    obtain ⟨x, hx⟩ := hall _ _ hfr
    rw [AgingPager.loop]
    simp only [Nat.ne_of_gt hpos, if_false, hfr, hx]
    have hall1 : AllMapped
        (ft.set ((hand + i) % n)
          { ft[(hand + i) % n] with age := aging_shift ft[(hand + i) % n].age x.referenced })
        (set_pte ps ft[(hand + i) % n].pid.toNat ft[(hand + i) % n].vpage.toNat
          { x with referenced := false }) :=
      (hall.mapped_set_pte hx _).set_frame hfr rfl
    split
    · obtain ⟨r, hr, hr2⟩ := ih (some ((hand + i) % n))
        (aging_shift ft[(hand + i) % n].age x.referenced) _ _ (by simpa using hn) hall1
      exact ⟨r, hr, fun _ => hr2 (Or.inl rfl)⟩
    · rename_i hnlt
      obtain ⟨r, hr, hr2⟩ := ih victim min_age _ _ (by simpa using hn) hall1
      refine ⟨r, hr, fun hc => hr2 ?_⟩
      rcases hc with hc | ⟨hm, hnd, hall2, k, hk, f, hf, ha⟩
      · exact Or.inl hc
      · right
        have hnd' := List.nodup_cons.1 hnd
        rcases List.mem_cons.1 hk with rfl | hk'
        · exfalso
          rw [hfr] at hf
          simp only [Option.some.injEq] at hf
          rw [hf, ha, hm] at hnlt
          exact hnlt (aging_shift_zero_lt _)
        · refine ⟨hm, hnd'.2, fun j hj => hall2 j (List.mem_cons_of_mem _ hj), k, hk', f, ?_, ha⟩
          rw [List.getElem?_set_ne]
          · exact hf
          · intro he
            have := add_mod_inj (hall2 i (List.mem_cons_self _ _))
              (hall2 k (List.mem_cons_of_mem _ hk')) he
            rw [this] at hnd'
            exact hnd'.1 hk'

theorem AgingPager.aging_select_progress (hand : Nat) {n : Nat} {s : State} (hn : n = s.frame_table.length)
    (hpos : 0 < n) (hall : AllMapped s.frame_table s.processes)
    (hage : AgeZero s.frame_table) :
    ∃ idx s1, AgingPager.select_victim_frame hand n s = some (idx, s1) ∧
      ∃ hand1, s1.pager = Pager.AgingPager hand1 n ∧ hand1 < n := by
  obtain ⟨r, hr, hr2⟩ := AgingPager.aging_loop_progress hand n hpos (List.range n) none 0xFFFFFFFF
    s.frame_table s.processes hn hall
  obtain ⟨k, f, hf, ha⟩ := hage
  have hk : k < n := hn ▸ get_lt hf
  have hsome : r.1.isSome = true := by
    apply hr2
    right
    refine ⟨rfl, List.nodup_range n, fun j hj => List.mem_range.1 hj,
      (k + n - hand % n) % n, List.mem_range.2 (Nat.mod_lt _ hpos), f, ?_, ha⟩
    have hh : hand % n < n := Nat.mod_lt _ hpos
    have : (hand + (k + n - hand % n) % n) % n = k := by
      rw [Nat.add_mod_mod]
      have e : hand + (k + n - hand % n) = n * (hand / n) + (k + n) := by
        have := Nat.div_add_mod hand n
        omega
      rw [e, Nat.mul_add_mod, Nat.add_mod_right, Nat.mod_eq_of_lt hk]
    rw [this]
    exact hf
  obtain ⟨v, ma, ft1, ps1⟩ := r
  cases v with
  | none => cases hsome
  | some v =>
    unfold AgingPager.select_victim_frame
    rw [hr]
    simp only [Nat.ne_of_gt hpos, if_false]
    exact ⟨_, _, rfl, _, rfl, Nat.mod_lt _ hpos⟩

theorem WorkingSetPager.ws_loop_progress (hand : Nat) (tau : Int) (n ic : Nat) (hpos : 0 < n) :
    ∀ (l : List Nat) (victim : Option Nat) (oldest : Int) (ft : List Frame)
      (ps : List Process), n = ft.length → AllMapped ft ps →
      ∃ r, WorkingSetPager.loop hand tau n ic l victim oldest ft ps = some r := by
  intro l
  induction l with
  | nil =>
    intro victim oldest ft ps _ _
    exact ⟨_, rfl⟩
  | cons i rest ih =>
    intro victim oldest ft ps hn hall
    have hlt : (hand + i) % n < ft.length := hn ▸ Nat.mod_lt _ hpos
    have hfr := List.getElem?_eq_getElem hlt
    obtain ⟨x, hx⟩ := hall _ _ hfr
    rw [WorkingSetPager.loop]
    simp only [Nat.ne_of_gt hpos, if_false, hfr, hx]
    split
    · split
      · exact ⟨_, rfl⟩
      · split
        · exact ih _ _ _ _ hn hall
        · exact ih _ _ _ _ hn hall
    · exact ih _ _ _ _ (by simpa using hn) ((hall.mapped_set_pte hx _).set_frame hfr rfl)

theorem WorkingSetPager.ws_select_progress {hand : Nat} (tau : Int) {n : Nat} {s : State}
    (hn : n = s.frame_table.length) (hpos : 0 < n) (hhand : hand < n)
    (hall : AllMapped s.frame_table s.processes) :
    ∃ idx s1, WorkingSetPager.select_victim_frame hand tau n s = some (idx, s1) ∧
      ∃ hand1, s1.pager = Pager.WorkingSetPager hand1 tau n ∧ hand1 < n := by
  obtain ⟨r, hr⟩ := WorkingSetPager.ws_loop_progress hand tau n s.inst_count hpos (List.range n)
    none 2147483647 s.frame_table s.processes hn hall
  have hrel := WorkingSetPager.ws_loop_rel _ _ _ _ _ _ _ _ _ _ hr
  unfold WorkingSetPager.select_victim_frame
  rw [hr]
  cases r with
  | returned v ft1 ps1 => exact ⟨_, _, rfl, _, rfl, Nat.mod_lt _ hpos⟩
  | finished v ft1 ps1 =>
    obtain ⟨_, hf, hv⟩ := hrel
    have hlen : ft1.length = n := by rw [frames_key_length hf, hn]
    cases v with
    | none =>
      have hlt : ¬ ft1.length ≤ hand := by omega
      simp only [Nat.ne_of_gt hpos, false_or, hlt, if_false]
      exact ⟨_, _, rfl, _, rfl, Nat.mod_lt _ hpos⟩
    | some w =>
      have hlt : ¬ ft1.length ≤ w := by
        rcases hv w rfl with h | h
        · cases h
        · omega
      simp only [Nat.ne_of_gt hpos, false_or, hlt, if_false]
      exact ⟨_, _, rfl, _, rfl, Nat.mod_lt _ hpos⟩

theorem class_of_lt (x : PTE) : class_of x < 4 := by
  unfold class_of
  cases x.referenced <;> cases x.modified <;> decide

theorem ESCGood.step {len lowest : Nat} {cv : List (Option Nat)} (h : ESCGood len lowest cv)
    {c idx : Nat} (hc : c < 4) (hidx : idx < len) :
    ∃ slot, cv[c]? = some slot ∧
      ESCGood len (if slot = none then min lowest c else lowest)
        (if slot = none then cv.set c (some idx) else cv) ∧
      (if slot = none then min lowest c else lowest) < 4 := by
  obtain ⟨h1, h2, h3⟩ := h
  have hlt : c < cv.length := by omega
  refine ⟨cv[c], List.getElem?_eq_getElem hlt, ?_⟩
  cases hs : cv[c] with
  | none =>
    simp only [if_true]
    refine ⟨⟨by simpa using h1, ?_, ?_⟩, by omega⟩
    · intro c' v hv
      by_cases hcc : c = c'
      · subst hcc
        rw [List.getElem?_set, if_pos rfl, if_pos hlt] at hv
        simp only [Option.some.injEq] at hv
        subst hv
        exact ⟨Nat.min_le_right _ _, hidx⟩
      · rw [List.getElem?_set_ne hcc] at hv
        have := h2 c' v hv
        exact ⟨Nat.le_trans (Nat.min_le_left _ _) this.1, this.2⟩
    · intro _
      by_cases hm : lowest ≤ c
      · by_cases he : lowest = c
        · subst he
          refine ⟨idx, ?_⟩
          rw [Nat.min_self, List.getElem?_set, if_pos rfl, if_pos hlt]
        · obtain ⟨v, hv⟩ := h3 (by omega)
          refine ⟨v, ?_⟩
          rw [Nat.min_eq_left hm, List.getElem?_set_ne (Ne.symm he)]
          exact hv
      · refine ⟨idx, ?_⟩
        rw [Nat.min_eq_right (by omega), List.getElem?_set, if_pos rfl, if_pos hlt]
  | some w =>
    simp only [reduceCtorEq, if_false]
    have hw : cv[c]? = some (some w) := by rw [List.getElem?_eq_getElem hlt, hs]
    have := h2 c w hw
    exact ⟨⟨h1, h2, h3⟩, by omega⟩

theorem ESCNRUPager.esc_loop_progress (hand n : Nat) (reset : Bool) (ft : List Frame)
    (hn : n = ft.length) (hpos : 0 < n) :
    ∀ (l : List Nat) (lowest : Nat) (cv : List (Option Nat)) (ps : List Process),
      ESCGood ft.length lowest cv → AllMapped ft ps →
      ∃ r, ESCNRUPager.loop hand n reset ft l lowest cv ps = some r ∧
        (∀ v, r.1 = some v → v < ft.length) ∧ ESCGood ft.length r.2.1 r.2.2.1 ∧
        ((lowest < 4 ∨ l ≠ []) → r.1 = none → r.2.1 < 4) := by
  intro l
  induction l with
  | nil =>
    intro lowest cv ps hg _
    refine ⟨_, rfl, fun v hv => (by cases hv), hg, fun h _ => ?_⟩
    rcases h with h | h
    · exact h
    · exact absurd rfl h
  | cons i rest ih =>
    intro lowest cv ps hg hall
    have hlt : (hand + i) % n < ft.length := hn ▸ Nat.mod_lt _ hpos
    have hfr := List.getElem?_eq_getElem hlt
    obtain ⟨x, hx⟩ := hall _ _ hfr
    obtain ⟨slot, hslot, hg1, hlow⟩ := hg.step (class_of_lt x) hlt
    rw [ESCNRUPager.loop]
    simp only [Nat.ne_of_gt hpos, if_false, hfr, hx, hslot]
    split
    · exact ⟨_, rfl, fun v hv => (by
        simp only [Option.some.injEq] at hv
        rw [← hv]
        exact hlt), hg1, fun _ h => (by cases h)⟩
    · have hall1 : AllMapped ft (if reset = true then
          set_pte ps ft[(hand + i) % n].pid.toNat ft[(hand + i) % n].vpage.toNat
            { x with referenced := false } else ps) := by
        split
        · exact hall.mapped_set_pte hx _
        · exact hall
      obtain ⟨r, hr, hr1, hr2, hr3⟩ := ih _ _ _ hg1 hall1
      exact ⟨r, hr, hr1, hr2, fun _ hnone => hr3 (Or.inl hlow) hnone⟩

theorem ESCNRUPager.esc_select_progress (hand : Nat) (t : Int) {n : Nat} {s : State}
    (hn : n = s.frame_table.length) (hpos : 0 < n)
    (hall : AllMapped s.frame_table s.processes) :
    ∃ idx s1, ESCNRUPager.select_victim_frame hand t n s = some (idx, s1) ∧
      ∃ hand1 t1, s1.pager = Pager.ESCNRUPager hand1 t1 n ∧ hand1 < n := by
  have hg0 : ESCGood s.frame_table.length 4 [none, none, none, none] := by
    refine ⟨rfl, fun c v hv => ?_, fun h => absurd h (by omega)⟩
    exfalso
    match c, hv with
    | 0, hv => simp at hv
    | 1, hv => simp at hv
    | 2, hv => simp at hv
    | 3, hv => simp at hv
    | k + 4, hv => simp at hv
  obtain ⟨r, hr, hr1, hr2, hr3⟩ := ESCNRUPager.esc_loop_progress hand n
    (decide (to_size_t ((s.inst_count : Int) - t) ≥ 48)) s.frame_table hn hpos (List.range n)
    4 [none, none, none, none] s.processes hg0 hall
  have hne : List.range n ≠ [] := by
    intro h
    have := congrArg List.length h
    simp at this
    omega
  obtain ⟨v, lo, cv, ps1⟩ := r
  unfold ESCNRUPager.select_victim_frame
  simp only [hr]
  cases v with
  | some v =>
    have hv := hr1 v rfl
    simp only [Nat.ne_of_gt hpos, false_or, Nat.not_le.2 hv, if_false]
    exact ⟨_, _, rfl, _, _, rfl, Nat.mod_lt _ hpos⟩
  | none =>
    have hlo := hr3 (Or.inr hne) rfl
    obtain ⟨w, hw⟩ := hr2.2.2 hlo
    have hwl := (hr2.2.1 _ _ hw).2
    simp only at hw hwl
    simp only [hw, Nat.ne_of_gt hpos, false_or, Nat.not_le.2 hwl, if_false]
    exact ⟨_, _, rfl, _, _, rfl, Nat.mod_lt _ hpos⟩

theorem RandomPager.random_select_progress {n : Nat} {s : State} (hn : n = s.frame_table.length)
    (hpos : 0 < n) (hofs : s.ofs < s.randvals.length) (hnn : ∀ r ∈ s.randvals, 0 ≤ r) :
    ∃ idx s1, RandomPager.select_victim_frame n s = some (idx, s1) ∧
      s1.pager = s.pager ∧ s1.ofs < s1.randvals.length ∧ s1.randvals = s.randvals := by
  have hr := List.getElem?_eq_getElem hofs
  have h0 : 0 ≤ s.randvals[s.ofs] := hnn _ (List.getElem_mem _)
  have hn0 : (n : Int) ≠ 0 := by omega
  have h1 : 0 ≤ Int.tmod s.randvals[s.ofs] n := Int.tmod_nonneg _ h0
  have h2 : Int.tmod s.randvals[s.ofs] n < n := Int.tmod_lt_of_pos _ (by omega)
  unfold RandomPager.select_victim_frame myrandom
  simp only [hr, hn0, if_false]
  have hc : 0 ≤ 1 + Int.tmod s.randvals[s.ofs] n - 1 ∧
      (1 + Int.tmod s.randvals[s.ofs] n - 1).toNat < s.frame_table.length := by
    constructor
    · omega
    · rw [← hn]
      omega
  rw [if_pos hc]
  exact ⟨_, _, rfl, rfl, Nat.mod_lt _ (by omega), rfl⟩

theorem select_victim_frame_progress {s : State} (hpos : 0 < s.frame_table.length)
    (hp : PagerOK s) (hall : AllMapped s.frame_table s.processes)
    (hage : AgeZero s.frame_table) :
    ∃ idx s1, select_victim_frame s = some (idx, s1) ∧ PagerOK s1 := by
  unfold select_victim_frame
  cases hpg : s.pager with
  | FIFOPager hand n =>
    obtain ⟨hn, hh⟩ : n = s.frame_table.length ∧ hand < n := by simpa [PagerOK, hpg] using hp
    simp only
    unfold FIFOPager.select_victim_frame
    rw [if_pos ⟨hn ▸ hh, by omega⟩]
    refine ⟨_, _, rfl, ?_⟩
    simp only [PagerOK]
    exact ⟨hn, Nat.mod_lt _ (by omega)⟩
  | RandomPager n =>
    obtain ⟨hn, ho, hnn⟩ : n = s.frame_table.length ∧ s.ofs < s.randvals.length ∧
        ∀ r ∈ s.randvals, 0 ≤ r := by simpa [PagerOK, hpg] using hp
    simp only
    obtain ⟨idx, s1, h1, h2, h3, h4⟩ := RandomPager.random_select_progress hn (by omega) ho hnn
    refine ⟨idx, s1, h1, ?_⟩
    have hl := frames_key_length (RandomPager.random_select_rel h1).1.frames
    unfold PagerOK
    rw [h2, hpg]
    simp only
    exact ⟨by rw [hl]; exact hn, h3, by rw [h4]; exact hnn⟩
  | ClockPager hand n =>
    obtain ⟨hn, hh⟩ : n = s.frame_table.length ∧ hand < n := by simpa [PagerOK, hpg] using hp
    simp only
    obtain ⟨idx, s1, h1, hand1, h2, h3⟩ := ClockPager.clock_select_progress hn (by omega) hh hall
    refine ⟨idx, s1, h1, ?_⟩
    have hl := frames_key_length (ClockPager.clock_select_rel h1).1.frames
    unfold PagerOK
    rw [h2]
    simp only
    exact ⟨by rw [hl]; exact hn, h3⟩
  | AgingPager hand n =>
    obtain ⟨hn, hh⟩ : n = s.frame_table.length ∧ hand < n := by simpa [PagerOK, hpg] using hp
    simp only
    obtain ⟨idx, s1, h1, hand1, h2, h3⟩ := AgingPager.aging_select_progress hand hn
      (by omega) hall hage
    refine ⟨idx, s1, h1, ?_⟩
    have hl := frames_key_length (AgingPager.aging_select_rel h1).1.frames
    unfold PagerOK
    rw [h2]
    simp only
    exact ⟨by rw [hl]; exact hn, h3⟩
  | WorkingSetPager hand tau n =>
    obtain ⟨hn, hh⟩ : n = s.frame_table.length ∧ hand < n := by simpa [PagerOK, hpg] using hp
    simp only
    obtain ⟨idx, s1, h1, hand1, h2, h3⟩ := WorkingSetPager.ws_select_progress tau hn
      (by omega) hh hall
    refine ⟨idx, s1, h1, ?_⟩
    have hl := frames_key_length (WorkingSetPager.ws_select_rel h1).1.frames
    unfold PagerOK
    rw [h2]
    simp only
    exact ⟨by rw [hl]; exact hn, h3⟩
  | ESCNRUPager hand t n =>
    obtain ⟨hn, hh⟩ : n = s.frame_table.length ∧ hand < n := by simpa [PagerOK, hpg] using hp
    simp only
    obtain ⟨idx, s1, h1, hand1, t1, h2, h3⟩ := ESCNRUPager.esc_select_progress hand
      t hn (by omega) hall
    refine ⟨idx, s1, h1, ?_⟩
    have hl := frames_key_length (ESCNRUPager.esc_select_rel h1).1.frames
    unfold PagerOK
    rw [h2]
    simp only
    exact ⟨by rw [hl]; exact hn, h3⟩

/-! ## The steps of a page fault -/

theorem pte_at_set_pte_cur {ps : List Process} {p : Nat} {vpage : Int} {x : PTE}
    (hx : pte_at ps (p : Int) vpage = some x) (y : PTE) (a b : Int) :
    pte_at (set_pte ps p vpage.toNat y) a b =
      if a = (p : Int) ∧ b = vpage then some y else pte_at ps a b := by
  have := pte_at_set_pte_int hx y a b
  simpa using this

theorem pte_at_counters (ps : List Process) (u m i o z sv sp fi fo : Process → Nat)
    (p : Nat) (pid vpage : Int) :
    pte_at (ps.modify (fun pr =>
      { id := pr.id, vmas := pr.vmas, page_table := pr.page_table, unmaps := u pr,
        maps := m pr, ins := i pr, outs := o pr, zeros := z pr, segv := sv pr,
        segprot := sp pr, fins := fi pr, fouts := fo pr }) p) pid vpage =
      pte_at ps pid vpage := by
  apply pte_at_modify
  intro _
  rfl

theorem hdr_counters (ps : List Process) (u m i o z sv sp fi fo : Process → Nat)
    (p q : Nat) :
    Option.map Process.hdr (ps.modify (fun pr =>
      { id := pr.id, vmas := pr.vmas, page_table := pr.page_table, unmaps := u pr,
        maps := m pr, ins := i pr, outs := o pr, zeros := z pr, segv := sv pr,
        segprot := sp pr, fins := fi pr, fouts := fo pr }) p)[q]? =
      Option.map Process.hdr ps[q]? := by
  apply get_modify_hdr
  intro _
  rfl

theorem KeyEq.counters (ps : List Process) (u m i o z sv sp fi fo : Process → Nat)
    (p : Nat) :
    KeyEq ps (ps.modify (fun pr =>
      { id := pr.id, vmas := pr.vmas, page_table := pr.page_table, unmaps := u pr,
        maps := m pr, ins := i pr, outs := o pr, zeros := z pr, segv := sv pr,
        segprot := sp pr, fins := fi pr, fouts := fo pr }) p) := by
  apply KeyEq.modify
  · intro _
    rfl
  · intro _
    rfl

theorem unmap_old_owner_spec {s : State} {f : Frame} {x : PTE}
    (hx : pte_at s.processes f.pid f.vpage = some x) (hpid : f.pid ≠ -1) :
    ∃ s2 x1, unmap_old_owner s f = some s2 ∧ SameEnv s s2 ∧
      (∀ q : Nat, Option.map Process.hdr s2.processes[q]? =
        Option.map Process.hdr s.processes[q]?) ∧
      (∀ a b, pte_at s2.processes a b =
        if a = f.pid ∧ b = f.vpage then some x1 else pte_at s.processes a b) ∧
      x1.present = false := by
  obtain ⟨hp, hv, pr, hpr, hxv⟩ := pte_at_some hx
  unfold unmap_old_owner
  rw [if_pos hpid]
  simp only [hpr, hx]
  have hx1 : pte_at (s.processes.modify (fun p => { p with unmaps := p.unmaps + 1 })
      f.pid.toNat) f.pid f.vpage = some x := by
    rw [pte_at_counters]
    exact hx
  split
  · split
    · refine ⟨_, { x with present := false }, rfl, ⟨rfl, rfl, rfl, rfl, rfl, rfl, rfl, rfl, rfl⟩,
        ?_, ?_, rfl⟩
      · intro q
        simp only
        rw [hdr_counters, get_set_pte_hdr, hdr_counters]
      · intro a b
        simp only
        rw [pte_at_counters, pte_at_set_pte_int hx1,
          pte_at_counters]
    · have hx2 : pte_at ((set_pte (s.processes.modify
          (fun p => { p with unmaps := p.unmaps + 1 }) f.pid.toNat) f.pid.toNat f.vpage.toNat
          { x with present := false }).modify (fun p => { p with outs := p.outs + 1 })
          f.pid.toNat) f.pid f.vpage = some { x with present := false } := by
        rw [pte_at_counters, pte_at_set_pte_int hx1, if_pos ⟨rfl, rfl⟩]
      refine ⟨_, { x with present := false, pagedout := true }, rfl,
        ⟨rfl, rfl, rfl, rfl, rfl, rfl, rfl, rfl, rfl⟩, ?_, ?_, rfl⟩
      · intro q
        simp only
        rw [get_set_pte_hdr, hdr_counters, get_set_pte_hdr, hdr_counters]
      · intro a b
        simp only
        rw [pte_at_set_pte_int hx2, pte_at_counters,
          pte_at_set_pte_int hx1, pte_at_counters]
        split <;> rfl
  · refine ⟨_, { x with present := false }, rfl, ⟨rfl, rfl, rfl, rfl, rfl, rfl, rfl, rfl, rfl⟩,
      ?_, ?_, rfl⟩
    · intro q
      simp only
      rw [get_set_pte_hdr, hdr_counters]
    · intro a b
      simp only
      rw [pte_at_set_pte_int hx1, pte_at_counters]

theorem unmap_old_owner_free {s : State} {f : Frame} (hpid : f.pid = -1) :
    unmap_old_owner s f = some s := by
  unfold unmap_old_owner
  rw [if_neg (by simp [hpid])]

theorem map_page_spec {s : State} {idx : Nat} {vpage : Int} (vma : VMA) {cp : Process}
    {x : PTE} {f : Frame} (hcp : s.processes[s.current_process]? = some cp)
    (hx : pte_at s.processes s.current_process vpage = some x)
    (hf : s.frame_table[idx]? = some f) :
    ∃ s3 x1, map_page s idx vpage vma = some s3 ∧
      s3.frame_table = s.frame_table.set idx
        { last_reference := s.inst_count, age := 0, pid := cp.id, vpage := vpage } ∧
      s3.free_list = s.free_list ∧ s3.pager = s.pager ∧ s3.randvals = s.randvals ∧
      s3.ofs = s.ofs ∧ s3.current_process = s.current_process ∧
      s3.inst_count = s.inst_count ∧
      (∀ q : Nat, Option.map Process.hdr s3.processes[q]? =
        Option.map Process.hdr s.processes[q]?) ∧
      (∀ a b, pte_at s3.processes a b =
        if a = (s.current_process : Int) ∧ b = vpage then some x1
        else pte_at s.processes a b) ∧
      x1 = { x with frame := idx % 128, present := true, referenced := false,
                    modified := false } := by
  unfold map_page
  simp only [hcp, hx, hf]
  have hx1 : ∀ u m i o z sv sp fi fo : Process → Nat,
      pte_at (s.processes.modify (fun pr =>
        { id := pr.id, vmas := pr.vmas, page_table := pr.page_table, unmaps := u pr,
          maps := m pr, ins := i pr, outs := o pr, zeros := z pr, segv := sv pr,
          segprot := sp pr, fins := fi pr, fouts := fo pr }) s.current_process)
        s.current_process vpage = some x := by
    intro u m i o z sv sp fi fo
    rw [pte_at_counters]
    exact hx
  split
  · refine ⟨_, _, rfl, rfl, rfl, rfl, rfl, rfl, rfl, rfl, ?_, ?_, rfl⟩
    · intro q
      simp only
      rw [get_set_pte_hdr, hdr_counters]
    · intro a b
      simp only
      rw [pte_at_set_pte_cur (hx1 _ _ _ _ _ _ _ _ _), pte_at_counters]
  · split
    · refine ⟨_, _, rfl, rfl, rfl, rfl, rfl, rfl, rfl, rfl, ?_, ?_, rfl⟩
      · intro q
        simp only
        rw [get_set_pte_hdr, hdr_counters]
      · intro a b
        simp only
        rw [pte_at_set_pte_cur (hx1 _ _ _ _ _ _ _ _ _), pte_at_counters]
    · refine ⟨_, _, rfl, rfl, rfl, rfl, rfl, rfl, rfl, rfl, ?_, ?_, rfl⟩
      · intro q
        simp only
        rw [get_set_pte_hdr, hdr_counters]
      · intro a b
        simp only
        rw [pte_at_set_pte_cur (hx1 _ _ _ _ _ _ _ _ _), pte_at_counters]

theorem update_bits_spec {s : State} (operation : Char) {vpage : Int} (vma : VMA) {x : PTE}
    (hx : pte_at s.processes s.current_process vpage = some x)
    (hf : x.frame < s.frame_table.length) :
    ∃ s1, update_bits s operation vpage (some vma) = some s1 ∧ SameEnv s s1 ∧
      KeyEq s.processes s1.processes := by
  obtain ⟨_, hv, _⟩ := pte_at_some hx
  have hx' : pte_at s.processes (s.current_process : Int) ((vpage.toNat : Nat) : Int)
      = some x := by
    rw [Int.toNat_of_nonneg hv]
    exact hx
  have hk1 : ∀ y : PTE, y.key = x.key →
      KeyEq s.processes (set_pte s.processes s.current_process vpage.toNat y) :=
    fun y hy => KeyEq.key_set_pte _ _ _ x y hx' hy
  have hk2 : ∀ y : PTE, y.key = x.key →
      KeyEq s.processes (set_pte (s.processes.modify
        (fun p => { p with segprot := p.segprot + 1 }) s.current_process)
        s.current_process vpage.toNat y) := by
    intro y hy
    refine (KeyEq.counters s.processes _ _ _ _ _ _ _ _ _ s.current_process).trans
      (KeyEq.key_set_pte _ _ _ x _ ?_ hy)
    rw [pte_at_counters]
    exact hx'
  unfold update_bits
  simp only [hx, Nat.not_le.2 hf, if_false]
  by_cases hw : operation = 'w'
  · rw [if_pos hw]
    cases hvw : vma.write_protected
    · simp only [Bool.false_eq_true, if_false]
      cases hxw : x.write_protect
      · simp only [Bool.false_eq_true, if_false]
        exact ⟨_, rfl, ⟨rfl, rfl, rfl, rfl, rfl, rfl, rfl, rfl, rfl⟩, hk1 _ rfl⟩
      · simp only [if_true]
        exact ⟨_, rfl, ⟨rfl, rfl, rfl, rfl, rfl, rfl, rfl, rfl, rfl⟩, hk2 _ rfl⟩
    · simp only [if_true]
      exact ⟨_, rfl, ⟨rfl, rfl, rfl, rfl, rfl, rfl, rfl, rfl, rfl⟩, hk2 _ rfl⟩
  · rw [if_neg hw]
    exact ⟨_, rfl, ⟨rfl, rfl, rfl, rfl, rfl, rfl, rfl, rfl, rfl⟩, hk1 _ rfl⟩

/-! ## Preservation of the invariant: auxiliary facts -/

theorem hdr_get {ps ps1 : List Process}
    (h : ∀ q : Nat, Option.map Process.hdr ps1[q]? = Option.map Process.hdr ps[q]?)
    {p : Nat} {pr1 : Process} (hp : ps1[p]? = some pr1) :
    ∃ pr, ps[p]? = some pr ∧ pr1.hdr = pr.hdr := by
  have := h p
  rw [hp] at this
  cases hq : ps[p]? with
  | none => rw [hq] at this; cases this
  | some pr =>
    rw [hq] at this
    exact ⟨pr, rfl, by simpa using this⟩

theorem hdr_get_rev {ps ps1 : List Process}
    (h : ∀ q : Nat, Option.map Process.hdr ps1[q]? = Option.map Process.hdr ps[q]?)
    {p : Nat} {pr : Process} (hp : ps[p]? = some pr) :
    ∃ pr1, ps1[p]? = some pr1 ∧ pr1.hdr = pr.hdr := by
  have := h p
  rw [hp] at this
  cases hq : ps1[p]? with
  | none => rw [hq] at this; cases this
  | some pr1 =>
    rw [hq] at this
    exact ⟨pr1, rfl, by simpa using this⟩

theorem hdr_length {ps ps1 : List Process}
    (h : ∀ q : Nat, Option.map Process.hdr ps1[q]? = Option.map Process.hdr ps[q]?) :
    ps1.length = ps.length := by
  apply Nat.le_antisymm
  · by_contra hlt
    have hlt : ps.length < ps1.length := Nat.lt_of_not_le hlt
    obtain ⟨pr, hpr, _⟩ := hdr_get h (List.getElem?_eq_getElem hlt)
    have := get_lt hpr
    omega
  · by_contra hlt
    have hlt : ps1.length < ps.length := Nat.lt_of_not_le hlt
    obtain ⟨pr, hpr, _⟩ := hdr_get_rev h (List.getElem?_eq_getElem hlt)
    have := get_lt hpr
    omega

theorem ProcsOK.of_hdr {ps ps1 : List Process} (h : ProcsOK ps)
    (hk : ∀ q : Nat, Option.map Process.hdr ps1[q]? = Option.map Process.hdr ps[q]?) :
    ProcsOK ps1 := by
  intro p pr1 hp
  obtain ⟨pr, hpr, hh⟩ := hdr_get hk hp
  have := h p pr hpr
  simp only [Process.hdr, Prod.mk.injEq] at hh
  rw [hh.1, hh.2.2]
  exact this

theorem PagerOK.pager_congr {s s1 : State} (h : PagerOK s) (hp : s1.pager = s.pager)
    (hl : s1.frame_table.length = s.frame_table.length) (ho : s1.ofs = s.ofs)
    (hr : s1.randvals = s.randvals) : PagerOK s1 := by
  unfold PagerOK at h ⊢
  rw [hp, hl, ho, hr]
  exact h

theorem Inv.inv_congr {s s1 : State} (h : Inv s) (hft : s1.frame_table = s.frame_table)
    (hfl : s1.free_list = s.free_list) (hpg : s1.pager = s.pager)
    (hrv : s1.randvals = s.randvals) (hofs : s1.ofs = s.ofs)
    (hcur : s1.current_process < s1.processes.length)
    (hk : KeyEq s.processes s1.processes) : Inv s1 where
  procs := h.procs.procs_transfer hk
  cur := hcur
  frames_pos := by rw [hft]; exact h.frames_pos
  frames_le := by rw [hft]; exact h.frames_le
  frame_owned := by rw [hft]; exact h.frame_owned.frame_transfer hk rfl
  pte_owned := by rw [hft]; exact h.pte_owned.pte_transfer hk rfl
  covered := h.covered.covered_transfer hk
  free := by rw [hft, hfl]; exact h.free
  pager := h.pager.pager_congr hpg (by rw [hft]) hofs hrv
  age := by rw [hft]; exact h.age

theorem Inv.of_keyeq {s s1 : State} (h : Inv s) (he : SameEnv s s1)
    (hk : KeyEq s.processes s1.processes) : Inv s1 :=
  h.inv_congr he.frame_table he.free_list he.pager he.randvals he.ofs
    (by rw [he.current_process, hk.length]; exact h.cur) hk

theorem rebind_owned {ps ps3 : List Process} {ft : List Frame} {idx : Nat} {f0 g : Frame}
    {cur v : Int} {x3 : PTE} (hfo : FrameOwned ps ft) (hpo : PteOwned ps ft)
    (hf0 : ft[idx]? = some f0)
    (hcur : ∀ x, pte_at ps cur v = some x → x.present = false)
    (hx3 : pte_at ps3 cur v = some x3) (hx3p : x3.present = true) (hx3f : x3.frame = idx)
    (hold : ∀ x1, pte_at ps3 f0.pid f0.vpage = some x1 → ¬ (f0.pid = cur ∧ f0.vpage = v) →
      x1.present = false)
    (hrest : ∀ a b, ¬ (a = cur ∧ b = v) → ¬ (a = f0.pid ∧ b = f0.vpage) →
      pte_at ps3 a b = pte_at ps a b)
    (hg : g.pid = cur ∧ g.vpage = v) :
    FrameOwned ps3 (ft.set idx g) ∧ PteOwned ps3 (ft.set idx g) := by
  have hlt : idx < ft.length := get_lt hf0
  constructor
  · intro i f hf hpid
    by_cases hi : idx = i
    · subst hi
      rw [List.getElem?_set, if_pos rfl, if_pos hlt] at hf
      simp only [Option.some.injEq] at hf
      subst hf
      rw [hg.1, hg.2]
      exact ⟨x3, hx3, hx3p, hx3f⟩
    · rw [List.getElem?_set_ne hi] at hf
      obtain ⟨x, hx, hxp, hxf⟩ := hfo i f hf hpid
      refine ⟨x, ?_, hxp, hxf⟩
      rw [hrest]
      · exact hx
      · rintro ⟨h1, h2⟩
        rw [h1, h2] at hx
        have := hcur x hx
        rw [hxp] at this
        cases this
      · rintro ⟨h1, h2⟩
        obtain ⟨x0, hx0, _, hx0f⟩ := hfo idx f0 hf0 (by rw [← h1]; exact hpid)
        rw [← h1, ← h2, hx] at hx0
        simp only [Option.some.injEq] at hx0
        subst hx0
        exact hi (hx0f.symm.trans hxf)
  · intro a b x hx hxp
    by_cases hab : a = cur ∧ b = v
    · rw [hab.1, hab.2, hx3] at hx
      simp only [Option.some.injEq] at hx
      subst hx
      refine ⟨g, ?_, by rw [hg.1, hab.1], by rw [hg.2, hab.2]⟩
      rw [hx3f, List.getElem?_set, if_pos rfl, if_pos hlt]
    · by_cases hab0 : a = f0.pid ∧ b = f0.vpage
      · rw [hab0.1, hab0.2] at hx
        have := hold x hx (by rw [← hab0.1, ← hab0.2]; exact hab)
        rw [hxp] at this
        cases this
      · rw [hrest a b hab hab0] at hx
        obtain ⟨f, hf, hfp, hfv⟩ := hpo a b x hx hxp
        refine ⟨f, ?_, hfp, hfv⟩
        rw [List.getElem?_set_ne]
        · exact hf
        · intro he
          rw [← he, hf0] at hf
          simp only [Option.some.injEq] at hf
          subst hf
          exact hab0 ⟨hfp.symm, hfv.symm⟩

theorem FreeListOK.fill {idx : Nat} {ft : List Frame} {fl : List Nat} {g : Frame}
    (h : FreeListOK (some idx) ft fl) (hg : g.pid ≠ -1) (hlt : idx < ft.length) :
    FreeListOK none (ft.set idx g) fl := by
  refine ⟨h.1, fun i => ?_⟩
  rw [h.2 i]
  by_cases hi : idx = i
  · subst hi
    rw [List.getElem?_set, if_pos rfl, if_pos hlt]
    simp [hg]
  · rw [List.getElem?_set_ne hi]
    simp only [ne_eq, Option.some.injEq, reduceCtorEq, not_false_eq_true, true_and,
      and_iff_right_iff_imp]
    intro _
    exact fun h => hi h.symm

theorem Inv.all_mapped {s : State} (h : Inv s) (hfree : s.free_list = []) :
    AllMapped s.frame_table s.processes := by
  intro i f hf
  have hpid : f.pid ≠ -1 := by
    intro hp
    have := (h.free.2 i).2 ⟨by simp, f, hf, hp⟩
    rw [hfree] at this
    cases this
  obtain ⟨x, hx, _⟩ := h.frame_owned i f hf hpid
  exact ⟨x, hx⟩

theorem get_frame_spec {s : State} (h : Inv s) :
    ∃ idx s1, get_frame s = some (idx, s1) ∧ InvHole idx s1 ∧
      s1.processes.map Process.unref = s.processes.map Process.unref ∧
      s1.current_process = s.current_process ∧ s1.inst_count = s.inst_count ∧
      s1.cost = s.cost ∧ s1.frame_table.map Frame.key = s.frame_table.map Frame.key := by
  unfold get_frame allocate_frame_from_free_list
  cases hfl : s.free_list with
  | cons i rest =>
    simp only
    have hmem := (h.free.2 i).1 (by rw [hfl]; exact List.mem_cons_self _ _)
    obtain ⟨_, f, hf, hp⟩ := hmem
    have hnd := h.free.1
    rw [hfl] at hnd
    have hnd' := List.nodup_cons.1 hnd
    refine ⟨i, _, rfl, ⟨h.procs, h.cur, get_lt hf, h.frames_le, h.frame_owned, h.pte_owned,
      h.covered, ⟨hnd'.2, fun j => ?_⟩, h.pager⟩, rfl, rfl, rfl, rfl, rfl⟩
    simp only [ne_eq, Option.some.injEq]
    rw [← and_congr_right_iff.2 (fun _ => by simpa using h.free.2 j), hfl]
    simp only [List.mem_cons]
    constructor
    · intro hj
      exact ⟨fun he => hnd'.1 (he ▸ hj), Or.inr hj⟩
    · rintro ⟨hne, rfl | hj⟩
      · exact absurd rfl hne
      · exact hj
  | nil =>
    simp only
    have hall := h.all_mapped hfl
    obtain ⟨idx, s1, hsel, hpg⟩ := select_victim_frame_progress h.frames_pos h.pager hall h.age
    obtain ⟨hrel, hidx⟩ := select_victim_frame_rel hsel
    have hk := KeyEq_of_unref hrel.procs
    have hfree := h.free.free_transfer hrel.frames
    refine ⟨idx, s1, hsel, ⟨h.procs.procs_transfer hk, ?_, ?_, ?_,
      h.frame_owned.frame_transfer hk hrel.frames, h.pte_owned.pte_transfer hk hrel.frames,
      h.covered.covered_transfer hk, ?_, hpg⟩, hrel.procs, hrel.current_process, hrel.inst_count,
      hrel.cost, hrel.frames⟩
    · rw [hrel.current_process, hk.length]
      exact h.cur
    · rw [frames_key_length hrel.frames]
      exact hidx
    · rw [frames_key_length hrel.frames]
      exact h.frames_le
    · rw [hrel.free, hfl]
      refine ⟨List.nodup_nil, fun j => ?_⟩
      have := hfree.2 j
      rw [hfl] at this
      simp only [List.not_mem_nil, false_iff, not_and] at this ⊢
      intro _
      exact this (by simp)

/-! ## A page fault preserves the invariant -/

theorem find_vma_hdr {pr pr1 : Process} (h : pr1.hdr = pr.hdr) (v : Int) :
    find_vma_for_page pr1 v = find_vma_for_page pr v := by
  simp only [Process.hdr, Prod.mk.injEq] at h
  simp only [find_vma_for_page, h.2.1]

theorem fault_rest_inv {s1 : State} {idx : Nat} {vpage : Int} {vma : VMA} {cp : Process}
    {x : PTE} {f0 : Frame} (h : InvHole idx s1)
    (hcp : s1.processes[s1.current_process]? = some cp)
    (hx : pte_at s1.processes s1.current_process vpage = some x) (hxp : x.present = false)
    (hvma : find_vma_for_page cp vpage = some vma) (hf0 : s1.frame_table[idx]? = some f0) :
    ∃ s2 s3, unmap_old_owner s1 f0 = some s2 ∧ map_page s2 idx vpage vma = some s3 ∧
      Inv s3 ∧ s3.current_process = s1.current_process ∧
      s3.processes.length = s1.processes.length ∧
      s3.frame_table.length = s1.frame_table.length ∧
      ∃ x3, pte_at s3.processes s3.current_process vpage = some x3 ∧ x3.frame = idx ∧
        x3.present = true := by
  -- the previous owner is unmapped
  have hne : ¬ (f0.pid = (s1.current_process : Int) ∧ f0.vpage = vpage) := by
    rintro ⟨h1, h2⟩
    have hpid : f0.pid ≠ -1 := by rw [h1]; omega
    obtain ⟨x0, hx0, hx0p, _⟩ := h.frame_owned idx f0 hf0 hpid
    rw [h1, h2, hx] at hx0
    simp only [Option.some.injEq] at hx0
    rw [← hx0, hxp] at hx0p
    cases hx0p
  have hun : ∃ s2, unmap_old_owner s1 f0 = some s2 ∧ SameEnv s1 s2 ∧
      (∀ q : Nat, Option.map Process.hdr s2.processes[q]? =
        Option.map Process.hdr s1.processes[q]?) ∧
      (∀ a b, ¬ (a = f0.pid ∧ b = f0.vpage) →
        pte_at s2.processes a b = pte_at s1.processes a b) ∧
      (∀ x1, pte_at s2.processes f0.pid f0.vpage = some x1 → x1.present = false) := by
    by_cases hpid : f0.pid = -1
    · refine ⟨s1, unmap_old_owner_free hpid, ⟨rfl, rfl, rfl, rfl, rfl, rfl, rfl, rfl, rfl⟩,
        fun _ => rfl, fun _ _ _ => rfl, fun x1 hx1 => ?_⟩
      have := (pte_at_some hx1).1
      omega
    · obtain ⟨x0, hx0, _, _⟩ := h.frame_owned idx f0 hf0 hpid
      obtain ⟨s2, x1, h1, h2, h3, h4, h5⟩ := unmap_old_owner_spec hx0 hpid
      refine ⟨s2, h1, h2, h3, fun a b hab => ?_, fun y hy => ?_⟩
      · rw [h4, if_neg hab]
      · rw [h4, if_pos ⟨rfl, rfl⟩] at hy
        simp only [Option.some.injEq] at hy
        rw [← hy]
        exact h5
  obtain ⟨s2, hs2, henv, hhdr, hother, hold⟩ := hun
  -- the page is mapped
  obtain ⟨cp2, hcp2, hcp2h⟩ := hdr_get_rev hhdr hcp
  have hx2 : pte_at s2.processes s2.current_process vpage = some x := by
    rw [henv.current_process, hother _ _ (fun hh => hne ⟨hh.1.symm, hh.2.symm⟩)]
    exact hx
  have hf2 : s2.frame_table[idx]? = some f0 := by rw [henv.frame_table]; exact hf0
  rw [← henv.current_process] at hcp2
  obtain ⟨s3, x3, hs3, hft, hfl, hpg, hrv, hofs, hcur, _, hhdr3, hpte3, hx3⟩ :=
    map_page_spec vma hcp2 hx2 hf2
  have hidx : idx % 128 = idx := Nat.mod_eq_of_lt (Nat.lt_of_lt_of_le h.idx_lt h.frames_le)
  have hid : cp2.id = (s1.current_process : Int) := by
    have := (h.procs _ cp hcp).1
    simp only [Process.hdr, Prod.mk.injEq] at hcp2h
    rw [hcp2h.1]
    exact this
  have hhdr13 : ∀ q : Nat, Option.map Process.hdr s3.processes[q]? =
      Option.map Process.hdr s1.processes[q]? := fun q => (hhdr3 q).trans (hhdr q)
  have hx3' : pte_at s3.processes (s1.current_process : Int) vpage = some x3 := by
    rw [hpte3, henv.current_process, if_pos ⟨rfl, rfl⟩]
  have hown := @rebind_owned s1.processes s3.processes s1.frame_table idx f0
    { last_reference := s2.inst_count, age := 0, pid := cp2.id, vpage := vpage }
    (s1.current_process : Int) vpage x3 h.frame_owned h.pte_owned hf0
    (fun y hy => by
      rw [hx] at hy
      simp only [Option.some.injEq] at hy
      rw [← hy]
      exact hxp)
    hx3' (by rw [hx3]) (by rw [hx3]; exact hidx)
    (fun x1 hx1 hn => by
      rw [hpte3, henv.current_process, if_neg hn] at hx1
      exact hold x1 hx1)
    (fun a b hab hab0 => by
      rw [hpte3, henv.current_process, if_neg hab]
      exact hother a b hab0)
    ⟨hid, rfl⟩
  have hget : (s1.frame_table.set idx
      { last_reference := s2.inst_count, age := 0, pid := cp2.id, vpage := vpage : Frame })[idx]?
      = some { last_reference := s2.inst_count, age := 0, pid := cp2.id, vpage := vpage } := by
    rw [List.getElem?_set, if_pos rfl, if_pos h.idx_lt]
  refine ⟨s2, s3, hs2, hs3, ?_, by rw [hcur, henv.current_process], hdr_length hhdr13,
    by rw [hft, henv.frame_table, List.length_set], x3, ?_,
    by rw [hx3]; exact hidx, by rw [hx3]⟩
  · refine
      { procs := h.procs.of_hdr hhdr13
        cur := by rw [hcur, henv.current_process, hdr_length hhdr13]; exact h.cur
        frames_pos := by
          rw [hft, henv.frame_table, List.length_set]
          exact Nat.lt_of_le_of_lt (Nat.zero_le _) h.idx_lt
        frames_le := by
          rw [hft, henv.frame_table, List.length_set]
          exact h.frames_le
        frame_owned := by
          rw [hft, henv.frame_table]
          exact hown.1
        pte_owned := by
          rw [hft, henv.frame_table]
          exact hown.2
        covered := ?_
        free := by
          rw [hft, henv.frame_table, hfl, henv.free_list]
          exact h.free.fill (by simp only [hid]; omega) h.idx_lt
        pager := h.pager.pager_congr (hpg.trans henv.pager)
          (by rw [hft, henv.frame_table, List.length_set]) (hofs.trans henv.ofs)
          (hrv.trans henv.randvals)
        age := by
          rw [hft, henv.frame_table]
          exact ⟨idx, _, hget, rfl⟩ }
    intro p pr3 hp3 v y hy hyp
    obtain ⟨pr1, hpr1, hh⟩ := hdr_get hhdr13 hp3
    rw [find_vma_hdr hh]
    have hy3 := pte_at_of_get hp3 hy
    rw [hpte3, henv.current_process] at hy3
    by_cases hab : (p : Int) = (s1.current_process : Int) ∧ (v : Int) = vpage
    · have hp : p = s1.current_process := by omega
      subst hp
      rw [hcp] at hpr1
      simp only [Option.some.injEq] at hpr1
      subst hpr1
      rw [hab.2, hvma]
      rfl
    · rw [if_neg hab] at hy3
      by_cases hab0 : (p : Int) = f0.pid ∧ (v : Int) = f0.vpage
      · rw [hab0.1, hab0.2] at hy3
        have := hold y hy3
        rw [hyp] at this
        cases this
      · rw [hother _ _ hab0] at hy3
        obtain ⟨_, _, pr', hpr', hy'⟩ := pte_at_some hy3
        simp only [Int.toNat_ofNat] at hpr' hy'
        rw [hpr1] at hpr'
        simp only [Option.some.injEq] at hpr'
        subst hpr'
        exact h.covered p pr1 hpr1 v y hy' hyp
  · rw [hcur, henv.current_process]
    exact hx3'

/-! ## The exit of a process preserves the invariant -/

theorem release_owned {ps ps3 : List Process} {ft : List Frame} {cur v : Int}
    (hfo : FrameOwned ps ft) (hpo : PteOwned ps ft)
    (hz : ∀ x3, pte_at ps3 cur v = some x3 → x3.present = false)
    (hrest : ∀ a b, ¬ (a = cur ∧ b = v) → pte_at ps3 a b = pte_at ps a b) :
    ((∀ x, pte_at ps cur v = some x → x.present = false) →
      FrameOwned ps3 ft ∧ PteOwned ps3 ft) ∧
    (∀ x g, pte_at ps cur v = some x → x.present = true → g.pid = -1 →
      FrameOwned ps3 (ft.set x.frame g) ∧ PteOwned ps3 (ft.set x.frame g)) := by
  have hpo3 : ∀ a b y, pte_at ps3 a b = some y → y.present = true →
      ¬ (a = cur ∧ b = v) ∧ pte_at ps a b = some y := by
    intro a b y hy hyp
    have hab : ¬ (a = cur ∧ b = v) := by
      rintro ⟨rfl, rfl⟩
      have := hz y hy
      rw [hyp] at this
      cases this
    exact ⟨hab, by rw [← hrest a b hab]; exact hy⟩
  constructor
  · intro hnp
    constructor
    · intro i f hf hpid
      obtain ⟨x, hx, hxp, hxf⟩ := hfo i f hf hpid
      refine ⟨x, ?_, hxp, hxf⟩
      rw [hrest]
      · exact hx
      · rintro ⟨h1, h2⟩
        rw [h1, h2] at hx
        have := hnp x hx
        rw [hxp] at this
        cases this
    · intro a b y hy hyp
      exact hpo a b y (hpo3 a b y hy hyp).2 hyp
  · intro x g hx hxp hg
    obtain ⟨f0, hf0, hf0p, hf0v⟩ := hpo cur v x hx hxp
    constructor
    · intro i f hf hpid
      by_cases hi : x.frame = i
      · subst hi
        rw [List.getElem?_set, if_pos rfl, if_pos (get_lt hf0)] at hf
        simp only [Option.some.injEq] at hf
        subst hf
        exact absurd hg hpid
      · rw [List.getElem?_set_ne hi] at hf
        obtain ⟨y, hy, hyp, hyf⟩ := hfo i f hf hpid
        refine ⟨y, ?_, hyp, hyf⟩
        rw [hrest]
        · exact hy
        · rintro ⟨h1, h2⟩
          rw [h1, h2, hx] at hy
          simp only [Option.some.injEq] at hy
          subst hy
          exact hi hyf
    · intro a b y hy hyp
      obtain ⟨hab, hy1⟩ := hpo3 a b y hy hyp
      obtain ⟨f, hf, hfp, hfv⟩ := hpo a b y hy1 hyp
      refine ⟨f, ?_, hfp, hfv⟩
      rw [List.getElem?_set_ne]
      · exact hf
      · intro he
        rw [← he, hf0] at hf
        simp only [Option.some.injEq] at hf
        subst hf
        exact hab ⟨hfp.symm.trans hf0p, hfv.symm.trans hf0v⟩

theorem covered_of_sub {ps ps3 : List Process} (hc : PresentCovered ps)
    (hhdr : ∀ q : Nat, Option.map Process.hdr ps3[q]? = Option.map Process.hdr ps[q]?)
    (hsub : ∀ a b y, pte_at ps3 a b = some y → y.present = true → pte_at ps a b = some y) :
    PresentCovered ps3 := by
  intro p pr3 hp3 v y hy hyp
  obtain ⟨pr, hpr, hh⟩ := hdr_get hhdr hp3
  rw [find_vma_hdr hh]
  have hy1 := hsub _ _ y (pte_at_of_get hp3 hy) hyp
  obtain ⟨_, _, pr', hpr', hy'⟩ := pte_at_some hy1
  simp only [Int.toNat_ofNat] at hpr' hy'
  rw [hpr] at hpr'
  simp only [Option.some.injEq] at hpr'
  subst hpr'
  exact hc p pr hpr v y hy' hyp

theorem FreeListOK.release {ft : List Frame} {fl : List Nat} {idx : Nat} {f g : Frame}
    (h : FreeListOK none ft fl) (hf : ft[idx]? = some f) (hfp : f.pid ≠ -1)
    (hg : g.pid = -1) : FreeListOK none (ft.set idx g) (fl ++ [idx]) := by
  have hnot : idx ∉ fl := by
    intro hm
    obtain ⟨_, f', hf', hp'⟩ := (h.2 idx).1 hm
    rw [hf] at hf'
    simp only [Option.some.injEq] at hf'
    subst hf'
    exact hfp hp'
  constructor
  · rw [List.nodup_append]
    refine ⟨h.1, List.nodup_singleton _, ?_⟩
    intro a ha hb
    simp only [List.mem_singleton] at hb
    subst hb
    exact hnot ha
  · intro i
    rw [List.mem_append, List.mem_singleton, h.2 i]
    by_cases hi : idx = i
    · subst hi
      rw [List.getElem?_set, if_pos rfl, if_pos (get_lt hf)]
      simp [hg]
    · rw [List.getElem?_set_ne hi]
      simp only [ne_eq, reduceCtorEq, not_false_eq_true, true_and, or_iff_left_iff_imp]
      intro he
      exact absurd he.symm hi

theorem exit_page_modify (ps : List Process) (cur v : Nat) (fout : Bool) :
    ps.modify (fun p =>
      { p with unmaps := p.unmaps + 1,
               fouts := if fout then p.fouts + 1 else p.fouts,
               page_table := p.page_table.set v PTE.zero }) cur =
    set_pte (ps.modify (fun p =>
      { p with unmaps := p.unmaps + 1,
               fouts := if fout then p.fouts + 1 else p.fouts }) cur) cur v PTE.zero := by
  unfold set_pte
  rw [List.modify_modify_eq]
  rfl

theorem exit_present_inv {s : State} {v : Nat} {x : PTE} {f : Frame} (h : Inv s)
    (hpte : pte_at s.processes (s.current_process : Int) (v : Int) = some x)
    (hxp : x.present = true) (hf : s.frame_table[x.frame]? = some f)
    (hfp : f.pid = (s.current_process : Int)) (fout : Bool) (c : Nat) :
    Inv { s with
      processes := s.processes.modify (fun p =>
        { p with unmaps := p.unmaps + 1,
                 fouts := if fout then p.fouts + 1 else p.fouts,
                 page_table := p.page_table.set v PTE.zero }) s.current_process,
      cost := c,
      frame_table := s.frame_table.set x.frame
        { f with pid := -1, vpage := -1, last_reference := 0, age := 0 },
      free_list := s.free_list ++ [x.frame] } := by
  rw [exit_page_modify]
  have hpte1 : pte_at (s.processes.modify (fun p =>
      { p with unmaps := p.unmaps + 1,
               fouts := if fout then p.fouts + 1 else p.fouts }) s.current_process)
      (s.current_process : Int) (v : Int) = some x := by
    rw [pte_at_counters]
    exact hpte
  have hpte3 : ∀ (a b : Int), pte_at (set_pte (s.processes.modify (fun p =>
      { p with unmaps := p.unmaps + 1,
               fouts := if fout then p.fouts + 1 else p.fouts }) s.current_process)
      s.current_process v PTE.zero) a b =
      if a = (s.current_process : Int) ∧ b = (v : Int) then some PTE.zero
      else pte_at s.processes a b := by
    intro a b
    have := pte_at_set_pte_cur hpte1 PTE.zero a b
    rw [pte_at_counters] at this
    simpa using this
  have hhdr : ∀ (q : Nat), Option.map Process.hdr (set_pte
      (s.processes.modify (fun p =>
      { p with unmaps := p.unmaps + 1,
               fouts := if fout then p.fouts + 1 else p.fouts }) s.current_process)
      s.current_process v PTE.zero)[q]? = Option.map Process.hdr s.processes[q]? := by
    intro q
    rw [get_set_pte_hdr, hdr_counters]
  have hrel : FrameOwned (set_pte (s.processes.modify (fun p =>
        { p with unmaps := p.unmaps + 1,
                 fouts := if fout then p.fouts + 1 else p.fouts }) s.current_process)
        s.current_process v PTE.zero)
        (s.frame_table.set x.frame
          { f with pid := -1, vpage := -1, last_reference := 0, age := 0 }) ∧
      PteOwned (set_pte (s.processes.modify (fun p =>
        { p with unmaps := p.unmaps + 1,
                 fouts := if fout then p.fouts + 1 else p.fouts }) s.current_process)
        s.current_process v PTE.zero)
        (s.frame_table.set x.frame
          { f with pid := -1, vpage := -1, last_reference := 0, age := 0 }) :=
    (release_owned h.frame_owned h.pte_owned
      (fun x3 hx3 => by
        rw [hpte3, if_pos ⟨rfl, rfl⟩] at hx3
        simp only [Option.some.injEq] at hx3
        rw [← hx3]
        rfl)
      (fun a b hab => by rw [hpte3, if_neg hab])).2 x _ hpte hxp rfl
  exact
    { procs := h.procs.of_hdr hhdr
      cur := by
        show s.current_process < _
        rw [hdr_length hhdr]
        exact h.cur
      frames_pos := by
        show 0 < (s.frame_table.set _ _).length
        rw [List.length_set]
        exact h.frames_pos
      frames_le := by
        show (s.frame_table.set _ _).length ≤ 128
        rw [List.length_set]
        exact h.frames_le
      frame_owned := hrel.1
      pte_owned := hrel.2
      covered := covered_of_sub h.covered hhdr (fun a b y hy hyp => by
        rw [hpte3] at hy
        split at hy
        · simp only [Option.some.injEq] at hy
          rw [← hy] at hyp
          cases hyp
        · exact hy)
      free := h.free.release hf (by rw [hfp]; omega) rfl
      pager := h.pager.pager_congr rfl (by simp) rfl rfl
      age := ⟨x.frame, _, by
        show (s.frame_table.set _ _)[x.frame]? = _
        rw [List.getElem?_set, if_pos rfl, if_pos (get_lt hf)], rfl⟩ }

theorem exit_page_inv {s : State} {v : Nat} (h : Inv s) (hv : v < MAX_VPAGES) :
    ∃ s1, exit_page s v = some s1 ∧ Inv s1 := by
  obtain ⟨cp, hcp⟩ : ∃ cp, s.processes[s.current_process]? = some cp :=
    ⟨_, List.getElem?_eq_getElem h.cur⟩
  have hlen := (h.procs _ _ hcp).2
  obtain ⟨x, hx⟩ : ∃ x, cp.page_table[v]? = some x :=
    ⟨_, List.getElem?_eq_getElem (hlen ▸ hv)⟩
  have hpte := pte_at_of_get hcp hx
  unfold exit_page
  simp only [hcp, hx]
  cases hxp : x.present with
  | true =>
    simp only [if_true]
    obtain ⟨f, hf, hfp, hfv⟩ := h.pte_owned _ _ x hpte hxp
    simp only [hf]
    exact ⟨_, rfl, exit_present_inv h hpte hxp hf hfp _ _⟩
  | false =>
    simp only [Bool.false_eq_true, if_false]
    refine ⟨_, rfl, ?_⟩
    have hpte3 : ∀ (a b : Int), pte_at (set_pte s.processes s.current_process v PTE.zero) a b =
        if a = (s.current_process : Int) ∧ b = (v : Int) then some PTE.zero
        else pte_at s.processes a b := by
      intro a b
      have := pte_at_set_pte_cur hpte PTE.zero a b
      simpa using this
    have hhdr : ∀ (q : Nat), Option.map Process.hdr
        (set_pte s.processes s.current_process v PTE.zero)[q]? =
        Option.map Process.hdr s.processes[q]? := fun q => get_set_pte_hdr _ _ _ _ q
    have hrel := (release_owned h.frame_owned h.pte_owned
      (fun x3 hx3 => by
        rw [hpte3, if_pos ⟨rfl, rfl⟩] at hx3
        simp only [Option.some.injEq] at hx3
        rw [← hx3]
        rfl)
      (fun a b hab => by rw [hpte3, if_neg hab])).1 (fun y hy => by
        rw [hpte] at hy
        simp only [Option.some.injEq] at hy
        rw [← hy]
        exact hxp)
    exact
      { procs := h.procs.of_hdr hhdr
        cur := by
          show s.current_process < _
          rw [hdr_length hhdr]
          exact h.cur
        frames_pos := h.frames_pos
        frames_le := h.frames_le
        frame_owned := hrel.1
        pte_owned := hrel.2
        covered := covered_of_sub h.covered hhdr (fun a b y hy hyp => by
          rw [hpte3] at hy
          split at hy
          · simp only [Option.some.injEq] at hy
            rw [← hy] at hyp
            cases hyp
          · exact hy)
        free := h.free
        pager := h.pager.pager_congr rfl rfl rfl rfl
        age := h.age }

theorem exit_loop_inv : ∀ (l : List Nat) (s : State), Inv s → (∀ v ∈ l, v < MAX_VPAGES) →
    ∃ s1, exit_loop l s = some s1 ∧ Inv s1 := by
  intro l
  induction l with
  | nil => intro s h _; exact ⟨s, rfl, h⟩
  | cons v rest ih =>
    intro s h hl
    obtain ⟨s1, hs1, h1⟩ := exit_page_inv h (hl v (List.mem_cons_self _ _))
    obtain ⟨s2, hs2, h2⟩ := ih s1 h1 (fun w hw => hl w (List.mem_cons_of_mem _ hw))
    exact ⟨s2, by rw [exit_loop, hs1]; exact hs2, h2⟩

/-! ## Every instruction preserves the invariant -/

theorem exit_page_length {s s1 : State} {v : Nat} (h : exit_page s v = some s1) :
    s1.processes.length = s.processes.length ∧
      s1.frame_table.length = s.frame_table.length := by
  unfold exit_page at h
  cases hcp : s.processes[s.current_process]? with
  | none => simp [hcp] at h
  | some cp =>
    cases hx : cp.page_table[v]? with
    | none => simp [hcp, hx] at h
    | some x =>
      simp only [hcp, hx] at h
      by_cases hp : x.present = true
      · rw [if_pos hp] at h
        cases hf : s.frame_table[x.frame]? with
        | none => simp [hf] at h
        | some f =>
          simp only [hf, Option.some.injEq] at h
          rw [← h]
          simp
      · rw [if_neg hp] at h
        simp only [Option.some.injEq] at h
        rw [← h]
        simp [set_pte]

theorem exit_loop_length : ∀ (l : List Nat) (s s1 : State), exit_loop l s = some s1 →
    s1.processes.length = s.processes.length ∧
      s1.frame_table.length = s.frame_table.length := by
  intro l
  induction l with
  | nil =>
    intro s s1 h
    simp only [exit_loop, Option.some.injEq] at h
    rw [h]
    exact ⟨rfl, rfl⟩
  | cons v rest ih =>
    intro s s1 h
    rw [exit_loop] at h
    split at h
    · cases h
    · rename_i s2 hs2
      have h1 := ih _ _ h
      have h2 := exit_page_length hs2
      exact ⟨h1.1.trans h2.1, h1.2.trans h2.2⟩

theorem option_map_eq_some {α : Type} {f : α → α} {a : Option α} {b : α}
    (h : Option.map f a = some (f b)) : ∃ c, a = some c ∧ f c = f b := by
  cases a with
  | none => cases h
  | some c => exact ⟨c, rfl, by simpa using h⟩

theorem simulate_step_inv {s : State} {operation : Char} {vpage : Int} (h : Inv s)
    (hv : ValidInstr s.processes.length operation vpage) :
    ∃ s1, simulate_step s operation vpage = some s1 ∧ Inv s1 ∧
      s1.processes.length = s.processes.length ∧
      s1.frame_table.length = s.frame_table.length := by
  unfold ValidInstr at hv
  unfold simulate_step
  by_cases hc : operation = 'c'
  · rw [if_pos hc] at hv ⊢
    have hlt : vpage.toNat < s.processes.length := by omega
    rw [if_pos ⟨hv.1, hlt⟩]
    exact ⟨_, rfl, h.inv_congr rfl rfl rfl rfl rfl hlt (KeyEq.key_refl _), rfl, rfl⟩
  · rw [if_neg hc] at hv ⊢
    by_cases he : operation = 'e'
    · rw [if_pos he]
      have h1 : Inv
          { s with
            inst_count := s.inst_count + 1,
            process_exits := s.process_exits + 1,
            cost := s.cost + COST_PROCESS_EXIT } :=
        h.inv_congr rfl rfl rfl rfl rfl h.cur (KeyEq.key_refl _)
      obtain ⟨s1, hs1, hi1⟩ := exit_loop_inv (List.range MAX_VPAGES) _ h1
        (fun v hv => List.mem_range.1 hv)
      have hl1 := exit_loop_length _ _ _ hs1
      exact ⟨s1, hs1, hi1, hl1.1, hl1.2⟩
    · rw [if_neg he] at hv ⊢
      simp only
      have h1 : Inv
          { s with inst_count := s.inst_count + 1, cost := s.cost + COST_READ_WRITE } :=
        h.inv_congr rfl rfl rfl rfl rfl h.cur (KeyEq.key_refl _)
      obtain ⟨cp, hcp⟩ : ∃ cp, s.processes[s.current_process]? = some cp :=
        ⟨_, List.getElem?_eq_getElem h.cur⟩
      have hlen := (h.procs _ _ hcp).2
      obtain ⟨x, hx⟩ : ∃ x, cp.page_table[vpage.toNat]? = some x :=
        ⟨_, List.getElem?_eq_getElem (by rw [hlen]; omega)⟩
      have hpte : pte_at s.processes (s.current_process : Int) vpage = some x := by
        have := pte_at_of_get hcp hx
        rwa [Int.toNat_of_nonneg hv.1] at this
      simp only [hcp, hpte]
      cases hxp : x.present with
      | false =>
        simp only [if_true]
        cases hvma : find_vma_for_page cp vpage with
        | none =>
          simp only
          exact ⟨_, rfl, h.inv_congr rfl rfl rfl rfl rfl (by simpa using h.cur)
            (KeyEq.counters _ _ _ _ _ _ _ _ _ _ _), by simp, rfl⟩
        | some vma =>
          simp only
          obtain ⟨idx, s2, hget, hhole, hunref, hcur2, _, _, hfk⟩ := get_frame_spec h1
          obtain ⟨f0, hf0⟩ : ∃ f0, s2.frame_table[idx]? = some f0 :=
            ⟨_, List.getElem?_eq_getElem hhole.idx_lt⟩
          have hu1 := unref_get hunref s.current_process
          simp only [hcp, Option.map_some'] at hu1
          obtain ⟨cp2, hcp2, hcpu⟩ := option_map_eq_some hu1
          have hu2 := unref_pte hunref (s.current_process : Int) vpage
          simp only [hpte, Option.map_some'] at hu2
          obtain ⟨x2, hx2, hxu⟩ := option_map_eq_some hu2
          have hx2p : x2.present = false := by
            have := congrArg PTE.present hxu
            simpa [PTE.unref, hxp] using this
          have hvma2 : find_vma_for_page cp2 vpage = some vma := by
            have := congrArg Process.vmas hcpu
            simp only [Process.unref] at this
            rw [← hvma]
            simp only [find_vma_for_page, this]
          simp only at hcur2
          rw [← hcur2] at hcp2 hx2
          obtain ⟨s3, s4, hs3, hs4, hi4, hcur4, hlen4, hflen4, x4, hx4, hx4f, hx4p⟩ :=
            fault_rest_inv hhole hcp2 hx2 hx2p hvma2 hf0
          obtain ⟨f4, hf4, _, _⟩ := hi4.pte_owned _ _ x4 hx4 hx4p
          obtain ⟨s5, hs5, henv5, hk5⟩ := update_bits_spec operation vma hx4 (get_lt hf4)
          refine ⟨s5, ?_, hi4.of_keyeq henv5 hk5, ?_, ?_⟩
          · unfold page_fault
            simp only [hget, hf0, hs3, hs4]
            exact hs5
          · rw [hk5.length, hlen4]
            have := congrArg List.length hunref
            simpa using this
          · rw [henv5.frame_table, hflen4]
            exact frames_key_length hfk
      | true =>
        simp only [Bool.true_eq_false, if_false]
        have hcov := h.covered _ _ hcp _ _ hx hxp
        rw [Int.toNat_of_nonneg hv.1] at hcov
        obtain ⟨vma, hvma⟩ := Option.isSome_iff_exists.1 hcov
        obtain ⟨f, hf, _, _⟩ := h.pte_owned _ _ x hpte hxp
        rw [hvma]
        obtain ⟨s5, hs5, henv5, hk5⟩ := @update_bits_spec
          { s with inst_count := s.inst_count + 1, cost := s.cost + COST_READ_WRITE }
          operation vpage vma x hpte (get_lt hf)
        exact ⟨s5, hs5, h1.of_keyeq henv5 hk5, hk5.length, by rw [henv5.frame_table]⟩

/-! ## The initial state satisfies the invariant -/

theorem get_read_processes : ∀ (l : List (List VMA)) (i k : Nat),
    (read_processes i l)[k]? = Option.map (new_process (i + k)) l[k]? := by
  intro l
  induction l with
  | nil => intro i k; simp [read_processes]
  | cons a rest ih =>
    intro i k
    cases k with
    | zero => simp [read_processes]
    | succ k =>
      simp only [read_processes, List.getElem?_cons_succ]
      have e : i + 1 + k = i + (k + 1) := by omega
      rw [ih, e]

theorem pte_at_initial {l : List (List VMA)} {pid vpage : Int} {x : PTE}
    (h : pte_at (read_processes 0 l) pid vpage = some x) : x = PTE.zero := by
  obtain ⟨_, _, pr, hpr, hx⟩ := pte_at_some h
  rw [get_read_processes] at hpr
  cases hl : l[pid.toNat]? with
  | none => rw [hl] at hpr; cases hpr
  | some a =>
    rw [hl] at hpr
    simp only [Option.map_some', Option.some.injEq] at hpr
    subst hpr
    simp only [new_process, List.getElem?_replicate] at hx
    split at hx
    · simp only [Option.some.injEq] at hx
      exact hx.symm
    · cases hx

theorem initial_inv {vmas : List (List VMA)} {randvals : List Int} {num_frames : Nat}
    {pager : Pager} (hc : ValidConfig vmas randvals num_frames pager) :
    Inv (initial_state vmas randvals num_frames pager) := by
  obtain ⟨h1, h128, hne, ⟨algo, hpg⟩, hrand⟩ := hc
  have hlen : (read_processes 0 vmas).length = vmas.length := by
    apply Nat.le_antisymm
    · by_contra hlt
      have hlt := Nat.lt_of_not_le hlt
      have := get_read_processes vmas 0 vmas.length
      rw [List.getElem?_eq_getElem hlt, List.getElem?_eq_none (Nat.le_refl _)] at this
      cases this
    · by_contra hlt
      have hlt := Nat.lt_of_not_le hlt
      have := get_read_processes vmas 0 (read_processes 0 vmas).length
      rw [List.getElem?_eq_getElem hlt, List.getElem?_eq_none (Nat.le_refl _)] at this
      cases this
  have hfr : ∀ (i : Nat) (f : Frame),
      (List.replicate num_frames
        ({ pid := -1, vpage := -1, age := 0, last_reference := 0 } : Frame))[i]? = some f →
      i < num_frames ∧ f = { pid := -1, vpage := -1, age := 0, last_reference := 0 } := by
    intro i f hf
    rw [List.getElem?_replicate] at hf
    split at hf
    · rename_i hi
      simp only [Option.some.injEq] at hf
      exact ⟨hi, hf.symm⟩
    · cases hf
  refine
    { procs := ?_
      cur := ?_
      frames_pos := by simp [initial_state, initialize_frame_table]; omega
      frames_le := by simp [initial_state, initialize_frame_table]; omega
      frame_owned := ?_
      pte_owned := ?_
      covered := ?_
      free := ?_
      pager := ?_
      age := ?_ }
  · intro p pr hp
    simp only [initial_state] at hp
    rw [get_read_processes] at hp
    cases hl : vmas[p]? with
    | none => rw [hl] at hp; cases hp
    | some a =>
      rw [hl] at hp
      simp only [Option.map_some', Option.some.injEq] at hp
      subst hp
      simp [new_process]
  · simp only [initial_state]
    rw [hlen]
    exact List.length_pos.2 hne
  · intro i f hf hpid
    simp only [initial_state, initialize_frame_table] at hf
    obtain ⟨_, rfl⟩ := hfr i f hf
    exact absurd rfl hpid
  · intro pid vpage x hx hxp
    simp only [initial_state] at hx
    rw [pte_at_initial hx] at hxp
    cases hxp
  · intro p pr hp v x hx hxp
    simp only [initial_state] at hp
    have := pte_at_initial (pte_at_of_get hp hx)
    rw [this] at hxp
    cases hxp
  · simp only [initial_state, initialize_frame_table]
    refine ⟨List.nodup_range _, fun i => ?_⟩
    rw [List.mem_range]
    constructor
    · intro hi
      exact ⟨by simp, _, by rw [List.getElem?_replicate, if_pos hi], rfl⟩
    · rintro ⟨_, f, hf, _⟩
      exact (hfr i f hf).1
  · have hfl : (initial_state vmas randvals num_frames pager).frame_table.length
        = num_frames := by simp [initial_state, initialize_frame_table]
    unfold new_pager at hpg
    unfold PagerOK
    rw [hfl]
    simp only [initial_state]
    split at hpg
    · simp only [Option.some.injEq] at hpg
      subst hpg
      exact ⟨rfl, by omega⟩
    · split at hpg
      · simp only [Option.some.injEq] at hpg
        subst hpg
        obtain ⟨hr1, hr2⟩ := hrand ⟨_, rfl⟩
        exact ⟨rfl, List.length_pos.2 hr1, hr2⟩
      · split at hpg
        · simp only [Option.some.injEq] at hpg
          subst hpg
          exact ⟨rfl, by omega⟩
        · split at hpg
          · simp only [Option.some.injEq] at hpg
            subst hpg
            exact ⟨rfl, by omega⟩
          · split at hpg
            · simp only [Option.some.injEq] at hpg
              subst hpg
              exact ⟨rfl, by omega⟩
            · split at hpg
              · simp only [Option.some.injEq] at hpg
                subst hpg
                exact ⟨rfl, by omega⟩
              · cases hpg
  · refine ⟨0, { pid := -1, vpage := -1, age := 0, last_reference := 0 }, ?_, rfl⟩
    simp only [initial_state, initialize_frame_table]
    rw [List.getElem?_replicate, if_pos (by omega)]

theorem initial_length (vmas : List (List VMA)) (randvals : List Int) (num_frames : Nat)
    (pager : Pager) :
    (initial_state vmas randvals num_frames pager).processes.length = vmas.length := by
  simp only [initial_state]
  apply Nat.le_antisymm
  · by_contra hlt
    have hlt := Nat.lt_of_not_le hlt
    have := get_read_processes vmas 0 vmas.length
    rw [List.getElem?_eq_getElem hlt, List.getElem?_eq_none (Nat.le_refl _)] at this
    cases this
  · by_contra hlt
    have hlt := Nat.lt_of_not_le hlt
    have := get_read_processes vmas 0 (read_processes 0 vmas).length
    rw [List.getElem?_eq_getElem hlt, List.getElem?_eq_none (Nat.le_refl _)] at this
    cases this

theorem simulate_inv : ∀ (trace : List (Char × Int)) (s : State), Inv s →
    ValidTrace s.processes.length trace →
    ∃ s1, simulate s trace = some s1 ∧ Inv s1 ∧ s1.processes.length = s.processes.length ∧
      s1.frame_table.length = s.frame_table.length := by
  intro trace
  induction trace with
  | nil => intro s h _; exact ⟨s, rfl, h, rfl, rfl⟩
  | cons i rest ih =>
    intro s h hv
    obtain ⟨op, v⟩ := i
    obtain ⟨s1, hs1, hi1, hl1, hf1⟩ :=
      simulate_step_inv h (hv (op, v) (List.mem_cons_self _ _))
    obtain ⟨s2, hs2, hi2, hl2, hf2⟩ := ih s1 hi1 (by
      rw [hl1]
      exact fun j hj => hv j (List.mem_cons_of_mem _ hj))
    exact ⟨s2, by rw [simulate, hs1]; exact hs2, hi2, hl2.trans hl1, hf2.trans hf1⟩

theorem reachable_inv {vmas : List (List VMA)} {randvals : List Int} {num_frames : Nat}
    {pager : Pager} (hc : ValidConfig vmas randvals num_frames pager)
    {trace : List (Char × Int)} (hv : ValidTrace vmas.length trace) :
    ∃ s, simulate (initial_state vmas randvals num_frames pager) trace = some s ∧ Inv s ∧
      s.frame_table.length = num_frames ∧ s.processes.length = vmas.length := by
  obtain ⟨s, hs, hi, hl, hf⟩ := simulate_inv trace _ (initial_inv hc)
    (by rw [initial_length]; exact hv)
  exact ⟨s, hs, hi, by rw [hf]; simp [initial_state, initialize_frame_table],
    by rw [hl, initial_length]⟩

/-! ## Cost accounting -/

theorem sum_map_modify (w : Process → Nat) (f : Process → Process) (d : Nat)
    (hf : ∀ pr, w (f pr) = w pr + d) :
    ∀ (ps : List Process) (p : Nat), p < ps.length →
      ((ps.modify f p).map w).sum = (ps.map w).sum + d := by
  intro ps
  induction ps with
  | nil => intro p hp; simp at hp
  | cons a rest ih =>
    intro p hp
    cases p with
    | zero =>
      simp only [List.modify_zero_cons, List.map_cons, List.sum_cons, hf]
      omega
    | succ p =>
      simp only [List.modify_succ_cons, List.map_cons, List.sum_cons]
      rw [ih p (by simpa using hp)]
      omega

theorem sum_map_modify_same (w : Process → Nat) (f : Process → Process)
    (hf : ∀ pr, w (f pr) = w pr) :
    ∀ (ps : List Process) (p : Nat), ((ps.modify f p).map w).sum = (ps.map w).sum := by
  intro ps
  induction ps with
  | nil => intro p; simp
  | cons a rest ih =>
    intro p
    cases p with
    | zero => simp only [List.modify_zero_cons, List.map_cons, List.sum_cons, hf]
    | succ p =>
      simp only [List.modify_succ_cons, List.map_cons, List.sum_cons]
      rw [ih p]

theorem tw_set_pte (ps : List Process) (p v : Nat) (y : PTE) :
    total_weight (set_pte ps p v y) = total_weight ps := by
  unfold total_weight set_pte
  apply sum_map_modify_same
  intro pr
  rfl

theorem tw_modify_add (d : Nat) {ps : List Process} {f : Process → Process} {p : Nat}
    (hp : p < ps.length) (hf : ∀ pr, (f pr).weight = pr.weight + d) :
    total_weight (ps.modify f p) = total_weight ps + d := by
  unfold total_weight
  exact sum_map_modify _ _ _ hf _ _ hp

theorem Balanced.bal_refl (s : State) : Balanced s s := ⟨rfl, rfl, rfl, rfl⟩

theorem Balanced.bal_trans {s s1 s2 : State} (h1 : Balanced s s1) (h2 : Balanced s1 s2) :
    Balanced s s2 := by
  obtain ⟨a1, b1, c1, d1⟩ := h1
  obtain ⟨a2, b2, c2, d2⟩ := h2
  exact ⟨a2.trans a1, b2.trans b1, c2.trans c1, by omega⟩

theorem tw_unref (ps : List Process) : total_weight (ps.map Process.unref) = total_weight ps := by
  unfold total_weight
  rw [List.map_map]
  rfl

theorem PagerRel.balanced {s s1 : State} (h : PagerRel s s1) : Balanced s s1 := by
  refine ⟨h.inst_count, h.ctx_switches, h.process_exits, ?_⟩
  rw [h.cost, ← tw_unref s1.processes, h.procs, tw_unref]

theorem get_frame_balanced {s s1 : State} {idx : Nat} (h : get_frame s = some (idx, s1)) :
    Balanced s s1 := by
  unfold get_frame allocate_frame_from_free_list at h
  cases hfl : s.free_list with
  | nil =>
    simp only [hfl] at h
    exact (select_victim_frame_rel h).1.balanced
  | cons i rest =>
    simp only [hfl, Option.some.injEq, Prod.mk.injEq] at h
    rw [← h.2]
    exact ⟨rfl, rfl, rfl, rfl⟩

theorem unmap_old_owner_balanced {s s2 : State} {f : Frame}
    (h : unmap_old_owner s f = some s2) : Balanced s s2 := by
  unfold unmap_old_owner at h
  by_cases hpid : f.pid ≠ -1
  · rw [if_pos hpid] at h
    cases hpr : s.processes[f.pid.toNat]? with
    | none => simp [hpr] at h
    | some pr =>
      have hp := get_lt hpr
      cases hx : pte_at s.processes f.pid f.vpage with
      | none => simp [hpr, hx] at h
      | some x =>
        simp only [hpr, hx] at h
        split at h
        · split at h
          · simp only [Option.some.injEq] at h
            subst h
            refine ⟨rfl, rfl, rfl, ?_⟩
            simp only
            rw [tw_modify_add 2800, tw_set_pte, tw_modify_add 410]
            · simp only [COST_UNMAP, COST_FOUT]
              omega
            · exact hp
            · intro q
              simp only [Process.weight, COST_UNMAP]
              omega
            · simpa [set_pte] using hp
            · intro q
              simp only [Process.weight, COST_FOUT]
              omega
          · simp only [Option.some.injEq] at h
            subst h
            refine ⟨rfl, rfl, rfl, ?_⟩
            simp only
            rw [tw_set_pte, tw_modify_add 2750, tw_set_pte, tw_modify_add 410]
            · simp only [COST_UNMAP, COST_OUT]
              omega
            · exact hp
            · intro q
              simp only [Process.weight, COST_UNMAP]
              omega
            · simpa [set_pte] using hp
            · intro q
              simp only [Process.weight, COST_OUT]
              omega
        · simp only [Option.some.injEq] at h
          subst h
          refine ⟨rfl, rfl, rfl, ?_⟩
          simp only
          rw [tw_set_pte, tw_modify_add 410]
          · simp only [COST_UNMAP]
            omega
          · exact hp
          · intro q
            simp only [Process.weight, COST_UNMAP]
            omega
  · rw [if_neg hpid] at h
    simp only [Option.some.injEq] at h
    subst h
    exact Balanced.bal_refl _

theorem map_page_balanced {s s3 : State} {idx : Nat} {vpage : Int} {vma : VMA}
    (h : map_page s idx vpage vma = some s3) : Balanced s s3 := by
  unfold map_page at h
  cases hcp : s.processes[s.current_process]? with
  | none => simp [hcp] at h
  | some cp =>
    have hp := get_lt hcp
    cases hx : pte_at s.processes s.current_process vpage with
    | none => simp [hcp, hx] at h
    | some x =>
      cases hf : s.frame_table[idx]? with
      | none => simp [hcp, hx, hf] at h
      | some f =>
        simp only [hcp, hx, hf] at h
        split at h
        · simp only [Option.some.injEq] at h
          subst h
          refine ⟨rfl, rfl, rfl, ?_⟩
          simp only
          rw [tw_set_pte, tw_modify_add 2700]
          · simp only [COST_FIN, COST_MAP]
            omega
          · exact hp
          · intro q
            simp only [Process.weight, COST_FIN, COST_MAP]
            omega
        · split at h
          · simp only [Option.some.injEq] at h
            subst h
            refine ⟨rfl, rfl, rfl, ?_⟩
            simp only
            rw [tw_set_pte, tw_modify_add 3550]
            · simp only [COST_IN, COST_MAP]
              omega
            · exact hp
            · intro q
              simp only [Process.weight, COST_IN, COST_MAP]
              omega
          · simp only [Option.some.injEq] at h
            subst h
            refine ⟨rfl, rfl, rfl, ?_⟩
            simp only
            rw [tw_set_pte, tw_modify_add 500]
            · simp only [COST_ZERO, COST_MAP]
              omega
            · exact hp
            · intro q
              simp only [Process.weight, COST_ZERO, COST_MAP]
              omega

theorem page_fault_balanced {s s3 : State} {vpage : Int} {vma : VMA}
    (h : page_fault s vpage vma = some s3) : Balanced s s3 := by
  unfold page_fault at h
  split at h
  · cases h
  · rename_i idx s1 hg
    split at h
    · cases h
    · split at h
      · cases h
      · rename_i s2 hu
        exact ((get_frame_balanced hg).bal_trans (unmap_old_owner_balanced hu)).bal_trans
          (map_page_balanced h)

theorem update_bits_balanced {s s1 : State} {operation : Char} {vpage : Int}
    {vma : Option VMA} (h : update_bits s operation vpage vma = some s1) : Balanced s s1 := by
  unfold update_bits at h
  cases vma with
  | none => simp at h
  | some vma =>
    cases hx : pte_at s.processes s.current_process vpage with
    | none => simp [hx] at h
    | some x =>
      obtain ⟨_, _, pr, hpr, _⟩ := pte_at_some hx
      simp only [Int.toNat_ofNat] at hpr
      have hp := get_lt hpr
      simp only [hx] at h
      have hprot : ∀ y : PTE, Balanced s
          { s with
            cost := s.cost + COST_SEGPROT,
            processes := set_pte
              (s.processes.modify (fun p => { p with segprot := p.segprot + 1 })
                s.current_process)
              s.current_process vpage.toNat y } := by
        intro y
        refine ⟨rfl, rfl, rfl, ?_⟩
        simp only
        rw [tw_set_pte, tw_modify_add 410]
        · simp only [COST_SEGPROT]
          omega
        · exact hp
        · intro q
          simp only [Process.weight, COST_SEGPROT]
          omega
      have hplain : ∀ y : PTE, Balanced s
          { s with processes := set_pte s.processes s.current_process vpage.toNat y } := by
        intro y
        refine ⟨rfl, rfl, rfl, ?_⟩
        simp only
        rw [tw_set_pte]
      by_cases hlen : s.frame_table.length ≤ x.frame
      · rw [if_pos hlen] at h
        cases h
      · rw [if_neg hlen] at h
        by_cases hw : operation = 'w'
        · rw [if_pos hw] at h
          cases hvw : vma.write_protected
          · simp only [hvw, Bool.false_eq_true, if_false] at h
            cases hxw : x.write_protect
            · simp only [hxw, Bool.false_eq_true, if_false, Option.some.injEq] at h
              rw [← h]
              exact hplain _
            · simp only [hxw, if_true, Option.some.injEq] at h
              rw [← h]
              exact hprot _
          · simp only [hvw, if_true, Option.some.injEq] at h
            rw [← h]
            exact hprot _
        · rw [if_neg hw] at h
          simp only [Option.some.injEq] at h
          rw [← h]
          exact hplain _

theorem exit_present_balanced (fout : Bool) (c v cur : Nat) (ps : List Process)
    (hp : cur < ps.length) :
    c + COST_UNMAP + (if fout then COST_FOUT else 0) + total_weight ps =
      c + total_weight (ps.modify (fun p =>
        { p with unmaps := p.unmaps + 1,
                 fouts := if fout then p.fouts + 1 else p.fouts,
                 page_table := p.page_table.set v PTE.zero }) cur) := by
  cases fout with
  | false =>
    rw [tw_modify_add 410]
    · simp only [COST_UNMAP, Bool.false_eq_true, if_false]
      omega
    · exact hp
    · intro q
      simp only [Process.weight, COST_UNMAP, Bool.false_eq_true, if_false]
      omega
  | true =>
    rw [tw_modify_add 3210]
    · simp only [COST_UNMAP, COST_FOUT, if_true]
      omega
    · exact hp
    · intro q
      simp only [Process.weight, COST_UNMAP, COST_FOUT, if_true]
      omega

theorem exit_page_balanced {s s1 : State} {v : Nat} (h : exit_page s v = some s1) :
    Balanced s s1 := by
  unfold exit_page at h
  cases hcp : s.processes[s.current_process]? with
  | none => simp [hcp] at h
  | some cp =>
    have hp := get_lt hcp
    cases hx : cp.page_table[v]? with
    | none => simp [hcp, hx] at h
    | some x =>
      simp only [hcp, hx] at h
      by_cases hxp : x.present = true
      · rw [if_pos hxp] at h
        cases hf : s.frame_table[x.frame]? with
        | none => simp [hf] at h
        | some f =>
          simp only [hf, Option.some.injEq] at h
          subst h
          exact ⟨rfl, rfl, rfl, exit_present_balanced _ _ _ _ _ hp⟩
      · rw [if_neg hxp] at h
        simp only [Option.some.injEq] at h
        subst h
        refine ⟨rfl, rfl, rfl, ?_⟩
        simp only
        rw [tw_set_pte]

theorem exit_loop_balanced : ∀ (l : List Nat) (s s1 : State), exit_loop l s = some s1 →
    Balanced s s1 := by
  intro l
  induction l with
  | nil =>
    intro s s1 h
    simp only [exit_loop, Option.some.injEq] at h
    rw [h]
    exact Balanced.bal_refl _
  | cons v rest ih =>
    intro s s1 h
    rw [exit_loop] at h
    split at h
    · cases h
    · rename_i s2 hs2
      exact (exit_page_balanced hs2).bal_trans (ih _ _ h)

/-! ## The parts of an access as state transformers -/

theorem modify_eq_set {α : Type} (f : α → α) :
    ∀ (l : List α) (n : Nat) (a : α), l[n]? = some a → l.modify f n = l.set n (f a) := by
  intro l
  induction l with
  | nil => intro n a h; simp at h
  | cons b rest ih =>
    intro n a h
    cases n with
    | zero =>
      simp only [List.getElem?_cons_zero, Option.some.injEq] at h
      subst h
      rfl
    | succ n =>
      simp only [List.getElem?_cons_succ] at h
      simp only [List.modify_succ_cons, List.set_cons_succ, ih n a h]

theorem modify_set {α : Type} (f : α → α) (l : List α) (n : Nat) (a : α)
    (h : n < l.length) : (l.set n a).modify f n = l.set n (f a) := by
  rw [modify_eq_set f (l.set n a) n a (by rw [List.getElem?_set, if_pos rfl, if_pos h]),
    List.set_set]

theorem set_pte_set (ps : List Process) (n v : Nat) (a : Process) (y : PTE)
    (h : n < ps.length) :
    set_pte (ps.set n a) n v y = ps.set n { a with page_table := a.page_table.set v y } := by
  unfold set_pte
  rw [modify_set _ _ _ _ h]

theorem set_pte_modify_eq (ps : List Process) (f : Process → Process) (p v : Nat) (y : PTE)
    (cp : Process) (hcp : ps[p]? = some cp) :
    set_pte (ps.modify f p) p v y =
      ps.set p { f cp with page_table := (f cp).page_table.set v y } := by
  unfold set_pte
  rw [List.modify_modify_eq, modify_eq_set _ _ _ _ hcp]
  rfl

theorem unmap_old_owner_eq {s : State} {f : Frame} {pr : Process} {y : PTE}
    (hpid : f.pid ≠ -1) (hpr : s.processes[f.pid.toNat]? = some pr)
    (hy : pte_at s.processes f.pid f.vpage = some y) :
    unmap_old_owner s f =
      some { s with
        cost := s.cost + evict_cost pr f.vpage y,
        processes := s.processes.set f.pid.toNat (evicted pr f.vpage y) } := by
  have hlt := get_lt hpr
  unfold unmap_old_owner
  rw [if_pos hpid]
  simp only [hpr, hy]
  rw [modify_eq_set _ _ _ _ hpr, set_pte_set _ _ _ _ _ hlt]
  unfold evict_cost evicted
  cases hm : y.modified
  · simp only [Bool.false_eq_true, if_false, Bool.false_and, Nat.add_zero, Bool.or_false]
  · simp only [if_true, Bool.true_and]
    cases hfb : file_backed pr f.vpage
    · simp only [Bool.false_eq_true, if_false]
      rw [modify_set _ _ _ _ hlt, set_pte_set _ _ _ _ _ hlt]
      simp only [List.set_set, Bool.not_false, if_true, Nat.add_zero, Bool.or_true,
        Nat.add_assoc]
    · simp only [if_true]
      rw [modify_set _ _ _ _ hlt]
      simp only [Bool.not_true, Bool.false_eq_true, if_false, Nat.add_zero, Bool.or_false,
        Nat.add_assoc]

theorem map_page_eq {s : State} {idx : Nat} {vpage : Int} (vma : VMA) {cp : Process}
    {x : PTE} {f : Frame} (hcp : s.processes[s.current_process]? = some cp)
    (hx : pte_at s.processes s.current_process vpage = some x)
    (hf : s.frame_table[idx]? = some f) :
    map_page s idx vpage vma =
      some { s with
        frame_table := s.frame_table.set idx
          { last_reference := s.inst_count, age := 0, pid := cp.id, vpage := vpage },
        cost := s.cost + fill_cost vma x,
        processes := s.processes.set s.current_process (filled cp vpage vma x idx) } := by
  unfold map_page
  simp only [hcp, hx, hf]
  rw [set_pte_modify_eq _ _ _ _ _ _ hcp, set_pte_modify_eq _ _ _ _ _ _ hcp,
    set_pte_modify_eq _ _ _ _ _ _ hcp]
  unfold fill_cost filled mapped_pte
  cases hfm : vma.file_mapped
  · cases hpo : x.pagedout
    · simp only [Bool.false_eq_true, if_false, Bool.not_false, Bool.and_self, if_true,
        Nat.add_zero, Nat.add_assoc, Bool.and_false, Bool.not_true, Bool.and_true]
    · simp only [Bool.false_eq_true, if_false, Bool.not_false, Bool.and_self, if_true,
        Nat.add_zero, Nat.add_assoc, Bool.and_false, Bool.not_true, Bool.and_true]
  · simp only [Bool.false_eq_true, if_false, Bool.not_false, Bool.and_self, if_true,
      Nat.add_zero, Nat.add_assoc, Bool.and_false, Bool.not_true, Bool.and_true,
      Bool.false_and]

theorem update_bits_eq {s : State} (operation : Char) {vpage : Int} (vma : VMA)
    {cp : Process} {x : PTE} (hcp : s.processes[s.current_process]? = some cp)
    (hx : pte_at s.processes s.current_process vpage = some x)
    (hf : x.frame < s.frame_table.length) :
    update_bits s operation vpage (some vma) =
      some { s with
        cost := s.cost + touch_cost operation vma x,
        processes :=
          s.processes.set s.current_process (touched cp operation vpage vma x) } := by
  unfold update_bits
  simp only [hx, Nat.not_le.2 hf, if_false]
  rw [set_pte_modify_eq _ _ _ _ _ _ hcp]
  have hset : ∀ y : PTE, set_pte s.processes s.current_process vpage.toNat y =
      s.processes.set s.current_process
        { cp with page_table := cp.page_table.set vpage.toNat y } := by
    intro y
    unfold set_pte
    rw [modify_eq_set _ _ _ _ hcp]
  rw [hset, hset]
  unfold touch_cost touched touched_pte protect
  by_cases hw : operation = 'w'
  · simp only [hw, true_and, if_true]
    cases hvw : vma.write_protected
    · cases hxw : x.write_protect
      · simp only [Bool.false_eq_true, if_false, Bool.or_self, Nat.add_zero, if_true]
      · simp only [Bool.false_eq_true, if_false, Bool.or_true, Nat.add_zero, if_true,
          Bool.true_eq_false]
    · simp only [if_true, Bool.true_or, Bool.true_eq_false, if_false]
  · simp only [hw, false_and, if_false, Nat.add_zero]
    cases hvw : vma.write_protected
    · simp only [Bool.false_eq_true, if_false, Bool.false_or]
    · simp only [if_true, Bool.true_or]

/-! ## The page fault, step by step -/

theorem pte_at_set_proc (ps : List Process) (n : Nat) (b : Process) (hn : n < ps.length)
    (vpage : Int) (hv : 0 ≤ vpage) :
    pte_at (ps.set n b) (n : Int) vpage = b.page_table[vpage.toNat]? := by
  unfold pte_at
  rw [if_pos ⟨by omega, hv⟩]
  simp only [Int.toNat_ofNat]
  rw [List.getElem?_set, if_pos rfl, if_pos hn]

theorem pte_at_set_other (ps : List Process) (n : Nat) (b : Process) (pid vpage : Int)
    (hne : pid ≠ (n : Int)) : pte_at (ps.set n b) pid vpage = pte_at ps pid vpage := by
  unfold pte_at
  split
  · rename_i hc
    rw [List.getElem?_set_ne]
    intro h
    apply hne
    rw [h]
    exact (Int.toNat_of_nonneg hc.1).symm
  · rfl

/-- What lines 501-522 leave of the current process and of the faulting entry. -/
theorem unmap_old_owner_cur {s1 : State} {idx : Nat} {f0 : Frame} {cp1 : Process} {x1 : PTE}
    {vpage : Int} (h : InvHole idx s1) (hf0 : s1.frame_table[idx]? = some f0)
    (hcp1 : s1.processes[s1.current_process]? = some cp1)
    (hx1 : pte_at s1.processes s1.current_process vpage = some x1)
    (hx1p : x1.present = false) :
    ∃ s2 cp2, unmap_old_owner s1 f0 = some s2 ∧ SameEnv s1 s2 ∧
      s2.processes[s1.current_process]? = some cp2 ∧
      pte_at s2.processes s1.current_process vpage = some x1 ∧
      cp2.fins = cp1.fins ∧ cp2.ins = cp1.ins ∧ cp2.zeros = cp1.zeros ∧
      cp2.maps = cp1.maps ∧ cp2.segprot = cp1.segprot ∧ cp2.segv = cp1.segv ∧
      cp2.id = cp1.id ∧ cp2.vmas = cp1.vmas ∧
      s2.processes.length = s1.processes.length := by
  by_cases hpid : f0.pid = -1
  · exact ⟨s1, cp1, unmap_old_owner_free hpid, ⟨rfl, rfl, rfl, rfl, rfl, rfl, rfl, rfl, rfl⟩,
      hcp1, hx1, rfl, rfl, rfl, rfl, rfl, rfl, rfl, rfl, rfl⟩
  · obtain ⟨y, hy, hyp, _⟩ := h.frame_owned idx f0 hf0 hpid
    obtain ⟨hq0, hu0, pr, hpr, hyv⟩ := pte_at_some hy
    have hlt := get_lt hpr
    have hne : ¬ ((s1.current_process : Int) = f0.pid ∧ vpage = f0.vpage) := by
      rintro ⟨h1, h2⟩
      rw [← h1, ← h2, hx1] at hy
      simp only [Option.some.injEq] at hy
      rw [hy, hyp] at hx1p
      cases hx1p
    have heq := unmap_old_owner_eq hpid hpr hy
    obtain ⟨_, hv0, _⟩ := pte_at_some hx1
    by_cases hq : f0.pid.toNat = s1.current_process
    · rw [hq] at hpr heq
      rw [hcp1] at hpr
      simp only [Option.some.injEq] at hpr
      subst hpr
      refine ⟨_, evicted cp1 f0.vpage y, heq, ⟨rfl, rfl, rfl, rfl, rfl, rfl, rfl, rfl, rfl⟩,
        ?_, ?_, rfl, rfl, rfl, rfl, rfl, rfl, rfl, rfl, by simp⟩
      · show (s1.processes.set _ _)[s1.current_process]? = _
        rw [List.getElem?_set, if_pos rfl, if_pos h.cur]
      · show pte_at (s1.processes.set _ _) _ _ = _
        rw [pte_at_set_proc _ _ _ h.cur _ hv0]
        unfold evicted
        simp only
        rw [List.getElem?_set_ne]
        · obtain ⟨_, _, pr', hpr', hxv⟩ := pte_at_some hx1
          simp only [Int.toNat_ofNat] at hpr'
          rw [hcp1] at hpr'
          simp only [Option.some.injEq] at hpr'
          subst hpr'
          exact hxv
        · intro hv
          apply hne
          constructor
          · rw [← hq]
            exact Int.toNat_of_nonneg hq0
          · have := congrArg (fun n : Nat => (n : Int)) hv
            simp only [Int.toNat_of_nonneg hu0, Int.toNat_of_nonneg hv0] at this
            exact this.symm
    · refine ⟨_, cp1, heq, ⟨rfl, rfl, rfl, rfl, rfl, rfl, rfl, rfl, rfl⟩, ?_, ?_, rfl, rfl,
        rfl, rfl, rfl, rfl, rfl, rfl, by simp⟩
      · show (s1.processes.set _ _)[s1.current_process]? = _
        rw [List.getElem?_set_ne hq]
        exact hcp1
      · show pte_at (s1.processes.set _ _) _ _ = _
        rw [pte_at_set_other]
        · exact hx1
        · intro hh
          apply hq
          omega

theorem fault_explicit {s : State} {operation : Char} {vpage : Int} {cp : Process} {x : PTE}
    {vma : VMA} (hi : Inv s) (hc : operation ≠ 'c') (he : operation ≠ 'e')
    (hcp : s.processes[s.current_process]? = some cp)
    (hx : pte_at s.processes s.current_process vpage = some x) (hxp : x.present = false)
    (hvma : find_vma_for_page cp vpage = some vma) :
    ∃ idx s1 f0 cp1 x1 s2 cp2,
      get_frame (at_access s) = some (idx, s1) ∧ InvHole idx s1 ∧
      s1.frame_table[idx]? = some f0 ∧
      s1.processes.map Process.unref = s.processes.map Process.unref ∧
      s1.frame_table.map Frame.key = s.frame_table.map Frame.key ∧
      s1.current_process = s.current_process ∧ s1.inst_count = s.inst_count + 1 ∧
      s1.cost = s.cost + 1 ∧
      s1.processes[s.current_process]? = some cp1 ∧ cp1.unref = cp.unref ∧
      pte_at s1.processes s.current_process vpage = some x1 ∧ x1.unref = x.unref ∧
      unmap_old_owner s1 f0 = some s2 ∧ SameEnv s1 s2 ∧
      s2.processes[s.current_process]? = some cp2 ∧
      pte_at s2.processes s.current_process vpage = some x1 ∧
      cp2.fins = cp1.fins ∧ cp2.ins = cp1.ins ∧ cp2.zeros = cp1.zeros ∧
      cp2.maps = cp1.maps ∧ cp2.segprot = cp1.segprot ∧ cp2.segv = cp1.segv ∧
      cp2.id = (s.current_process : Int) ∧
      simulate_step s operation vpage =
        some (fault_result s2 cp2 x1 idx operation vpage vma) := by
  have h1 : Inv (at_access s) := hi.inv_congr rfl rfl rfl rfl rfl hi.cur (KeyEq.key_refl _)
  obtain ⟨idx, s1, hget, hhole, hunref, hcur1, hic1, hcost1, hfk⟩ := get_frame_spec h1
  obtain ⟨f0, hf0⟩ : ∃ f0, s1.frame_table[idx]? = some f0 :=
    ⟨_, List.getElem?_eq_getElem hhole.idx_lt⟩
  have hu1 := unref_get hunref s.current_process
  have hcp' : (at_access s).processes[s.current_process]? = some cp := hcp
  simp only [hcp', Option.map_some'] at hu1
  obtain ⟨cp1, hcp1, hcpu⟩ := option_map_eq_some hu1
  have hu2 := unref_pte hunref (s.current_process : Int) vpage
  have hx' : pte_at (at_access s).processes (s.current_process : Int) vpage = some x := hx
  simp only [hx', Option.map_some'] at hu2
  obtain ⟨x1, hx1, hxu⟩ := option_map_eq_some hu2
  have hx1p : x1.present = false := by
    have := congrArg PTE.present hxu
    simpa [PTE.unref, hxp] using this
  have hcur1' : s1.current_process = s.current_process := hcur1
  rw [← hcur1'] at hcp1 hx1
  obtain ⟨s2, cp2, hs2, henv, hcp2, hx2, e1, e2, e3, e4, e5, e6, e7, e8, hlen2⟩ :=
    unmap_old_owner_cur hhole hf0 hcp1 hx1 hx1p
  have hf2 : s2.frame_table[idx]? = some f0 := by rw [henv.frame_table]; exact hf0
  rw [← henv.current_process] at hcp2 hx2
  have hmap := map_page_eq vma hcp2 hx2 hf2
  have hcur2 : s2.current_process < s2.processes.length := by
    rw [henv.current_process, hlen2]
    exact hhole.cur
  obtain ⟨_, hv0, _⟩ := pte_at_some hx
  obtain ⟨_, _, pr2, hpr2, hxv2⟩ := pte_at_some hx2
  simp only [Int.toNat_ofNat] at hpr2
  rw [hcp2] at hpr2
  simp only [Option.some.injEq] at hpr2
  subst hpr2
  have hvlt : vpage.toNat < cp2.page_table.length := get_lt hxv2
  have hidx : idx % 128 = idx := Nat.mod_eq_of_lt (Nat.lt_of_lt_of_le hhole.idx_lt
    hhole.frames_le)
  have hupd := @update_bits_eq
    { s2 with
      frame_table := s2.frame_table.set idx
        { last_reference := s2.inst_count, age := 0, pid := cp2.id, vpage := vpage },
      cost := s2.cost + fill_cost vma x1,
      processes := s2.processes.set s2.current_process (filled cp2 vpage vma x1 idx) }
    operation vpage vma (filled cp2 vpage vma x1 idx) (mapped_pte x1 idx)
    (by
      show (s2.processes.set _ _)[s2.current_process]? = _
      rw [List.getElem?_set, if_pos rfl, if_pos hcur2])
    (by
      show pte_at (s2.processes.set _ _) _ _ = _
      rw [pte_at_set_proc _ _ _ hcur2 _ hv0]
      unfold filled
      simp only
      rw [List.getElem?_set, if_pos rfl, if_pos hvlt])
    (by
      show (mapped_pte x1 idx).frame < (s2.frame_table.set _ _).length
      unfold mapped_pte
      simp only
      rw [hidx, List.length_set, henv.frame_table]
      exact hhole.idx_lt)
  have hid : cp2.id = (s.current_process : Int) := by
    rw [e7, ← hcur1']
    exact (hhole.procs _ _ hcp1).1
  have hvma1 : find_vma_for_page cp1 vpage = some vma := by
    have := congrArg Process.vmas hcpu
    simp only [Process.unref] at this
    rw [← hvma]
    simp only [find_vma_for_page, this]
  rw [henv.current_process, hcur1'] at hcp2 hx2
  rw [hcur1'] at hcp1 hx1
  refine ⟨idx, s1, f0, cp1, x1, s2, cp2, hget, hhole, hf0, hunref, hfk, hcur1, hic1, hcost1,
    hcp1, hcpu, hx1, hxu, hs2, henv, hcp2, hx2, e1, e2, e3, e4, e5, e6, hid, ?_⟩
  unfold simulate_step
  rw [if_neg hc, if_neg he]
  simp only [hcp, hx, hxp, hvma, if_true]
  unfold page_fault
  have hget' : get_frame
      { s with inst_count := s.inst_count + 1, cost := s.cost + COST_READ_WRITE }
      = some (idx, s1) := hget
  simp only [hget', hf0, hs2, hmap, hupd]
  unfold fault_result
  simp only [List.set_set, Nat.add_assoc]

/-! ## Claims on the reachable states -/

theorem idx_filter_length {α : Type} (p : α → Bool) (l : List α) :
    ((List.range l.length).filter (test_at p l)).length = (l.filter p).length := by
  induction l using List.reverseRecOn with
  | nil => rfl
  | append_singleton l a ih =>
    rw [List.length_append, List.length_singleton, List.range_succ, List.filter_append,
      List.filter_append, List.length_append, List.length_append]
    congr 1
    · rw [← ih]
      congr 1
      apply List.filter_congr
      intro i hi
      simp only [test_at]
      rw [List.getElem?_append_left (List.mem_range.1 hi)]
    · simp only [List.filter_cons, List.filter_nil, test_at, List.getElem?_concat_length]
      split <;> rfl

theorem free_count {ft : List Frame} {fl : List Nat} (h : FreeListOK none ft fl) :
    fl.length + (ft.filter (fun f => decide (f.pid ≠ -1))).length = ft.length := by
  have hperm : fl.Perm ((List.range ft.length).filter
      (test_at (fun f : Frame => decide (f.pid = -1)) ft)) := by
    rw [List.perm_ext_iff_of_nodup h.1 (List.Nodup.filter _ (List.nodup_range _))]
    intro i
    rw [h.2 i, List.mem_filter, List.mem_range]
    constructor
    · rintro ⟨_, f, hf, hp⟩
      exact ⟨get_lt hf, by simp [test_at, hf, hp]⟩
    · rintro ⟨hi, hp⟩
      refine ⟨by simp, ft[i], List.getElem?_eq_getElem hi, ?_⟩
      simp only [test_at] at hp
      rw [List.getElem?_eq_getElem hi] at hp
      simpa using hp
  rw [hperm.length_eq, idx_filter_length (fun f : Frame => decide (f.pid = -1)) ft,
    ← List.countP_eq_length_filter, ← List.countP_eq_length_filter,
    List.length_eq_countP_add_countP (fun f : Frame => decide (f.pid = -1)) ft]
  congr 2
  funext f
  simp

/-- C1: in every state reached from an initial state (1 to 128 frames, any of the six
pagers) by a valid trace, a frame `i` records the owner `(p, v)` with `p ≠ -1` exactly when
the entry of process `p` for page `v` is present with `frame = i`; hence no two present
entries name the same frame. -/
theorem C1_frame_pte_ownership (vmas : List (List VMA)) (randvals : List Int)
    (num_frames : Nat) (pager : Pager) (trace : List (Char × Int))
    (hc : ValidConfig vmas randvals num_frames pager) (hv : ValidTrace vmas.length trace) :
    ∃ s, simulate (initial_state vmas randvals num_frames pager) trace = some s ∧
      (∀ (i : Nat) (p v : Int), p ≠ -1 →
        ((∃ f, s.frame_table[i]? = some f ∧ f.pid = p ∧ f.vpage = v) ↔
          (∃ x, pte_at s.processes p v = some x ∧ x.present = true ∧ x.frame = i))) ∧
      (∀ (p v q w : Int) (x y : PTE), pte_at s.processes p v = some x →
        pte_at s.processes q w = some y → x.present = true → y.present = true →
        x.frame = y.frame → p = q ∧ v = w) := by
  obtain ⟨s, hs, hi, _, _⟩ := reachable_inv hc hv
  refine ⟨s, hs, fun i p v hp => ⟨?_, ?_⟩, ?_⟩
  · rintro ⟨f, hf, rfl, rfl⟩
    exact hi.frame_owned i f hf hp
  · rintro ⟨x, hx, hxp, rfl⟩
    exact hi.pte_owned p v x hx hxp
  · intro p v q w x y hx hy hxp hyp hxy
    obtain ⟨f, hf, hfp, hfv⟩ := hi.pte_owned p v x hx hxp
    obtain ⟨g, hg, hgp, hgv⟩ := hi.pte_owned q w y hy hyp
    rw [hxy, hg] at hf
    simp only [Option.some.injEq] at hf
    subst hf
    exact ⟨hfp.symm.trans hgp, hfv.symm.trans hgv⟩

theorem example_config : ValidConfig [[example_vma]] [] 2 (Pager.FIFOPager 0 2) :=
  ⟨by decide, by decide, by simp, ⟨'f', rfl⟩, fun h => by
    obtain ⟨n, hn⟩ := h
    cases hn⟩

theorem example_valid : ValidTrace [[example_vma]].length example_trace := by
  intro i hi
  simp only [example_trace, List.mem_cons, List.mem_singleton, List.not_mem_nil, or_false] at hi
  rcases hi with rfl | rfl | rfl <;> simp [ValidInstr, MAX_VPAGES]

theorem C1_frame_pte_ownership_witness :
    ValidConfig [[example_vma]] [] 2 (Pager.FIFOPager 0 2) ∧
    ValidTrace [[example_vma]].length example_trace ∧
    ∃ s, simulate (initial_state [[example_vma]] [] 2 (Pager.FIFOPager 0 2)) example_trace
        = some s ∧
      (∀ (i : Nat) (p v : Int), p ≠ -1 →
        ((∃ f, s.frame_table[i]? = some f ∧ f.pid = p ∧ f.vpage = v) ↔
          (∃ x, pte_at s.processes p v = some x ∧ x.present = true ∧ x.frame = i))) ∧
      (∀ (p v q w : Int) (x y : PTE), pte_at s.processes p v = some x →
        pte_at s.processes q w = some y → x.present = true → y.present = true →
        x.frame = y.frame → p = q ∧ v = w) :=
  ⟨example_config, example_valid,
    C1_frame_pte_ownership _ _ _ _ _ example_config example_valid⟩

/-- C2: in every state reached from an initial state by a valid trace, the free list has no
duplicates, holds exactly the indices of the frames with `pid = -1`, and its length plus the
number of frames with `pid ≠ -1` is the number of frames. -/
theorem C2_free_list (vmas : List (List VMA)) (randvals : List Int)
    (num_frames : Nat) (pager : Pager) (trace : List (Char × Int))
    (hc : ValidConfig vmas randvals num_frames pager) (hv : ValidTrace vmas.length trace) :
    ∃ s, simulate (initial_state vmas randvals num_frames pager) trace = some s ∧
      s.free_list.Nodup ∧
      (∀ i : Nat, i ∈ s.free_list ↔ ∃ f, s.frame_table[i]? = some f ∧ f.pid = -1) ∧
      s.free_list.length + (s.frame_table.filter (fun f => decide (f.pid ≠ -1))).length
        = num_frames := by
  obtain ⟨s, hs, hi, hn, _⟩ := reachable_inv hc hv
  refine ⟨s, hs, hi.free.1, fun i => ?_, ?_⟩
  · rw [hi.free.2 i]
    simp
  · rw [free_count hi.free, hn]

theorem C2_free_list_witness :
    ValidConfig [[example_vma]] [] 2 (Pager.FIFOPager 0 2) ∧
    ValidTrace [[example_vma]].length example_trace ∧
    ∃ s, simulate (initial_state [[example_vma]] [] 2 (Pager.FIFOPager 0 2)) example_trace
        = some s ∧
      s.free_list.Nodup ∧
      (∀ i : Nat, i ∈ s.free_list ↔ ∃ f, s.frame_table[i]? = some f ∧ f.pid = -1) ∧
      s.free_list.length + (s.frame_table.filter (fun f => decide (f.pid ≠ -1))).length
        = 2 :=
  ⟨example_config, example_valid, C2_free_list _ _ _ _ _ example_config example_valid⟩

/-- C4: in every state reached from an initial state by a valid trace, at the point where
an access calls `get_frame`: with a non-empty free list `get_frame` returns its front and
only removes that index from the list (no frame, entry or pager state changes, the pager is
not consulted); with an empty free list every frame has `pid ≠ -1`, `get_frame` is the
pager's `select_victim_frame`, and the frame returned has an index below the number of
frames and `pid ≠ -1`. -/
theorem C4_victim_selection (vmas : List (List VMA)) (randvals : List Int)
    (num_frames : Nat) (pager : Pager) (trace : List (Char × Int))
    (hc : ValidConfig vmas randvals num_frames pager) (hv : ValidTrace vmas.length trace) :
    ∃ s, simulate (initial_state vmas randvals num_frames pager) trace = some s ∧
      (∀ (i : Nat) (rest : List Nat), s.free_list = i :: rest →
        get_frame (at_access s) = some (i, { at_access s with free_list := rest })) ∧
      (s.free_list = [] →
        (∀ f ∈ s.frame_table, f.pid ≠ -1) ∧
        ∃ idx s1, select_victim_frame (at_access s) = some (idx, s1) ∧
          get_frame (at_access s) = some (idx, s1) ∧ idx < num_frames ∧
          ∃ f, s1.frame_table[idx]? = some f ∧ f.pid ≠ -1) := by
  obtain ⟨s, hs, hi, hn, _⟩ := reachable_inv hc hv
  refine ⟨s, hs, fun i rest hfl => ?_, fun hfl => ?_⟩
  · simp only [get_frame, allocate_frame_from_free_list, at_access, hfl]
  · have hall : ∀ f ∈ s.frame_table, f.pid ≠ -1 := by
      intro f hf hp
      obtain ⟨i, hfi⟩ := List.mem_iff_getElem?.1 hf
      have := (hi.free.2 i).2 ⟨by simp, f, hfi, hp⟩
      rw [hfl] at this
      cases this
    refine ⟨hall, ?_⟩
    have h1 : Inv (at_access s) := hi.inv_congr rfl rfl rfl rfl rfl hi.cur (KeyEq.key_refl _)
    obtain ⟨idx, s1, hsel, _⟩ := select_victim_frame_progress h1.frames_pos h1.pager
      (h1.all_mapped hfl) h1.age
    obtain ⟨hrel, hidx⟩ := select_victim_frame_rel hsel
    have hlt : idx < s1.frame_table.length := by
      rw [frames_key_length hrel.frames]
      exact hidx
    obtain ⟨f, hf, hfp, _⟩ := frames_key_get hrel.frames (List.getElem?_eq_getElem hlt)
    refine ⟨idx, s1, hsel, ?_, hn ▸ hidx, _, List.getElem?_eq_getElem hlt, ?_⟩
    · simp only [get_frame, allocate_frame_from_free_list]
      have : (at_access s).free_list = [] := hfl
      rw [this]
      exact hsel
    · rw [← hfp]
      exact hall f (List.mem_iff_getElem?.2 ⟨idx, hf⟩)

theorem C4_victim_selection_witness :
    ValidConfig [[example_vma]] [] 2 (Pager.FIFOPager 0 2) ∧
    ValidTrace [[example_vma]].length example_trace ∧
    ∃ s, simulate (initial_state [[example_vma]] [] 2 (Pager.FIFOPager 0 2)) example_trace
        = some s ∧
      (∀ (i : Nat) (rest : List Nat), s.free_list = i :: rest →
        get_frame (at_access s) = some (i, { at_access s with free_list := rest })) ∧
      (s.free_list = [] →
        (∀ f ∈ s.frame_table, f.pid ≠ -1) ∧
        ∃ idx s1, select_victim_frame (at_access s) = some (idx, s1) ∧
          get_frame (at_access s) = some (idx, s1) ∧ idx < 2 ∧
          ∃ f, s1.frame_table[idx]? = some f ∧ f.pid ≠ -1) :=
  ⟨example_config, example_valid,
    C4_victim_selection _ _ _ _ _ example_config example_valid⟩

theorem simulate_step_cost {s s1 : State} {operation : Char} {vpage : Int}
    (h : simulate_step s operation vpage = some s1) (hc : CostOK s) :
    CostOK s1 ∧ s1.inst_count = s.inst_count + 1 := by
  unfold simulate_step at h
  unfold CostOK accounted at hc ⊢
  obtain ⟨hle, hcost⟩ := hc
  simp only [COST_READ_WRITE, COST_CONTEXT_SWITCH, COST_PROCESS_EXIT] at hcost ⊢
  by_cases hop : operation = 'c'
  · rw [if_pos hop] at h
    split at h
    · simp only [Option.some.injEq] at h
      subst h
      simp only [COST_CONTEXT_SWITCH]
      refine ⟨⟨?_, ?_⟩, ?_⟩ <;> first | omega | trivial
    · cases h
  · rw [if_neg hop] at h
    by_cases hop2 : operation = 'e'
    · rw [if_pos hop2] at h
      obtain ⟨a, b, c, d⟩ := exit_loop_balanced _ _ _ h
      simp only [COST_PROCESS_EXIT] at a b c d
      refine ⟨⟨?_, ?_⟩, ?_⟩ <;> omega
    · rw [if_neg hop2] at h
      simp only at h
      cases hcp : s.processes[s.current_process]? with
      | none => simp [hcp] at h
      | some cp =>
        have hp := get_lt hcp
        cases hx : pte_at s.processes s.current_process vpage with
        | none => simp [hcp, hx] at h
        | some x =>
          simp only [hcp, hx] at h
          by_cases hxp : x.present = false
          · rw [if_pos hxp] at h
            cases hvma : find_vma_for_page cp vpage with
            | none =>
              simp only [hvma, Option.some.injEq] at h
              subst h
              simp only
              rw [tw_modify_add 440]
              · simp only [COST_READ_WRITE, COST_SEGV]
                refine ⟨⟨?_, ?_⟩, ?_⟩ <;> first | omega | trivial
              · exact hp
              · intro q
                simp only [Process.weight, COST_SEGV]
                omega
            | some vma =>
              simp only [hvma] at h
              split at h
              · cases h
              · rename_i s2 hs2
                obtain ⟨a, b, c, d⟩ := (page_fault_balanced hs2).bal_trans (update_bits_balanced h)
                simp only [COST_READ_WRITE] at a b c d
                refine ⟨⟨?_, ?_⟩, ?_⟩ <;> omega
          · rw [if_neg hxp] at h
            obtain ⟨a, b, c, d⟩ := update_bits_balanced h
            simp only [COST_READ_WRITE] at a b c d
            refine ⟨⟨?_, ?_⟩, ?_⟩ <;> omega

theorem simulate_cost : ∀ (trace : List (Char × Int)) (s s1 : State),
    simulate s trace = some s1 → CostOK s →
    CostOK s1 ∧ s1.inst_count = s.inst_count + trace.length := by
  intro trace
  induction trace with
  | nil =>
    intro s s1 h hc
    simp only [simulate, Option.some.injEq] at h
    subst h
    exact ⟨hc, rfl⟩
  | cons i rest ih =>
    intro s s1 h hc
    rw [simulate] at h
    split at h
    · cases h
    · rename_i s2 hs2
      obtain ⟨hc2, hi2⟩ := simulate_step_cost hs2 hc
      obtain ⟨hc1, hi1⟩ := ih _ _ h hc2
      exact ⟨hc1, by rw [hi1, hi2, List.length_cons]; omega⟩

theorem total_weight_fresh : ∀ (ps : List Process), (∀ p ∈ ps, p.fresh) →
    total_weight ps = 0 := by
  intro ps
  induction ps with
  | nil => intro _; rfl
  | cons a rest ih =>
    intro h
    have ha := h a (List.mem_cons_self _ _)
    obtain ⟨h1, h2, h3, h4, h5, h6, h7, h8, h9⟩ := ha
    have hr := ih (fun p hp => h p (List.mem_cons_of_mem _ hp))
    unfold total_weight at hr ⊢
    simp only [List.map_cons, List.sum_cons, hr, Process.weight, h1, h2, h3, h4, h5, h6, h7,
      h8, h9, Nat.mul_zero, Nat.add_zero]

/-- C3: in every state reached by any instruction sequence from a state whose counters are
all zero, `cost` is one unit per access instruction plus 130 per switch, 1230 per exit and
the table costs of the per-process event counters, and `inst_count` is the number of
instructions processed. -/
theorem C3_cost_identity (s0 s : State) (trace : List (Char × Int))
    (h0 : s0.inst_count = 0 ∧ s0.ctx_switches = 0 ∧ s0.process_exits = 0 ∧ s0.cost = 0)
    (hfresh : ∀ p ∈ s0.processes, p.fresh) (hrun : simulate s0 trace = some s) :
    s.ctx_switches + s.process_exits ≤ s.inst_count ∧
    s.cost = 1 * (s.inst_count - s.ctx_switches - s.process_exits) + 130 * s.ctx_switches +
      1230 * s.process_exits +
      (s.processes.map (fun p => 350 * p.maps + 410 * p.unmaps + 3200 * p.ins +
        2750 * p.outs + 2350 * p.fins + 2800 * p.fouts + 150 * p.zeros + 440 * p.segv +
        410 * p.segprot)).sum ∧
    s.inst_count = trace.length := by
  obtain ⟨h1, h2, h3, h4⟩ := h0
  have hc0 : CostOK s0 := by
    unfold CostOK accounted
    rw [h1, h2, h3, h4, total_weight_fresh _ hfresh]
    exact ⟨Nat.le_refl _, rfl⟩
  obtain ⟨⟨hle, hcost⟩, hlen⟩ := simulate_cost trace s0 s hrun hc0
  refine ⟨hle, ?_, by rw [hlen, h1, Nat.zero_add]⟩
  rw [hcost]
  rfl

theorem example_run : simulate example_state example_trace = some example_final := by
  decide

theorem C3_cost_identity_witness :
    (example_state.inst_count = 0 ∧ example_state.ctx_switches = 0 ∧
      example_state.process_exits = 0 ∧ example_state.cost = 0) ∧
    (∀ p ∈ example_state.processes, p.fresh) ∧
    simulate example_state example_trace = some example_final ∧
    example_final.ctx_switches + example_final.process_exits ≤ example_final.inst_count ∧
    example_final.cost =
      1 * (example_final.inst_count - example_final.ctx_switches -
        example_final.process_exits) + 130 * example_final.ctx_switches +
      1230 * example_final.process_exits +
      (example_final.processes.map (fun p => 350 * p.maps + 410 * p.unmaps + 3200 * p.ins +
        2750 * p.outs + 2350 * p.fins + 2800 * p.fouts + 150 * p.zeros + 440 * p.segv +
        410 * p.segprot)).sum ∧
    example_final.inst_count = example_trace.length :=
  have h0 : example_state.inst_count = 0 ∧ example_state.ctx_switches = 0 ∧
      example_state.process_exits = 0 ∧ example_state.cost = 0 := ⟨rfl, rfl, rfl, rfl⟩
  have hfresh : ∀ p ∈ example_state.processes, p.fresh := by
    intro p hp
    simp only [example_state, initial_state, read_processes, List.mem_singleton] at hp
    subst hp
    exact ⟨rfl, rfl, rfl, rfl, rfl, rfl, rfl, rfl, rfl⟩
  ⟨h0, hfresh, example_run, C3_cost_identity _ _ _ h0 hfresh example_run⟩

/-- C10: one process with the single area [0,63] (not write-protected, not file-mapped), two
frames, the FIFO pager and the trace `r 0; r 1; r 2` from the initial state: page 2 ends
present in frame 0, page 1 present in frame 1, page 0 not present and not paged out; frame 0
is owned by (0,2) and frame 1 by (0,1); the counters of process 0 are zeros = 3, maps = 3,
unmaps = 1 and 0 for the others; `inst_count = 3` and `cost = 1913`. -/
theorem C10_fifo_scenario :
    ∃ s p x0 x1 x2,
      simulate
        (initial_state
          [[{ start_vpage := 0, end_vpage := 63, write_protected := false,
              file_mapped := false }]] [] 2 (Pager.FIFOPager 0 2))
        [('r', 0), ('r', 1), ('r', 2)] = some s ∧
      s.processes = [p] ∧
      pte_at s.processes 0 0 = some x0 ∧ pte_at s.processes 0 1 = some x1 ∧
      pte_at s.processes 0 2 = some x2 ∧
      x2.present = true ∧ x2.frame = 0 ∧ x1.present = true ∧ x1.frame = 1 ∧
      x0.present = false ∧ x0.pagedout = false ∧
      (s.frame_table.map Frame.key = [(0, 2), (0, 1)]) ∧
      p.zeros = 3 ∧ p.maps = 3 ∧ p.unmaps = 1 ∧ p.ins = 0 ∧ p.outs = 0 ∧ p.fins = 0 ∧
      p.fouts = 0 ∧ p.segv = 0 ∧ p.segprot = 0 ∧
      s.inst_count = 3 ∧ s.cost = 3 * 1 + 3 * (150 + 350) + 410 ∧ s.cost = 1913 := by
  refine ⟨example_final, _,
    { present := false, referenced := true, modified := false, write_protect := false,
      pagedout := false, frame := 0 },
    { present := true, referenced := true, modified := false, write_protect := false,
      pagedout := false, frame := 1 },
    { present := true, referenced := true, modified := false, write_protect := false,
      pagedout := false, frame := 0 }, example_run, rfl, rfl, rfl, rfl, ?_⟩
  decide

theorem reachable_inv_of {vmas : List (List VMA)} {randvals : List Int} {num_frames : Nat}
    {pager : Pager} (hc : ValidConfig vmas randvals num_frames pager)
    {trace : List (Char × Int)} (hv : ValidTrace vmas.length trace) {s : State}
    (hs : simulate (initial_state vmas randvals num_frames pager) trace = some s) :
    Inv s ∧ s.frame_table.length = num_frames ∧ s.processes.length = vmas.length := by
  obtain ⟨s1, hs1, h⟩ := reachable_inv hc hv
  rw [hs] at hs1
  simp only [Option.some.injEq] at hs1
  subst hs1
  exact h

theorem set_same {α : Type} {l : List α} {i : Nat} {a : α} (h : l[i]? = some a) :
    l.set i a = l := by
  apply List.ext_getElem?
  intro j
  rw [List.getElem?_set]
  by_cases hij : i = j
  · subst hij
    rw [if_pos rfl, if_pos (get_lt h), h]
  · rw [if_neg hij]

/-- Lines 524-566 change neither `unmaps`, `outs`, `fouts` of any process nor any entry
other than the faulting one. -/
theorem fault_result_procs {s2 : State} {cp2 : Process} (x1 : PTE) (idx : Nat)
    (operation : Char) (vpage : Int) (vma : VMA)
    (hcp2 : s2.processes[s2.current_process]? = some cp2) (q : Nat) (pr2 : Process)
    (hq : s2.processes[q]? = some pr2) :
    ∃ pr1', (fault_result s2 cp2 x1 idx operation vpage vma).processes[q]? = some pr1' ∧
      pr1'.unmaps = pr2.unmaps ∧ pr1'.outs = pr2.outs ∧ pr1'.fouts = pr2.fouts ∧
      (∀ w : Nat, (q ≠ s2.current_process ∨ w ≠ vpage.toNat) →
        pr1'.page_table[w]? = pr2.page_table[w]?) := by
  have hlt := get_lt hcp2
  unfold fault_result
  simp only
  by_cases hqc : s2.current_process = q
  · subst hqc
    rw [hcp2] at hq
    simp only [Option.some.injEq] at hq
    subst hq
    refine ⟨touched (filled cp2 vpage vma x1 idx) operation vpage vma (mapped_pte x1 idx),
      by rw [List.getElem?_set, if_pos rfl, if_pos hlt], rfl, rfl, rfl, ?_⟩
    intro w hw
    have hw' : vpage.toNat ≠ w := by
      rcases hw with h | h
      · exact absurd rfl h
      · exact fun e => h e.symm
    unfold touched filled
    simp only
    rw [List.getElem?_set_ne hw', List.getElem?_set_ne hw']
  · exact ⟨pr2, by rw [List.getElem?_set_ne hqc]; exact hq, rfl, rfl, rfl, fun _ _ => rfl⟩

theorem pte_at_get {ps : List Process} {q : Nat} {pr : Process} (hq : ps[q]? = some pr)
    (u : Int) (hu : 0 ≤ u) : pte_at ps (q : Int) u = pr.page_table[u.toNat]? := by
  unfold pte_at
  rw [if_pos ⟨by omega, hu⟩]
  simp only [Int.toNat_ofNat, hq]

theorem pte_at_set_page {ps : List Process} {n : Nat} {cp cp1 : Process} {v : Nat} {z : PTE}
    (hcp : ps[n]? = some cp) (hv : v < cp.page_table.length)
    (hpt : cp1.page_table = cp.page_table.set v z) (a b : Int) :
    pte_at (ps.set n cp1) a b = if a = (n : Int) ∧ b = (v : Int) then some z
      else pte_at ps a b := by
  by_cases ha : a = (n : Int)
  · subst ha
    by_cases hb : 0 ≤ b
    · rw [pte_at_set_proc ps n cp1 (get_lt hcp) b hb, hpt, pte_at_get hcp b hb]
      by_cases hbv : b = (v : Int)
      · subst hbv
        rw [if_pos ⟨rfl, rfl⟩]
        simp only [Int.toNat_ofNat]
        rw [List.getElem?_set, if_pos rfl, if_pos hv]
      · rw [if_neg (fun h => hbv h.2), List.getElem?_set_ne]
        intro h
        apply hbv
        rw [h]
        exact (Int.toNat_of_nonneg hb).symm
    · rw [if_neg (fun h => hb (by rw [h.2]; omega))]
      unfold pte_at
      rw [if_neg (fun h => hb h.2), if_neg (fun h => hb h.2)]
  · rw [if_neg (fun h => ha h.1)]
    exact pte_at_set_other ps n cp1 a b ha

theorem exit_page_spec {s : State} {v : Nat} {cp : Process} {x : PTE}
    (hcp : s.processes[s.current_process]? = some cp) (hx : cp.page_table[v]? = some x)
    (hfo : FrameOwned s.processes s.frame_table) (hpo : PteOwned s.processes s.frame_table) :
    exit_page s v = some (exited_page s cp v x) ∧
    FrameOwned (exited_page s cp v x).processes (exited_page s cp v x).frame_table ∧
    PteOwned (exited_page s cp v x).processes (exited_page s cp v x).frame_table ∧
    (x.present = true → x.frame < s.frame_table.length) := by
  have hpte := pte_at_of_get hcp hx
  have hv : v < cp.page_table.length := get_lt hx
  have hpte3 : ∀ (a b : Int), pte_at (exited_page s cp v x).processes a b =
      if a = (s.current_process : Int) ∧ b = (v : Int) then some PTE.zero
      else pte_at s.processes a b := fun a b => pte_at_set_page hcp hv rfl a b
  have hrel := release_owned hfo hpo
    (fun x3 hx3 => by
      rw [hpte3, if_pos ⟨rfl, rfl⟩] at hx3
      simp only [Option.some.injEq] at hx3
      rw [← hx3]
      rfl)
    (fun a b hab => by rw [hpte3, if_neg hab])
  cases hxp : x.present with
  | true =>
    obtain ⟨f, hf, hfp, hfv⟩ := hpo _ _ x hpte hxp
    have hown := hrel.2 x Frame.released hpte hxp rfl
    refine ⟨?_, ?_, ?_, fun _ => get_lt hf⟩
    · unfold exit_page
      simp only [hcp, hx, hxp, if_true, hf]
      rw [modify_eq_set _ _ _ _ hcp]
      cases hfb : (file_backed cp (v : Int) && x.modified) <;>
        simp [exited_page, hxp, hfb, Frame.released, Nat.add_assoc]
    · simpa only [exited_page, hxp, if_true] using hown.1
    · simpa only [exited_page, hxp, if_true] using hown.2
  | false =>
    have hown := hrel.1 (fun y hy => by
      rw [hpte] at hy
      simp only [Option.some.injEq] at hy
      rw [← hy]
      exact hxp)
    refine ⟨?_, ?_, ?_, fun h => by cases h⟩
    · unfold exit_page
      simp only [hcp, hx, hxp, Bool.false_eq_true, if_false]
      unfold set_pte
      rw [modify_eq_set _ _ _ _ hcp]
      simp [exited_page, hxp]
    · simpa only [exited_page, hxp, Bool.false_eq_true, if_false] using hown.1
    · simpa only [exited_page, hxp, Bool.false_eq_true, if_false] using hown.2

theorem test_at_get {α : Type} (p : α → Bool) {l : List α} {i : Nat} {a : α}
    (h : l[i]? = some a) : test_at p l i = p a := by
  simp only [test_at, h]

theorem frame_at_get {cp : Process} {v : Nat} {x : PTE} (h : cp.page_table[v]? = some x) :
    frame_at cp v = x.frame := by
  simp only [frame_at, h]

theorem agree_pages {cp cp1 : Process} {l : List Nat}
    (hpt : ∀ u : Nat, u ∈ l → cp1.page_table[u]? = cp.page_table[u]?)
    (hvm : cp1.vmas = cp.vmas) :
    present_pages cp1 l = present_pages cp l ∧ fout_pages cp1 l = fout_pages cp l ∧
    (present_pages cp1 l).map (frame_at cp1) = (present_pages cp l).map (frame_at cp) := by
  have h1 : present_pages cp1 l = present_pages cp l := by
    unfold present_pages
    apply List.filter_congr
    intro u hu
    simp only [test_at, hpt u hu]
  refine ⟨h1, ?_, ?_⟩
  · unfold fout_pages
    rw [h1]
    apply List.filter_congr
    intro u hu
    have hul : u ∈ l := (List.mem_filter.1 hu).1
    simp only [test_at, hpt u hul, file_backed, find_vma_for_page, hvm]
  · rw [h1]
    apply List.map_congr_left
    intro u hu
    have hul : u ∈ l := (List.mem_filter.1 hu).1
    simp only [frame_at, hpt u hul]

theorem present_pages_cons {cp : Process} {v : Nat} {x : PTE} (hx : cp.page_table[v]? = some x)
    (l : List Nat) :
    present_pages cp (v :: l) =
      if x.present then v :: present_pages cp l else present_pages cp l := by
  unfold present_pages
  rw [List.filter_cons, test_at_get _ hx]

theorem fout_pages_cons {cp : Process} {v : Nat} {x : PTE} (hx : cp.page_table[v]? = some x)
    (l : List Nat) :
    fout_pages cp (v :: l) =
      if x.present && (file_backed cp (v : Int) && x.modified) then v :: fout_pages cp l
      else fout_pages cp l := by
  unfold fout_pages
  rw [present_pages_cons hx]
  cases hxp : x.present with
  | true =>
    simp only [if_true, Bool.true_and]
    rw [List.filter_cons, test_at_get _ hx]
  | false => simp

theorem exit_loop_spec : ∀ (l : List Nat) (s : State) (cp : Process),
    s.processes[s.current_process]? = some cp →
    FrameOwned s.processes s.frame_table → PteOwned s.processes s.frame_table →
    l.Nodup → (∀ v : Nat, v ∈ l → v < cp.page_table.length) →
    ∃ s1 cp1, exit_loop l s = some s1 ∧ Exited l s cp s1 cp1 := by
  intro l
  induction l with
  | nil =>
    intro s cp hcp _ _ _ _
    refine ⟨s, cp, rfl, ?_⟩
    exact
      { processes := by
          apply List.ext_getElem?
          intro i
          rw [List.getElem?_set]
          by_cases hi : s.current_process = i
          · rw [if_pos hi, if_pos (get_lt hcp), ← hi, hcp]
          · rw [if_neg hi]
        id := rfl, vmas := rfl, maps := rfl, ins := rfl, outs := rfl, zeros := rfl
        segv := rfl, segprot := rfl, fins := rfl, unmaps := rfl, fouts := rfl, length := rfl
        zeroed := fun v hv => by cases hv
        kept := fun _ _ => rfl
        cost := rfl
        free_list := by simp [present_pages]
        frames_length := rfl
        released := fun i hi => by simp [present_pages] at hi
        untouched := fun _ _ => rfl
        pager := rfl, randvals := rfl, ofs := rfl, inst_count := rfl, ctx_switches := rfl
        process_exits := rfl, current_process := rfl }
  | cons v rest ih =>
    intro s cp hcp hfo hpo hnd hlt
    have hv : v < cp.page_table.length := hlt v (List.mem_cons_self _ _)
    obtain ⟨x, hx⟩ : ∃ x, cp.page_table[v]? = some x := ⟨_, List.getElem?_eq_getElem hv⟩
    obtain ⟨hstep, hfo1, hpo1, hfr⟩ := exit_page_spec hcp hx hfo hpo
    have hvr : v ∉ rest := (List.nodup_cons.1 hnd).1
    have hcur : s.current_process < s.processes.length := get_lt hcp
    obtain ⟨cp1, hcp1, hpt1, hvm1, hun1, hfo1c, hc⟩ : ∃ cp1 : Process,
        (exited_page s cp v x).processes[(exited_page s cp v x).current_process]? = some cp1 ∧
        cp1.page_table = cp.page_table.set v PTE.zero ∧ cp1.vmas = cp.vmas ∧
        cp1.unmaps = cp.unmaps + (if x.present then 1 else 0) ∧
        cp1.fouts = cp.fouts +
          (if x.present && (file_backed cp (v : Int) && x.modified) then 1 else 0) ∧
        (cp1.id = cp.id ∧ cp1.maps = cp.maps ∧ cp1.ins = cp.ins ∧ cp1.outs = cp.outs ∧
          cp1.zeros = cp.zeros ∧ cp1.segv = cp.segv ∧ cp1.segprot = cp.segprot ∧
          cp1.fins = cp.fins) := by
      refine ⟨{ cp with
          unmaps := cp.unmaps + (if x.present then 1 else 0),
          fouts := cp.fouts +
            (if x.present && (file_backed cp (v : Int) && x.modified) then 1 else 0),
          page_table := cp.page_table.set v PTE.zero },
        ?_, rfl, rfl, rfl, rfl, rfl, rfl, rfl, rfl, rfl, rfl, rfl, rfl⟩
      show (s.processes.set _ _)[s.current_process]? = _
      rw [List.getElem?_set, if_pos rfl, if_pos hcur]
    obtain ⟨s2, cp2, hloop, E⟩ := ih (exited_page s cp v x) cp1 hcp1 hfo1 hpo1
      (List.nodup_cons.1 hnd).2 (fun u hu => by
        rw [hpt1, List.length_set]
        exact hlt u (List.mem_cons_of_mem _ hu))
    have hag := @agree_pages cp cp1 rest (fun u hu => by
      rw [hpt1, List.getElem?_set_ne]
      intro h
      exact hvr (h ▸ hu)) hvm1
    obtain ⟨hp, hf, hm⟩ := hag
    have hE_un := E.unmaps
    have hE_fo := E.fouts
    have hE_cost := E.cost
    have hE_fl := E.free_list
    have hE_rel := E.released
    have hE_unt := E.untouched
    rw [hp] at hE_un hE_cost
    rw [hf] at hE_fo hE_cost
    rw [hm] at hE_fl hE_rel hE_unt
    refine ⟨s2, cp2, ?_, ?_⟩
    · rw [exit_loop, hstep]
      exact hloop
    · exact
        { processes := by
            rw [E.processes]
            show (s.processes.set s.current_process _).set s.current_process _ = _
            rw [List.set_set]
          id := E.id.trans hc.1
          vmas := E.vmas.trans hvm1
          maps := E.maps.trans hc.2.1
          ins := E.ins.trans hc.2.2.1
          outs := E.outs.trans hc.2.2.2.1
          zeros := E.zeros.trans hc.2.2.2.2.1
          segv := E.segv.trans hc.2.2.2.2.2.1
          segprot := E.segprot.trans hc.2.2.2.2.2.2.1
          fins := E.fins.trans hc.2.2.2.2.2.2.2
          unmaps := by
            rw [hE_un, hun1, present_pages_cons hx]
            cases x.present <;> simp
            omega
          fouts := by
            rw [hE_fo, hfo1c, fout_pages_cons hx]
            cases (x.present && (file_backed cp (v : Int) && x.modified)) <;> simp
            omega
          length := by rw [E.length, hpt1, List.length_set]
          zeroed := by
            intro u hu
            by_cases hur : u ∈ rest
            · exact E.zeroed u hur
            · have huv : u = v := by
                rcases List.mem_cons.1 hu with h | h
                · exact h
                · exact absurd h hur
              subst huv
              rw [E.kept u hur, hpt1, List.getElem?_set, if_pos rfl, if_pos hv]
          kept := by
            intro u hu
            have h1 : u ∉ rest := fun h => hu (List.mem_cons_of_mem _ h)
            have h2 : v ≠ u := fun h => hu (h ▸ List.mem_cons_self _ _)
            rw [E.kept u h1, hpt1, List.getElem?_set_ne h2]
          cost := by
            rw [hE_cost, present_pages_cons hx, fout_pages_cons hx]
            show s.cost + _ + _ + _ + _ = _
            cases x.present <;> cases (file_backed cp (v : Int) && x.modified) <;>
              simp [COST_UNMAP, COST_FOUT] <;> omega
          free_list := by
            rw [hE_fl, present_pages_cons hx]
            show (s.free_list ++ _) ++ _ = _
            cases x.present <;> simp [frame_at_get hx]
          frames_length := by
            rw [E.frames_length]
            show (if x.present then _ else _ : List Frame).length = _
            cases x.present <;> simp
          released := by
            intro i hi
            by_cases hir : i ∈ (present_pages cp rest).map (frame_at cp)
            · exact hE_rel i hir
            · rw [hE_unt i hir]
              rw [present_pages_cons hx] at hi
              cases hxp : x.present with
              | false =>
                rw [hxp] at hi
                exact absurd hi hir
              | true =>
                rw [hxp] at hi
                simp only [if_true, List.map_cons, List.mem_cons, frame_at_get hx] at hi
                have : i = x.frame := by
                  rcases hi with h | h
                  · exact h
                  · exact absurd h hir
                subst this
                show (if x.present then _ else _ : List Frame)[x.frame]? = _
                rw [hxp, if_pos rfl, List.getElem?_set, if_pos rfl, if_pos (hfr hxp)]
          untouched := by
            intro i hi
            rw [present_pages_cons hx] at hi
            cases hxp : x.present with
            | false =>
              rw [hxp] at hi
              rw [hE_unt i hi]
              show (if x.present then _ else _ : List Frame)[i]? = _
              rw [hxp]
              rfl
            | true =>
              rw [hxp] at hi
              simp only [if_true, List.map_cons, List.mem_cons, frame_at_get hx, not_or] at hi
              rw [hE_unt i hi.2]
              show (if x.present then _ else _ : List Frame)[i]? = _
              rw [hxp, if_pos rfl, List.getElem?_set_ne (fun h => hi.1 h.symm)]
          pager := E.pager
          randvals := E.randvals
          ofs := E.ofs
          inst_count := E.inst_count
          ctx_switches := E.ctx_switches
          process_exits := E.process_exits
          current_process := E.current_process }

theorem mem_present_pages {cp : Process} {l : List Nat} {u : Nat} :
    u ∈ present_pages cp l ↔
      u ∈ l ∧ ∃ x, cp.page_table[u]? = some x ∧ x.present = true := by
  unfold present_pages
  rw [List.mem_filter]
  constructor
  · rintro ⟨hu, ht⟩
    refine ⟨hu, ?_⟩
    unfold test_at at ht
    cases hx : cp.page_table[u]? with
    | none => simp [hx] at ht
    | some x =>
      simp only [hx] at ht
      exact ⟨x, rfl, ht⟩
  · rintro ⟨hu, x, hx, hxp⟩
    exact ⟨hu, by rw [test_at_get _ hx]; exact hxp⟩

theorem access_present_step {s : State} {operation : Char} {vpage : Int} {cp : Process}
    {x : PTE} {vma : VMA} (hc : operation ≠ 'c') (he : operation ≠ 'e')
    (hcp : s.processes[s.current_process]? = some cp)
    (hx : pte_at s.processes s.current_process vpage = some x) (hxp : x.present = true)
    (hvma : find_vma_for_page cp vpage = some vma)
    (hfr : x.frame < s.frame_table.length) :
    simulate_step s operation vpage =
      some { at_access s with
        cost := (at_access s).cost + touch_cost operation vma x,
        processes := s.processes.set s.current_process (touched cp operation vpage vma x) } := by
  unfold simulate_step
  rw [if_neg hc, if_neg he]
  simp only [hcp, hx, hxp, hvma, Bool.true_eq_false, if_false]
  exact @update_bits_eq (at_access s) operation vpage vma cp x hcp hx hfr

theorem pte_at_touched {ps : List Process} {n : Nat} {cp cp0 : Process} (hcp : ps[n]? = some cp0)
    (operation : Char) {vpage : Int} (vma : VMA) (x : PTE) (hv : 0 ≤ vpage)
    (hlt : vpage.toNat < cp.page_table.length) :
    pte_at (ps.set n (touched cp operation vpage vma x)) (n : Int) vpage =
      some (touched_pte operation vma x) := by
  rw [pte_at_set_proc ps n _ (get_lt hcp) vpage hv]
  unfold touched
  simp only
  rw [List.getElem?_set, if_pos rfl, if_pos hlt]

theorem exit_loop_cur : ∀ (l : List Nat) (s s1 : State), exit_loop l s = some s1 →
    s1.current_process = s.current_process := by
  intro l
  induction l with
  | nil =>
    intro s s1 h
    simp only [exit_loop, Option.some.injEq] at h
    rw [h]
  | cons v rest ih =>
    intro s s1 h
    rw [exit_loop] at h
    cases hp : exit_page s v with
    | none => simp [hp] at h
    | some s2 =>
      simp only [hp] at h
      rw [ih _ _ h]
      unfold exit_page at hp
      cases hcp : s.processes[s.current_process]? with
      | none => simp [hcp] at hp
      | some cp =>
        cases hx : cp.page_table[v]? with
        | none => simp [hcp, hx] at hp
        | some x =>
          simp only [hcp, hx] at hp
          by_cases hpr : x.present = true
          · rw [if_pos hpr] at hp
            cases hf : s.frame_table[x.frame]? with
            | none => simp [hf] at hp
            | some f =>
              simp only [hf, Option.some.injEq] at hp
              rw [← hp]
          · rw [if_neg hpr] at hp
            simp only [Option.some.injEq] at hp
            rw [← hp]

theorem update_bits_cur {s s1 : State} {operation : Char} {vpage : Int} {vma : Option VMA}
    (h : update_bits s operation vpage vma = some s1) :
    s1.current_process = s.current_process := by
  unfold update_bits at h
  cases vma with
  | none => simp at h
  | some vm =>
    cases hx : pte_at s.processes s.current_process vpage with
    | none => simp [hx] at h
    | some x =>
      simp only [hx] at h
      repeat' split at h
      all_goals
        cases h
        try rfl

theorem get_frame_cur {s s1 : State} {idx : Nat} (h : get_frame s = some (idx, s1)) :
    s1.current_process = s.current_process := by
  unfold get_frame allocate_frame_from_free_list at h
  cases hfl : s.free_list with
  | nil =>
    simp only [hfl] at h
    exact (select_victim_frame_rel h).1.current_process
  | cons i rest =>
    simp only [hfl, Option.some.injEq, Prod.mk.injEq] at h
    rw [← h.2]

theorem unmap_old_owner_keeps_cur {s s2 : State} {f : Frame}
    (h : unmap_old_owner s f = some s2) : s2.current_process = s.current_process := by
  unfold unmap_old_owner at h
  repeat' split at h
  all_goals
    cases h
    try rfl

theorem map_page_cur {s s3 : State} {idx : Nat} {vpage : Int} {vma : VMA}
    (h : map_page s idx vpage vma = some s3) : s3.current_process = s.current_process := by
  unfold map_page at h
  repeat' split at h
  all_goals
    cases h
    try rfl

theorem page_fault_cur {s s3 : State} {vpage : Int} {vma : VMA}
    (h : page_fault s vpage vma = some s3) : s3.current_process = s.current_process := by
  unfold page_fault at h
  split at h
  · cases h
  · rename_i idx s1 hg
    split at h
    · cases h
    · split at h
      · cases h
      · rename_i s2 hu
        rw [map_page_cur h, unmap_old_owner_keeps_cur hu, get_frame_cur hg]

theorem simulate_step_cur {s s1 : State} {operation : Char} {vpage : Int}
    (hc : operation ≠ 'c') (h : simulate_step s operation vpage = some s1) :
    s1.current_process = s.current_process := by
  unfold simulate_step at h
  rw [if_neg hc] at h
  by_cases he : operation = 'e'
  · rw [if_pos he] at h
    have := exit_loop_cur _ _ _ h
    exact this
  · rw [if_neg he] at h
    simp only at h
    split at h
    · rename_i cp pte hcp hx
      split at h
      · split at h
        · cases h
          rfl
        · rename_i vm hvm
          split at h
          · cases h
          · rename_i s2 hpf
            rw [update_bits_cur h, page_fault_cur hpf]
      · have := update_bits_cur h
        exact this
    · cases h

theorem simulate_cur : ∀ (trace : List (Char × Int)) (s s1 : State),
    (∀ i ∈ trace, i.1 ≠ 'c') → simulate s trace = some s1 →
    s1.current_process = s.current_process := by
  intro trace
  induction trace with
  | nil =>
    intro s s1 _ h
    simp only [simulate, Option.some.injEq] at h
    rw [h]
  | cons i rest ih =>
    intro s s1 hall h
    obtain ⟨op, v⟩ := i
    rw [simulate] at h
    cases hs : simulate_step s op v with
    | none => simp [hs] at h
    | some s2 =>
      simp only [hs] at h
      rw [ih s2 s1 (fun j hj => hall j (List.mem_cons_of_mem _ hj)) h]
      exact simulate_step_cur (hall (op, v) (List.mem_cons_self _ _)) hs

theorem exited_zero {l : List Nat} {s s1 : State} {cp cp1 : Process}
    (E : Exited l s cp s1 cp1) (hl : ∀ v : Nat, v < cp.page_table.length → v ∈ l) :
    cp1.page_table = List.replicate cp.page_table.length PTE.zero := by
  apply List.ext_getElem?
  intro u
  by_cases hu : u < cp.page_table.length
  · rw [E.zeroed u (hl u hu), List.getElem?_replicate, if_pos hu]
  · rw [List.getElem?_eq_none (by rw [E.length]; exact Nat.le_of_not_lt hu),
      List.getElem?_replicate, if_neg hu]

/-- C20 (amended): a process is current at every moment. `simulate` starts with process 0 as
the current process (line 437); an instruction other than a switch never changes the current
process, so after an exit the process that exited is still current, and a switch to `p` makes
`p` current. In a state of a run, an access to a page that an area covers operates on the
page table of that current process (afterwards its entry is present and referenced), and an
exit zeroes the page table of the current process. -/
theorem C20_current_process :
    (∀ (vmas : List (List VMA)) (randvals : List Int) (num_frames : Nat) (pager : Pager),
      (initial_state vmas randvals num_frames pager).current_process = 0) ∧
    (∀ (s s1 : State) (operation : Char) (vpage : Int), operation ≠ 'c' →
      simulate_step s operation vpage = some s1 → s1.current_process = s.current_process) ∧
    (∀ (trace : List (Char × Int)) (s s1 : State), (∀ i ∈ trace, i.1 ≠ 'c') →
      simulate s trace = some s1 → s1.current_process = s.current_process) ∧
    (∀ (s s1 : State) (vpage : Int), simulate_step s 'c' vpage = some s1 →
      s1.current_process = vpage.toNat) ∧
    (∀ (vmas : List (List VMA)) (randvals : List Int) (num_frames : Nat) (pager : Pager)
      (trace : List (Char × Int)) (s : State) (operation : Char) (vpage : Int) (cp : Process)
      (vma : VMA),
      ValidConfig vmas randvals num_frames pager → ValidTrace vmas.length trace →
      simulate (initial_state vmas randvals num_frames pager) trace = some s →
      operation ≠ 'c' → operation ≠ 'e' → 0 ≤ vpage → vpage < MAX_VPAGES →
      s.processes[s.current_process]? = some cp → find_vma_for_page cp vpage = some vma →
      ∃ s1 x, simulate_step s operation vpage = some s1 ∧
        pte_at s1.processes s.current_process vpage = some x ∧
        x.present = true ∧ x.referenced = true) ∧
    (∀ (vmas : List (List VMA)) (randvals : List Int) (num_frames : Nat) (pager : Pager)
      (trace : List (Char × Int)) (s : State) (vpage : Int),
      ValidConfig vmas randvals num_frames pager → ValidTrace vmas.length trace →
      simulate (initial_state vmas randvals num_frames pager) trace = some s →
      ∃ s1 cp1, simulate_step s 'e' vpage = some s1 ∧
        s1.current_process = s.current_process ∧
        s1.processes[s.current_process]? = some cp1 ∧
        cp1.page_table = List.replicate MAX_VPAGES PTE.zero) := by
  refine ⟨fun _ _ _ _ => rfl, fun s s1 op v hc h => simulate_step_cur hc h,
    fun tr s s1 hall h => simulate_cur tr s s1 hall h, ?_, ?_, ?_⟩
  · intro s s1 vpage h
    unfold simulate_step at h
    rw [if_pos rfl] at h
    split at h
    · cases h
      rfl
    · cases h
  · intro vmas randvals num_frames pager trace s operation vpage cp vma hc hv hs hop1 hop2
      hv0 hv64 hcp hvma
    obtain ⟨hi, _, _⟩ := reachable_inv_of hc hv hs
    have hlen := (hi.procs _ _ hcp).2
    have hvl : vpage.toNat < cp.page_table.length := by
      rw [hlen]
      omega
    obtain ⟨x0, hx0⟩ : ∃ x0, cp.page_table[vpage.toNat]? = some x0 :=
      ⟨_, List.getElem?_eq_getElem hvl⟩
    have hx : pte_at s.processes s.current_process vpage = some x0 := by
      rw [pte_at_get hcp vpage hv0]
      exact hx0
    cases hxp : x0.present with
    | true =>
      obtain ⟨f, hf, _, _⟩ := hi.pte_owned _ _ x0 hx hxp
      refine ⟨_, touched_pte operation vma x0,
        access_present_step hop1 hop2 hcp hx hxp hvma (get_lt hf), ?_, hxp, rfl⟩
      exact pte_at_touched hcp operation vma x0 hv0 hvl
    | false =>
      obtain ⟨idx, s1, f0, cp1, x1, s2, cp2, hget, hhole, hf0, hunref, hfk, hcur1, hic1,
        hcost1, hcp1, hcpu, hx1, hxu, hs2, henv, hcp2, hx2, e1, e2, e3, e4, e5, e6, hid,
        hstep⟩ := fault_explicit hi hop1 hop2 hcp hx hxp hvma
      have hcur2 : s2.current_process = s.current_process :=
        henv.current_process.trans hcur1
      rw [← hcur2] at hcp2
      obtain ⟨_, _, pr2, hpr2, hxv2⟩ := pte_at_some hx2
      simp only [Int.toNat_ofNat] at hpr2
      rw [← hcur2, hcp2] at hpr2
      simp only [Option.some.injEq] at hpr2
      subst hpr2
      refine ⟨_, touched_pte operation vma (mapped_pte x1 idx), hstep, ?_, rfl, rfl⟩
      show pte_at (s2.processes.set s2.current_process _) _ _ = _
      rw [← hcur2]
      refine pte_at_touched hcp2 operation vma _ hv0 ?_
      show vpage.toNat < (cp2.page_table.set _ _).length
      rw [List.length_set]
      exact get_lt hxv2
  · intro vmas randvals num_frames pager trace s vpage hc hv hs
    obtain ⟨hi, _, _⟩ := reachable_inv_of hc hv hs
    obtain ⟨cp, hcp⟩ : ∃ cp, s.processes[s.current_process]? = some cp :=
      ⟨_, List.getElem?_eq_getElem hi.cur⟩
    have hlen := (hi.procs _ _ hcp).2
    obtain ⟨s1, cp1, hloop, E⟩ := exit_loop_spec (List.range MAX_VPAGES)
      { s with
        inst_count := s.inst_count + 1,
        process_exits := s.process_exits + 1,
        cost := s.cost + COST_PROCESS_EXIT } cp hcp hi.frame_owned hi.pte_owned
      (List.nodup_range _) (fun v hv => by rw [hlen]; exact List.mem_range.1 hv)
    refine ⟨s1, cp1, ?_, E.current_process, ?_, ?_⟩
    · unfold simulate_step
      rw [if_neg (by decide), if_pos rfl]
      exact hloop
    · rw [E.processes]
      show (s.processes.set s.current_process cp1)[s.current_process]? = _
      rw [List.getElem?_set, if_pos rfl, if_pos hi.cur]
    · rw [exited_zero E (fun v hv => List.mem_range.2 (hlen ▸ hv)), hlen]

/-- C20, as stated, fails: in the initial state of the example, where no switch has been
executed, the access `r 0` maps page 0 of process 0; and after `r 0; e`, still without a
switch, the access `w 1` maps page 1 of process 0. -/
theorem C20_counterexample :
    example_state.ctx_switches = 0 ∧
    pte_at example_state.processes 0 0 = some PTE.zero ∧
    (simulate example_state [('r', 0)]).map (fun s => pte_at s.processes 0 0) =
      some (some { present := true, referenced := true, modified := false,
                   write_protect := false, pagedout := false, frame := 0 }) ∧
    (simulate example_state [('r', 0), ('e', 0)]).map
        (fun s => (s.ctx_switches, s.process_exits, pte_at s.processes 0 1)) =
      some (0, 1, some PTE.zero) ∧
    (simulate example_state [('r', 0), ('e', 0), ('w', 1)]).map
        (fun s => pte_at s.processes 0 1) =
      some (some { present := true, referenced := true, modified := true,
                   write_protect := false, pagedout := false, frame := 1 }) := by
  decide

theorem C20_current_process_witness :
    ∃ s1 x, simulate_step example_state 'r' 0 = some s1 ∧
      pte_at s1.processes example_state.current_process 0 = some x ∧
      x.present = true ∧ x.referenced = true :=
  C20_current_process.2.2.2.2.1 [[example_vma]] [] 2 (Pager.FIFOPager 0 2) [] example_state
    'r' 0 (new_process 0 [example_vma]) example_vma example_config (fun i hi => by cases hi)
    rfl (by decide) (by decide) (by decide) (by decide) rfl rfl

/-! ## The FIFO pager and the random pager -/

theorem fifo_select_eq {h N : Nat} (s : State) (hh : h < N) (hft : s.frame_table.length = N) :
    FIFOPager.select_victim_frame h N s =
      some (h, { s with pager := Pager.FIFOPager ((h + 1) % N) N }) := by
  unfold FIFOPager.select_victim_frame
  rw [if_pos ⟨by omega, by omega⟩]

/-- C12: for `N ≥ 1` frames and a hand `h < N`, `FIFOPager::select_victim_frame` returns the
frame `h` and only replaces the hand by `(h + 1) mod N`: the state is otherwise the same,
whatever the bits of the entries are. Hence in any sequence of states in which only the calls
of `select_victim_frame` change the pager, starting with the hand 0, the `k`-th call returns
the frame `k mod N`. -/
theorem C12_fifo_round_robin (N h : Nat) (s : State) (hN : 1 ≤ N) (hh : h < N)
    (hft : s.frame_table.length = N) :
    FIFOPager.select_victim_frame h N s =
      some (h, { s with pager := Pager.FIFOPager ((h + 1) % N) N }) ∧
    (∀ st : Nat → State, (∀ k, (st k).frame_table.length = N) →
      (st 0).pager = Pager.FIFOPager 0 N →
      (∀ k idx s1, select_victim_frame (st k) = some (idx, s1) →
        (st (k + 1)).pager = s1.pager) →
      ∀ k, select_victim_frame (st k) =
        some (k % N, { st k with pager := Pager.FIFOPager ((k + 1) % N) N })) := by
  refine ⟨fifo_select_eq s hh hft, ?_⟩
  intro st hlen h0 hnext
  have hpos : 0 < N := hN
  have hmod : ∀ k, (k % N + 1) % N = (k + 1) % N := fun k => by
    rw [Nat.add_mod k 1 N, Nat.add_mod (k % N) 1 N, Nat.mod_mod]
  have hsel : ∀ k, (st k).pager = Pager.FIFOPager (k % N) N →
      select_victim_frame (st k) =
        some (k % N, { st k with pager := Pager.FIFOPager ((k + 1) % N) N }) := by
    intro k hk
    unfold select_victim_frame
    rw [hk]
    simp only
    rw [fifo_select_eq (st k) (Nat.mod_lt _ hpos) (hlen k), hmod]
  have key : ∀ k, (st k).pager = Pager.FIFOPager (k % N) N := by
    intro k
    induction k with
    | zero => rw [h0, Nat.zero_mod]
    | succ k ih => rw [hnext k _ _ (hsel k ih)]
  exact fun k => hsel k (key k)

theorem C12_fifo_round_robin_witness :
    FIFOPager.select_victim_frame 1 2 example_final =
      some (1, { example_final with pager := Pager.FIFOPager ((1 + 1) % 2) 2 }) ∧
    (∀ st : Nat → State, (∀ k, (st k).frame_table.length = 2) →
      (st 0).pager = Pager.FIFOPager 0 2 →
      (∀ k idx s1, select_victim_frame (st k) = some (idx, s1) →
        (st (k + 1)).pager = s1.pager) →
      ∀ k, select_victim_frame (st k) =
        some (k % 2, { st k with pager := Pager.FIFOPager ((k + 1) % 2) 2 })) :=
  C12_fifo_round_robin 2 1 example_final (by decide) (by decide) rfl

theorem random_eq {N : Nat} {s : State} {r : Int} (hN : 0 < N)
    (hft : s.frame_table.length = N) (hr : s.randvals[s.ofs]? = some r) (h0 : 0 ≤ r) :
    myrandom s (N : Int) =
      some (1 + r % (N : Int), { s with ofs := (s.ofs + 1) % s.randvals.length }) ∧
    RandomPager.select_victim_frame N s =
      some ((r % (N : Int)).toNat, { s with ofs := (s.ofs + 1) % s.randvals.length }) ∧
    0 ≤ r % (N : Int) ∧ r % (N : Int) < N ∧ (r % (N : Int)).toNat < N := by
  have hn0 : (N : Int) ≠ 0 := by omega
  have h1 : 0 ≤ r % (N : Int) := Int.emod_nonneg _ hn0
  have h2 : r % (N : Int) < N := Int.emod_lt_of_pos _ (by omega)
  have hm : myrandom s (N : Int) =
      some (1 + r % (N : Int), { s with ofs := (s.ofs + 1) % s.randvals.length }) := by
    unfold myrandom
    simp only [hr, hn0, if_false]
    rw [Int.tmod_eq_emod h0 (by omega)]
  refine ⟨hm, ?_, h1, h2, by omega⟩
  unfold RandomPager.select_victim_frame
  rw [hm]
  simp only
  have e : 1 + r % (N : Int) - 1 = r % (N : Int) := by omega
  rw [e, if_pos ⟨h1, by
    show (r % (N : Int)).toNat < s.frame_table.length
    rw [hft]
    omega⟩]

/-- C15: with a sequence `randvals` of non-negative values, a cursor `ofs` inside it and
`N ≥ 1` frames, `myrandom(N)` returns `1 + (randvals[ofs] mod N)`, a value from 1 to `N`, and
sets the cursor to `(ofs + 1) mod L` for the length `L` of the sequence;
`RandomPager::select_victim_frame` returns the frame `randvals[ofs] mod N`, below `N`, and
changes nothing but the cursor. Hence in any sequence of states in which only the calls of
`select_victim_frame` move the cursor, starting with the cursor 0, the `k`-th call uses
`randvals[k mod L]`. -/
theorem C15_random (N : Nat) (s : State) (hN : 1 ≤ N) (hft : s.frame_table.length = N)
    (hofs : s.ofs < s.randvals.length) (hnn : ∀ r ∈ s.randvals, 0 ≤ r) :
    (∃ r, s.randvals[s.ofs]? = some r ∧
      myrandom s (N : Int) =
        some (1 + r % (N : Int), { s with ofs := (s.ofs + 1) % s.randvals.length }) ∧
      1 ≤ 1 + r % (N : Int) ∧ 1 + r % (N : Int) ≤ N ∧
      RandomPager.select_victim_frame N s =
        some ((r % (N : Int)).toNat, { s with ofs := (s.ofs + 1) % s.randvals.length }) ∧
      (r % (N : Int)).toNat < N) ∧
    (∀ st : Nat → State,
      (∀ k, (st k).frame_table.length = N ∧ (st k).randvals = s.randvals ∧
        (st k).pager = Pager.RandomPager N) →
      (st 0).ofs = 0 →
      (∀ k idx s1, select_victim_frame (st k) = some (idx, s1) → (st (k + 1)).ofs = s1.ofs) →
      ∀ k, ∃ r, s.randvals[k % s.randvals.length]? = some r ∧
        select_victim_frame (st k) =
          some ((r % (N : Int)).toNat,
            { st k with ofs := (k + 1) % s.randvals.length })) := by
  have hpos : 0 < N := hN
  have hL : 0 < s.randvals.length := by omega
  constructor
  · have hr := List.getElem?_eq_getElem hofs
    have h0 : 0 ≤ s.randvals[s.ofs] := hnn _ (List.getElem_mem _)
    obtain ⟨a, b, c, d, e⟩ := random_eq hpos hft hr h0
    exact ⟨_, hr, a, by omega, by omega, b, e⟩
  · intro st hst h0 hnext
    have hmod : ∀ k, (k % s.randvals.length + 1) % s.randvals.length =
        (k + 1) % s.randvals.length := fun k => by
      rw [Nat.add_mod k 1, Nat.add_mod (k % s.randvals.length) 1, Nat.mod_mod]
    have hsel : ∀ k, (st k).ofs = k % s.randvals.length →
        ∃ r, s.randvals[k % s.randvals.length]? = some r ∧
          select_victim_frame (st k) =
            some ((r % (N : Int)).toNat,
              { st k with ofs := (k + 1) % s.randvals.length }) := by
      intro k hk
      have hlt : k % s.randvals.length < s.randvals.length := Nat.mod_lt _ hL
      have hr := List.getElem?_eq_getElem hlt
      have hr0 : 0 ≤ s.randvals[k % s.randvals.length] := hnn _ (List.getElem_mem _)
      have hrk : (st k).randvals[(st k).ofs]? = some s.randvals[k % s.randvals.length] := by
        rw [(hst k).2.1, hk]
        exact hr
      obtain ⟨_, b, _⟩ := random_eq hpos (hst k).1 hrk hr0
      refine ⟨_, hr, ?_⟩
      unfold select_victim_frame
      rw [(hst k).2.2]
      simp only
      rw [b, hk, (hst k).2.1, hmod]
    have key : ∀ k, (st k).ofs = k % s.randvals.length := by
      intro k
      induction k with
      | zero => rw [h0, Nat.zero_mod]
      | succ k ih =>
        obtain ⟨r, _, hs⟩ := hsel k ih
        rw [hnext k _ _ hs]
    exact fun k => hsel k (key k)

/-! ## The clock pager -/

theorem clock_loop_fuel_mono (ft : List Frame) (N : Nat) :
    ∀ (fuel hand : Nat) (ps : List Process) (insp : Nat) (r : Nat × Nat × List Process × Nat),
      ClockPager.loop ft N fuel hand ps insp = some r →
      ∀ k, ClockPager.loop ft N (fuel + k) hand ps insp = some r := by
  intro fuel
  induction fuel with
  | zero =>
    intro hand ps insp r h
    simp [ClockPager.loop] at h
  | succ fuel ih =>
    intro hand ps insp r h k
    have e : fuel + 1 + k = (fuel + k) + 1 := by omega
    rw [e]
    rw [ClockPager.loop] at h ⊢
    cases hf : ft[hand]? with
    | none => simp [hf] at h
    | some f =>
      cases hx : pte_at ps f.pid f.vpage with
      | none => simp [hf, hx] at h
      | some x =>
        simp only [hf, hx] at h ⊢
        by_cases hn : N = 0
        · simp [hn] at h
        · rw [if_neg hn] at h ⊢
          by_cases hr : x.referenced = true
          · rw [if_pos hr] at h ⊢
            exact ih _ _ _ _ h k
          · rw [if_neg hr] at h ⊢
            exact h

/-- C13: with `N ≥ 1` frames, each owned by an existing page-table entry, and a hand below
`N`, the `while (true)` loop of `ClockPager::select_victim_frame` returns after inspecting
at most `N + 1`, hence at most `2 * N`, frames, whatever the `referenced` bits are: the loop
run with `2 * N` inspections allowed returns, and allowing more changes nothing. In
particular this holds in every state of a run with an empty free list and the clock pager. -/
theorem C13_clock_termination (N h : Nat) (s : State) (hN : 1 ≤ N)
    (hft : s.frame_table.length = N) (hh : h < N)
    (hall : AllMapped s.frame_table s.processes) :
    (∃ victim hand1 ps1 inspected,
      ClockPager.loop s.frame_table N (2 * N) h s.processes 0 =
        some (victim, hand1, ps1, inspected) ∧
      inspected ≤ N + 1 ∧ inspected ≤ 2 * N ∧
      (∀ fuel, 2 * N ≤ fuel →
        ClockPager.loop s.frame_table N fuel h s.processes 0 =
          some (victim, hand1, ps1, inspected)) ∧
      ClockPager.select_victim_frame h N s =
        some (victim, { s with processes := ps1, pager := Pager.ClockPager hand1 N })) ∧
    (∀ (vmas : List (List VMA)) (randvals : List Int) (trace : List (Char × Int))
      (t : State) (hand : Nat),
      ValidConfig vmas randvals N (Pager.ClockPager 0 N) → ValidTrace vmas.length trace →
      simulate (initial_state vmas randvals N (Pager.ClockPager 0 N)) trace = some t →
      t.free_list = [] → t.pager = Pager.ClockPager hand N →
      ∃ r, ClockPager.loop t.frame_table N (2 * N) hand t.processes 0 = some r ∧
        r.2.2.2 ≤ 2 * N) := by
  constructor
  · obtain ⟨r, hr, _, hr3⟩ := ClockPager.clock_loop_progress s.frame_table N hft.symm hN N
      (2 * N) h s.processes 0 (by omega) hh hall (fun j h1 h2 => absurd h1 (by omega))
    obtain ⟨v, h1, ps1, k⟩ := r
    refine ⟨v, h1, ps1, k, hr, by simpa using hr3, ?_, ?_, ?_⟩
    · have : k ≤ 0 + N + 1 := hr3
      omega
    · intro fuel hfuel
      have := clock_loop_fuel_mono s.frame_table N _ _ _ _ _ hr (fuel - 2 * N)
      rw [Nat.add_sub_cancel' hfuel] at this
      exact this
    · unfold ClockPager.select_victim_frame
      rw [hr]
  · intro vmas randvals trace t hand hc hv ht hfree hp
    obtain ⟨hi, hlen, _⟩ := reachable_inv_of hc hv ht
    have hpg := hi.pager
    unfold PagerOK at hpg
    rw [hp] at hpg
    obtain ⟨r, hr, _, hr3⟩ := ClockPager.clock_loop_progress t.frame_table N hpg.1 hN N
      (2 * N) hand t.processes 0 (by omega) hpg.2 (hi.all_mapped hfree)
      (fun j h1 h2 => absurd h1 (by omega))
    refine ⟨r, hr, ?_⟩
    have : r.2.2.2 ≤ 0 + N + 1 := hr3
    omega

/-! ## Filling the free frames -/

theorem get_frame_free {s : State} {idx : Nat} {rest : List Nat}
    (hfl : s.free_list = idx :: rest) :
    get_frame s = some (idx, { s with free_list := rest }) := by
  unfold get_frame allocate_frame_from_free_list
  simp only [hfl]

/-- A page fault while the free list is not empty takes its first frame and evicts nothing. -/
theorem fault_free_step {s : State} {operation : Char} {vpage : Int} {cp : Process} {x : PTE}
    {vma : VMA} {idx : Nat} {rest : List Nat} (hi : Inv s) (hc : operation ≠ 'c')
    (he : operation ≠ 'e') (hcp : s.processes[s.current_process]? = some cp)
    (hx : pte_at s.processes s.current_process vpage = some x) (hxp : x.present = false)
    (hvma : find_vma_for_page cp vpage = some vma) (hfl : s.free_list = idx :: rest) :
    simulate_step s operation vpage =
      some (fault_result { at_access s with free_list := rest } cp x idx operation vpage vma) ∧
    idx < s.frame_table.length := by
  obtain ⟨idx1, s1, f0, cp1, x1, s2, cp2, hget, hhole, hf0, hunref, hfk, hcur1, hic1,
    hcost1, hcp1, hcpu, hx1, hxu, hs2, henv, hcp2, hx2, e1, e2, e3, e4, e5, e6, hid,
    hstep⟩ := fault_explicit hi hc he hcp hx hxp hvma
  have hg := @get_frame_free (at_access s) idx rest hfl
  rw [hg] at hget
  simp only [Option.some.injEq, Prod.mk.injEq] at hget
  obtain ⟨h1, h2⟩ := hget
  subst h1
  subst h2
  have hmem : idx ∈ s.free_list := by rw [hfl]; exact List.mem_cons_self _ _
  obtain ⟨_, f, hf, hfp⟩ := (hi.free.2 idx).1 hmem
  have hf0' : s.frame_table[idx]? = some f0 := hf0
  rw [hf] at hf0'
  simp only [Option.some.injEq] at hf0'
  subst hf0'
  rw [unmap_old_owner_free hfp] at hs2
  simp only [Option.some.injEq] at hs2
  subst hs2
  have hcp1' : s.processes[s.current_process]? = some cp1 := hcp1
  rw [hcp] at hcp1'
  simp only [Option.some.injEq] at hcp1'
  subst hcp1'
  have hcp2' : s.processes[s.current_process]? = some cp2 := hcp2
  rw [hcp] at hcp2'
  simp only [Option.some.injEq] at hcp2'
  subst hcp2'
  have hx1' : pte_at s.processes s.current_process vpage = some x1 := hx1
  rw [hx] at hx1'
  simp only [Option.some.injEq] at hx1'
  subst hx1'
  exact ⟨hstep, get_lt hf⟩

theorem pte_at_fault_result {s2 : State} {cp2 : Process} {x1 : PTE} (idx : Nat)
    (operation : Char) {vpage : Int} (vma : VMA)
    (hcp2 : s2.processes[s2.current_process]? = some cp2)
    (hx2 : pte_at s2.processes s2.current_process vpage = some x1) (a b : Int) :
    pte_at (fault_result s2 cp2 x1 idx operation vpage vma).processes a b =
      if a = (s2.current_process : Int) ∧ b = vpage then
        some (touched_pte operation vma (mapped_pte x1 idx))
      else pte_at s2.processes a b := by
  obtain ⟨_, hv0, pr, hpr, hxv⟩ := pte_at_some hx2
  simp only [Int.toNat_ofNat] at hpr
  rw [hcp2] at hpr
  simp only [Option.some.injEq] at hpr
  subst hpr
  have hvl : vpage.toNat < cp2.page_table.length := get_lt hxv
  have := @pte_at_set_page s2.processes s2.current_process cp2
    (touched (filled cp2 vpage vma x1 idx) operation vpage vma (mapped_pte x1 idx))
    vpage.toNat (touched_pte operation vma (mapped_pte x1 idx)) hcp2 hvl
    (by
      unfold touched filled
      simp only
      rw [List.set_set]) a b
  rw [Int.toNat_of_nonneg hv0] at this
  exact this

/-- A run of accesses to distinct pages that are not present, as long as the free list
lasts: every access takes the next free frame. -/
theorem fill_run : ∀ (tr : List (Char × Int)) (s : State) (j : Nat) (cp : Process),
    Inv s → s.processes[s.current_process]? = some cp →
    s.free_list = List.range' j tr.length →
    (∀ i ∈ tr, i.1 ≠ 'c' ∧ i.1 ≠ 'e' ∧ 0 ≤ i.2 ∧ i.2 < MAX_VPAGES ∧
      (find_vma_for_page cp i.2).isSome = true ∧
      ∀ x, pte_at s.processes s.current_process i.2 = some x → x.present = false) →
    (tr.map Prod.snd).Nodup →
    ∃ s1 cp1, simulate s tr = some s1 ∧ Inv s1 ∧
      s1.processes[s.current_process]? = some cp1 ∧
      s1.current_process = s.current_process ∧ s1.free_list = [] ∧ s1.pager = s.pager ∧
      s1.inst_count = s.inst_count + tr.length ∧
      cp1.maps = cp.maps + tr.length ∧ cp1.vmas = cp.vmas ∧
      (∀ (q : Nat) (pr : Process), s.processes[q]? = some pr →
        ∃ pr1, s1.processes[q]? = some pr1 ∧ pr1.unmaps = pr.unmaps) ∧
      (∀ v : Int, v ∉ tr.map Prod.snd →
        pte_at s1.processes s.current_process v = pte_at s.processes s.current_process v) ∧
      (∀ (i : Nat) (a : Char × Int), tr[i]? = some a →
        ∃ x, pte_at s1.processes s.current_process a.2 = some x ∧ x.present = true ∧
          x.frame = j + i) := by
  intro tr
  induction tr with
  | nil =>
    intro s j cp hi hcp hfl _ _
    refine ⟨s, cp, rfl, hi, hcp, rfl, by simpa using hfl, rfl, rfl, rfl, rfl,
      fun q pr hq => ⟨pr, hq, rfl⟩, fun _ _ => rfl, fun i a ha => by simp at ha⟩
  | cons hd rest ih =>
    intro s j cp hi hcp hfl hall hnd
    obtain ⟨op, v⟩ := hd
    obtain ⟨hc, he, hv0, hv64, hcov, hnp⟩ := hall (op, v) (List.mem_cons_self _ _)
    simp only at hc he hv0 hv64 hcov hnp
    have hlen := (hi.procs _ _ hcp).2
    have hvl : v.toNat < cp.page_table.length := by
      rw [hlen]
      have : v < 64 := hv64
      omega
    obtain ⟨x, hxv⟩ : ∃ x, cp.page_table[v.toNat]? = some x :=
      ⟨_, List.getElem?_eq_getElem hvl⟩
    have hx : pte_at s.processes s.current_process v = some x := by
      rw [pte_at_get hcp v hv0]
      exact hxv
    have hxp := hnp x hx
    obtain ⟨vma, hvma⟩ := Option.isSome_iff_exists.1 hcov
    have hfl1 : s.free_list = j :: List.range' (j + 1) rest.length := by
      rw [hfl]
      exact List.range'_succ _ _ _
    obtain ⟨hstep, hjlt⟩ := fault_free_step hi hc he hcp hx hxp hvma hfl1
    have hvalid : ValidInstr s.processes.length op v := by
      unfold ValidInstr
      rw [if_neg hc, if_neg he]
      exact ⟨hv0, hv64⟩
    obtain ⟨s', hs', hi', _, _⟩ := simulate_step_inv hi hvalid
    rw [hstep] at hs'
    simp only [Option.some.injEq] at hs'
    have hpte : ∀ a b : Int, pte_at s'.processes a b =
        if a = (s.current_process : Int) ∧ b = v then
          some (touched_pte op vma (mapped_pte x j))
        else pte_at s.processes a b := by
      intro a b
      rw [← hs']
      exact @pte_at_fault_result { at_access s with free_list := List.range' (j + 1) rest.length }
        cp x j op v vma hcp hx a b
    have hcp' : s'.processes[s'.current_process]? =
        some (touched (filled cp v vma x j) op v vma (mapped_pte x j)) := by
      rw [← hs']
      show (s.processes.set s.current_process _)[s.current_process]? = _
      rw [List.getElem?_set, if_pos rfl, if_pos hi.cur]
    have hcur' : s'.current_process = s.current_process := by rw [← hs']; rfl
    have hnd' := List.nodup_cons.1 hnd
    obtain ⟨s1, cp1, hrun, hi1, hcp1, hcur1, hfree1, hpg1, hic1, hmaps1, hvm1, hun1, hkeep1,
      hmap1⟩ := ih s' (j + 1) _ hi' hcp' (by rw [← hs']; rfl) (fun i him => by
        obtain ⟨a1, a2, a3, a4, a5, a6⟩ := hall i (List.mem_cons_of_mem _ him)
        refine ⟨a1, a2, a3, a4, a5, ?_⟩
        intro y hy
        rw [hcur', hpte, if_neg] at hy
        · exact a6 y hy
        · intro hcon
          apply hnd'.1
          show v ∈ _
          rw [← hcon.2]
          exact List.mem_map.2 ⟨i, him, rfl⟩) hnd'.2
    rw [hcur'] at hcp1 hcur1 hkeep1 hmap1
    refine ⟨s1, cp1, ?_, hi1, hcp1, hcur1, hfree1, ?_, ?_, ?_, hvm1, ?_, ?_, ?_⟩
    · rw [simulate, hstep]
      simp only
      rw [hs']
      exact hrun
    · rw [hpg1, ← hs']
      rfl
    · rw [hic1, ← hs']
      show s.inst_count + 1 + rest.length = s.inst_count + (rest.length + 1)
      omega
    · rw [hmaps1]
      show cp.maps + 1 + rest.length = cp.maps + (rest.length + 1)
      omega
    · intro q pr hq
      obtain ⟨pr', hpr', hu, _⟩ :=
        @fault_result_procs { at_access s with free_list := List.range' (j + 1) rest.length }
          cp x j op v vma hcp q pr hq
      rw [hs'] at hpr'
      obtain ⟨pr1, hpr1, hu1⟩ := hun1 q pr' hpr'
      exact ⟨pr1, hpr1, hu1.trans hu⟩
    · intro w hw
      have hw1 : w ∉ rest.map Prod.snd := fun h => hw (List.mem_cons_of_mem _ h)
      have hw2 : w ≠ v := fun h => hw (h ▸ List.mem_cons_self _ _)
      rw [hkeep1 w hw1, hpte, if_neg (fun h => hw2 h.2)]
    · intro i a ha
      cases i with
      | zero =>
        simp only [List.getElem?_cons_zero, Option.some.injEq] at ha
        subst ha
        refine ⟨touched_pte op vma (mapped_pte x j), ?_, rfl, ?_⟩
        · rw [hkeep1 v hnd'.1, hpte, if_pos ⟨rfl, rfl⟩]
        · show j % 128 = j + 0
          rw [Nat.add_zero]
          exact Nat.mod_eq_of_lt (Nat.lt_of_lt_of_le hjlt hi.frames_le)
      | succ i =>
        simp only [List.getElem?_cons_succ] at ha
        obtain ⟨y, hy, hyp, hyf⟩ := hmap1 i a ha
        exact ⟨y, hy, hyp, by omega⟩

/-- C11: with `C` frames (`1 ≤ C ≤ 64`) and the FIFO pager, a trace of exactly `C` accesses
of process 0, the current process of the initial state, to `C` pairwise distinct pages of
`[0, 64)` that its areas cover runs to a state where the `maps` counter of the process is `C`
(one fault per access), the hand of the pager is still 0 and `unmaps` is 0 for every process
(`select_victim_frame` was never called), the page of the `i`-th access is present in the
frame `i`, which is owned by it, and the free list is empty. -/
theorem C11_no_eviction_while_free (C : Nat) (vmas0 : List VMA) (others : List (List VMA))
    (randvals : List Int) (trace : List (Char × Int)) (hC1 : 1 ≤ C) (hC64 : C ≤ 64)
    (hlen : trace.length = C) (hacc : ∀ i ∈ trace, i.1 ≠ 'c' ∧ i.1 ≠ 'e')
    (hpages : ∀ i ∈ trace, 0 ≤ i.2 ∧ i.2 < 64) (hnd : (trace.map Prod.snd).Nodup)
    (hcov : ∀ i ∈ trace, (find_vma i.2 vmas0).isSome = true) :
    ∃ s cp,
      simulate (initial_state (vmas0 :: others) randvals C (Pager.FIFOPager 0 C)) trace
        = some s ∧
      s.current_process = 0 ∧ s.processes[0]? = some cp ∧ cp.maps = C ∧
      s.pager = Pager.FIFOPager 0 C ∧
      (∀ (q : Nat) (p : Process), s.processes[q]? = some p → p.unmaps = 0) ∧
      (∀ (i : Nat) (a : Char × Int), (trace)[i]? = some a →
        ∃ x f, pte_at s.processes 0 a.2 = some x ∧ x.present = true ∧ x.frame = i ∧
          s.frame_table[i]? = some f ∧ f.pid = 0 ∧ f.vpage = a.2) ∧
      s.free_list = [] ∧ s.inst_count = C := by
  have hc : ValidConfig (vmas0 :: others) randvals C (Pager.FIFOPager 0 C) :=
    ⟨hC1, by omega, by simp, ⟨'f', rfl⟩, fun h => by
      obtain ⟨n, hn⟩ := h
      cases hn⟩
  have hv : ValidTrace (vmas0 :: others).length trace := by
    intro i hi
    unfold ValidInstr
    rw [if_neg (hacc i hi).1, if_neg (hacc i hi).2]
    exact hpages i hi
  have hinv := initial_inv hc
  have hcp0 : (initial_state (vmas0 :: others) randvals C
      (Pager.FIFOPager 0 C)).processes[(initial_state (vmas0 :: others) randvals C
      (Pager.FIFOPager 0 C)).current_process]? = some (new_process 0 vmas0) := by
    show (read_processes 0 (vmas0 :: others))[0]? = _
    simp [read_processes]
  obtain ⟨s1, cp1, hrun, hi1, hcp1, hcur1, hfree1, hpg1, hic1, hmaps1, _, hun1, _, hmap1⟩ :=
    fill_run trace (initial_state (vmas0 :: others) randvals C (Pager.FIFOPager 0 C)) 0
      (new_process 0 vmas0) hinv hcp0
      (by
        rw [hlen]
        exact List.range_eq_range' C)
      (fun i hi => ⟨(hacc i hi).1, (hacc i hi).2, (hpages i hi).1, (hpages i hi).2, hcov i hi,
        fun x hx => by
          rw [pte_at_initial hx]
          rfl⟩) hnd
  obtain ⟨_, _, hplen⟩ := reachable_inv_of hc hv hrun
  refine ⟨s1, cp1, hrun, hcur1, hcp1, ?_, hpg1, ?_, ?_, hfree1, ?_⟩
  · rw [hmaps1, hlen]
    exact Nat.zero_add C
  · intro q p hq
    have hql : q < (vmas0 :: others).length := by
      rw [← hplen]
      exact get_lt hq
    have h0 := get_read_processes (vmas0 :: others) 0 q
    rw [List.getElem?_eq_getElem hql] at h0
    obtain ⟨pr1, hpr1, hu⟩ := hun1 q _ h0
    rw [hq] at hpr1
    simp only [Option.some.injEq] at hpr1
    rw [hpr1, hu]
    rfl
  · intro i a ha
    obtain ⟨x, hx, hxp, hxf⟩ := hmap1 i a ha
    obtain ⟨f, hf, hfp, hfv⟩ := hi1.pte_owned _ _ x hx hxp
    rw [hxf, Nat.zero_add] at hf
    exact ⟨x, f, hx, hxp, by omega, hf, hfp, hfv⟩
  · rw [hic1, hlen]
    exact Nat.zero_add C

/-! ## Sweeps over the frame table -/

theorem owner_pte_get {ft : List Frame} {ps : List Process} {k : Nat} {f : Frame}
    (hf : ft[k]? = some f) : owner_pte ft ps k = pte_at ps f.pid f.vpage := by
  simp only [owner_pte, hf]

theorem unref_owner_get {ft : List Frame} {ps : List Process} {k : Nat} {f : Frame} {x : PTE}
    (hf : ft[k]? = some f) (hx : pte_at ps f.pid f.vpage = some x) :
    unref_owner ft ps k = set_pte ps f.pid.toNat f.vpage.toNat { x with referenced := false } := by
  simp only [unref_owner, hf, hx]

theorem pte_at_unref_owner {ft : List Frame} {ps : List Process} {k : Nat} {f : Frame}
    (hf : ft[k]? = some f) (a b : Int) :
    pte_at (unref_owner ft ps k) a b =
      if a = f.pid ∧ b = f.vpage then (pte_at ps a b).map PTE.unref else pte_at ps a b := by
  cases hx : pte_at ps f.pid f.vpage with
  | none =>
    have : unref_owner ft ps k = ps := by simp only [unref_owner, hf, hx]
    rw [this]
    split
    · rename_i h
      rw [h.1, h.2, hx]
      rfl
    · rfl
  | some x =>
    rw [unref_owner_get hf hx, pte_at_set_pte_int hx]
    split
    · rename_i h
      rw [h.1, h.2, hx]
      rfl
    · rfl

theorem DistinctOwners.unref_owner_distinct {ft : List Frame} {ps : List Process}
    (h : DistinctOwners ft ps) (k : Nat) : DistinctOwners ft (unref_owner ft ps k) := by
  refine ⟨?_, h.2⟩
  cases hf : ft[k]? with
  | none =>
    have : unref_owner ft ps k = ps := by simp only [unref_owner, hf]
    rw [this]
    exact h.1
  | some f =>
    obtain ⟨x, hx⟩ := h.1 k f hf
    rw [unref_owner_get hf hx]
    exact h.1.mapped_set_pte hx _

theorem owner_pte_unref_owner {ft : List Frame} {ps : List Process}
    (h : DistinctOwners ft ps) (k k1 : Nat) :
    owner_pte ft (unref_owner ft ps k) k1 =
      if k1 = k then (owner_pte ft ps k1).map PTE.unref else owner_pte ft ps k1 := by
  cases hg : ft[k1]? with
  | none =>
    simp only [owner_pte, hg]
    split <;> rfl
  | some g =>
    rw [owner_pte_get hg, owner_pte_get hg]
    cases hf : ft[k]? with
    | none =>
      have : unref_owner ft ps k = ps := by simp only [unref_owner, hf]
      rw [this, if_neg]
      intro hk
      rw [hk, hf] at hg
      cases hg
    | some f =>
      rw [pte_at_unref_owner hf]
      by_cases hk : k1 = k
      · rw [if_pos hk]
        rw [hk, hf] at hg
        simp only [Option.some.injEq] at hg
        rw [← hg, if_pos ⟨rfl, rfl⟩]
      · rw [if_neg hk, if_neg]
        intro hc
        exact hk (h.2 k1 k g f hg hf hc.1 hc.2)

theorem unref_unref (x : PTE) : x.unref.unref = x.unref := rfl

theorem DistinctOwners.unref_owners_distinct {ft : List Frame} :
    ∀ (ks : List Nat) {ps : List Process}, DistinctOwners ft ps →
      DistinctOwners ft (unref_owners ft ks ps) := by
  intro ks
  induction ks with
  | nil => intro ps h; exact h
  | cons k rest ih =>
    intro ps h
    exact ih (h.unref_owner_distinct k)

/-- The entries after `unref_owners`: the owners of the frames `ks` have lost their
`referenced` bit, every other entry is the same. -/
theorem owner_pte_unref_owners {ft : List Frame} :
    ∀ (ks : List Nat) {ps : List Process}, DistinctOwners ft ps → ∀ k1 : Nat,
      owner_pte ft (unref_owners ft ks ps) k1 =
        if k1 ∈ ks then (owner_pte ft ps k1).map PTE.unref else owner_pte ft ps k1 := by
  intro ks
  induction ks with
  | nil =>
    intro ps _ k1
    simp [unref_owners]
  | cons k rest ih =>
    intro ps h k1
    have e : unref_owners ft (k :: rest) ps = unref_owners ft rest (unref_owner ft ps k) := rfl
    rw [e, ih (h.unref_owner_distinct k) k1, owner_pte_unref_owner h]
    by_cases hk : k1 = k
    · subst hk
      simp only [if_true, List.mem_cons, true_or]
      split
      · cases owner_pte ft ps k1 <;> rfl
      · rfl
    · simp only [hk, if_false, List.mem_cons, false_or]

theorem pte_at_unref_owners {ft : List Frame} :
    ∀ (ks : List Nat) (ps : List Process) (a b : Int),
      (∀ k f, k ∈ ks → ft[k]? = some f → ¬ (a = f.pid ∧ b = f.vpage)) →
      pte_at (unref_owners ft ks ps) a b = pte_at ps a b := by
  intro ks
  induction ks with
  | nil => intro ps a b _; rfl
  | cons k rest ih =>
    intro ps a b hno
    have e : unref_owners ft (k :: rest) ps = unref_owners ft rest (unref_owner ft ps k) := rfl
    rw [e, ih _ a b (fun k1 f hk1 hf => hno k1 f (List.mem_cons_of_mem _ hk1) hf)]
    cases hf : ft[k]? with
    | none =>
      have : unref_owner ft ps k = ps := by simp only [unref_owner, hf]
      rw [this]
    | some f =>
      rw [pte_at_unref_owner hf, if_neg (hno k f (List.mem_cons_self _ _) hf)]

theorem unref_owners_append (ft : List Frame) (ks ks1 : List Nat) (ps : List Process) :
    unref_owners ft (ks ++ ks1) ps = unref_owners ft ks1 (unref_owners ft ks ps) := by
  unfold unref_owners
  rw [List.foldl_append]

theorem ref_of_unref_owners {ft : List Frame} (ks : List Nat) {ps : List Process}
    (h : DistinctOwners ft ps) (k1 : Nat) :
    ref_of ft (unref_owners ft ks ps) k1 = if k1 ∈ ks then false else ref_of ft ps k1 := by
  unfold ref_of
  rw [owner_pte_unref_owners ks h]
  by_cases hk : k1 ∈ ks
  · rw [if_pos hk, if_pos hk]
    cases owner_pte ft ps k1 <;> rfl
  · rw [if_neg hk, if_neg hk]

theorem scan_order_succ (h N j : Nat) :
    scan_order h N (j + 1) = scan_order h N j ++ [(h + j) % N] := by
  unfold scan_order
  rw [List.range_succ, List.map_append]
  rfl

theorem mem_scan_order {h N j k : Nat} :
    k ∈ scan_order h N j ↔ ∃ i, i < j ∧ (h + i) % N = k := by
  unfold scan_order
  simp only [List.mem_map, List.mem_range]

/-! ## The result of the clock pager -/

theorem scan_order_cons (h N j : Nat) (hh : h < N) :
    scan_order h N (j + 1) = h :: scan_order ((h + 1) % N) N j := by
  unfold scan_order
  rw [List.range_succ_eq_map, List.map_cons, List.map_map]
  congr 1
  · exact Nat.mod_eq_of_lt hh
  · apply List.map_congr_left
    intro i _
    show (h + (i + 1)) % N = ((h + 1) % N + i) % N
    rw [Nat.mod_add_mod]
    congr 1
    omega

theorem ref_of_get {ft : List Frame} {ps : List Process} {k : Nat} {f : Frame} {x : PTE}
    (hf : ft[k]? = some f) (hx : pte_at ps f.pid f.vpage = some x) :
    ref_of ft ps k = x.referenced := by
  simp only [ref_of, owner_pte, hf, hx]

theorem clock_loop_run (ft : List Frame) (N : Nat) (hN : ft.length = N) :
    ∀ (j fuel hand : Nat) (ps : List Process) (insp : Nat), hand < N →
      DistinctOwners ft ps → j ≤ N → j < fuel →
      (∀ i, i < j → ref_of ft ps ((hand + i) % N) = true) →
      (j < N → ref_of ft ps ((hand + j) % N) = false) →
      ClockPager.loop ft N fuel hand ps insp =
        some ((hand + j) % N, ((hand + j) % N + 1) % N,
          unref_owners ft (scan_order hand N j) ps, insp + j + 1) := by
  intro j
  induction j with
  | zero =>
    intro fuel hand ps insp hh hd _ hfuel _ hstop
    obtain ⟨fuel1, rfl⟩ : ∃ m, fuel = m + 1 := ⟨fuel - 1, by omega⟩
    obtain ⟨f, hf⟩ : ∃ f, ft[hand]? = some f := ⟨_, List.getElem?_eq_getElem (hN ▸ hh)⟩
    obtain ⟨x, hx⟩ := hd.1 hand f hf
    have hr := hstop (by omega)
    rw [Nat.add_zero, Nat.mod_eq_of_lt hh, ref_of_get hf hx] at hr
    rw [ClockPager.loop]
    simp only [hf, hx, hr, Nat.add_zero, Nat.mod_eq_of_lt hh]
    rw [if_neg (by omega)]
    simp [scan_order, unref_owners]
  | succ j ih =>
    intro fuel hand ps insp hh hd hj hfuel href hstop
    obtain ⟨fuel1, rfl⟩ : ∃ m, fuel = m + 1 := ⟨fuel - 1, by omega⟩
    obtain ⟨f, hf⟩ : ∃ f, ft[hand]? = some f := ⟨_, List.getElem?_eq_getElem (hN ▸ hh)⟩
    obtain ⟨x, hx⟩ := hd.1 hand f hf
    have hr := href 0 (by omega)
    rw [Nat.add_zero, Nat.mod_eq_of_lt hh, ref_of_get hf hx] at hr
    have hpos : 0 < N := by omega
    have hne : ∀ i, i + 1 < N → (hand + (i + 1)) % N ≠ hand := by
      intro i hi hc
      have := @add_mod_inj N hand (i + 1) 0 hi hpos (by
        rw [hc, Nat.add_zero, Nat.mod_eq_of_lt hh])
      omega
    have hmod : ∀ i, ((hand + 1) % N + i) % N = (hand + (i + 1)) % N := by
      intro i
      rw [Nat.mod_add_mod]
      congr 1
      omega
    have hd1 := hd.unref_owner_distinct hand
    have href1 : ∀ k, ref_of ft (unref_owner ft ps hand) k =
        if k ∈ [hand] then false else ref_of ft ps k :=
      fun k => ref_of_unref_owners [hand] hd k
    have hrec := ih fuel1 ((hand + 1) % N) (unref_owner ft ps hand) (insp + 1)
      (Nat.mod_lt _ hpos) hd1 (by omega) (by omega)
      (fun i hi => by
        rw [hmod, href1, if_neg]
        · exact href (i + 1) (by omega)
        · simp only [List.mem_singleton]
          exact hne i (by omega))
      (fun hjn => by
        rw [hmod, href1]
        by_cases hlast : j + 1 < N
        · rw [if_neg]
          · exact hstop hlast
          · simp only [List.mem_singleton]
            exact hne j hlast
        · have : j + 1 = N := by omega
          rw [if_pos]
          simp only [List.mem_singleton]
          rw [this, Nat.add_mod_right, Nat.mod_eq_of_lt hh])
    rw [ClockPager.loop]
    simp only [hf, hx, hr, if_true]
    rw [if_neg (by omega), ← unref_owner_get hf hx, hrec, hmod, scan_order_cons hand N j hh]
    have e : insp + 1 + j + 1 = insp + (j + 1) + 1 := by omega
    rw [e]
    rfl

theorem not_mem_scan_order {h N j i : Nat} (hji : j ≤ i) (hi : i < N) :
    (h + i) % N ∉ scan_order h N j := by
  intro hc
  obtain ⟨i1, hi1, he⟩ := mem_scan_order.1 hc
  have := @add_mod_inj N h i1 i (by omega) hi he
  omega

/-- C16: with `N ≥ 1` frames owned by pairwise distinct entries and the hand `h < N`, let
`j ≤ N` be such that the owners of the frames `h, h + 1, ..., h + j - 1` (modulo `N`) are
referenced and, when `j < N`, the owner of the frame `h + j` is not (so `j = N` when every
owner is referenced). Then `ClockPager::select_victim_frame` returns the frame
`(h + j) mod N` (the frame `h` when `j = N`), clears the `referenced` bit of the owners of
exactly the `j` frames before it, changes no other entry, no other bit and no frame, and
leaves the hand one past the victim. -/
theorem C16_clock_result (N h j : Nat) (s : State)
    (hft : s.frame_table.length = N) (hh : h < N)
    (hd : DistinctOwners s.frame_table s.processes) (hj : j ≤ N)
    (href : ∀ i, i < j → ref_of s.frame_table s.processes ((h + i) % N) = true)
    (hstop : j < N → ref_of s.frame_table s.processes ((h + j) % N) = false) :
    ∃ ps1,
      ClockPager.select_victim_frame h N s =
        some ((h + j) % N,
          { s with processes := ps1,
                   pager := Pager.ClockPager (((h + j) % N + 1) % N) N }) ∧
      (j = N → (h + j) % N = h) ∧
      (∀ i, i < j → owner_pte s.frame_table ps1 ((h + i) % N) =
        (owner_pte s.frame_table s.processes ((h + i) % N)).map
          (fun x => { x with referenced := false })) ∧
      (∀ i, j ≤ i → i < N → owner_pte s.frame_table ps1 ((h + i) % N) =
        owner_pte s.frame_table s.processes ((h + i) % N)) ∧
      (∀ pid vpage : Int,
        (∀ (k : Nat) (f : Frame), s.frame_table[k]? = some f →
          ¬ (pid = f.pid ∧ vpage = f.vpage)) →
        pte_at ps1 pid vpage = pte_at s.processes pid vpage) ∧
      ps1.map Process.unref = s.processes.map Process.unref := by
  have hrun := clock_loop_run s.frame_table N hft j (2 * N) h s.processes 0 hh hd hj
    (by omega) href hstop
  have hsel : ClockPager.select_victim_frame h N s =
      some ((h + j) % N,
        { s with processes := unref_owners s.frame_table (scan_order h N j) s.processes,
                 pager := Pager.ClockPager (((h + j) % N + 1) % N) N }) := by
    unfold ClockPager.select_victim_frame
    rw [hrun]
  refine ⟨_, hsel, ?_, ?_, ?_, ?_, ?_⟩
  · intro hjn
    rw [hjn, Nat.add_mod_right, Nat.mod_eq_of_lt hh]
  · intro i hi
    rw [owner_pte_unref_owners _ hd, if_pos (mem_scan_order.2 ⟨i, hi, rfl⟩)]
    rfl
  · intro i hji hi
    rw [owner_pte_unref_owners _ hd, if_neg (not_mem_scan_order hji hi)]
  · intro pid vpage hno
    exact pte_at_unref_owners _ _ _ _ (fun k f _ hf => hno k f hf)
  · exact (ClockPager.clock_select_rel hsel).1.procs

/-! ## Frame tables with the same owners -/

theorem keys_get {ft ft1 : List Frame} (h : ft1.map Frame.key = ft.map Frame.key) (k : Nat) :
    (ft1[k]?).map Frame.key = (ft[k]?).map Frame.key := by
  have := congrArg (fun l => l[k]?) h
  simpa only [List.getElem?_map] using this

theorem owner_pte_keys {ft ft1 : List Frame} (h : ft1.map Frame.key = ft.map Frame.key)
    (ps : List Process) (k : Nat) : owner_pte ft1 ps k = owner_pte ft ps k := by
  have hk := keys_get h k
  unfold owner_pte
  cases h1 : ft1[k]? with
  | none =>
    cases h0 : ft[k]? with
    | none => rfl
    | some f => rw [h1, h0] at hk; cases hk
  | some f1 =>
    cases h0 : ft[k]? with
    | none => rw [h1, h0] at hk; cases hk
    | some f =>
      rw [h1, h0] at hk
      simp only [Option.map_some', Option.some.injEq, Frame.key, Prod.mk.injEq] at hk
      simp only [hk.1, hk.2]

theorem ref_of_keys {ft ft1 : List Frame} (h : ft1.map Frame.key = ft.map Frame.key)
    (ps : List Process) (k : Nat) : ref_of ft1 ps k = ref_of ft ps k := by
  unfold ref_of
  rw [owner_pte_keys h]

theorem unref_owner_keys {ft ft1 : List Frame} (h : ft1.map Frame.key = ft.map Frame.key)
    (ps : List Process) (k : Nat) : unref_owner ft1 ps k = unref_owner ft ps k := by
  have hk := keys_get h k
  unfold unref_owner
  cases h1 : ft1[k]? with
  | none =>
    cases h0 : ft[k]? with
    | none => rfl
    | some f => rw [h1, h0] at hk; cases hk
  | some f1 =>
    cases h0 : ft[k]? with
    | none => rw [h1, h0] at hk; cases hk
    | some f =>
      rw [h1, h0] at hk
      simp only [Option.map_some', Option.some.injEq, Frame.key, Prod.mk.injEq] at hk
      simp only [hk.1, hk.2]

theorem unref_owners_keys {ft ft1 : List Frame} (h : ft1.map Frame.key = ft.map Frame.key) :
    ∀ (ks : List Nat) (ps : List Process), unref_owners ft1 ks ps = unref_owners ft ks ps := by
  intro ks
  induction ks with
  | nil => intro ps; rfl
  | cons k rest ih =>
    intro ps
    show unref_owners ft1 rest (unref_owner ft1 ps k) = unref_owners ft rest (unref_owner ft ps k)
    rw [unref_owner_keys h, ih]

theorem DistinctOwners.of_keys {ft ft1 : List Frame} {ps : List Process}
    (hd : DistinctOwners ft ps) (h : ft1.map Frame.key = ft.map Frame.key) :
    DistinctOwners ft1 ps := by
  constructor
  · intro i f1 hf1
    obtain ⟨f, hf, hp, hv⟩ := frames_key_get h hf1
    rw [← hp, ← hv]
    exact hd.1 i f hf
  · intro i j f1 g1 hf1 hg1 hp hv
    obtain ⟨f, hf, hfp, hfv⟩ := frames_key_get h hf1
    obtain ⟨g, hg, hgp, hgv⟩ := frames_key_get h hg1
    exact hd.2 i j f g hf hg (by rw [hfp, hgp, hp]) (by rw [hfv, hgv, hv])

/-! ## The function `update_frames` -/

theorem update_frames_get (g : Nat → Frame → Frame) :
    ∀ (ks : List Nat) (ft : List Frame), ks.Nodup → ∀ k : Nat,
      (update_frames g ks ft)[k]? = if k ∈ ks then (ft[k]?).map (g k) else ft[k]? := by
  intro ks
  induction ks with
  | nil => intro ft _ k; simp [update_frames]
  | cons k0 rest ih =>
    intro ft hnd k
    have hnd' := List.nodup_cons.1 hnd
    cases hf : ft[k0]? with
    | none =>
      have e : update_frames g (k0 :: rest) ft = update_frames g rest ft := by
        simp only [update_frames, List.foldl_cons, hf]
      rw [e, ih ft hnd'.2 k]
      by_cases hk : k = k0
      · subst hk
        rw [if_neg hnd'.1, if_pos (List.mem_cons_self _ _), hf]
        rfl
      · simp only [List.mem_cons, hk, false_or]
    | some f =>
      have e : update_frames g (k0 :: rest) ft = update_frames g rest (ft.set k0 (g k0 f)) := by
        simp only [update_frames, List.foldl_cons, hf]
      rw [e, ih _ hnd'.2 k]
      by_cases hk : k = k0
      · subst hk
        rw [if_neg hnd'.1, if_pos (List.mem_cons_self _ _), hf, List.getElem?_set, if_pos rfl,
          if_pos (get_lt hf)]
        rfl
      · have hk' : k0 ≠ k := fun h => hk h.symm
        simp only [List.mem_cons, hk, false_or, List.getElem?_set_ne hk']

theorem update_frames_congr {g g1 : Nat → Frame → Frame} :
    ∀ (ks : List Nat) (ft : List Frame), (∀ k ∈ ks, ∀ f, g1 k f = g k f) →
      update_frames g1 ks ft = update_frames g ks ft := by
  intro ks
  induction ks with
  | nil => intro ft _; rfl
  | cons k0 rest ih =>
    intro ft h
    have hrest : ∀ k ∈ rest, ∀ f, g1 k f = g k f :=
      fun k hk f => h k (List.mem_cons_of_mem _ hk) f
    cases hf : ft[k0]? with
    | none =>
      have e : ∀ g2 : Nat → Frame → Frame,
          update_frames g2 (k0 :: rest) ft = update_frames g2 rest ft := by
        intro g2
        simp only [update_frames, List.foldl_cons, hf]
      rw [e, e, ih ft hrest]
    | some f =>
      have e : ∀ g2 : Nat → Frame → Frame,
          update_frames g2 (k0 :: rest) ft = update_frames g2 rest (ft.set k0 (g2 k0 f)) := by
        intro g2
        simp only [update_frames, List.foldl_cons, hf]
      rw [e, e, h k0 (List.mem_cons_self _ _) f, ih _ hrest]

theorem update_frames_keys {g : Nat → Frame → Frame} (hg : ∀ k f, (g k f).key = f.key) :
    ∀ (ks : List Nat) (ft : List Frame),
      (update_frames g ks ft).map Frame.key = ft.map Frame.key := by
  intro ks
  induction ks with
  | nil => intro ft; rfl
  | cons k0 rest ih =>
    intro ft
    cases hf : ft[k0]? with
    | none =>
      have e : update_frames g (k0 :: rest) ft = update_frames g rest ft := by
        simp only [update_frames, List.foldl_cons, hf]
      rw [e, ih]
    | some f =>
      have e : update_frames g (k0 :: rest) ft = update_frames g rest (ft.set k0 (g k0 f)) := by
        simp only [update_frames, List.foldl_cons, hf]
      rw [e, ih, frames_key_set hf (hg k0 f)]

theorem scan_min_congr {key key1 : Nat → Nat} :
    ∀ (l : List Nat) (v : Option Nat) (m : Nat), (∀ i ∈ l, key1 i = key i) →
      scan_min key1 l v m = scan_min key l v m := by
  intro l
  induction l with
  | nil => intro v m _; rfl
  | cons i rest ih =>
    intro v m h
    have hrest : ∀ j ∈ rest, key1 j = key j := fun j hj => h j (List.mem_cons_of_mem _ hj)
    rw [scan_min, scan_min, h i (List.mem_cons_self _ _), ih _ _ hrest, ih _ _ hrest]

/-! ## The sweep of the aging pager -/

theorem age_at_get {ft : List Frame} {k : Nat} {f : Frame} (hf : ft[k]? = some f) :
    age_at ft k = f.age := by
  simp only [age_at, hf]

theorem aged_at_step {ft : List Frame} {ps : List Process} (hd : DistinctOwners ft ps)
    {k : Nat} {f g : Frame} (hf : ft[k]? = some f) (hg : g.key = f.key) {k1 : Nat}
    (hk : k1 ≠ k) :
    aged_at (ft.set k g) (unref_owner ft ps k) k1 = aged_at ft ps k1 := by
  unfold aged_at
  have h1 : age_at (ft.set k g) k1 = age_at ft k1 := by
    unfold age_at
    rw [List.getElem?_set_ne (fun h => hk h.symm)]
  have h2 : ref_of (ft.set k g) (unref_owner ft ps k) k1 = ref_of ft ps k1 := by
    rw [ref_of_keys (frames_key_set hf hg)]
    have := ref_of_unref_owners [k] hd k1
    rw [if_neg (by simpa using hk)] at this
    exact this
  rw [h1, h2]

theorem aging_loop_run (hand N : Nat) (hpos : 0 < N) :
    ∀ (l : List Nat) (v : Option Nat) (m : Nat) (ft : List Frame) (ps : List Process),
      ft.length = N → DistinctOwners ft ps → l.Nodup → (∀ i ∈ l, i < N) →
      AgingPager.loop hand N l (v.map (fun i => (hand + i) % N)) m ft ps =
        some ((scan_min (fun i => aged_at ft ps ((hand + i) % N)) l v m).1.map
            (fun i => (hand + i) % N),
          (scan_min (fun i => aged_at ft ps ((hand + i) % N)) l v m).2,
          update_frames (fun k f => { f with age := aged_at ft ps k })
            (l.map (fun i => (hand + i) % N)) ft,
          unref_owners ft (l.map (fun i => (hand + i) % N)) ps) := by
  intro l
  induction l with
  | nil =>
    intro v m ft ps _ _ _ _
    rfl
  | cons i rest ih =>
    intro v m ft ps hN hd hnd hlt
    have hnd' := List.nodup_cons.1 hnd
    have hk : (hand + i) % N < ft.length := by
      rw [hN]
      exact Nat.mod_lt _ hpos
    obtain ⟨f, hf⟩ : ∃ f, ft[(hand + i) % N]? = some f := ⟨_, List.getElem?_eq_getElem hk⟩
    obtain ⟨x, hx⟩ := hd.1 _ f hf
    have hage : aging_shift f.age x.referenced = aged_at ft ps ((hand + i) % N) := by
      unfold aged_at
      rw [age_at_get hf, ref_of_get hf hx]
    have hkey : ({ f with age := aging_shift f.age x.referenced } : Frame).key = f.key := rfl
    have hne : ∀ j ∈ rest, (hand + j) % N ≠ (hand + i) % N := by
      intro j hj hc
      have := @add_mod_inj N hand j i (hlt j (List.mem_cons_of_mem _ hj))
        (hlt i (List.mem_cons_self _ _)) hc
      rw [this] at hj
      exact hnd'.1 hj
    obtain ⟨ft1, hft1⟩ : ∃ ft1, ft1 =
        ft.set ((hand + i) % N) { f with age := aging_shift f.age x.referenced } := ⟨_, rfl⟩
    obtain ⟨ps1, hps1⟩ : ∃ ps1, ps1 = unref_owner ft ps ((hand + i) % N) := ⟨_, rfl⟩
    have hkeys : ft1.map Frame.key = ft.map Frame.key := by
      rw [hft1]
      exact frames_key_set hf hkey
    have hstep : ∀ j ∈ rest, aged_at ft1 ps1 ((hand + j) % N) = aged_at ft ps ((hand + j) % N) := by
      intro j hj
      rw [hft1, hps1]
      exact aged_at_step hd hf hkey (hne j hj)
    have hrec := fun v1 m1 => ih v1 m1 ft1 ps1 (by rw [hft1, List.length_set]; exact hN)
      (by rw [hps1]; exact (hd.unref_owner_distinct _).of_keys hkeys) hnd'.2
      (fun j hj => hlt j (List.mem_cons_of_mem _ hj))
    have hsc : ∀ v1 m1, scan_min (fun j => aged_at ft1 ps1 ((hand + j) % N)) rest v1 m1 =
        scan_min (fun j => aged_at ft ps ((hand + j) % N)) rest v1 m1 :=
      fun v1 m1 => scan_min_congr rest v1 m1 hstep
    have huf : update_frames (fun k g => { g with age := aged_at ft1 ps1 k })
        (rest.map (fun j => (hand + j) % N)) ft1 =
        update_frames (fun k g => { g with age := aged_at ft ps k })
          ((i :: rest).map (fun j => (hand + j) % N)) ft := by
      rw [@update_frames_congr (fun k g => { g with age := aged_at ft ps k })]
      · simp only [List.map_cons, update_frames, List.foldl_cons, hf, hage, hft1]
      · intro k hk1 g
        obtain ⟨j, hj, rfl⟩ := List.mem_map.1 hk1
        simp only [hstep j hj]
    have hun : unref_owners ft1 (rest.map (fun j => (hand + j) % N)) ps1 =
        unref_owners ft ((i :: rest).map (fun j => (hand + j) % N)) ps := by
      rw [unref_owners_keys hkeys, hps1]
      rfl
    rw [AgingPager.loop]
    simp only [hf, hx]
    rw [if_neg (by omega), ← unref_owner_get hf hx, scan_min, ← hage, ← hft1, ← hps1]
    by_cases hlt1 : aging_shift f.age x.referenced < m
    · rw [if_pos hlt1, if_pos hlt1]
      have := hrec (some i) (aging_shift f.age x.referenced)
      simp only [Option.map_some'] at this
      rw [this, hsc, huf, hun]
    · rw [if_neg hlt1, if_neg hlt1, hrec v m, hsc, huf, hun]

/-! ## The running minimum -/

theorem scan_min_no_update (key : Nat → Nat) :
    ∀ (l : List Nat) (v : Option Nat) (m : Nat), (∀ i ∈ l, m ≤ key i) →
      scan_min key l v m = (v, m) := by
  intro l
  induction l with
  | nil => intro v m _; rfl
  | cons i rest ih =>
    intro v m h
    rw [scan_min, if_neg (Nat.not_lt.2 (h i (List.mem_cons_self _ _)))]
    exact ih v m (fun j hj => h j (List.mem_cons_of_mem _ hj))

theorem scan_min_first (key : Nat → Nat) (p : Nat) (post : List Nat)
    (hpost : ∀ i ∈ post, key p ≤ key i) :
    ∀ (pre : List Nat) (v : Option Nat) (m : Nat), (∀ i ∈ pre, key p < key i) → key p < m →
      scan_min key (pre ++ p :: post) v m = (some p, key p) := by
  intro pre
  induction pre with
  | nil =>
    intro v m _ hm
    rw [List.nil_append, scan_min, if_pos hm]
    exact scan_min_no_update key post _ _ hpost
  | cons i rest ih =>
    intro v m hpre hm
    have hrest : ∀ j ∈ rest, key p < key j := fun j hj => hpre j (List.mem_cons_of_mem _ hj)
    rw [List.cons_append, scan_min]
    split
    · exact ih _ _ hrest (hpre i (List.mem_cons_self _ _))
    · exact ih _ _ hrest hm

theorem range_split {p N : Nat} (hp : p < N) :
    List.range N = List.range' 0 p ++ p :: List.range' (p + 1) (N - p - 1) := by
  rw [List.range_eq_range']
  have h1 := List.range'_append 0 p (N - p) 1
  rw [Nat.mul_comm, Nat.mul_one, Nat.zero_add] at h1
  have e : N - p + p = N := by omega
  rw [e] at h1
  rw [← h1]
  have e2 : N - p = (N - p - 1) + 1 := by omega
  rw [e2, List.range'_succ]
  simp

theorem scan_min_range (key : Nat → Nat) {p N : Nat} (hp : p < N)
    (hmin : ∀ i, i < N → key p ≤ key i) (hfirst : ∀ i, i < p → key p < key i)
    {m : Nat} (hm : key p < m) (v : Option Nat) :
    scan_min key (List.range N) v m = (some p, key p) := by
  rw [range_split hp]
  apply scan_min_first
  · intro i hi
    rw [List.mem_range'_1] at hi
    exact hmin i (by omega)
  · intro i hi
    rw [List.mem_range'_1] at hi
    exact hfirst i (by omega)
  · exact hm

theorem exists_first_min (key : Nat → Nat) :
    ∀ N : Nat, 0 < N →
      ∃ p, p < N ∧ (∀ i, i < N → key p ≤ key i) ∧ (∀ i, i < p → key p < key i) := by
  intro N
  induction N with
  | zero => intro h; omega
  | succ N ih =>
    intro _
    by_cases hN : N = 0
    · subst hN
      refine ⟨0, by omega, ?_, ?_⟩
      · intro i hi
        have : i = 0 := by omega
        rw [this]
      · intro i hi
        omega
    · obtain ⟨p, hp, hmin, hfirst⟩ := ih (by omega)
      by_cases hc : key N < key p
      · refine ⟨N, by omega, ?_, ?_⟩
        · intro i hi
          by_cases hiN : i = N
          · rw [hiN]
          · have := hmin i (by omega)
            omega
        · intro i hi
          have := hmin i hi
          omega
      · refine ⟨p, by omega, ?_, hfirst⟩
        intro i hi
        by_cases hiN : i = N
        · rw [hiN]
          omega
        · exact hmin i (by omega)

theorem mem_scan_order_full {h N k : Nat} (hh : h < N) (hk : k < N) :
    k ∈ scan_order h N N := by
  apply mem_scan_order.2
  by_cases hc : h ≤ k
  · refine ⟨k - h, by omega, ?_⟩
    have : h + (k - h) = k := by omega
    rw [this, Nat.mod_eq_of_lt hk]
  · refine ⟨k + N - h, by omega, ?_⟩
    have : h + (k + N - h) = k + N := by omega
    rw [this, Nat.add_mod_right, Nat.mod_eq_of_lt hk]

theorem scan_order_nodup (h N j : Nat) (hj : j ≤ N) : (scan_order h N j).Nodup := by
  unfold scan_order
  apply List.Nodup.map_on _ (List.nodup_range j)
  intro a ha b hb hab
  rw [List.mem_range] at ha hb
  exact @add_mod_inj N h a b (by omega) (by omega) hab

/-! ## The result of the aging pager -/

theorem aging_select_eq {N h : Nat} {s : State} (hft : s.frame_table.length = N) (hh : h < N)
    (hd : DistinctOwners s.frame_table s.processes) :
    AgingPager.select_victim_frame h N s =
      match (scan_min (fun i => aged_at s.frame_table s.processes ((h + i) % N))
          (List.range N) none 0xFFFFFFFF).1 with
      | none => none
      | some p =>
        some ((h + p) % N,
          { s with
            frame_table := update_frames
              (fun k f => { f with age := aged_at s.frame_table s.processes k })
              (scan_order h N N) s.frame_table,
            processes := unref_owners s.frame_table (scan_order h N N) s.processes,
            pager := Pager.AgingPager (((h + p) % N + 1) % N) N }) := by
  have hpos : 0 < N := by omega
  have hrun := aging_loop_run h N hpos (List.range N) none 0xFFFFFFFF s.frame_table s.processes
    hft hd (List.nodup_range N) (fun i hi => List.mem_range.1 hi)
  unfold AgingPager.select_victim_frame
  simp only [Option.map_none'] at hrun
  rw [hrun]
  cases hsm : (scan_min (fun i => aged_at s.frame_table s.processes ((h + i) % N))
      (List.range N) none 0xFFFFFFFF).1 with
  | none => rfl
  | some p =>
    simp only [Option.map_some']
    rw [if_neg (by omega)]
    rfl

/-- What a call of `AgingPager::select_victim_frame` that returns has done to the frames and
to the entries. -/
theorem aging_select_effect {N h : Nat} {s s1 : State} {victim : Nat}
    (hft : s.frame_table.length = N) (hh : h < N)
    (hd : DistinctOwners s.frame_table s.processes)
    (hsel : AgingPager.select_victim_frame h N s = some (victim, s1)) :
    (∀ (k : Nat) (f : Frame), s.frame_table[k]? = some f →
      s1.frame_table[k]? =
        some { f with age := aging_shift f.age (ref_of s.frame_table s.processes k) }) ∧
    (∀ k : Nat, k < N → owner_pte s.frame_table s1.processes k =
      (owner_pte s.frame_table s.processes k).map
        (fun x => { x with referenced := false })) ∧
    (∀ pid vpage : Int,
      (∀ (k : Nat) (f : Frame), s.frame_table[k]? = some f →
        ¬ (pid = f.pid ∧ vpage = f.vpage)) →
      pte_at s1.processes pid vpage = pte_at s.processes pid vpage) := by
  rw [aging_select_eq hft hh hd] at hsel
  cases hsm : (scan_min (fun i => aged_at s.frame_table s.processes ((h + i) % N))
      (List.range N) none 0xFFFFFFFF).1 with
  | none => simp [hsm] at hsel
  | some p =>
    simp only [hsm, Option.some.injEq, Prod.mk.injEq] at hsel
    obtain ⟨_, hs1⟩ := hsel
    subst hs1
    refine ⟨?_, ?_, ?_⟩
    · intro k f hf
      show (update_frames _ _ _)[k]? = _
      rw [update_frames_get _ _ _ (scan_order_nodup h N N (Nat.le_refl _)),
        if_pos (mem_scan_order_full hh (hft ▸ get_lt hf)), hf]
      simp only [Option.map_some', aged_at, age_at_get hf]
    · intro k hk
      show owner_pte _ (unref_owners _ _ _) k = _
      rw [owner_pte_unref_owners _ hd, if_pos (mem_scan_order_full hh hk)]
      rfl
    · intro pid vpage hno
      exact pte_at_unref_owners _ _ _ _ (fun k f _ hf => hno k f hf)

/-- C17: with `N ≥ 1` frames owned by pairwise distinct entries and the hand `h < N`, let the
new age of a frame be `(age >> 1) | (0x80000000 if its owner is referenced)` as a 32-bit
value, and let `p < N` be the first position, in the order `h, h + 1, ...` modulo `N`, of a
frame with the least new age, that age being below `0xFFFFFFFF`. Then
`AgingPager::select_victim_frame` returns the frame `(h + p) mod N`, gives every frame its
new age, clears the `referenced` bit of every owner, changes nothing else, and leaves the
hand one past the victim. -/
theorem C17_aging_sweep (N h p : Nat) (s : State)
    (hft : s.frame_table.length = N) (hh : h < N)
    (hd : DistinctOwners s.frame_table s.processes) (hp : p < N)
    (hmin : ∀ i, i < N → aged_at s.frame_table s.processes ((h + p) % N) ≤
      aged_at s.frame_table s.processes ((h + i) % N))
    (hfirst : ∀ i, i < p → aged_at s.frame_table s.processes ((h + p) % N) <
      aged_at s.frame_table s.processes ((h + i) % N))
    (hlt : aged_at s.frame_table s.processes ((h + p) % N) < 0xFFFFFFFF) :
    ∃ ft1 ps1,
      AgingPager.select_victim_frame h N s =
        some ((h + p) % N,
          { s with frame_table := ft1, processes := ps1,
                   pager := Pager.AgingPager (((h + p) % N + 1) % N) N }) ∧
      (∀ (k : Nat) (f : Frame), s.frame_table[k]? = some f →
        ft1[k]? =
          some { f with age := aging_shift f.age (ref_of s.frame_table s.processes k) }) ∧
      (∀ k : Nat, k < N → owner_pte s.frame_table ps1 k =
        (owner_pte s.frame_table s.processes k).map
          (fun x => { x with referenced := false })) ∧
      (∀ pid vpage : Int,
        (∀ (k : Nat) (f : Frame), s.frame_table[k]? = some f →
          ¬ (pid = f.pid ∧ vpage = f.vpage)) →
        pte_at ps1 pid vpage = pte_at s.processes pid vpage) ∧
      ps1.map Process.unref = s.processes.map Process.unref := by
  have hsm := scan_min_range (fun i => aged_at s.frame_table s.processes ((h + i) % N)) hp
    hmin hfirst hlt none
  have hsel := aging_select_eq hft hh hd
  rw [hsm] at hsel
  simp only at hsel
  obtain ⟨e1, e2, e3⟩ := aging_select_effect hft hh hd hsel
  exact ⟨_, _, hsel, e1, e2, e3, (AgingPager.aging_select_rel hsel).1.procs⟩

/-! ## The age of a referenced frame -/

theorem aging_shift_false_lt {a : Nat} (ha : a < 2 ^ 32) : aging_shift a false < 2 ^ 31 := by
  unfold aging_shift
  simp only [Bool.false_eq_true, if_false, Nat.or_zero, Nat.shiftRight_eq_div_pow]
  have h1 : a / 2 ^ 1 < 2 ^ 31 := by omega
  rw [Nat.mod_eq_of_lt (by omega)]
  exact h1

theorem aging_shift_true_bit (a : Nat) :
    (aging_shift a true).testBit 31 = true ∧ 2 ^ 31 ≤ aging_shift a true ∧
      aging_shift a true < 2 ^ 32 := by
  have hb : (aging_shift a true).testBit 31 = true := by
    unfold aging_shift
    simp only [if_true, Nat.testBit_mod_two_pow, Nat.testBit_or]
    have : Nat.testBit 0x80000000 31 = true := by decide
    rw [this]
    simp
  refine ⟨hb, Nat.testBit_implies_ge hb, ?_⟩
  unfold aging_shift
  exact Nat.mod_lt _ (by decide)

theorem aging_shift_true_eq {a : Nat} (ha : a < 2 ^ 32) :
    aging_shift a true = a / 2 + 2 ^ 31 := by
  unfold aging_shift
  simp only [if_true, Nat.shiftRight_eq_div_pow]
  have h1 : a / 2 ^ 1 < 2 ^ 31 := by omega
  have h2 := @Nat.mul_add_lt_is_or 31 (a / 2 ^ 1) h1 1
  rw [Nat.mul_one] at h2
  have e : (0x80000000 : Nat) = 2 ^ 31 := by decide
  rw [e, Nat.or_comm, ← h2, Nat.mod_eq_of_lt (by omega)]
  omega

/-- The lower bound of the age of a frame referenced at each of `n` calls in a row. -/
theorem age_bound : ∀ (n : Nat) (a : Nat → Nat),
    (∀ c, c < n → a (c + 1) = aging_shift (a c) true) →
    (fun b => b / 2 + 2 ^ 31)^[n] 0 ≤ a n ∨ n = 0 := by
  intro n
  induction n with
  | zero => intro a _; exact Or.inr rfl
  | succ n ih =>
    intro a h
    left
    rw [Function.iterate_succ_apply', h n (by omega)]
    rcases ih a (fun c hc => h c (by omega)) with hb | h0
    · by_cases hn : n = 0
      · subst hn
        simp only [Function.iterate_zero, id_eq]
        have := (aging_shift_true_bit (a 0)).2.1
        omega
      · obtain ⟨m, rfl⟩ : ∃ m, n = m + 1 := ⟨n - 1, by omega⟩
        have hlt : a (m + 1) < 2 ^ 32 := by
          rw [h m (by omega)]
          exact (aging_shift_true_bit _).2.2
        rw [aging_shift_true_eq hlt]
        omega
    · subst h0
      simp only [Function.iterate_zero, id_eq]
      have := (aging_shift_true_bit (a 0)).2.1
      omega

theorem age_bound_32 : (fun b => b / 2 + 2 ^ 31)^[32] 0 = 0xFFFFFFFF := by
  decide

/-- C14: with `N ≥ 1` frames owned by pairwise distinct entries, the hand `h < N` and ages
that are 32-bit values: in one call of `AgingPager::select_victim_frame` that returns, a frame
whose owner is referenced at the start has bit 31 of its age set afterwards; if some frame
has an owner that is not referenced at the start, the call returns, the victim is a frame
whose owner is not referenced, and no frame with a referenced owner is the victim. And a
frame whose owner is referenced at the start of each of 32 calls in a row, its age being
left alone between the calls, has the age `0xFFFFFFFF` after the 32nd. -/
theorem C14_aging_referenced (N h : Nat) (s : State)
    (hft : s.frame_table.length = N) (hh : h < N)
    (hd : DistinctOwners s.frame_table s.processes)
    (hage : ∀ f ∈ s.frame_table, f.age < 2 ^ 32) :
    (∀ (victim : Nat) (s1 : State),
      AgingPager.select_victim_frame h N s = some (victim, s1) →
      ∀ k, k < N → ref_of s.frame_table s.processes k = true →
        (age_at s1.frame_table k).testBit 31 = true ∧ 2 ^ 31 ≤ age_at s1.frame_table k) ∧
    ((∃ k0, k0 < N ∧ ref_of s.frame_table s.processes k0 = false) →
      ∃ victim s1, AgingPager.select_victim_frame h N s = some (victim, s1) ∧
        victim < N ∧ ref_of s.frame_table s.processes victim = false ∧
        ∀ k, k < N → ref_of s.frame_table s.processes k = true → victim ≠ k) ∧
    (∀ (st res : Nat → State) (hand victim : Nat → Nat) (k : Nat), k < N →
      (∀ c, c < 32 →
        (st c).frame_table.length = N ∧ hand c < N ∧
        DistinctOwners (st c).frame_table (st c).processes ∧
        ref_of (st c).frame_table (st c).processes k = true ∧
        AgingPager.select_victim_frame (hand c) N (st c) = some (victim c, res c)) →
      (∀ c, c + 1 < 32 →
        age_at (st (c + 1)).frame_table k = age_at (res c).frame_table k) →
      age_at (res 31).frame_table k = 0xFFFFFFFF) := by
  have hpos : 0 < N := by omega
  have hcall : ∀ (N1 h1 : Nat) (t t1 : State) (v k : Nat), t.frame_table.length = N1 →
      h1 < N1 → DistinctOwners t.frame_table t.processes →
      AgingPager.select_victim_frame h1 N1 t = some (v, t1) → k < N1 →
      age_at t1.frame_table k = aging_shift (age_at t.frame_table k)
        (ref_of t.frame_table t.processes k) := by
    intro N1 h1 t t1 v k ht hh1 hd1 hsel hk
    obtain ⟨f, hf⟩ : ∃ f, t.frame_table[k]? = some f :=
      ⟨_, List.getElem?_eq_getElem (ht ▸ hk)⟩
    have := (aging_select_effect ht hh1 hd1 hsel).1 k f hf
    rw [age_at_get this, age_at_get hf]
  refine ⟨?_, ?_, ?_⟩
  · intro victim s1 hsel k hk href
    rw [hcall N h s s1 victim k hft hh hd hsel hk, href]
    exact ⟨(aging_shift_true_bit _).1, (aging_shift_true_bit _).2.1⟩
  · rintro ⟨k0, hk0, hr0⟩
    obtain ⟨p, hp, hmin, hfirst⟩ :=
      exists_first_min (fun i => aged_at s.frame_table s.processes ((h + i) % N)) N hpos
    obtain ⟨i0, hi0, he0⟩ := mem_scan_order.1 (mem_scan_order_full hh hk0)
    have hidle : aged_at s.frame_table s.processes k0 < 2 ^ 31 := by
      unfold aged_at
      rw [hr0]
      apply aging_shift_false_lt
      obtain ⟨f, hf⟩ : ∃ f, s.frame_table[k0]? = some f :=
        ⟨_, List.getElem?_eq_getElem (hft ▸ hk0)⟩
      rw [age_at_get hf]
      exact hage f (List.mem_iff_getElem?.2 ⟨k0, hf⟩)
    have hle := hmin i0 hi0
    simp only [he0] at hle
    have hplt : aged_at s.frame_table s.processes ((h + p) % N) < 2 ^ 31 :=
      Nat.lt_of_le_of_lt hle hidle
    have hsm := scan_min_range (fun i => aged_at s.frame_table s.processes ((h + i) % N)) hp
      hmin hfirst (by
        show aged_at s.frame_table s.processes ((h + p) % N) < 0xFFFFFFFF
        omega) none
    have hsel := aging_select_eq hft hh hd
    rw [hsm] at hsel
    simp only at hsel
    have hvref : ref_of s.frame_table s.processes ((h + p) % N) = false := by
      cases hr : ref_of s.frame_table s.processes ((h + p) % N) with
      | false => rfl
      | true =>
        unfold aged_at at hplt
        rw [hr] at hplt
        have := (aging_shift_true_bit (age_at s.frame_table ((h + p) % N))).2.1
        omega
    refine ⟨_, _, hsel, Nat.mod_lt _ hpos, hvref, ?_⟩
    intro k _ hr hc
    rw [hc, hr] at hvref
    cases hvref
  · intro st res hand victim k hk hcalls hkeep
    obtain ⟨a, ha⟩ : ∃ a : Nat → Nat, a = fun c =>
        if c = 0 then age_at (st 0).frame_table k else age_at (res (c - 1)).frame_table k :=
      ⟨_, rfl⟩
    have hstart : ∀ c, c < 32 → age_at (st c).frame_table k = a c := by
      intro c hc
      rw [ha]
      by_cases h0 : c = 0
      · simp only [h0, if_true]
      · simp only [h0, if_false]
        obtain ⟨m, rfl⟩ : ∃ m, c = m + 1 := ⟨c - 1, by omega⟩
        exact hkeep m hc
    have hnext : ∀ c, c < 32 → a (c + 1) = aging_shift (a c) true := by
      intro c hc
      obtain ⟨h1, h2, h3, h4, h5⟩ := hcalls c hc
      rw [← hstart c hc, ← h4, ← hcall N (hand c) (st c) (res c) (victim c) k h1 h2 h3 h5 hk, ha]
      simp
    have hb := age_bound 32 a hnext
    rw [age_bound_32] at hb
    have hlt : a 32 < 2 ^ 32 := by
      rw [hnext 31 (by omega)]
      exact (aging_shift_true_bit _).2.2
    have h32 : a 32 = age_at (res 31).frame_table k := by
      rw [ha]
      simp
    rw [← h32]
    omega

/-! ## The sweep of the working-set pager -/

theorem to_size_t_nat {n : Nat} (h : n < 2 ^ 64) : to_size_t (n : Int) = n := by
  unfold to_size_t
  omega

theorem to_int_nat {n : Nat} (h : n < 2 ^ 31) : to_int (n : Int) = n := by
  unfold to_int
  omega

theorem time_since_eq {t lr : Nat} (h1 : lr ≤ t) (h2 : t < 2 ^ 31) :
    to_int (to_size_t ((t : Int) - (lr : Int))) = (t : Int) - (lr : Int) := by
  unfold to_int to_size_t
  omega

theorem last_reference_at_get {ft : List Frame} {k : Nat} {f : Frame} (hf : ft[k]? = some f) :
    last_reference_at ft k = f.last_reference := by
  simp only [last_reference_at, hf]

theorem ws_step {ft : List Frame} {ps : List Process} (hd : DistinctOwners ft ps)
    {k : Nat} {f g : Frame} (hf : ft[k]? = some f) (hg : g.key = f.key) {k1 : Nat}
    (hk : k1 ≠ k) :
    ref_of (ft.set k g) (unref_owner ft ps k) k1 = ref_of ft ps k1 ∧
    last_reference_at (ft.set k g) k1 = last_reference_at ft k1 := by
  constructor
  · rw [ref_of_keys (frames_key_set hf hg)]
    have := ref_of_unref_owners [k] hd k1
    rw [if_neg (by simpa using hk)] at this
    exact this
  · unfold last_reference_at
    rw [List.getElem?_set_ne (fun h => hk h.symm)]

theorem ws_loop_prefix (hand : Nat) (tau : Int) (N t : Nat) (hpos : 0 < N)
    (ht : t < 2 ^ 31 - 1) (rest : List Nat) :
    ∀ (pre : List Nat) (v : Option Nat) (o : Nat) (ft : List Frame) (ps : List Process),
      ft.length = N → DistinctOwners ft ps → pre.Nodup → (∀ i ∈ pre, i < N) →
      o ≤ 2147483647 →
      (∀ i ∈ pre, last_reference_at ft ((hand + i) % N) ≤ t) →
      (∀ i ∈ pre, ¬ ws_expired ft ps t tau ((hand + i) % N)) →
      WorkingSetPager.loop hand tau N t (pre ++ rest) (v.map (fun i => (hand + i) % N))
          (o : Int) ft ps =
        WorkingSetPager.loop hand tau N t rest
          ((scan_min (fun i => ws_key ft ps ((hand + i) % N)) pre v o).1.map
            (fun i => (hand + i) % N))
          (((scan_min (fun i => ws_key ft ps ((hand + i) % N)) pre v o).2 : Nat) : Int)
          (update_frames (fun _ f => { f with last_reference := t })
            (referenced_frames ft ps (pre.map (fun i => (hand + i) % N))) ft)
          (unref_owners ft (referenced_frames ft ps (pre.map (fun i => (hand + i) % N)))
            ps) := by
  intro pre
  induction pre with
  | nil =>
    intro v o ft ps _ _ _ _ _ _ _
    rfl
  | cons i pre1 ih =>
    intro v o ft ps hN hd hnd hlt ho hlr hne
    have hnd' := List.nodup_cons.1 hnd
    have hk : (hand + i) % N < ft.length := by
      rw [hN]
      exact Nat.mod_lt _ hpos
    obtain ⟨f, hf⟩ : ∃ f, ft[(hand + i) % N]? = some f := ⟨_, List.getElem?_eq_getElem hk⟩
    obtain ⟨x, hx⟩ := hd.1 _ f hf
    have hlri := hlr i (List.mem_cons_self _ _)
    rw [last_reference_at_get hf] at hlri
    have hnei := hne i (List.mem_cons_self _ _)
    unfold ws_expired at hnei
    rw [last_reference_at_get hf, ref_of_get hf hx] at hnei
    have hdist : ∀ j ∈ pre1, (hand + j) % N ≠ (hand + i) % N := by
      intro j hj hc
      have := @add_mod_inj N hand j i (hlt j (List.mem_cons_of_mem _ hj))
        (hlt i (List.mem_cons_self _ _)) hc
      rw [this] at hj
      exact hnd'.1 hj
    have hkeyi : ws_key ft ps ((hand + i) % N) =
        if x.referenced then 2147483647 else f.last_reference := by
      unfold ws_key
      rw [ref_of_get hf hx, last_reference_at_get hf]
    rw [List.cons_append, WorkingSetPager.loop]
    simp only [hf, hx]
    rw [if_neg (by omega), time_since_eq hlri (by omega), scan_min, hkeyi]
    cases hr : x.referenced with
    | false =>
      have hng : ¬ ((t : Int) - (f.last_reference : Int) > tau) := fun h => hnei ⟨hr, h⟩
      have hfilter : referenced_frames ft ps ((i :: pre1).map (fun i => (hand + i) % N)) =
          referenced_frames ft ps (pre1.map (fun i => (hand + i) % N)) := by
        unfold referenced_frames
        rw [List.map_cons, List.filter_cons, ref_of_get hf hx, hr]
        rfl
      simp only [if_true, if_neg hng, Bool.false_eq_true, if_false]
      rw [to_size_t_nat (by omega), hfilter, to_int_nat (by omega)]
      have hrec := fun v1 o1 ho1 => ih v1 o1 ft ps hN hd hnd'.2
        (fun j hj => hlt j (List.mem_cons_of_mem _ hj)) ho1
        (fun j hj => hlr j (List.mem_cons_of_mem _ hj))
        (fun j hj => hne j (List.mem_cons_of_mem _ hj))
      by_cases hlo : f.last_reference < o
      · rw [if_pos hlo, if_pos hlo]
        have := hrec (some i) f.last_reference (by omega)
        simp only [Option.map_some'] at this
        exact this
      · rw [if_neg hlo, if_neg hlo]
        exact hrec v o ho
    | true =>
      obtain ⟨ft1, hft1⟩ : ∃ ft1, ft1 =
          ft.set ((hand + i) % N) { f with last_reference := t } := ⟨_, rfl⟩
      obtain ⟨ps1, hps1⟩ : ∃ ps1, ps1 = unref_owner ft ps ((hand + i) % N) := ⟨_, rfl⟩
      have hkey : ({ f with last_reference := t } : Frame).key = f.key := rfl
      have hkeys : ft1.map Frame.key = ft.map Frame.key := by
        rw [hft1]
        exact frames_key_set hf hkey
      have hstep : ∀ j ∈ pre1,
          ref_of ft1 ps1 ((hand + j) % N) = ref_of ft ps ((hand + j) % N) ∧
          last_reference_at ft1 ((hand + j) % N) = last_reference_at ft ((hand + j) % N) := by
        intro j hj
        rw [hft1, hps1]
        exact ws_step hd hf hkey (hdist j hj)
      have hfilter : referenced_frames ft ps ((i :: pre1).map (fun i => (hand + i) % N)) =
          (hand + i) % N :: referenced_frames ft1 ps1 (pre1.map (fun i => (hand + i) % N)) := by
        unfold referenced_frames
        rw [List.map_cons, List.filter_cons, ref_of_get hf hx, hr, if_pos rfl]
        congr 1
        apply List.filter_congr
        intro k hk1
        obtain ⟨j, hj, rfl⟩ := List.mem_map.1 hk1
        rw [(hstep j hj).1]
      have hsc : ∀ v1 o1, scan_min (fun j => ws_key ft1 ps1 ((hand + j) % N)) pre1 v1 o1 =
          scan_min (fun j => ws_key ft ps ((hand + j) % N)) pre1 v1 o1 :=
        fun v1 o1 => scan_min_congr pre1 v1 o1 (fun j hj => by
          simp only [ws_key, (hstep j hj).1, (hstep j hj).2])
      have hrec := ih v o ft1 ps1 (by rw [hft1, List.length_set]; exact hN)
        (by rw [hps1]; exact (hd.unref_owner_distinct _).of_keys hkeys) hnd'.2
        (fun j hj => hlt j (List.mem_cons_of_mem _ hj)) ho
        (fun j hj => by
          rw [(hstep j hj).2]
          exact hlr j (List.mem_cons_of_mem _ hj))
        (fun j hj => by
          unfold ws_expired
          rw [(hstep j hj).1, (hstep j hj).2]
          exact hne j (List.mem_cons_of_mem _ hj))
      simp only [Bool.true_eq_false, if_false, if_true]
      rw [if_neg (by omega), ← unref_owner_get hf hx, ← hft1, ← hps1, hrec, hsc, hfilter]
      have e1 : update_frames (fun _ g => { g with last_reference := t })
          ((hand + i) % N :: referenced_frames ft1 ps1 (pre1.map (fun i => (hand + i) % N)))
          ft =
          update_frames (fun _ g => { g with last_reference := t })
            (referenced_frames ft1 ps1 (pre1.map (fun i => (hand + i) % N))) ft1 := by
        simp only [update_frames, List.foldl_cons, hf, hft1]
      have e2 : unref_owners ft
          ((hand + i) % N :: referenced_frames ft1 ps1 (pre1.map (fun i => (hand + i) % N)))
          ps =
          unref_owners ft1 (referenced_frames ft1 ps1 (pre1.map (fun i => (hand + i) % N)))
            ps1 := by
        rw [unref_owners_keys hkeys, hps1]
        rfl
      rw [e1, e2]

theorem mem_referenced_frames {ft : List Frame} {ps : List Process} {ks : List Nat} {k : Nat} :
    k ∈ referenced_frames ft ps ks ↔ k ∈ ks ∧ ref_of ft ps k = true := by
  unfold referenced_frames
  rw [List.mem_filter]

theorem ws_swept_of {ft : List Frame} {ps : List Process} {h N j t : Nat}
    (hd : DistinctOwners ft ps) (hj : j ≤ N)
    (hunref : (unref_owners ft (referenced_frames ft ps (scan_order h N j)) ps).map
      Process.unref = ps.map Process.unref) :
    WSSwept ft ps h N j t
      (update_frames (fun _ f => { f with last_reference := t })
        (referenced_frames ft ps (scan_order h N j)) ft)
      (unref_owners ft (referenced_frames ft ps (scan_order h N j)) ps) := by
  have hnd : (referenced_frames ft ps (scan_order h N j)).Nodup :=
    (scan_order_nodup h N j hj).filter _
  refine ⟨?_, ?_, ?_, hunref⟩
  · intro i hi hr
    have hmem : (h + i) % N ∈ referenced_frames ft ps (scan_order h N j) :=
      mem_referenced_frames.2 ⟨mem_scan_order.2 ⟨i, hi, rfl⟩, hr⟩
    rw [update_frames_get _ _ _ hnd, if_pos hmem, owner_pte_unref_owners _ hd, if_pos hmem]
    exact ⟨rfl, rfl⟩
  · intro i hi hc
    have hmem : (h + i) % N ∉ referenced_frames ft ps (scan_order h N j) := by
      intro hm
      obtain ⟨h1, h2⟩ := mem_referenced_frames.1 hm
      rcases hc with hc | hc
      · exact not_mem_scan_order hc hi h1
      · rw [hc] at h2
        cases h2
    rw [update_frames_get _ _ _ hnd, if_neg hmem, owner_pte_unref_owners _ hd, if_neg hmem]
    exact ⟨rfl, rfl⟩
  · intro pid vpage hno
    exact pte_at_unref_owners _ _ _ _ (fun k f _ hf => hno k f hf)

theorem range_map_scan_order (h N j : Nat) :
    (List.range' 0 j).map (fun i => (h + i) % N) = scan_order h N j := by
  rw [← List.range_eq_range']
  rfl

/-- The loop of the working-set pager up to the position `j`, when no frame before `j`
makes it return. -/
theorem ws_loop_to (h : Nat) (tau : Int) (N : Nat) (s : State)
    (hft : s.frame_table.length = N) (hh : h < N)
    (hd : DistinctOwners s.frame_table s.processes) (ht : s.inst_count < 2 ^ 31 - 1)
    (hlr : ∀ f ∈ s.frame_table, f.last_reference ≤ s.inst_count) (j : Nat) (hj : j ≤ N)
    (rest : List Nat)
    (hne : ∀ i, i < j → ¬ ws_expired s.frame_table s.processes s.inst_count tau ((h + i) % N)) :
    WorkingSetPager.loop h tau N s.inst_count (List.range' 0 j ++ rest) none 2147483647
        s.frame_table s.processes =
      WorkingSetPager.loop h tau N s.inst_count rest
        ((scan_min (fun i => ws_key s.frame_table s.processes ((h + i) % N))
          (List.range' 0 j) none 2147483647).1.map (fun i => (h + i) % N))
        (((scan_min (fun i => ws_key s.frame_table s.processes ((h + i) % N))
          (List.range' 0 j) none 2147483647).2 : Nat) : Int)
        (update_frames (fun _ f => { f with last_reference := s.inst_count })
          (referenced_frames s.frame_table s.processes (scan_order h N j)) s.frame_table)
        (unref_owners s.frame_table
          (referenced_frames s.frame_table s.processes (scan_order h N j)) s.processes) := by
  have hpos : 0 < N := by omega
  have := ws_loop_prefix h tau N s.inst_count hpos ht rest (List.range' 0 j) none 2147483647
    s.frame_table s.processes hft hd (List.nodup_range' 0 j)
    (fun i hi => by
      rw [List.mem_range'_1] at hi
      omega) (Nat.le_refl _)
    (fun i hi => by
      have hk : (h + i) % N < s.frame_table.length := by
        rw [hft]
        exact Nat.mod_lt _ hpos
      rw [last_reference_at_get (List.getElem?_eq_getElem hk)]
      exact hlr _ (List.getElem_mem _))
    (fun i hi => by
      rw [List.mem_range'_1] at hi
      exact hne i (by omega))
  rw [range_map_scan_order] at this
  exact this

theorem ws_loop_return {hand : Nat} {tau : Int} {N t p : Nat} (post : List Nat)
    {ft : List Frame} {ps : List Process} {f : Frame} {x : PTE}
    (hpos : 0 < N) (hf : ft[(hand + p) % N]? = some f)
    (hx : pte_at ps f.pid f.vpage = some x) (hr : x.referenced = false)
    (hlr : f.last_reference ≤ t) (ht : t < 2 ^ 31)
    (hexp : (t : Int) - (f.last_reference : Int) > tau) (v : Option Nat) (o : Int) :
    WorkingSetPager.loop hand tau N t (p :: post) v o ft ps =
      some (WSResult.returned ((hand + p) % N) ft ps) := by
  rw [WorkingSetPager.loop]
  simp only [hf, hx]
  rw [if_neg (by omega), time_since_eq hlr ht]
  simp only [hr, if_true, if_pos hexp]

/-- The working-set pager while the time fits an `int`: with `N ≥ 1` frames owned by pairwise
distinct entries, the hand `h < N`, the time `t = inst_count` below `INT_MAX = 2147483647`
and every `last_reference ≤ t`, `WorkingSetPager::select_victim_frame` scans the frames
`h, h + 1, ...` modulo `N` and (1) if some frame has an owner that is not referenced and
`t - last_reference > tau`, returns the first such frame, having set `last_reference = t`
and cleared `referenced` for exactly the referenced frames before it; (2) otherwise, if some
owner is not referenced, returns the frame with the least `last_reference` among those, the
first in the scan among equals, after doing so for every referenced frame; (3) if every owner
is referenced, returns the frame `h`, after doing so for every frame. The hand ends one past
the victim. -/
theorem ws_select_spec (N h : Nat) (tau : Int) (s : State)
    (hft : s.frame_table.length = N) (hh : h < N)
    (hd : DistinctOwners s.frame_table s.processes) (ht : s.inst_count < 2 ^ 31 - 1)
    (hlr : ∀ f ∈ s.frame_table, f.last_reference ≤ s.inst_count) :
    (∀ p, p < N →
      ws_expired s.frame_table s.processes s.inst_count tau ((h + p) % N) →
      (∀ i, i < p →
        ¬ ws_expired s.frame_table s.processes s.inst_count tau ((h + i) % N)) →
      ∃ ft1 ps1,
        WorkingSetPager.select_victim_frame h tau N s =
          some ((h + p) % N,
            { s with frame_table := ft1, processes := ps1,
                     pager := Pager.WorkingSetPager (((h + p) % N + 1) % N) tau N }) ∧
        WSSwept s.frame_table s.processes h N p s.inst_count ft1 ps1) ∧
    ((∀ i, i < N →
        ¬ ws_expired s.frame_table s.processes s.inst_count tau ((h + i) % N)) →
      ∀ p, p < N → ref_of s.frame_table s.processes ((h + p) % N) = false →
      (∀ i, i < N → ref_of s.frame_table s.processes ((h + i) % N) = false →
        last_reference_at s.frame_table ((h + p) % N) ≤
          last_reference_at s.frame_table ((h + i) % N)) →
      (∀ i, i < p → ref_of s.frame_table s.processes ((h + i) % N) = false →
        last_reference_at s.frame_table ((h + p) % N) <
          last_reference_at s.frame_table ((h + i) % N)) →
      ∃ ft1 ps1,
        WorkingSetPager.select_victim_frame h tau N s =
          some ((h + p) % N,
            { s with frame_table := ft1, processes := ps1,
                     pager := Pager.WorkingSetPager (((h + p) % N + 1) % N) tau N }) ∧
        WSSwept s.frame_table s.processes h N N s.inst_count ft1 ps1) ∧
    ((∀ i, i < N → ref_of s.frame_table s.processes ((h + i) % N) = true) →
      ∃ ft1 ps1,
        WorkingSetPager.select_victim_frame h tau N s =
          some (h,
            { s with frame_table := ft1, processes := ps1,
                     pager := Pager.WorkingSetPager ((h + 1) % N) tau N }) ∧
        WSSwept s.frame_table s.processes h N N s.inst_count ft1 ps1) := by
  have hpos : 0 < N := by omega
  have hlen : ∀ ks : List Nat, (update_frames
      (fun _ f => ({ f with last_reference := s.inst_count } : Frame)) ks
      s.frame_table).length = N := by
    intro ks
    have := frames_key_length (@update_frames_keys
      (fun _ f => ({ f with last_reference := s.inst_count } : Frame)) (fun _ _ => rfl) ks
      s.frame_table)
    rw [this]
    exact hft
  have hlrk : ∀ k, k < N → last_reference_at s.frame_table k ≤ s.inst_count := by
    intro k hk
    have hk' : k < s.frame_table.length := by rw [hft]; exact hk
    rw [last_reference_at_get (List.getElem?_eq_getElem hk')]
    exact hlr _ (List.getElem_mem _)
  -- the sweep that runs to its end
  have hfull : (∀ i, i < N →
      ¬ ws_expired s.frame_table s.processes s.inst_count tau ((h + i) % N)) →
      ∀ (v : Option Nat) (victim : Nat),
      (scan_min (fun i => ws_key s.frame_table s.processes ((h + i) % N))
        (List.range N) none 2147483647).1 = v →
      (v.map (fun p => (h + p) % N)).getD h = victim → victim < N →
      ∃ ft1 ps1,
        WorkingSetPager.select_victim_frame h tau N s =
          some (victim,
            { s with frame_table := ft1, processes := ps1,
                     pager := Pager.WorkingSetPager ((victim + 1) % N) tau N }) ∧
        WSSwept s.frame_table s.processes h N N s.inst_count ft1 ps1 := by
    intro hne v victim hv hvic hvlt
    have hloop := ws_loop_to h tau N s hft hh hd ht hlr N (Nat.le_refl _) [] hne
    rw [List.append_nil, ← List.range_eq_range', hv] at hloop
    have hsel : WorkingSetPager.select_victim_frame h tau N s =
        some (victim,
          { s with
            frame_table := update_frames (fun _ f => { f with last_reference := s.inst_count })
              (referenced_frames s.frame_table s.processes (scan_order h N N)) s.frame_table,
            processes := unref_owners s.frame_table
              (referenced_frames s.frame_table s.processes (scan_order h N N)) s.processes,
            pager := Pager.WorkingSetPager ((victim + 1) % N) tau N }) := by
      unfold WorkingSetPager.select_victim_frame
      rw [hloop]
      cases v with
      | none =>
        simp only [Option.map_none', Option.getD_none] at hvic
        subst hvic
        simp only [Option.map_none', WorkingSetPager.loop]
        rw [if_neg (by rw [hlen]; omega)]
      | some p =>
        simp only [Option.map_some', Option.getD_some] at hvic
        subst hvic
        simp only [Option.map_some', WorkingSetPager.loop]
        rw [if_neg (by rw [hlen]; omega)]
    exact ⟨_, _, hsel, ws_swept_of hd (Nat.le_refl _)
      (WorkingSetPager.ws_select_rel hsel).1.procs⟩
  refine ⟨?_, ?_, ?_⟩
  · intro p hp hexp hne
    have hloop := ws_loop_to h tau N s hft hh hd ht hlr p (Nat.le_of_lt hp)
      (p :: List.range' (p + 1) (N - p - 1)) hne
    rw [← range_split hp] at hloop
    have hk : (h + p) % N < s.frame_table.length := by
      rw [hft]
      exact Nat.mod_lt _ hpos
    obtain ⟨f, hf⟩ : ∃ f, s.frame_table[(h + p) % N]? = some f :=
      ⟨_, List.getElem?_eq_getElem hk⟩
    obtain ⟨x, hx⟩ := hd.1 _ f hf
    unfold ws_expired at hexp
    rw [ref_of_get hf hx, last_reference_at_get hf] at hexp
    have hnd : (referenced_frames s.frame_table s.processes (scan_order h N p)).Nodup :=
      (scan_order_nodup h N p (Nat.le_of_lt hp)).filter _
    have hmem : (h + p) % N ∉ referenced_frames s.frame_table s.processes
        (scan_order h N p) := fun hm =>
      not_mem_scan_order (Nat.le_refl p) hp (mem_referenced_frames.1 hm).1
    have hf1 : (update_frames (fun _ f => ({ f with last_reference := s.inst_count } : Frame))
        (referenced_frames s.frame_table s.processes (scan_order h N p))
        s.frame_table)[(h + p) % N]? = some f := by
      rw [update_frames_get _ _ _ hnd, if_neg hmem, hf]
    have hx1 : pte_at (unref_owners s.frame_table
        (referenced_frames s.frame_table s.processes (scan_order h N p)) s.processes)
        f.pid f.vpage = some x := by
      rw [← owner_pte_get hf, owner_pte_unref_owners _ hd, if_neg hmem, owner_pte_get hf, hx]
    have hret := ws_loop_return (List.range' (p + 1) (N - p - 1)) hpos hf1 hx1 hexp.1
      (hlr f (List.mem_iff_getElem?.2 ⟨_, hf⟩)) (by omega) hexp.2
    have hsel : WorkingSetPager.select_victim_frame h tau N s =
        some ((h + p) % N,
          { s with
            frame_table := update_frames (fun _ f => { f with last_reference := s.inst_count })
              (referenced_frames s.frame_table s.processes (scan_order h N p)) s.frame_table,
            processes := unref_owners s.frame_table
              (referenced_frames s.frame_table s.processes (scan_order h N p)) s.processes,
            pager := Pager.WorkingSetPager (((h + p) % N + 1) % N) tau N }) := by
      unfold WorkingSetPager.select_victim_frame
      rw [hloop, hret]
    exact ⟨_, _, hsel, ws_swept_of hd (Nat.le_of_lt hp)
      (WorkingSetPager.ws_select_rel hsel).1.procs⟩
  · intro hne p hp hrp hmin hfirst
    have hkp : ws_key s.frame_table s.processes ((h + p) % N) =
        last_reference_at s.frame_table ((h + p) % N) := by
      unfold ws_key
      rw [hrp]
      rfl
    have hkey : ∀ i, i < N →
        (ref_of s.frame_table s.processes ((h + i) % N) = true →
          ws_key s.frame_table s.processes ((h + i) % N) = 2147483647) ∧
        (ref_of s.frame_table s.processes ((h + i) % N) = false →
          ws_key s.frame_table s.processes ((h + i) % N) =
            last_reference_at s.frame_table ((h + i) % N)) := by
      intro i _
      unfold ws_key
      constructor
      · intro hr
        rw [hr]
        rfl
      · intro hr
        rw [hr]
        rfl
    have hpt := hlrk ((h + p) % N) (Nat.mod_lt _ hpos)
    have hsm := scan_min_range (fun i => ws_key s.frame_table s.processes ((h + i) % N)) hp
      (fun i hi => by
        show ws_key _ _ _ ≤ ws_key _ _ _
        rw [hkp]
        cases hr : ref_of s.frame_table s.processes ((h + i) % N) with
        | true =>
          rw [(hkey i hi).1 hr]
          omega
        | false =>
          rw [(hkey i hi).2 hr]
          exact hmin i hi hr)
      (fun i hi => by
        show ws_key _ _ _ < ws_key _ _ _
        rw [hkp]
        cases hr : ref_of s.frame_table s.processes ((h + i) % N) with
        | true =>
          rw [(hkey i (by omega)).1 hr]
          omega
        | false =>
          rw [(hkey i (by omega)).2 hr]
          exact hfirst i hi hr)
      (by
        show ws_key _ _ _ < 2147483647
        rw [hkp]
        omega) none
    exact hfull hne (some p) _ (by rw [hsm]) rfl (Nat.mod_lt _ hpos)
  · intro hall
    have hne : ∀ i, i < N →
        ¬ ws_expired s.frame_table s.processes s.inst_count tau ((h + i) % N) := by
      intro i hi hc
      unfold ws_expired at hc
      rw [hall i hi] at hc
      cases hc.1
    have hsm := scan_min_no_update (fun i => ws_key s.frame_table s.processes ((h + i) % N))
      (List.range N) none 2147483647 (fun i hi => by
        show 2147483647 ≤ ws_key _ _ _
        unfold ws_key
        rw [hall i (List.mem_range.1 hi)]
        exact Nat.le_refl _)
    exact hfull hne none _ (by rw [hsm]) rfl hh

theorem distinct_of_nodup {ft : List Frame} {ps : List Process}
    (hall : ∀ f ∈ ft, (pte_at ps f.pid f.vpage).isSome = true)
    (hnd : (ft.map Frame.key).Nodup) : DistinctOwners ft ps := by
  constructor
  · intro i f hf
    exact Option.isSome_iff_exists.1 (hall f (List.mem_iff_getElem?.2 ⟨i, hf⟩))
  · intro i j f g hf hg hp hv
    have hi : i < (ft.map Frame.key).length := by
      rw [List.length_map]
      exact get_lt hf
    apply List.getElem?_inj hi hnd
    rw [List.getElem?_map, List.getElem?_map, hf, hg]
    simp only [Option.map_some', Frame.key, hp, hv]

/-! ## The sweep of the ESC-NRU pager -/

theorem class_at_get {ft : List Frame} {ps : List Process} {k : Nat} {f : Frame} {x : PTE}
    (hf : ft[k]? = some f) (hx : pte_at ps f.pid f.vpage = some x) :
    class_at ft ps k = class_of x := by
  simp only [class_at, owner_pte, hf, hx]

theorem class_at_unref_owner {ft : List Frame} {ps : List Process}
    (hd : DistinctOwners ft ps) {k k1 : Nat} (hk : k1 ≠ k) :
    class_at ft (unref_owner ft ps k) k1 = class_at ft ps k1 := by
  unfold class_at
  rw [owner_pte_unref_owner hd, if_neg hk]

theorem esc_scan_congr {cls cls1 : Nat → Nat} (frame : Nat → Nat) :
    ∀ (l : List Nat) (low : Nat) (cv : List (Option Nat)), (∀ i ∈ l, cls1 i = cls i) →
      esc_scan cls1 frame l low cv = esc_scan cls frame l low cv := by
  intro l
  induction l with
  | nil => intro low cv _; rfl
  | cons i rest ih =>
    intro low cv h
    have hrest : ∀ j ∈ rest, cls1 j = cls j := fun j hj => h j (List.mem_cons_of_mem _ hj)
    rw [esc_scan, esc_scan, h i (List.mem_cons_self _ _), ih _ _ hrest, ih _ _ hrest]

theorem esc_loop_prefix (hand N : Nat) (reset : Bool) (ft : List Frame) (hN : ft.length = N)
    (hpos : 0 < N) (rest : List Nat) :
    ∀ (pre : List Nat) (low : Nat) (cv : List (Option Nat)) (ps : List Process),
      cv.length = 4 → DistinctOwners ft ps → pre.Nodup → (∀ i ∈ pre, i < N) →
      (∀ i ∈ pre, ¬ (class_at ft ps ((hand + i) % N) = 0 ∧ reset = false)) →
      ESCNRUPager.loop hand N reset ft (pre ++ rest) low cv ps =
        ESCNRUPager.loop hand N reset ft rest
          (esc_scan (fun i => class_at ft ps ((hand + i) % N)) (fun i => (hand + i) % N)
            pre low cv).1
          (esc_scan (fun i => class_at ft ps ((hand + i) % N)) (fun i => (hand + i) % N)
            pre low cv).2
          (if reset then unref_owners ft (pre.map (fun i => (hand + i) % N)) ps else ps) := by
  intro pre
  induction pre with
  | nil =>
    intro low cv ps _ _ _ _ _
    cases reset <;> rfl
  | cons i pre1 ih =>
    intro low cv ps hcv hd hnd hlt hnb
    have hnd' := List.nodup_cons.1 hnd
    have hk : (hand + i) % N < ft.length := by
      rw [hN]
      exact Nat.mod_lt _ hpos
    obtain ⟨f, hf⟩ : ∃ f, ft[(hand + i) % N]? = some f := ⟨_, List.getElem?_eq_getElem hk⟩
    obtain ⟨x, hx⟩ := hd.1 _ f hf
    have hcls : class_at ft ps ((hand + i) % N) = class_of x := class_at_get hf hx
    have hnbi := hnb i (List.mem_cons_self _ _)
    rw [hcls] at hnbi
    have hc4 : class_of x < cv.length := by
      rw [hcv]
      exact class_of_lt x
    obtain ⟨slot, hslot⟩ : ∃ slot, cv[class_of x]? = some slot :=
      ⟨_, List.getElem?_eq_getElem hc4⟩
    have hdist : ∀ j ∈ pre1, (hand + j) % N ≠ (hand + i) % N := by
      intro j hj hc
      have := @add_mod_inj N hand j i (hlt j (List.mem_cons_of_mem _ hj))
        (hlt i (List.mem_cons_self _ _)) hc
      rw [this] at hj
      exact hnd'.1 hj
    obtain ⟨ps1, hps1⟩ : ∃ ps1, ps1 =
        if reset then unref_owner ft ps ((hand + i) % N) else ps := ⟨_, rfl⟩
    have hd1 : DistinctOwners ft ps1 := by
      rw [hps1]
      cases reset
      · exact hd
      · exact hd.unref_owner_distinct _
    have hstep : ∀ j ∈ pre1,
        class_at ft ps1 ((hand + j) % N) = class_at ft ps ((hand + j) % N) := by
      intro j hj
      rw [hps1]
      cases reset
      · rfl
      · exact class_at_unref_owner hd (hdist j hj)
    have hrec := fun low1 cv1 hcv1 => ih low1 cv1 ps1 hcv1 hd1 hnd'.2
      (fun j hj => hlt j (List.mem_cons_of_mem _ hj))
      (fun j hj => by
        rw [hstep j hj]
        exact hnb j (List.mem_cons_of_mem _ hj))
    have hsc : ∀ low1 cv1,
        esc_scan (fun j => class_at ft ps1 ((hand + j) % N)) (fun j => (hand + j) % N)
          pre1 low1 cv1 =
        esc_scan (fun j => class_at ft ps ((hand + j) % N)) (fun j => (hand + j) % N)
          pre1 low1 cv1 :=
      fun low1 cv1 => esc_scan_congr _ pre1 low1 cv1 hstep
    have hfin : (if reset then unref_owners ft (pre1.map (fun i => (hand + i) % N)) ps1
        else ps1) =
        (if reset then unref_owners ft ((i :: pre1).map (fun i => (hand + i) % N)) ps
        else ps) := by
      rw [hps1]
      cases reset
      · rfl
      · rfl
    rw [List.cons_append, ESCNRUPager.loop]
    simp only [hf, hx, hslot]
    rw [if_neg (by omega), if_neg hnbi, esc_scan, hcls, hslot, ← unref_owner_get hf hx, ← hps1]
    by_cases hs : slot = none
    · subst hs
      simp only [if_true]
      rw [hrec _ _ (by rw [List.length_set]; exact hcv), hsc, hfin]
    · have hs' : ¬ (some slot = some none) := fun h => hs (Option.some.inj h)
      simp only [hs, hs', if_false]
      rw [hrec _ _ hcv, hsc, hfin]

theorem esc_scan_append (cls frame : Nat → Nat) :
    ∀ (l1 l2 : List Nat) (low : Nat) (cv : List (Option Nat)),
      esc_scan cls frame (l1 ++ l2) low cv =
        esc_scan cls frame l2 (esc_scan cls frame l1 low cv).1
          (esc_scan cls frame l1 low cv).2 := by
  intro l1
  induction l1 with
  | nil => intro l2 low cv; rfl
  | cons i rest ih =>
    intro l2 low cv
    rw [List.cons_append, esc_scan, esc_scan]
    split
    · exact ih _ _ _
    · exact ih _ _ _

theorem esc_scan_pre (cls frame : Nat → Nat) (c : Nat) :
    ∀ (pre : List Nat) (low : Nat) (cv : List (Option Nat)), cv.length = 4 →
      cv[c]? = some none → c < low → (∀ i ∈ pre, c < cls i) →
      (esc_scan cls frame pre low cv).2.length = 4 ∧
      (esc_scan cls frame pre low cv).2[c]? = some none ∧
      c < (esc_scan cls frame pre low cv).1 := by
  intro pre
  induction pre with
  | nil => intro low cv h1 h2 h3 _; exact ⟨h1, h2, h3⟩
  | cons i rest ih =>
    intro low cv h1 h2 h3 h
    have hi := h i (List.mem_cons_self _ _)
    have hrest : ∀ j ∈ rest, c < cls j := fun j hj => h j (List.mem_cons_of_mem _ hj)
    rw [esc_scan]
    split
    · apply ih _ _ _ _ _ hrest
      · rw [List.length_set]
        exact h1
      · rw [List.getElem?_set_ne (by omega)]
        exact h2
      · exact Nat.lt_min.2 ⟨h3, hi⟩
    · exact ih _ _ h1 h2 h3 hrest

theorem esc_scan_post (cls frame : Nat → Nat) (c k : Nat) :
    ∀ (post : List Nat) (cv : List (Option Nat)), cv.length = 4 →
      cv[c]? = some (some k) → (∀ i ∈ post, c ≤ cls i) →
      (esc_scan cls frame post c cv).2.length = 4 ∧
      (esc_scan cls frame post c cv).2[c]? = some (some k) ∧
      (esc_scan cls frame post c cv).1 = c := by
  intro post
  induction post with
  | nil => intro cv h1 h2 _; exact ⟨h1, h2, rfl⟩
  | cons i rest ih =>
    intro cv h1 h2 h
    have hi := h i (List.mem_cons_self _ _)
    have hrest : ∀ j ∈ rest, c ≤ cls j := fun j hj => h j (List.mem_cons_of_mem _ hj)
    rw [esc_scan]
    split
    · rename_i hslot
      have hne : cls i ≠ c := by
        intro hc
        rw [hc, h2] at hslot
        cases hslot
      rw [Nat.min_eq_left hi]
      apply ih _ _ _ hrest
      · rw [List.length_set]
        exact h1
      · rw [List.getElem?_set_ne hne]
        exact h2
    · exact ih _ h1 h2 hrest

/-- After a whole sweep `lowest_class_found` is the least class and its slot of
`class_victims` holds the first frame of that class. -/
theorem esc_scan_first (cls frame : Nat → Nat) {p N : Nat} (hp : p < N)
    (hc4 : cls p < 4) (hmin : ∀ i, i < N → cls p ≤ cls i)
    (hfirst : ∀ i, i < p → cls p < cls i) :
    (esc_scan cls frame (List.range N) 4 [none, none, none, none]).1 = cls p ∧
    (esc_scan cls frame (List.range N) 4 [none, none, none, none]).2[cls p]? =
      some (some (frame p)) := by
  rw [range_split hp, esc_scan_append]
  obtain ⟨a1, a2, a3⟩ := esc_scan_pre cls frame (cls p) (List.range' 0 p) 4
    [none, none, none, none] rfl
    (by
      have : cls p = 0 ∨ cls p = 1 ∨ cls p = 2 ∨ cls p = 3 := by omega
      rcases this with h | h | h | h <;> rw [h] <;> rfl)
    hc4
    (fun i hi => by
      rw [List.mem_range'_1] at hi
      exact hfirst i (by omega))
  rw [esc_scan, a2, if_pos rfl, Nat.min_eq_right (Nat.le_of_lt a3)]
  obtain ⟨b1, b2, b3⟩ := esc_scan_post cls frame (cls p) (frame p)
    (List.range' (p + 1) (N - p - 1))
    ((esc_scan cls frame (List.range' 0 p) 4 [none, none, none, none]).2.set (cls p)
      (some (frame p)))
    (by rw [List.length_set]; exact a1)
    (by rw [List.getElem?_set, if_pos rfl, if_pos (by rw [a1]; exact hc4)])
    (fun i hi => by
      rw [List.mem_range'_1] at hi
      exact hmin i (by omega))
  exact ⟨b3, b2⟩

theorem esc_scan_length (cls frame : Nat → Nat) :
    ∀ (l : List Nat) (low : Nat) (cv : List (Option Nat)),
      (esc_scan cls frame l low cv).2.length = cv.length := by
  intro l
  induction l with
  | nil => intro low cv; rfl
  | cons i rest ih =>
    intro low cv
    rw [esc_scan]
    split
    · rw [ih, List.length_set]
    · exact ih _ _

theorem class_at_lt (ft : List Frame) (ps : List Process) (k : Nat) : class_at ft ps k < 4 := by
  unfold class_at
  cases owner_pte ft ps k with
  | none => exact Nat.zero_lt_succ _
  | some x => exact class_of_lt x

/-- The result of `ESCNRUPager::select_victim_frame` in terms of the flag `reset_needed`. -/
theorem esc_select_eq {N h p : Nat} (lrt : Int) {s : State}
    (hft : s.frame_table.length = N) (hh : h < N)
    (hd : DistinctOwners s.frame_table s.processes) (hp : p < N)
    (hmin : ∀ i, i < N → class_at s.frame_table s.processes ((h + p) % N) ≤
      class_at s.frame_table s.processes ((h + i) % N))
    (hfirst : ∀ i, i < p → class_at s.frame_table s.processes ((h + p) % N) <
      class_at s.frame_table s.processes ((h + i) % N))
    (reset : Bool) (hreset : reset = decide (to_size_t ((s.inst_count : Int) - lrt) ≥ 48)) :
    ESCNRUPager.select_victim_frame h lrt N s =
      some ((h + p) % N,
        { s with
          processes :=
            if reset then unref_owners s.frame_table (scan_order h N N) s.processes
            else s.processes,
          pager := Pager.ESCNRUPager (((h + p) % N + 1) % N)
            (if reset then to_int s.inst_count else lrt) N }) := by
  have hpos : 0 < N := by omega
  have hk : (h + p) % N < s.frame_table.length := by
    rw [hft]
    exact Nat.mod_lt _ hpos
  obtain ⟨f, hf⟩ : ∃ f, s.frame_table[(h + p) % N]? = some f :=
    ⟨_, List.getElem?_eq_getElem hk⟩
  obtain ⟨x, hx⟩ := hd.1 _ f hf
  have hcls := class_at_get hf hx
  unfold ESCNRUPager.select_victim_frame
  simp only
  rw [← hreset]
  by_cases hbreak : class_at s.frame_table s.processes ((h + p) % N) = 0 ∧ reset = false
  · -- the `break` of line 295 at the position `p`
    have hpre := esc_loop_prefix h N reset s.frame_table hft hpos
      (p :: List.range' (p + 1) (N - p - 1)) (List.range' 0 p) 4 [none, none, none, none]
      s.processes rfl hd (List.nodup_range' 0 p)
      (fun i hi => by
        rw [List.mem_range'_1] at hi
        omega)
      (fun i hi hc => by
        rw [List.mem_range'_1] at hi
        have := hfirst i (by omega)
        omega)
    rw [← range_split hp] at hpre
    rw [hpre, hbreak.2]
    simp only [Bool.false_eq_true, if_false]
    have hlen := esc_scan_length (fun i => class_at s.frame_table s.processes ((h + i) % N))
      (fun i => (h + i) % N) (List.range' 0 p) 4 [none, none, none, none]
    have hx0 : class_of x = 0 := by rw [← hcls]; exact hbreak.1
    obtain ⟨slot, hslot⟩ : ∃ slot,
        (esc_scan (fun i => class_at s.frame_table s.processes ((h + i) % N))
          (fun i => (h + i) % N) (List.range' 0 p) 4 [none, none, none, none]).2[0]? =
          some slot :=
      ⟨_, List.getElem?_eq_getElem (by rw [hlen]; decide)⟩
    have hN0 : N ≠ 0 := by omega
    have hle : ¬ s.frame_table.length ≤ (h + p) % N := by omega
    rw [ESCNRUPager.loop]
    simp [hf, hx, hx0, hslot, hN0, hle]
  · -- the sweep runs to its end
    have hnb : ∀ i, i < N →
        ¬ (class_at s.frame_table s.processes ((h + i) % N) = 0 ∧ reset = false) := by
      intro i hi hc
      apply hbreak
      refine ⟨?_, hc.2⟩
      have := hmin i hi
      omega
    have hpre := esc_loop_prefix h N reset s.frame_table hft hpos [] (List.range' 0 N) 4
      [none, none, none, none] s.processes rfl hd (List.nodup_range' 0 N)
      (fun i hi => by
        rw [List.mem_range'_1] at hi
        omega)
      (fun i hi => by
        rw [List.mem_range'_1] at hi
        exact hnb i (by omega))
    rw [List.append_nil, ← List.range_eq_range'] at hpre
    obtain ⟨e1, e2⟩ := esc_scan_first (fun i => class_at s.frame_table s.processes ((h + i) % N))
      (fun i => (h + i) % N) hp (class_at_lt _ _ _) hmin hfirst
    have hN0 : N ≠ 0 := by omega
    have hle : ¬ s.frame_table.length ≤ (h + p) % N := by omega
    rw [hpre, ESCNRUPager.loop]
    simp only [e1, e2]
    simp [hN0, hle, scan_order]

/-- The ESC-NRU pager while the time fits an `int`: with `N ≥ 1` frames owned by pairwise
distinct entries, the hand `h < N`, `inst_count ≤ INT_MAX` and a `last_reset_time` that is
an `int` not above `inst_count`, let the class of a frame be `2 * referenced + modified` of
its owner before the call and `p < N` the first position, in the order `h, h + 1, ...`
modulo `N`, of a frame of the least class. Then `ESCNRUPager::select_victim_frame` returns
the frame `(h + p) mod N` and leaves the hand one past it. If
`inst_count - last_reset_time ≥ 48`, afterwards the owner of every frame has
`referenced = 0` and `last_reset_time = inst_count`; otherwise no entry is changed and
`last_reset_time` is unchanged. The `modified` bits are never changed. -/
theorem esc_select_spec (N h p : Nat) (lrt : Int) (s : State)
    (hft : s.frame_table.length = N) (hh : h < N)
    (hd : DistinctOwners s.frame_table s.processes) (hp : p < N)
    (hmin : ∀ i, i < N → class_at s.frame_table s.processes ((h + p) % N) ≤
      class_at s.frame_table s.processes ((h + i) % N))
    (hfirst : ∀ i, i < p → class_at s.frame_table s.processes ((h + p) % N) <
      class_at s.frame_table s.processes ((h + i) % N))
    (ht : s.inst_count < 2 ^ 31) (hl0 : -(2 ^ 31) ≤ lrt) (hl : lrt ≤ s.inst_count) :
    ∃ ps1 lrt1,
      ESCNRUPager.select_victim_frame h lrt N s =
        some ((h + p) % N,
          { s with processes := ps1,
                   pager := Pager.ESCNRUPager (((h + p) % N + 1) % N) lrt1 N }) ∧
      ((s.inst_count : Int) - lrt ≥ 48 →
        lrt1 = s.inst_count ∧
        (∀ k, k < N → owner_pte s.frame_table ps1 k =
          (owner_pte s.frame_table s.processes k).map
            (fun x => { x with referenced := false })) ∧
        (∀ pid vpage : Int,
          (∀ (k : Nat) (f : Frame), s.frame_table[k]? = some f →
            ¬ (pid = f.pid ∧ vpage = f.vpage)) →
          pte_at ps1 pid vpage = pte_at s.processes pid vpage)) ∧
      ((s.inst_count : Int) - lrt < 48 → lrt1 = lrt ∧ ps1 = s.processes) ∧
      (∀ k, k < N → (owner_pte s.frame_table ps1 k).map PTE.modified =
        (owner_pte s.frame_table s.processes k).map PTE.modified) ∧
      ps1.map Process.unref = s.processes.map Process.unref := by
  have hsel := esc_select_eq lrt hft hh hd hp hmin hfirst _ rfl
  have hrel := (ESCNRUPager.esc_select_rel hsel).1.procs
  have hdec : decide (to_size_t ((s.inst_count : Int) - lrt) ≥ 48) = true ↔
      (s.inst_count : Int) - lrt ≥ 48 := by
    rw [decide_eq_true_iff]
    unfold to_size_t
    omega
  refine ⟨_, _, hsel, ?_, ?_, ?_, hrel⟩
  · intro hge
    have hr := hdec.2 hge
    rw [hr]
    simp only [if_true]
    refine ⟨to_int_nat ht, ?_, ?_⟩
    · intro k hk
      rw [owner_pte_unref_owners _ hd, if_pos (mem_scan_order_full hh hk)]
      rfl
    · intro pid vpage hno
      exact pte_at_unref_owners _ _ _ _ (fun k f _ hf => hno k f hf)
  · intro hlt
    have hr : decide (to_size_t ((s.inst_count : Int) - lrt) ≥ 48) = false := by
      cases hc : decide (to_size_t ((s.inst_count : Int) - lrt) ≥ 48) with
      | false => rfl
      | true =>
        have := hdec.1 hc
        omega
    rw [hr]
    exact ⟨rfl, rfl⟩
  · intro k hk
    cases hc : decide (to_size_t ((s.inst_count : Int) - lrt) ≥ 48) with
    | false => rfl
    | true =>
      simp only [if_true]
      rw [owner_pte_unref_owners _ hd, if_pos (mem_scan_order_full hh hk)]
      cases owner_pte s.frame_table s.processes k <;> rfl

/-! ## Instances on the example states -/

theorem example_final_distinct :
    DistinctOwners example_final.frame_table example_final.processes :=
  distinct_of_nodup (by decide) (by decide)

theorem C11_no_eviction_while_free_witness :
    ∃ s cp,
      simulate (initial_state ([example_vma] :: []) [] 2 (Pager.FIFOPager 0 2)) fill_trace
        = some s ∧
      s.current_process = 0 ∧ s.processes[0]? = some cp ∧ cp.maps = 2 ∧
      s.pager = Pager.FIFOPager 0 2 ∧
      (∀ (q : Nat) (p : Process), s.processes[q]? = some p → p.unmaps = 0) ∧
      (∀ (i : Nat) (a : Char × Int), (fill_trace)[i]? = some a →
        ∃ x f, pte_at s.processes 0 a.2 = some x ∧ x.present = true ∧ x.frame = i ∧
          s.frame_table[i]? = some f ∧ f.pid = 0 ∧ f.vpage = a.2) ∧
      s.free_list = [] ∧ s.inst_count = 2 :=
  C11_no_eviction_while_free 2 [example_vma] [] [] fill_trace (by decide) (by decide) rfl
    (by decide) (by decide) (by decide) (by decide)

theorem C13_clock_termination_witness :
    (∃ victim hand1 ps1 inspected,
      ClockPager.loop example_final.frame_table 2 (2 * 2) 0 example_final.processes 0 =
        some (victim, hand1, ps1, inspected) ∧
      inspected ≤ 2 + 1 ∧ inspected ≤ 2 * 2 ∧
      (∀ fuel, 2 * 2 ≤ fuel →
        ClockPager.loop example_final.frame_table 2 fuel 0 example_final.processes 0 =
          some (victim, hand1, ps1, inspected)) ∧
      ClockPager.select_victim_frame 0 2 example_final =
        some (victim, { example_final with processes := ps1, pager := Pager.ClockPager hand1 2 })) ∧
    (∀ (vmas : List (List VMA)) (randvals : List Int) (trace : List (Char × Int))
      (t : State) (hand : Nat),
      ValidConfig vmas randvals 2 (Pager.ClockPager 0 2) → ValidTrace vmas.length trace →
      simulate (initial_state vmas randvals 2 (Pager.ClockPager 0 2)) trace = some t →
      t.free_list = [] → t.pager = Pager.ClockPager hand 2 →
      ∃ r, ClockPager.loop t.frame_table 2 (2 * 2) hand t.processes 0 = some r ∧
        r.2.2.2 ≤ 2 * 2) :=
  C13_clock_termination 2 0 example_final (by decide) rfl (by decide)
    example_final_distinct.1

theorem C14_aging_referenced_witness :
    (∀ (victim : Nat) (s1 : State),
      AgingPager.select_victim_frame 0 2 example_final = some (victim, s1) →
      ∀ k, k < 2 → ref_of example_final.frame_table example_final.processes k = true →
        (age_at s1.frame_table k).testBit 31 = true ∧ 2 ^ 31 ≤ age_at s1.frame_table k) ∧
    ((∃ k0, k0 < 2 ∧ ref_of example_final.frame_table example_final.processes k0 = false) →
      ∃ victim s1, AgingPager.select_victim_frame 0 2 example_final = some (victim, s1) ∧
        victim < 2 ∧ ref_of example_final.frame_table example_final.processes victim = false ∧
        ∀ k, k < 2 → ref_of example_final.frame_table example_final.processes k = true →
            victim ≠ k) ∧
    (∀ (st res : Nat → State) (hand victim : Nat → Nat) (k : Nat), k < 2 →
      (∀ c, c < 32 →
        (st c).frame_table.length = 2 ∧ hand c < 2 ∧
        DistinctOwners (st c).frame_table (st c).processes ∧
        ref_of (st c).frame_table (st c).processes k = true ∧
        AgingPager.select_victim_frame (hand c) 2 (st c) = some (victim c, res c)) →
      (∀ c, c + 1 < 32 →
        age_at (st (c + 1)).frame_table k = age_at (res c).frame_table k) →
      age_at (res 31).frame_table k = 0xFFFFFFFF) :=
  C14_aging_referenced 2 0 example_final rfl (by decide) example_final_distinct (by decide)

theorem C15_random_witness :
    (∃ r, random_state.randvals[random_state.ofs]? = some r ∧
      myrandom random_state (2 : Int) =
        some (1 + r %
            (2 : Int), { random_state with ofs := (random_state.ofs + 1) % random_state.randvals.length }) ∧
      1 ≤ 1 + r % (2 : Int) ∧ 1 + r % (2 : Int) ≤ 2 ∧
      RandomPager.select_victim_frame 2 random_state =
        some ((r %
            (2 : Int)).toNat, { random_state with ofs := (random_state.ofs + 1) % random_state.randvals.length }) ∧
      (r % (2 : Int)).toNat < 2) ∧
    (∀ st : Nat → State,
      (∀ k, (st k).frame_table.length = 2 ∧ (st k).randvals = random_state.randvals ∧
        (st k).pager = Pager.RandomPager 2) →
      (st 0).ofs = 0 →
      (∀ k idx s1, select_victim_frame (st k) = some (idx, s1) → (st (k + 1)).ofs = s1.ofs) →
      ∀ k, ∃ r, random_state.randvals[k % random_state.randvals.length]? = some r ∧
        select_victim_frame (st k) =
          some ((r % (2 : Int)).toNat,
            { st k with ofs := (k + 1) % random_state.randvals.length })) :=
  C15_random 2 random_state (by decide) rfl (by decide) (by decide)

theorem C16_clock_result_witness :
    ∃ ps1,
      ClockPager.select_victim_frame 1 2 example_final =
        some ((1 + 2) % 2,
          { example_final with processes := ps1, pager := Pager.ClockPager (((1 + 2) % 2 + 1) % 2) 2 }) ∧
      (2 = 2 → (1 + 2) % 2 = 1) ∧
      (∀ i, i < 2 → owner_pte example_final.frame_table ps1 ((1 + i) % 2) =
        (owner_pte example_final.frame_table example_final.processes ((1 + i) % 2)).map
          (fun x => { x with referenced := false })) ∧
      (∀ i, 2 ≤ i → i < 2 → owner_pte example_final.frame_table ps1 ((1 + i) % 2) =
        owner_pte example_final.frame_table example_final.processes ((1 + i) % 2)) ∧
      (∀ pid vpage : Int,
        (∀ (k : Nat) (f : Frame), example_final.frame_table[k]? = some f →
          ¬ (pid = f.pid ∧ vpage = f.vpage)) →
        pte_at ps1 pid vpage = pte_at example_final.processes pid vpage) ∧
      ps1.map Process.unref = example_final.processes.map Process.unref :=
  C16_clock_result 2 1 2 example_final rfl (by decide) example_final_distinct (by decide)
    (by decide) (by decide)

theorem C17_aging_sweep_witness :
    ∃ ft1 ps1,
      AgingPager.select_victim_frame 0 2 example_final =
        some ((0 + 0) % 2,
          { example_final with frame_table := ft1, processes := ps1, pager := Pager.AgingPager (((0 + 0) % 2 + 1) % 2) 2 }) ∧
      (∀ (k : Nat) (f : Frame), example_final.frame_table[k]? = some f →
        ft1[k]? =
          some { f with age := aging_shift f.age (ref_of example_final.frame_table example_final.processes k) }) ∧
      (∀ k : Nat, k < 2 → owner_pte example_final.frame_table ps1 k =
        (owner_pte example_final.frame_table example_final.processes k).map
          (fun x => { x with referenced := false })) ∧
      (∀ pid vpage : Int,
        (∀ (k : Nat) (f : Frame), example_final.frame_table[k]? = some f →
          ¬ (pid = f.pid ∧ vpage = f.vpage)) →
        pte_at ps1 pid vpage = pte_at example_final.processes pid vpage) ∧
      ps1.map Process.unref = example_final.processes.map Process.unref :=
  C17_aging_sweep 2 0 0 example_final rfl (by decide) example_final_distinct (by decide)
    (by decide) (by decide) (by decide)

/-! ## The aging pager in the states of a run -/

theorem aging_run : simulate aging_state example_trace = some aging_final := by
  decide

theorem aging_config : ValidConfig [[example_vma]] [] 2 (Pager.AgingPager 0 2) :=
  ⟨by decide, by decide, by simp, ⟨'a', rfl⟩, fun h => by
    obtain ⟨n, hn⟩ := h
    cases hn⟩

theorem Inv.distinct_owners {s : State} (h : Inv s) (hfree : s.free_list = []) :
    DistinctOwners s.frame_table s.processes := by
  refine ⟨h.all_mapped hfree, ?_⟩
  intro i j f g hf hg hp hv
  have hpid : f.pid ≠ -1 := by
    intro hp1
    have := (h.free.2 i).2 ⟨by simp, f, hf, hp1⟩
    rw [hfree] at this
    cases this
  obtain ⟨x, hx, _, hxi⟩ := h.frame_owned i f hf hpid
  obtain ⟨y, hy, _, hyj⟩ := h.frame_owned j g hg (hp ▸ hpid)
  rw [hp, hv, hy] at hx
  simp only [Option.some.injEq] at hx
  rw [← hxi, ← hyj, hx]

theorem exit_loop_pager : ∀ (l : List Nat) (s s1 : State), exit_loop l s = some s1 →
    s1.pager = s.pager := by
  intro l
  induction l with
  | nil =>
    intro s s1 h
    simp only [exit_loop, Option.some.injEq] at h
    rw [h]
  | cons v rest ih =>
    intro s s1 h
    rw [exit_loop] at h
    cases hp : exit_page s v with
    | none => simp [hp] at h
    | some s2 =>
      simp only [hp] at h
      rw [ih _ _ h]
      unfold exit_page at hp
      cases hcp : s.processes[s.current_process]? with
      | none => simp [hcp] at hp
      | some cp =>
        cases hx : cp.page_table[v]? with
        | none => simp [hcp, hx] at hp
        | some x =>
          simp only [hcp, hx] at hp
          by_cases hpr : x.present = true
          · rw [if_pos hpr] at hp
            cases hf : s.frame_table[x.frame]? with
            | none => simp [hf] at hp
            | some f =>
              simp only [hf, Option.some.injEq] at hp
              rw [← hp]
          · rw [if_neg hpr] at hp
            simp only [Option.some.injEq] at hp
            rw [← hp]

theorem update_bits_pager {s s1 : State} {operation : Char} {vpage : Int} {vma : Option VMA}
    (h : update_bits s operation vpage vma = some s1) : s1.pager = s.pager := by
  unfold update_bits at h
  cases vma with
  | none => simp at h
  | some vm =>
    cases hx : pte_at s.processes s.current_process vpage with
    | none => simp [hx] at h
    | some x =>
      simp only [hx] at h
      repeat' split at h
      all_goals
        cases h
        try rfl

theorem unmap_old_owner_pager {s s2 : State} {f : Frame}
    (h : unmap_old_owner s f = some s2) : s2.pager = s.pager := by
  unfold unmap_old_owner at h
  repeat' split at h
  all_goals
    cases h
    try rfl

theorem map_page_pager {s s3 : State} {idx : Nat} {vpage : Int} {vma : VMA}
    (h : map_page s idx vpage vma = some s3) : s3.pager = s.pager := by
  unfold map_page at h
  repeat' split at h
  all_goals
    cases h
    try rfl

theorem aging_select_pager {hand N idx : Nat} {s s1 : State}
    (h : AgingPager.select_victim_frame hand N s = some (idx, s1)) :
    ∃ hand1, s1.pager = Pager.AgingPager hand1 N := by
  unfold AgingPager.select_victim_frame at h
  repeat' split at h
  all_goals
    cases h
    try exact ⟨_, rfl⟩

theorem get_frame_aging {s s1 : State} {idx hand N : Nat}
    (hp : s.pager = Pager.AgingPager hand N) (h : get_frame s = some (idx, s1)) :
    ∃ hand1, s1.pager = Pager.AgingPager hand1 N := by
  unfold get_frame allocate_frame_from_free_list at h
  cases hfl : s.free_list with
  | nil =>
    simp only [hfl] at h
    unfold select_victim_frame at h
    rw [hp] at h
    exact aging_select_pager h
  | cons i rest =>
    simp only [hfl, Option.some.injEq, Prod.mk.injEq] at h
    rw [← h.2]
    exact ⟨hand, hp⟩

theorem page_fault_aging {s s3 : State} {vpage : Int} {vma : VMA} {hand N : Nat}
    (hp : s.pager = Pager.AgingPager hand N) (h : page_fault s vpage vma = some s3) :
    ∃ hand1, s3.pager = Pager.AgingPager hand1 N := by
  unfold page_fault at h
  split at h
  · cases h
  · rename_i idx s1 hg
    split at h
    · cases h
    · split at h
      · cases h
      · rename_i s2 hu
        obtain ⟨hand1, h1⟩ := get_frame_aging hp hg
        refine ⟨hand1, ?_⟩
        rw [map_page_pager h, unmap_old_owner_pager hu, h1]

theorem simulate_step_aging {s s1 : State} {operation : Char} {vpage : Int} {hand N : Nat}
    (hp : s.pager = Pager.AgingPager hand N) (h : simulate_step s operation vpage = some s1) :
    ∃ hand1, s1.pager = Pager.AgingPager hand1 N := by
  unfold simulate_step at h
  by_cases hc : operation = 'c'
  · rw [if_pos hc] at h
    split at h
    · cases h
      exact ⟨hand, hp⟩
    · cases h
  · rw [if_neg hc] at h
    by_cases he : operation = 'e'
    · rw [if_pos he] at h
      have := exit_loop_pager _ _ _ h
      exact ⟨hand, this.trans hp⟩
    · rw [if_neg he] at h
      simp only at h
      split at h
      · rename_i cp pte hcp hx
        split at h
        · split at h
          · cases h
            exact ⟨hand, hp⟩
          · rename_i vm hvm
            split at h
            · cases h
            · rename_i s2 hpf
              obtain ⟨hand1, h1⟩ := @page_fault_aging (at_access s) _ _ _ hand N hp hpf
              exact ⟨hand1, (update_bits_pager h).trans h1⟩
        · have := update_bits_pager h
          exact ⟨hand, this.trans hp⟩
      · cases h

theorem simulate_aging : ∀ (trace : List (Char × Int)) (s s1 : State) (hand N : Nat),
    s.pager = Pager.AgingPager hand N → simulate s trace = some s1 →
    ∃ hand1, s1.pager = Pager.AgingPager hand1 N := by
  intro trace
  induction trace with
  | nil =>
    intro s s1 hand N hp h
    simp only [simulate, Option.some.injEq] at h
    rw [← h]
    exact ⟨hand, hp⟩
  | cons i rest ih =>
    intro s s1 hand N hp h
    obtain ⟨op, v⟩ := i
    rw [simulate] at h
    cases hs : simulate_step s op v with
    | none => simp [hs] at h
    | some s2 =>
      simp only [hs] at h
      obtain ⟨hand1, h1⟩ := simulate_step_aging hp hs
      exact ih s2 s1 hand1 N h1 h

/-- With a frame of age zero, the sweep of the aging pager finds a victim: the loop ends with
`victim_index` set to the first frame of the least new age, which is below `0xFFFFFFFF`. -/
theorem aging_select_found {N h : Nat} {s : State} (hft : s.frame_table.length = N)
    (hh : h < N) (hd : DistinctOwners s.frame_table s.processes)
    (hage : AgeZero s.frame_table) :
    ∃ p, p < N ∧ aged_at s.frame_table s.processes ((h + p) % N) < 0xFFFFFFFF ∧
      AgingPager.loop h N (List.range N) none 0xFFFFFFFF s.frame_table s.processes =
        some (some ((h + p) % N), aged_at s.frame_table s.processes ((h + p) % N),
          update_frames (fun k f => { f with age := aged_at s.frame_table s.processes k })
            (scan_order h N N) s.frame_table,
          unref_owners s.frame_table (scan_order h N N) s.processes) := by
  have hpos : 0 < N := by omega
  obtain ⟨p, hp, hmin, hfirst⟩ :=
    exists_first_min (fun i => aged_at s.frame_table s.processes ((h + i) % N)) N hpos
  obtain ⟨k, f, hf, ha⟩ := hage
  have hk : k < N := hft ▸ get_lt hf
  obtain ⟨i0, hi0, hik⟩ := mem_scan_order.1 (mem_scan_order_full hh hk)
  have hz : aged_at s.frame_table s.processes k < 0xFFFFFFFF := by
    unfold aged_at
    rw [age_at_get hf, ha]
    exact aging_shift_zero_lt _
  have hlt : aged_at s.frame_table s.processes ((h + p) % N) < 0xFFFFFFFF := by
    have := hmin i0 hi0
    simp only [hik] at this
    omega
  refine ⟨p, hp, hlt, ?_⟩
  have hrun := aging_loop_run h N hpos (List.range N) none 0xFFFFFFFF s.frame_table
    s.processes hft hd (List.nodup_range N) (fun i hi => List.mem_range.1 hi)
  simp only [Option.map_none'] at hrun
  rw [hrun,
    scan_min_range (fun i => aged_at s.frame_table s.processes ((h + i) % N)) hp hmin hfirst
      hlt none]
  rfl

theorem age_at_update_frames {N h k : Nat} {s : State} (hft : s.frame_table.length = N)
    (hh : h < N) (hk : k < N) :
    age_at (update_frames (fun k f => { f with age := aged_at s.frame_table s.processes k })
      (scan_order h N N) s.frame_table) k = aged_at s.frame_table s.processes k := by
  unfold age_at
  rw [update_frames_get _ _ _ (scan_order_nodup h N N (Nat.le_refl _)),
    if_pos (mem_scan_order_full hh hk), List.getElem?_eq_getElem (hft ▸ hk)]
  rfl

/-- C21: in every state of a run with between 1 and 128 frames and the aging pager, the pager
is still the aging pager, with a hand below `N`, and some frame has the age 0. When the free
list is empty, so that `get_frame` calls `AgingPager::select_victim_frame`, the loop of the
pager ends with `victim_index` set, not `-1`: the victim is a frame below `N`, its new age
is the minimum found and is strictly below `0xFFFFFFFF`, every frame has received its
shifted age, and `get_frame` returns the victim. The age 0 comes from the two resets: a page
fault leaves the frame that `get_frame` handed out with the age 0, and an exit leaves every
frame of a present page of the current process released, with the age 0. -/
theorem C21_aging_victim (vmas : List (List VMA)) (randvals : List Int) (N : Nat)
    (trace : List (Char × Int)) (s : State)
    (hc : ValidConfig vmas randvals N (Pager.AgingPager 0 N))
    (hv : ValidTrace vmas.length trace)
    (hs : simulate (initial_state vmas randvals N (Pager.AgingPager 0 N)) trace = some s) :
    ∃ hand, hand < N ∧ s.pager = Pager.AgingPager hand N ∧ s.frame_table.length = N ∧
      (∃ k, k < N ∧ age_at s.frame_table k = 0) ∧
      (s.free_list = [] →
        ∃ victim min_age ft1 ps1,
          AgingPager.loop hand N (List.range N) none 0xFFFFFFFF s.frame_table s.processes =
            some (some victim, min_age, ft1, ps1) ∧
          victim < N ∧ min_age < 0xFFFFFFFF ∧ age_at ft1 victim = min_age ∧
          (∀ k, k < N → age_at ft1 k = aged_at s.frame_table s.processes k) ∧
          select_victim_frame (at_access s) =
            some (victim, { at_access s with
              frame_table := ft1, processes := ps1,
              pager := Pager.AgingPager ((victim + 1) % N) N }) ∧
          get_frame (at_access s) = select_victim_frame (at_access s)) ∧
      (∀ (operation : Char) (vpage : Int) (cp : Process) (x : PTE) (vma : VMA),
        operation ≠ 'c' → operation ≠ 'e' → s.processes[s.current_process]? = some cp →
        pte_at s.processes s.current_process vpage = some x → x.present = false →
        find_vma_for_page cp vpage = some vma →
        ∃ idx s1 s2 f, get_frame (at_access s) = some (idx, s1) ∧
          simulate_step s operation vpage = some s2 ∧ s2.frame_table[idx]? = some f ∧
          f.age = 0 ∧ f.pid = s.current_process ∧ f.vpage = vpage) ∧
      (∀ vpage : Int, ∃ s2, simulate_step s 'e' vpage = some s2 ∧
        ∀ (v : Int) (x : PTE), pte_at s.processes s.current_process v = some x →
          x.present = true →
          s2.frame_table[x.frame]? = some Frame.released ∧ age_at s2.frame_table x.frame = 0)
    := by
  obtain ⟨hi, hft, _⟩ := reachable_inv_of hc hv hs
  obtain ⟨hand, hpg⟩ := simulate_aging trace _ s 0 N rfl hs
  have hok := hi.pager
  simp only [PagerOK, hpg] at hok
  have hh : hand < N := hok.2
  refine ⟨hand, hh, hpg, hft, ?_, ?_, ?_, ?_⟩
  · obtain ⟨k, f, hf, ha⟩ := hi.age
    exact ⟨k, hft ▸ get_lt hf, by rw [age_at_get hf, ha]⟩
  · intro hfree
    have hd := hi.distinct_owners hfree
    obtain ⟨p, hp, hlt, hloop⟩ := aging_select_found hft hh hd hi.age
    have hpos : 0 < N := by omega
    have hvic : (hand + p) % N < N := Nat.mod_lt _ hpos
    have hN0 : N ≠ 0 := by omega
    have hsel : select_victim_frame (at_access s) =
        some ((hand + p) % N, { at_access s with
          frame_table := update_frames
            (fun k f => { f with age := aged_at s.frame_table s.processes k })
            (scan_order hand N N) s.frame_table,
          processes := unref_owners s.frame_table (scan_order hand N N) s.processes,
          pager := Pager.AgingPager (((hand + p) % N + 1) % N) N }) := by
      unfold select_victim_frame
      have hpg1 : (at_access s).pager = Pager.AgingPager hand N := hpg
      rw [hpg1]
      simp only
      unfold AgingPager.select_victim_frame
      have hl1 : AgingPager.loop hand N (List.range N) none 0xFFFFFFFF
          (at_access s).frame_table (at_access s).processes = _ := hloop
      rw [hl1]
      simp only [hN0, if_false]
    refine ⟨_, _, _, _, hloop, hvic, hlt, age_at_update_frames hft hh hvic,
      fun k hk => age_at_update_frames hft hh hk, hsel, ?_⟩
    unfold get_frame allocate_frame_from_free_list
    have hfree1 : (at_access s).free_list = [] := hfree
    rw [hfree1]
  · intro operation vpage cp x vma hop1 hop2 hcp hx hxp hvma
    obtain ⟨idx, s1, f0, cp1, x1, s2, cp2, hget, hhole, hf0, _, _, _, _, _, _, _, _, _, _,
      henv, _, _, _, _, _, _, _, _, hid, hstep⟩ := fault_explicit hi hop1 hop2 hcp hx hxp hvma
    have hlt : idx < s2.frame_table.length := by
      rw [henv.frame_table]
      exact hhole.idx_lt
    refine ⟨idx, s1, fault_result s2 cp2 x1 idx operation vpage vma,
      { last_reference := s2.inst_count, age := 0, pid := cp2.id, vpage := vpage },
      hget, hstep, ?_, rfl, hid, rfl⟩
    simp only [fault_result]
    rw [List.getElem?_set, if_pos rfl, if_pos hlt]
  · intro vpage
    obtain ⟨cp, hcp⟩ : ∃ cp, s.processes[s.current_process]? = some cp :=
      ⟨_, List.getElem?_eq_getElem hi.cur⟩
    have hlen := (hi.procs _ _ hcp).2
    obtain ⟨s2, cp1, hexit, E⟩ := exit_loop_spec (List.range MAX_VPAGES)
      { s with inst_count := s.inst_count + 1, process_exits := s.process_exits + 1,
               cost := s.cost + COST_PROCESS_EXIT } cp hcp hi.frame_owned hi.pte_owned
      (List.nodup_range _) (fun v hv => by rw [hlen]; exact List.mem_range.1 hv)
    refine ⟨s2, ?_, ?_⟩
    · unfold simulate_step
      rw [if_neg (by decide), if_pos rfl]
      exact hexit
    · intro v x hx hxp
      obtain ⟨_, hv0, pr, hpr, hxv⟩ := pte_at_some hx
      simp only [Int.toNat_ofNat] at hpr
      rw [hcp] at hpr
      simp only [Option.some.injEq] at hpr
      subst hpr
      have hvl : v.toNat < MAX_VPAGES := hlen ▸ get_lt hxv
      have hmem : x.frame ∈ (present_pages cp (List.range MAX_VPAGES)).map (frame_at cp) :=
        List.mem_map.2 ⟨v.toNat,
          mem_present_pages.2 ⟨List.mem_range.2 hvl, x, hxv, hxp⟩, frame_at_get hxv⟩
      have hrel := E.released x.frame hmem
      exact ⟨hrel, by rw [age_at_get hrel]; rfl⟩

theorem C21_aging_victim_witness :
    ∃ hand, hand < 2 ∧ aging_final.pager = Pager.AgingPager hand 2 ∧
      aging_final.frame_table.length = 2 ∧
      (∃ k, k < 2 ∧ age_at aging_final.frame_table k = 0) ∧
      (aging_final.free_list = [] →
        ∃ victim min_age ft1 ps1,
          AgingPager.loop hand 2 (List.range 2) none 0xFFFFFFFF aging_final.frame_table
              aging_final.processes =
            some (some victim, min_age, ft1, ps1) ∧
          victim < 2 ∧ min_age < 0xFFFFFFFF ∧ age_at ft1 victim = min_age ∧
          (∀ k, k < 2 → age_at ft1 k =
            aged_at aging_final.frame_table aging_final.processes k) ∧
          select_victim_frame (at_access aging_final) =
            some (victim, { at_access aging_final with
              frame_table := ft1, processes := ps1,
              pager := Pager.AgingPager ((victim + 1) % 2) 2 }) ∧
          get_frame (at_access aging_final) = select_victim_frame (at_access aging_final)) ∧
      (∀ (operation : Char) (vpage : Int) (cp : Process) (x : PTE) (vma : VMA),
        operation ≠ 'c' → operation ≠ 'e' →
        aging_final.processes[aging_final.current_process]? = some cp →
        pte_at aging_final.processes aging_final.current_process vpage = some x →
        x.present = false → find_vma_for_page cp vpage = some vma →
        ∃ idx s1 s2 f, get_frame (at_access aging_final) = some (idx, s1) ∧
          simulate_step aging_final operation vpage = some s2 ∧
          s2.frame_table[idx]? = some f ∧
          f.age = 0 ∧ f.pid = aging_final.current_process ∧ f.vpage = vpage) ∧
      (∀ vpage : Int, ∃ s2, simulate_step aging_final 'e' vpage = some s2 ∧
        ∀ (v : Int) (x : PTE),
          pte_at aging_final.processes aging_final.current_process v = some x →
          x.present = true →
          s2.frame_table[x.frame]? = some Frame.released ∧
            age_at s2.frame_table x.frame = 0) :=
  C21_aging_victim [[example_vma]] [] 2 example_trace aging_final aging_config example_valid
    aging_run

/-! ## Runs of more than `2 ^ 31` instructions -/

theorem simulate_append : ∀ (a b : List (Char × Int)) (s : State),
    simulate s (a ++ b) = (simulate s a).bind (fun s1 => simulate s1 b) := by
  intro a
  induction a with
  | nil => intro b s; rfl
  | cons i rest ih =>
    intro b s
    obtain ⟨op, v⟩ := i
    rw [List.cons_append, simulate, simulate]
    cases hs : simulate_step s op v with
    | none => rfl
    | some s1 => exact ih b s1

/-- A read of a page that is present and already referenced, in an area that is not
write-protected, only counts the instruction and charges 1. -/
theorem read_present_step {s : State} {vpage : Int} {cp : Process} {x : PTE} {vma : VMA}
    (hcp : s.processes[s.current_process]? = some cp)
    (hx : pte_at s.processes s.current_process vpage = some x) (hxp : x.present = true)
    (hxr : x.referenced = true) (hvma : find_vma_for_page cp vpage = some vma)
    (hwp : vma.write_protected = false) (hfr : x.frame < s.frame_table.length) :
    simulate_step s 'r' vpage =
      some { s with inst_count := s.inst_count + 1, cost := s.cost + 1 } := by
  rw [access_present_step (by decide) (by decide) hcp hx hxp hvma hfr]
  obtain ⟨_, _, pr, hpr, hxv⟩ := pte_at_some hx
  simp only [Int.toNat_ofNat] at hpr
  rw [hcp] at hpr
  simp only [Option.some.injEq] at hpr
  subst hpr
  have hx1 : touched_pte 'r' vma x = x := by
    cases x
    simp only at hxr
    simp [touched_pte, protect, hwp, hxr]
  have hcp1 : touched cp 'r' vpage vma x = cp := by
    unfold touched
    rw [hx1, set_same hxv]
    simp
  have hc : touch_cost 'r' vma x = 0 := by
    simp [touch_cost]
  rw [hcp1, hc, set_same hcp]
  rfl

theorem read_present_run : ∀ (k : Nat) (s : State) (vpage : Int) (cp : Process) (x : PTE)
    (vma : VMA), s.processes[s.current_process]? = some cp →
    pte_at s.processes s.current_process vpage = some x → x.present = true →
    x.referenced = true → find_vma_for_page cp vpage = some vma →
    vma.write_protected = false → x.frame < s.frame_table.length →
    simulate s (List.replicate k ('r', vpage)) =
      some { s with inst_count := s.inst_count + k, cost := s.cost + k } := by
  intro k
  induction k with
  | zero =>
    intro s vpage cp x vma _ _ _ _ _ _ _
    rfl
  | succ k ih =>
    intro s vpage cp x vma hcp hx hxp hxr hvma hwp hfr
    rw [List.replicate_succ, simulate, read_present_step hcp hx hxp hxr hvma hwp hfr]
    refine (ih { s with inst_count := s.inst_count + 1, cost := s.cost + 1 } vpage cp x vma
      hcp hx hxp hxr hvma hwp hfr).trans ?_
    simp only [Option.some.injEq, State.mk.injEq, true_and, and_true]
    omega

/-- A run followed by `k` reads of a page that is then present and referenced. -/
theorem run_then_reads {s0 s : State} {head : List (Char × Int)} (k : Nat) {vpage : Int}
    {cp : Process} {x : PTE} {vma : VMA} (h0 : simulate s0 head = some s)
    (hcp : s.processes[s.current_process]? = some cp)
    (hx : pte_at s.processes s.current_process vpage = some x) (hxp : x.present = true)
    (hxr : x.referenced = true) (hvma : find_vma_for_page cp vpage = some vma)
    (hwp : vma.write_protected = false) (hfr : x.frame < s.frame_table.length) :
    simulate s0 (head ++ List.replicate k ('r', vpage)) =
      some { s with inst_count := s.inst_count + k, cost := s.cost + k } := by
  have e := simulate_append head (List.replicate k ('r', vpage)) s0
  rw [h0] at e
  exact e.trans (read_present_run k s vpage cp x vma hcp hx hxp hxr hvma hwp hfr)

/-- A run followed by one instruction. -/
theorem run_then_step {s0 s1 s2 : State} {head : List (Char × Int)} {operation : Char}
    {vpage : Int} (h0 : simulate s0 head = some s1)
    (h1 : simulate_step s1 operation vpage = some s2) :
    simulate s0 (head ++ [(operation, vpage)]) = some s2 := by
  have e := simulate_append head [(operation, vpage)] s0
  rw [h0] at e
  refine e.trans ?_
  show simulate s1 [(operation, vpage)] = some s2
  rw [simulate, h1]
  rfl

theorem ws_head_run : simulate ws_state ws_head = some ws_mid := by
  decide

theorem ws_config : ValidConfig [[example_vma]] [] 4 (Pager.WorkingSetPager 0 49 4) :=
  ⟨by decide, by decide, by simp, ⟨'w', rfl⟩, fun h => by
    obtain ⟨n, hn⟩ := h
    cases hn⟩

theorem ws_valid : ValidTrace [[example_vma]].length ws_trace := by
  intro i hi
  unfold ws_trace ws_head at hi
  rcases List.mem_append.1 hi with h1 | h1
  · rcases List.mem_append.1 h1 with h2 | h2
    · rcases List.mem_append.1 h2 with h3 | h3
      · rcases List.mem_append.1 h3 with h4 | h4
        · simp only [List.mem_cons, List.mem_singleton, List.not_mem_nil, or_false] at h4
          rcases h4 with rfl | rfl | rfl | rfl | rfl | rfl <;> simp [ValidInstr, MAX_VPAGES]
        · rw [List.eq_of_mem_replicate h4]
          simp [ValidInstr, MAX_VPAGES]
      · rw [List.mem_singleton.1 h3]
        simp [ValidInstr, MAX_VPAGES]
    · rw [List.eq_of_mem_replicate h2]
      simp [ValidInstr, MAX_VPAGES]
  · rw [List.mem_singleton.1 h1]
    simp [ValidInstr, MAX_VPAGES]

theorem ws_late_run :
    simulate ws_state (ws_head ++ List.replicate 2147483600 ('r', 5)) = some ws_late :=
  @run_then_reads ws_state ws_mid ws_head 2147483600 5
    (ws_mid.processes.headD (new_process 0 [example_vma]))
    { present := true, referenced := true, modified := false, write_protect := false,
      pagedout := false, frame := 2 }
    example_vma ws_head_run (by decide) (by decide) rfl rfl (by decide) rfl (by decide)

theorem ws_last_step : simulate_step ws_late 'r' 6 = some ws_end := by
  decide

/-- C18: the input `ws_trace` (one process with the area [0, 63], four frames, the
working-set pager with `tau = 49`, 2147483656 instructions) is valid and runs. When its last
instruction faults, at the time `t = 2147483656`, the free list is empty, every frame is
owned by a distinct entry, every `last_reference` is at most `t`, the hand is 3, and the
frame 3, the first of the scan, has an owner that is not referenced, with
`t - last_reference = 2147483651 > 49`: by the claim the frame 3 is returned and nothing
after it is touched. Line 226 stores that difference in an `int`, where it is `-2147483645`,
and `get_frame` returns the frame 1 after the sweep has set `last_reference` of the frame 0
to `t` and cleared the `referenced` bit of its owner; the run ends with page 6 in the
frame 1 and page 3 still in the frame 3. -/
theorem C18_working_set_overflow :
    ValidConfig [[example_vma]] [] 4 (Pager.WorkingSetPager 0 49 4) ∧
    ValidTrace [[example_vma]].length ws_trace ∧
    simulate ws_state (ws_head ++ List.replicate 2147483600 ('r', 5)) = some ws_late ∧
    ws_late.free_list = [] ∧ ws_late.pager = Pager.WorkingSetPager 3 49 4 ∧
    (at_access ws_late).inst_count = 2147483656 ∧
    DistinctOwners ws_late.frame_table ws_late.processes ∧
    (∀ f ∈ ws_late.frame_table, f.last_reference ≤ (at_access ws_late).inst_count) ∧
    ref_of ws_late.frame_table ws_late.processes 3 = false ∧
    ((at_access ws_late).inst_count : Int) - (last_reference_at ws_late.frame_table 3 : Int) =
      2147483651 ∧
    to_int (to_size_t (((at_access ws_late).inst_count : Int) -
      (last_reference_at ws_late.frame_table 3 : Int))) = -2147483645 ∧
    (get_frame (at_access ws_late)).map
        (fun r => (r.1, r.2.pager, last_reference_at r.2.frame_table 0,
          ref_of ws_late.frame_table ws_late.processes 0,
          ref_of ws_late.frame_table r.2.processes 0)) =
      some (1, Pager.WorkingSetPager 2 49 4, 2147483656, true, false) ∧
    simulate ws_state ws_trace = some ws_end ∧
    (pte_at ws_end.processes 0 6).map (fun x => (x.present, x.frame)) = some (true, 1) ∧
    (pte_at ws_end.processes 0 3).map (fun x => (x.present, x.frame)) = some (true, 3) := by
  refine ⟨ws_config, ws_valid, ws_late_run, rfl, rfl, rfl,
    distinct_of_nodup (by decide) (by decide), by decide, by decide, by decide, by decide,
    by decide, ?_, by decide, by decide⟩
  exact run_then_step ws_late_run ws_last_step

theorem esc_config : ValidConfig [[example_vma]] [] 1 (Pager.ESCNRUPager 0 0 1) :=
  ⟨by decide, by decide, by simp, ⟨'e', rfl⟩, fun h => by
    obtain ⟨n, hn⟩ := h
    cases hn⟩

theorem esc_valid : ValidTrace [[example_vma]].length esc_trace := by
  intro i hi
  unfold esc_trace at hi
  rcases List.mem_append.1 hi with h1 | h1
  · rw [List.eq_of_mem_replicate h1]
    simp [ValidInstr, MAX_VPAGES]
  · rw [List.mem_singleton.1 h1]
    simp [ValidInstr, MAX_VPAGES]

theorem esc_late_run :
    simulate esc_state (List.replicate 2147483647 ('r', 0)) = some esc_late :=
  @run_then_reads esc_state esc_first [('r', 0)] 2147483646 0
    (esc_first.processes.headD (new_process 0 [example_vma]))
    { present := true, referenced := true, modified := false, write_protect := false,
      pagedout := false, frame := 0 }
    example_vma (by decide) (by decide) (by decide) rfl rfl (by decide) rfl (by decide)

theorem esc_last_step : simulate_step esc_late 'r' 1 = some esc_end := by
  decide

/-- C19: the input `esc_trace` (one process with the area [0, 63], one frame, the ESC-NRU
pager, 2147483648 instructions) is valid and runs. When its last instruction faults, at the
time `inst_count = 2147483648`, the free list is empty, the frame is owned,
`last_reset_time` is 0 and `inst_count - last_reset_time ≥ 48`: the reset is due, and by the
claim `last_reset_time = inst_count` after the call. The reset fires (the `referenced` bit
of the owner is cleared), but line 306 stores `inst_count` in the `int` `last_reset_time`,
which is `-2147483648` after the call and at the end of the run. -/
theorem C19_esc_reset_overflow :
    ValidConfig [[example_vma]] [] 1 (Pager.ESCNRUPager 0 0 1) ∧
    ValidTrace [[example_vma]].length esc_trace ∧
    simulate esc_state (List.replicate 2147483647 ('r', 0)) = some esc_late ∧
    esc_late.free_list = [] ∧ esc_late.pager = Pager.ESCNRUPager 0 0 1 ∧
    (at_access esc_late).inst_count = 2147483648 ∧
    DistinctOwners esc_late.frame_table esc_late.processes ∧
    ((at_access esc_late).inst_count : Int) - 0 ≥ 48 ∧
    (get_frame (at_access esc_late)).map
        (fun r => (r.1, r.2.pager, r.2.inst_count,
          ref_of esc_late.frame_table esc_late.processes 0,
          ref_of esc_late.frame_table r.2.processes 0)) =
      some (0, Pager.ESCNRUPager 0 (-2147483648) 1, 2147483648, true, false) ∧
    simulate esc_state esc_trace = some esc_end ∧
    esc_end.inst_count = 2147483648 ∧
    esc_end.pager = Pager.ESCNRUPager 0 (-2147483648) 1 := by
  refine ⟨esc_config, esc_valid, esc_late_run, rfl, rfl, rfl,
    distinct_of_nodup (by decide) (by decide), by decide, by decide, ?_, rfl, rfl⟩
  exact run_then_step esc_late_run esc_last_step

end Lab3
